import Mathlib

/-!
# ArkSigning: Base64 primitives and the bundle engine

A shallow embedding of `src/utils/base64.cpp` and of the manifest, change-set
and signing-traversal code of `src/core/bundle.cpp`, followed by the
properties proved about them.

Conventions. A C++ `std::string` holding text or a path is a `List Char`; a
buffer of raw bytes is a `List Nat` (each element below 256). A pointer into a
buffer is the list of the bytes from that position on, so `psrc += 3` is
`psrc.drop 3` and `*p++ = x` appends `x` to the output written so far.
-/

namespace ArkSigning

/-- Text and paths (`std::string`, `const char *`). -/
abbrev Str := List Char

/-- Raw bytes (`unsigned char` buffers): every element is below 256. -/
abbrev Bytes := List Nat

/-! ## `utils/base64.cpp` -/

/-- The table `szTable` of `ZBase64::GetB64char`. -/
def szTable : List Char :=
  "ABCDEFGHIJKLMNOPQRSTUVWXYZabcdefghijklmnopqrstuvwxyz0123456789+/".toList

/-- `ZBase64::GetB64char`: the table entry for an index in `0..63`, `=` otherwise. -/
def GetB64char (nIndex : Int) : Char :=
  if 0 ≤ nIndex ∧ nIndex < 64 then szTable.getD nIndex.toNat '=' else '='

/-- `ZBase64::GetB64Index`: the index of an alphabet character, `-1` for every
other character. -/
def GetB64Index (ch : Char) : Int :=
  if 'A' ≤ ch ∧ ch ≤ 'Z' then (ch.toNat : Int) - ('A'.toNat : Int)
  else if 'a' ≤ ch ∧ ch ≤ 'z' then (ch.toNat : Int) - ('a'.toNat : Int) + 26
  else if '0' ≤ ch ∧ ch ≤ '9' then (ch.toNat : Int) - ('0'.toNat : Int) + 52
  else if ch = '+' then 62
  else if ch = '/' then 63
  else -1

/-- The 32-bit two's-complement bit pattern of a C `int`. -/
def toBits (x : Int) : Nat := (x % 4294967296).toNat

/-- The C `int` that a 32-bit pattern stands for. -/
def ofBits (n : Nat) : Int :=
  if n < 2147483648 then (n : Int) else (n : Int) - 4294967296

/-- C `a | b` on `int`. -/
def orInt (a b : Int) : Int := ofBits (toBits a ||| toBits b)

/-- C `a & b` on `int`. -/
def andInt (a b : Int) : Int := ofBits (toBits a &&& toBits b)

/-- C `a << k` on `int`: the low 32 bits of `a * 2^k` (for a negative `a` this
is what C++20 defines and what GCC and Clang compile). -/
def shlInt (a : Int) (k : Nat) : Int := ofBits (toBits (a * 2 ^ k))

/-- C `a >> k` on `int`: the arithmetic shift, rounding towards minus infinity. -/
def shrInt (a : Int) (k : Nat) : Int := a / 2 ^ k

/-- `strlen` of a byte buffer: the number of bytes before the first zero. -/
def strlenBytes (sz : Bytes) : Nat := (sz.takeWhile (fun b => b != 0)).length

/-- `strlen` of a text buffer: the number of characters before the first NUL. -/
def strlen (sz : Str) : Nat := (sz.takeWhile (fun c => c != Char.ofNat 0)).length

/-- First output character of an encoded group:
`GetB64char((B0(ulTmp) >> 2) & 0x3F)`. `B0(ulTmp)`, `B1(ulTmp)`, `B2(ulTmp)` of
the word loaded at `psrc` are the bytes `psrc[0]`, `psrc[1]`, `psrc[2]`
(little-endian load). -/
def encC0 (u0 : Nat) : Char := GetB64char (((u0 >>> 2) &&& 0x3F : Nat) : Int)

/-- Second output character:
`GetB64char((B0(ulTmp) << 6 >> 2 | B1(ulTmp) >> 4) & 0x3F)`. -/
def encC1 (u0 u1 : Nat) : Char :=
  GetB64char ((((u0 <<< 6 >>> 2) ||| (u1 >>> 4)) &&& 0x3F : Nat) : Int)

/-- Third output character:
`GetB64char((B1(ulTmp) << 4 >> 2 | B2(ulTmp) >> 6) & 0x3F)`. -/
def encC2 (u1 u2 : Nat) : Char :=
  GetB64char ((((u1 <<< 4 >>> 2) ||| (u2 >>> 6)) &&& 0x3F : Nat) : Int)

/-- Fourth output character: `GetB64char((B2(ulTmp) << 2 >> 2) & 0x3F)`. -/
def encC3 (u2 : Nat) : Char := GetB64char (((u2 <<< 2 >>> 2) &&& 0x3F : Nat) : Int)

/-- The main loop of `ZBase64::Encode`,
`for (i = 0; i < nSrcLen - 3; i += 3)`: state `(i, psrc, text written)`.
The first argument bounds the number of iterations; `Encode` passes
`nSrcLen`, which the loop never uses up. The word store of four characters
also zeroes the bytes after them, which the next store overwrites. -/
def encLoop (nSrcLen : Int) : Nat → Int → Bytes → List Char → Int × Bytes × List Char
  | 0, i, psrc, p64 => (i, psrc, p64)
  | k + 1, i, psrc, p64 =>
    if i < nSrcLen - 3 then
      let u0 := psrc.getD 0 0
      let u1 := psrc.getD 1 0
      let u2 := psrc.getD 2 0
      encLoop nSrcLen k (i + 3) (psrc.drop 3)
        (p64 ++ [encC0 u0, encC1 u0 u1, encC2 u1 u2, encC3 u2])
    else (i, psrc, p64)

/-- Byte `j` of the zero-initialised `ulTmp` after the copy loop
`for (j = 0; j < rest; ++j)` of the tail of `Encode` and of `Decode`. -/
def tailByte (psrc : Bytes) (rest : Int) (j : Nat) : Nat :=
  if (j : Int) < rest then psrc.getD j 0 else 0

/-- The tail of `ZBase64::Encode` after the main loop, `if (i < nSrcLen) ...`,
on the loop's final state: the whole text written. -/
def encTail (n : Int) : Int × Bytes × List Char → List Char
  | (i, psrc, p64) =>
    if i < n then
      let rest := n - i
      let u0 := tailByte psrc rest 0
      let u1 := tailByte psrc rest 1
      let u2 := tailByte psrc rest 2
      p64 ++ [encC0 u0, encC1 u0 u1,
              if rest > 1 then encC2 u1 u2 else '=',
              if rest > 2 then encC3 u2 else '=']
    else p64

/-- `ZBase64::Encode(const char *szSrc, int nSrcLen)`: the text returned (the
characters before the terminating NUL). A zero `nSrcLen` means `strlen`. -/
def Encode (szSrc : Bytes) (nSrcLen : Int) : List Char :=
  let n : Int := if nSrcLen = 0 then (strlenBytes szSrc : Int) else nSrcLen
  if n ≤ 0 then []
  else encTail n (encLoop n n.toNat 0 szSrc [])

/-- First decoded byte of a group:
`(GetB64Index(B0) << 2 | GetB64Index(B1) << 2 >> 6) & 0xFF`. -/
def decB0 (c0 c1 : Char) : Nat :=
  (andInt (orInt (shlInt (GetB64Index c0) 2) (shrInt (shlInt (GetB64Index c1) 2) 6)) 0xFF).toNat

/-- Second decoded byte:
`(GetB64Index(B1) << 4 | GetB64Index(B2) << 2 >> 4) & 0xFF`. -/
def decB1 (c1 c2 : Char) : Nat :=
  (andInt (orInt (shlInt (GetB64Index c1) 4) (shrInt (shlInt (GetB64Index c2) 2) 4)) 0xFF).toNat

/-- Third decoded byte:
`(GetB64Index(B2) << 6 | GetB64Index(B3) << 2 >> 2) & 0xFF`. -/
def decB2 (c2 c3 : Char) : Nat :=
  (andInt (orInt (shlInt (GetB64Index c2) 6) (shrInt (shlInt (GetB64Index c3) 2) 2)) 0xFF).toNat

/-- The main loop of `ZBase64::Decode`,
`for (i = 0; i < nSrcLen - 4; i += 4)`: state `(i, psrc, bytes written)`.
`B0(ulTmp)`..`B3(ulTmp)` are the characters `psrc[0]`..`psrc[3]`. The first
argument bounds the number of iterations; `Decode` passes `nSrcLen`. -/
def decLoop (nSrcLen : Int) : Nat → Int → Str → Bytes → Int × Str × Bytes
  | 0, i, psrc, pbuf => (i, psrc, pbuf)
  | k + 1, i, psrc, pbuf =>
    if i < nSrcLen - 4 then
      let c0 := psrc.getD 0 (Char.ofNat 0)
      let c1 := psrc.getD 1 (Char.ofNat 0)
      let c2 := psrc.getD 2 (Char.ofNat 0)
      let c3 := psrc.getD 3 (Char.ofNat 0)
      decLoop nSrcLen k (i + 4) (psrc.drop 4) (pbuf ++ [decB0 c0 c1, decB1 c1 c2, decB2 c2 c3])
    else (i, psrc, pbuf)

/-- Character `j` of the zero-initialised `ulTmp` after the copy loop of the
tail of `Decode`. -/
def tailChar (psrc : Str) (rest : Int) (j : Nat) : Char :=
  if (j : Int) < rest then psrc.getD j (Char.ofNat 0) else Char.ofNat 0

/-- The tail of `ZBase64::Decode` after the main loop, `if (i < nSrcLen) ...`,
on the loop's final state: all the bytes written. The second and third byte of
the last group are written unless one of the two characters they come from
is `=`. -/
def decTail (n : Int) : Int × Str × Bytes → Bytes
  | (i, psrc, pbuf) =>
    if i < n then
      let rest := n - i
      let c0 := tailChar psrc rest 0
      let c1 := tailChar psrc rest 1
      let c2 := tailChar psrc rest 2
      let c3 := tailChar psrc rest 3
      let pbuf1 := pbuf ++ [decB0 c0 c1]
      let pbuf2 := if '=' ≠ c1 ∧ '=' ≠ c2 then pbuf1 ++ [decB1 c1 c2] else pbuf1
      if '=' ≠ c2 ∧ '=' ≠ c3 then pbuf2 ++ [decB2 c2 c3] else pbuf2
    else pbuf

/-- `ZBase64::Decode(const char *szSrc, int nSrcLen, int *pDecLen)` with a
non-null `pDecLen`: the bytes written to the buffer and the value of
`*pDecLen` afterwards (`decLen` is its value before the call, left alone on the
early return). A zero `nSrcLen` means `strlen`. -/
def Decode (szSrc : Str) (nSrcLen : Int) (decLen : Int) : Bytes × Int :=
  let n : Int := if nSrcLen = 0 then (strlen szSrc : Int) else nSrcLen
  if n ≤ 0 then ([], decLen)
  else
    let out := decTail n (decLoop n n.toNat 0 szSrc [])
    (out, (out.length : Int))

/-- `ZBase64::Decode(const char *szSrc, string &strOutput)`: `strOutput`
afterwards, the first `nDecLen` bytes of the buffer. -/
def DecodeStr (szSrc : Str) : Bytes :=
  match Decode szSrc 0 0 with
  | (p, nDecLen) => p.take nDecLen.toNat

/-- The character RFC 4648 assigns to the 6-bit value `v` (table 1 of the RFC:
0..25 are `A`..`Z`, 26..51 are `a`..`z`, 52..61 are `0`..`9`, 62 is `+`,
63 is `/`). -/
def rfcChar (v : Nat) : Char :=
  if v < 26 then Char.ofNat (65 + v)
  else if v < 52 then Char.ofNat (97 + (v - 26))
  else if v < 62 then Char.ofNat (48 + (v - 52))
  else if v = 62 then '+'
  else '/'

/-- The RFC 4648 Base64 encoding, written from the RFC and not from the code:
each 24-bit group of three bytes gives four 6-bit values; a final single byte
is padded with four zero bits and gives two characters and `==`; a final pair
of bytes is padded with two zero bits and gives three characters and `=`. -/
def rfc4648 : Bytes → List Char
  | [] => []
  | [a] =>
    let v := a * 16
    [rfcChar (v / 64 % 64), rfcChar (v % 64), '=', '=']
  | [a, b] =>
    let v := (a * 256 + b) * 4
    [rfcChar (v / 4096 % 64), rfcChar (v / 64 % 64), rfcChar (v % 64), '=']
  | a :: b :: c :: rest =>
    let v := a * 65536 + b * 256 + c
    rfcChar (v / 262144 % 64) :: rfcChar (v / 4096 % 64) :: rfcChar (v / 64 % 64)
      :: rfcChar (v % 64) :: rfc4648 rest

/-- The bytes the main loop of `Decode` writes for a text made of whole groups
of four characters (used to state what the loop does group by group). -/
def decGroups : Str → Bytes
  | c0 :: c1 :: c2 :: c3 :: rest =>
    decB0 c0 c1 :: decB1 c1 c2 :: decB2 c2 c3 :: decGroups rest
  | _ => []

/-! ## The plist/JSON value model -/

/-- Modelled from the spec: the `JValue` class of `utils/json.h`, which is not
among the sources. A tagged tree with the nine node kinds of the data model;
an object is a finite map from keys to values, kept here as an association
list in which the first entry for a key is the one that counts. -/
inductive JValue where
  | null
  | bool (b : Bool)
  | int (i : Int)
  | real (r : ℚ)
  | date (t : Int)
  | data (d : Bytes)
  | str (s : Str)
  | arr (a : List JValue)
  | obj (o : List (Str × JValue))

/-- Replace the value of key `k` in an association list, or add the key. -/
def objSet (k : Str) (v : JValue) : List (Str × JValue) → List (Str × JValue)
  | [] => [(k, v)]
  | (k2, v2) :: rest => if k2 = k then (k, v) :: rest else (k2, v2) :: objSet k v rest

/-- The value stored under key `k`, if the association list has the key. -/
def objFind (k : Str) : List (Str × JValue) → Option JValue
  | [] => none
  | (k2, v2) :: rest => if k2 = k then some v2 else objFind k rest

/-- Modelled from the spec: member lookup. The value of key `k` of an object,
`none` when the key is absent or the value is not an object. -/
def JValue.find? (jv : JValue) (k : Str) : Option JValue :=
  match jv with
  | .obj o => objFind k o
  | _ => none

/-- Modelled from the spec: `jv.has(k)`. -/
def JValue.has (jv : JValue) (k : Str) : Bool := (jv.find? k).isSome

/-- Modelled from the spec: reading `jv[k]`; a missing member reads as null. -/
def JValue.get (jv : JValue) (k : Str) : JValue := (jv.find? k).getD .null

/-- Modelled from the spec: the assignment `jv[k] = v`. A value that is not an
object becomes an empty object first. -/
def JValue.set (jv : JValue) (k : Str) (v : JValue) : JValue :=
  match jv with
  | .obj o => .obj (objSet k v o)
  | _ => .obj [(k, v)]

/-- The chained assignment `jv[k1][k2]...[kn] = v`: every `operator[]` on the
way creates the member it does not find. -/
def JValue.setPath : List Str → JValue → JValue → JValue
  | [], v, _ => v
  | k :: ks, v, jv => jv.set k (JValue.setPath ks v (jv.get k))

/-- Modelled from the spec: `jv.isNull()`. -/
def JValue.isNull : JValue → Bool
  | .null => true
  | _ => false

/-- Modelled from the spec: the conversion of a value to `std::string`, empty
for anything that is not a string. -/
def JValue.asString : JValue → Str
  | .str s => s
  | _ => []

/-! ## The environment of the bundle engine -/

/-- What `readdir` reports about one directory entry: its name `d_name` and its
type `d_type` (`DT_REG`, `DT_DIR`, `DT_UNKNOWN`, or anything else); a directory
comes with the entries that `opendir`/`readdir` on it will report in turn (none
when it cannot be opened). For an entry of type `DT_UNKNOWN` the file system
does not tell the type: `isDir` is what `stat` on the entry itself would say,
and `entries` is its listing when it is a directory; an entry of unknown type
that is not a directory stands for a regular file. -/
inductive DirEnt where
  | reg (d_name : Str)
  | dir (d_name : Str) (entries : List DirEnt)
  | other (d_name : Str)
  | unknown (d_name : Str) (isDir : Bool) (entries : List DirEnt)

/-- The name `d_name` of a directory entry. -/
def DirEnt.d_name : DirEnt → Str
  | .reg n => n
  | .dir n _ => n
  | .other n => n
  | .unknown n _ _ => n

/-- A snapshot of the file system as the bundle engine reads it: `dir path` is
the listing of the directory at `path` (empty when `opendir` fails) and
`read path` the contents of the file at `path` (`none` when it cannot be read). -/
structure FileSys where
  dir : Str → List DirEnt
  read : Str → Option Str

/-- The library functions the bundle engine relies on and that are not among
the sources: the two digests (OpenSSL) and the plist reader and writer of
`JValue`. -/
structure Lib where
  sha1 : Str → Bytes
  sha256 : Str → Bytes
  readPList : Str → JValue
  writePList : JValue → Str

/-- Modelled from the spec: `IsPathSuffix(strPath, suffix)` of `utils/common.h`,
true when the path ends in the suffix. -/
def IsPathSuffix (strPath suffix : Str) : Bool := decide (suffix <:+ strPath)

/-- The test `string::npos != s.rfind(sub)`: `sub` occurs somewhere in `s`. -/
def hasSubstr (s sub : Str) : Bool := decide (sub <:+: s)

/-- The Base64 text of a digest. -/
def base64Text (d : Bytes) : Str := Encode d (d.length : Int)

/-- Modelled from the spec: `SHASumBase64File(path, sha1, sha256)` of
`utils/common.h`, "streams the file once, feeding both hash contexts, and
returns both Base64-encoded digests". The result is the success flag and the
two output strings, which stay empty when the file cannot be read. -/
def SHASumBase64File (L : Lib) (fs : FileSys) (szFile : Str) : Bool × Str × Str :=
  match fs.read szFile with
  | some d => (true, base64Text (L.sha1 d), base64Text (L.sha256 d))
  | none => (false, [], [])

/-- Modelled from the spec: `jv.readPListFile(path)`, the plist read from the
file, null when the file cannot be read. -/
def readPListFile (L : Lib) (fs : FileSys) (path : Str) : JValue :=
  match fs.read path with
  | some d => L.readPList d
  | none => .null

/-- `std::set<string>::insert`. -/
def setInsert (s : List Str) (x : Str) : List Str := if x ∈ s then s else s ++ [x]

/-- `std::set<string>::erase(key)`. -/
def setErase (s : List Str) (x : Str) : List Str := s.filter (fun y => decide (y ≠ x))

/-! ## `core/bundle.cpp`: the CodeResources manifest -/

mutual
/-- The body of the `readdir` loop of `ZAppBundle::GetFolderFiles` for one
entry of the listing of `strFolder`: the entries `.` and `..` are passed over,
an entry of the type `DT_DIR` is entered, an entry of the type `DT_REG` is
inserted with its path relative to `strBaseFolder`, and an entry of any other
type, `DT_UNKNOWN` included, is passed over. -/
def GetFolderFilesEntry (strFolder strBaseFolder : Str) : DirEnt → List Str → List Str
  | .dir d_name entries, setFiles =>
    if d_name ≠ ".".toList ∧ d_name ≠ "..".toList then
      GetFolderFiles (strFolder ++ "/".toList ++ d_name) strBaseFolder entries setFiles
    else setFiles
  | .reg d_name, setFiles =>
    if d_name ≠ ".".toList ∧ d_name ≠ "..".toList then
      setInsert setFiles ((strFolder ++ "/".toList ++ d_name).drop (strBaseFolder.length + 1))
    else setFiles
  | .other _, setFiles => setFiles
  | .unknown _ _ _, setFiles => setFiles
/-- `ZAppBundle::GetFolderFiles(strFolder, strBaseFolder, setFiles)` on the
listing of `strFolder`: the set of files afterwards. -/
def GetFolderFiles (strFolder strBaseFolder : Str) : List DirEnt → List Str → List Str
  | [], setFiles => setFiles
  | ent :: more, setFiles =>
    GetFolderFiles strFolder strBaseFolder more
      (GetFolderFilesEntry strFolder strBaseFolder ent setFiles)
end

/-- The flag `bomit1` of `GenerateCodeResources` for a key: the file is left
out of `files`. -/
def bomit1 (strKey : Str) : Bool := IsPathSuffix strKey ".lproj/locversion.plist".toList

/-- The flag `bomit2` of `GenerateCodeResources` for a key: the file is left
out of `files2`. -/
def bomit2 (strKey : Str) : Bool :=
  decide (strKey = "Info.plist".toList ∨ strKey = "PkgInfo".toList)
    || IsPathSuffix strKey ".DS_Store".toList
    || IsPathSuffix strKey ".lproj/locversion.plist".toList

/-- First half of the body of the loop of `GenerateCodeResources`, the block
`if (!bomit1)`: the entry of `files` for the key, given the Base64 SHA-1 of the
file. -/
def codeResStepFiles (strFileSHA1Base64 : Str) (jvCodeRes : JValue) (strKey : Str) : JValue :=
  if !bomit1 strKey then
    if hasSubstr strKey ".lproj/".toList then
      JValue.setPath ["files".toList, strKey, "optional".toList] (.bool true)
        (JValue.setPath ["files".toList, strKey, "hash".toList]
          (.str ("data:".toList ++ strFileSHA1Base64)) jvCodeRes)
    else
      JValue.setPath ["files".toList, strKey] (.str ("data:".toList ++ strFileSHA1Base64))
        jvCodeRes
  else jvCodeRes

/-- Second half of the body of the loop of `GenerateCodeResources`, the block
`if (!bomit2)`: the entry of `files2` for the key, given the two Base64 digests
of the file. -/
def codeResStepFiles2 (strFileSHA1Base64 strFileSHA256Base64 : Str) (jvCodeRes : JValue)
    (strKey : Str) : JValue :=
  if !bomit2 strKey then
    let jv2 := JValue.setPath ["files2".toList, strKey, "hash2".toList]
      (.str ("data:".toList ++ strFileSHA256Base64))
      (JValue.setPath ["files2".toList, strKey, "hash".toList]
        (.str ("data:".toList ++ strFileSHA1Base64)) jvCodeRes)
    if hasSubstr strKey ".lproj/".toList then
      JValue.setPath ["files2".toList, strKey, "optional".toList] (.bool true) jv2
    else jv2
  else jvCodeRes

/-- The body of the loop of `ZAppBundle::GenerateCodeResources` over the set of
files, for the key `strKey`: the file is hashed (the result of
`SHASumBase64File` is not tested), then `files` and `files2` are updated. -/
def codeResStep (L : Lib) (fs : FileSys) (strFolder : Str) (jvCodeRes : JValue)
    (strKey : Str) : JValue :=
  let strFile := strFolder ++ "/".toList ++ strKey
  let strFileSHA1Base64 := (SHASumBase64File L fs strFile).2.1
  let strFileSHA256Base64 := (SHASumBase64File L fs strFile).2.2
  codeResStepFiles2 strFileSHA1Base64 strFileSHA256Base64
    (codeResStepFiles strFileSHA1Base64 jvCodeRes strKey) strKey

/-- The fixed `rules` and `rules2` dictionaries that `GenerateCodeResources`
stores after the loop, in the order of the source. -/
def codeResRules (jv : JValue) : JValue :=
  let a := fun (p : List String) (v : JValue) (j : JValue) =>
    JValue.setPath (p.map String.toList) v j
  jv
  |> a ["rules", "^.*"] (.bool true)
  |> a ["rules", "^.*\\.lproj/", "optional"] (.bool true)
  |> a ["rules", "^.*\\.lproj/", "weight"] (.real 1000)
  |> a ["rules", "^.*\\.lproj/locversion.plist$", "omit"] (.bool true)
  |> a ["rules", "^.*\\.lproj/locversion.plist$", "weight"] (.real 1100)
  |> a ["rules", "^Base\\.lproj/", "weight"] (.real 1010)
  |> a ["rules", "^version.plist$"] (.bool true)
  |> a ["rules2", "^.*"] (.bool true)
  |> a ["rules2", ".*\\.dSYM($|/)", "weight"] (.real 11)
  |> a ["rules2", "^(.*/)?\\.DS_Store$", "omit"] (.bool true)
  |> a ["rules2", "^(.*/)?\\.DS_Store$", "weight"] (.real 2000)
  |> a ["rules2", "^.*\\.lproj/", "optional"] (.bool true)
  |> a ["rules2", "^.*\\.lproj/", "weight"] (.real 1000)
  |> a ["rules2", "^.*\\.lproj/locversion.plist$", "omit"] (.bool true)
  |> a ["rules2", "^.*\\.lproj/locversion.plist$", "weight"] (.real 1100)
  |> a ["rules2", "^Base\\.lproj/", "weight"] (.real 1010)
  |> a ["rules2", "^Info\\.plist$", "omit"] (.bool true)
  |> a ["rules2", "^Info\\.plist$", "weight"] (.real 20)
  |> a ["rules2", "^PkgInfo$", "omit"] (.bool true)
  |> a ["rules2", "^PkgInfo$", "weight"] (.real 20)
  |> a ["rules2", "^embedded\\.provisionprofile$", "weight"] (.real 20)
  |> a ["rules2", "^version\\.plist$", "weight"] (.real 20)

/-- The executable name `GenerateCodeResources` reads from the folder's
`Info.plist`: `jvInfo["CFBundleExecutable"]` as a string. -/
def bundleExeOf (L : Lib) (fs : FileSys) (strFolder : Str) : Str :=
  ((readPListFile L fs (strFolder ++ "/Info.plist".toList)).get
    "CFBundleExecutable".toList).asString

/-- The set of files `GenerateCodeResources` iterates over: the files that
`GetFolderFiles` collects in the folder, without the main executable and
without `_CodeSignature/CodeResources`. -/
def codeResFiles (L : Lib) (fs : FileSys) (strFolder : Str) : List Str :=
  setErase (setErase (GetFolderFiles strFolder strFolder (fs.dir strFolder) [])
    (bundleExeOf L fs strFolder)) "_CodeSignature/CodeResources".toList

/-- `ZAppBundle::GenerateCodeResources(strFolder, jvCodeRes)`: the manifest it
leaves in `jvCodeRes` (it always returns true). -/
def GenerateCodeResources (L : Lib) (fs : FileSys) (strFolder : Str) : JValue :=
  let jvCodeRes := (JValue.null.set "files".toList (.obj [])).set "files2".toList (.obj [])
  codeResRules ((codeResFiles L fs strFolder).foldl (codeResStep L fs strFolder) jvCodeRes)

mutual
/-- The files below one directory entry that `GetFolderFiles` reaches, in
closed form, as paths relative to the directory that holds the entry: the
entries that `readdir` reports with the type `DT_REG`, in the directory itself
and below the entries it reports with the type `DT_DIR`. An entry of any other
type, `DT_UNKNOWN` included, contributes nothing, and neither do `.` and `..`. -/
def typedFilesOf : DirEnt → List Str
  | .reg n => if n ≠ ".".toList ∧ n ≠ "..".toList then [n] else []
  | .dir n entries =>
    if n ≠ ".".toList ∧ n ≠ "..".toList then
      (typedFilesIn entries).map (fun p => n ++ "/".toList ++ p)
    else []
  | .other _ => []
  | .unknown _ _ _ => []
/-- The files below a directory with the given listing that `GetFolderFiles`
reaches, as paths relative to it. -/
def typedFilesIn : List DirEnt → List Str
  | [] => []
  | ent :: more => typedFilesOf ent ++ typedFilesIn more
end

mutual
/-- The regular files below one directory entry, as paths relative to the
directory that holds the entry (written from the claim, not from the code). A
file counts whatever `readdir` says of its type: an entry of the type `DT_REG`
is a regular file, an entry of the type `DT_UNKNOWN` is one when it is not a
directory, and the regular files below a directory count whether the directory
is reported as `DT_DIR` or as `DT_UNKNOWN`. The entries `.` and `..` of a
listing stand for the directory itself and its parent and contribute nothing,
and an entry of another type (a link, a device) is no regular file. -/
def regularFilesOf : DirEnt → List Str
  | .reg n => if n ≠ ".".toList ∧ n ≠ "..".toList then [n] else []
  | .dir n entries =>
    if n ≠ ".".toList ∧ n ≠ "..".toList then
      (regularFilesIn entries).map (fun p => n ++ "/".toList ++ p)
    else []
  | .other _ => []
  | .unknown n isDir entries =>
    if n ≠ ".".toList ∧ n ≠ "..".toList then
      if isDir then (regularFilesIn entries).map (fun p => n ++ "/".toList ++ p)
      else [n]
    else []
/-- The regular files below a directory with the given listing, as paths
relative to it. -/
def regularFilesIn : List DirEnt → List Str
  | [] => []
  | ent :: more => regularFilesOf ent ++ regularFilesIn more
end

mutual
/-- The type of the entry is reported by `readdir`, and so is the type of every
entry below it: none of them has the type `DT_UNKNOWN`. -/
def typesReportedOf : DirEnt → Bool
  | .reg _ => true
  | .dir _ entries => typesReportedIn entries
  | .other _ => true
  | .unknown _ _ _ => false
/-- The types of all entries of the listing, and of all entries below them, are
reported by `readdir`. -/
def typesReportedIn : List DirEnt → Bool
  | [] => true
  | ent :: more => typesReportedOf ent && typesReportedIn more
end

/-- The `files` value the loop of `GenerateCodeResources` leaves for a key whose
file has the Base64 SHA-1 `h1`: the rule string, or the object with `hash` and
`optional` for a key that contains `.lproj/`. -/
def filesEntry (h1 : Str) (strKey : Str) : JValue :=
  if hasSubstr strKey ".lproj/".toList then
    .obj [("hash".toList, .str ("data:".toList ++ h1)), ("optional".toList, .bool true)]
  else .str ("data:".toList ++ h1)

/-- The `files2` value the loop of `GenerateCodeResources` leaves for a key whose
file has the Base64 digests `h1` and `h2`. -/
def files2Entry (h1 h2 : Str) (strKey : Str) : JValue :=
  if hasSubstr strKey ".lproj/".toList then
    .obj [("hash".toList, .str ("data:".toList ++ h1)),
          ("hash2".toList, .str ("data:".toList ++ h2)), ("optional".toList, .bool true)]
  else
    .obj [("hash".toList, .str ("data:".toList ++ h1)),
          ("hash2".toList, .str ("data:".toList ++ h2))]

/-- A small app folder used to instantiate the statements about the manifest:
`/app` holds `Info.plist`, the executable `Demo`, `PkgInfo`, two files under
`en.lproj`, a prior `_CodeSignature/CodeResources`, a `.DS_Store`, `icon.png`
and a symbolic link; every file reads as its own path. -/
def exampleFs : FileSys where
  dir := fun p =>
    if p = "/app".toList then
      [.reg "Info.plist".toList, .reg "Demo".toList, .reg "PkgInfo".toList,
       .dir "en.lproj".toList [.reg "a.strings".toList, .reg "locversion.plist".toList],
       .dir "_CodeSignature".toList [.reg "CodeResources".toList],
       .reg ".DS_Store".toList, .reg "icon.png".toList, .other "link".toList]
    else []
  read := fun p => some p

/-- Stand-ins for the library functions in the examples: the digests are short
byte strings derived from the length of the data, and every plist names the
executable `Demo`. -/
def exampleLib : Lib where
  sha1 := fun d => [d.length % 256]
  sha256 := fun d => [d.length % 256, 1]
  readPList := fun _ => .obj [("CFBundleExecutable".toList, .str "Demo".toList)]
  writePList := fun _ => []

/-- A folder on a file system that does not report the type of its entries:
`/app` holds `Info.plist` and the executable `Demo`, reported as regular files,
and the regular file `notes.txt` and the directory `Extras` with the regular
file `b.txt`, both reported with the type `DT_UNKNOWN`; every file reads as its
own path. -/
def exampleUntypedFs : FileSys where
  dir := fun p =>
    if p = "/app".toList then
      [.reg "Info.plist".toList, .reg "Demo".toList,
       .unknown "notes.txt".toList false [],
       .unknown "Extras".toList true [.reg "b.txt".toList]]
    else []
  read := fun p => some p

/-! ## `core/bundle.cpp`: bundle nodes and change-sets -/

/-- Modelled from the spec: the Bundle Node, "a recursive record describing one
signable directory". In the code it is a `JValue` object; the fields kept here
are the ones `GetChangedFiles`, `GetNodeChangedFiles` and `SignNode` read or
write: `path`, `bid`, `exec`, `sha1`, `sha2`, the loose dylibs `files`, the
change-set `changed` and the sub-bundles `folders`. An absent array is the
empty list. -/
inductive Node where
  | mk (path bid exec sha1 sha2 : Str) (files changed : List Str) (folders : List Node)

/-- The field `path` of a node. -/
def Node.path : Node → Str
  | .mk p _ _ _ _ _ _ _ => p

/-- The field `bid` of a node. -/
def Node.bid : Node → Str
  | .mk _ b _ _ _ _ _ _ => b

/-- The field `exec` of a node. -/
def Node.exec : Node → Str
  | .mk _ _ e _ _ _ _ _ => e

/-- The field `sha1` of a node. -/
def Node.sha1 : Node → Str
  | .mk _ _ _ s _ _ _ _ => s

/-- The field `sha2` of a node. -/
def Node.sha2 : Node → Str
  | .mk _ _ _ _ s _ _ _ => s

/-- The field `files` of a node. -/
def Node.files : Node → List Str
  | .mk _ _ _ _ _ f _ _ => f

/-- The field `changed` of a node. -/
def Node.changed : Node → List Str
  | .mk _ _ _ _ _ _ c _ => c

/-- The field `folders` of a node. -/
def Node.folders : Node → List Node
  | .mk _ _ _ _ _ _ _ f => f

/-- The node reached from a node by a list of child indices: `[]` is the node
itself and `i :: a` is the node reached by `a` from its `i`-th sub-bundle. -/
def Node.at (n : Node) : List Nat → Option Node
  | [] => some n
  | i :: a =>
    match n.folders.get? i with
    | some c => c.at a
    | none => none

mutual
/-- `ZAppBundle::GetChangedFiles(jvNode, arrChangedFiles)`: the vector
afterwards. The node's `files` are pushed, then for each sub-bundle the call
recurses into it and pushes its `_CodeSignature/CodeResources` and its
executable. -/
def GetChangedFiles : Node → List Str → List Str
  | .mk _ _ _ _ _ files _ folders, arrChangedFiles =>
    GetChangedFilesFolders folders (arrChangedFiles ++ files)
/-- The loop over `jvNode["folders"]` of `GetChangedFiles`. -/
def GetChangedFilesFolders : List Node → List Str → List Str
  | [], arrChangedFiles => arrChangedFiles
  | jvSubNode :: more, arrChangedFiles =>
    GetChangedFilesFolders more
      (GetChangedFiles jvSubNode arrChangedFiles ++
        [jvSubNode.path ++ "/_CodeSignature/CodeResources".toList,
         jvSubNode.path ++ "/".toList ++ jvSubNode.exec])
end

mutual
/-- `ZAppBundle::GetNodeChangedFiles(jvNode, dontGenerateEmbeddedMobileProvision)`:
the node afterwards. The sub-bundles are annotated first; then everything
`GetChangedFiles` collects for the node is pushed onto its `changed`, and
`embedded.mobileprovision` as well when the flag is off and the path is `/`. -/
def GetNodeChangedFiles (dontGenerateEmbeddedMobileProvision : Bool) : Node → Node
  | .mk path bid exec sha1 sha2 files changed folders =>
    let folders2 := GetNodeChangedFilesFolders dontGenerateEmbeddedMobileProvision folders
    let arrChangedFiles :=
      GetChangedFiles (.mk path bid exec sha1 sha2 files changed folders2) []
    let changed2 := changed ++ arrChangedFiles
    let changed3 :=
      if !dontGenerateEmbeddedMobileProvision then
        if "/".toList = path then changed2 ++ ["embedded.mobileprovision".toList] else changed2
      else changed2
    .mk path bid exec sha1 sha2 files changed3 folders2
/-- The loop over `jvNode["folders"]` of `GetNodeChangedFiles`. -/
def GetNodeChangedFilesFolders (dontGenerateEmbeddedMobileProvision : Bool) :
    List Node → List Node
  | [] => []
  | n :: more =>
    GetNodeChangedFiles dontGenerateEmbeddedMobileProvision n ::
      GetNodeChangedFilesFolders dontGenerateEmbeddedMobileProvision more
end

/-- An app whose root holds one framework with one loose dylib of its own. -/
def exampleTree : Node :=
  .mk "/".toList "com.example.app".toList "Demo".toList "QQ==".toList "QQ==".toList
    ["libroot.dylib".toList] []
    [.mk "Frameworks/F.framework".toList "com.example.f".toList "F".toList
      "QQ==".toList "QQ==".toList ["Frameworks/F.framework/lib.dylib".toList] [] []]

/-! ## `core/bundle.cpp`: signing a node tree -/

/-- The world outside the bundle engine, in a state of type `W`: the file system
as the engine reads it, and the operations of `ZMachO` (`core/macho.h`) and of
`utils/common.h`, which are not among the sources. Each operation that can
change the world returns the new state; a `Bool` is the operation's result. -/
structure Sys (W : Type) where
  /-- The file system as reads see it. -/
  fs : W → FileSys
  /-- `ZMachO::Init(path)`: the file parses as a Mach-O image. -/
  machoInit : W → Str → Bool
  /-- `ZMachO::Sign(asset, force, bundleId, infoSHA1, infoSHA256, codeResData)`
  on the image opened from `path`. -/
  machoSign : W → Str → Bool → Str → Bytes → Bytes → Str → Bool × W
  /-- `ZMachO::InjectDyLib(weak, dylibPath, bCreate)` on the image opened from
  `path`: the new value of the `bCreate` flag and the new state. -/
  machoInject : W → Str → Bool → Str → Bool → Bool × W
  /-- `CreateFolder(path)`. -/
  createFolder : W → Str → W
  /-- `WriteFile(path, data)`. -/
  writeFile : W → Str → Str → Bool × W

/-- The members of `ZAppBundle` that `SignNode` reads. -/
structure Bundle where
  m_strAppFolder : Str
  m_bForceSign : Bool
  m_bWeakInject : Bool
  arrDyLibPaths : List Str

/-- The calls a run of `SignNode` makes, in the order it makes them. -/
inductive Op where
  /-- `macho.Sign` on a loose dylib of the node's `files`. -/
  | signFile (szFile : Str)
  /-- `jvCodeRes.readPListFile(strCodeResFile)` and the value read. -/
  | readCodeRes (strCodeResFile : Str) (jv : JValue)
  /-- `GenerateCodeResources(strBaseFolder, jvCodeRes)`. -/
  | genCodeRes (strBaseFolder : Str)
  /-- One round of the update loop over `jvNode["changed"]`. -/
  | hashChanged (strFile : Str)
  /-- `WriteFile(strCodeResFile, plist of jvCodeRes)`. -/
  | writeCodeRes (strCodeResFile : Str) (jvCodeRes : JValue)
  /-- `macho.InjectDyLib` on the node's executable. -/
  | injectDyLib (strDyLibPath : Str)
  /-- `macho.Sign` on the node's executable. -/
  | signExe (strExePath : Str) (strCodeResData : Str)

/-- A call together with the node of the tree that made it, named by its
address from the root (see `Node.at`). -/
structure Action where
  node : List Nat
  op : Op

/-- The call generates or updates a manifest. -/
def Op.isManifest : Op → Bool
  | .genCodeRes _ => true
  | .hashChanged _ => true
  | _ => false

/-- The loop over `jvNode["files"]` of `SignNode`: each loose dylib is opened
and signed with empty bundle data; the first failure ends the signing. -/
def signFiles {W : Type} (S : Sys W) (B : Bundle) (addr : List Nat) :
    List Str → W → Bool × W × List Action
  | [], w => (true, w, [])
  | szFile :: more, w =>
    if S.machoInit w (B.m_strAppFolder ++ "/".toList ++ szFile) then
      match S.machoSign w (B.m_strAppFolder ++ "/".toList ++ szFile) B.m_bForceSign [] [] [] [] with
      | (true, w1) =>
        match signFiles S B addr more w1 with
        | (ok, w2, tr) => (ok, w2, ⟨addr, .signFile szFile⟩ :: tr)
      | (false, w1) => (false, w1, [⟨addr, .signFile szFile⟩])
    else (false, w, [])

/-- The manifest key of a change-set entry in `SignNode`: the entry itself for
the root, `strFile.substr(strFolder.size() + 1)` otherwise, which throws
`std::out_of_range` (here `none`) when the entry is shorter than that. -/
def changedKey (strFolder strFile : Str) : Option Str :=
  if "/".toList ≠ strFolder then
    if strFolder.length + 1 ≤ strFile.length then some (strFile.drop (strFolder.length + 1))
    else none
  else some strFile

/-- One round of the update loop of `SignNode` over `jvNode["changed"]`: the
file is hashed and its three manifest entries are stored; `none` when the
hashing fails (`SignNode` returns false) or `substr` throws. -/
def updateCodeResStep (L : Lib) (fs : FileSys) (strAppFolder strFolder : Str)
    (jvCodeRes : JValue) (strFile : Str) : Option JValue :=
  match SHASumBase64File L fs (strAppFolder ++ "/".toList ++ strFile) with
  | (false, _, _) => none
  | (true, strFileSHA1Base64, strFileSHA256Base64) =>
    match changedKey strFolder strFile with
    | none => none
    | some strKey =>
      some (JValue.setPath ["files2".toList, strKey, "hash2".toList]
        (.str ("data:".toList ++ strFileSHA256Base64))
        (JValue.setPath ["files2".toList, strKey, "hash".toList]
          (.str ("data:".toList ++ strFileSHA1Base64))
          (JValue.setPath ["files".toList, strKey]
            (.str ("data:".toList ++ strFileSHA1Base64)) jvCodeRes)))

/-- The update loop of `SignNode` over `jvNode["changed"]`, on the manifest read
from the prior `CodeResources`: the updated manifest (`none` when a round
fails) and the rounds made. -/
def updateCodeRes (L : Lib) (fs : FileSys) (strAppFolder strFolder : Str) :
    List Str → JValue → Option JValue × List Op
  | [], jvCodeRes => (some jvCodeRes, [])
  | strFile :: more, jvCodeRes =>
    match updateCodeResStep L fs strAppFolder strFolder jvCodeRes strFile with
    | none => (none, [.hashChanged strFile])
    | some jv2 =>
      match updateCodeRes L fs strAppFolder strFolder more jv2 with
      | (r, ops) => (r, .hashChanged strFile :: ops)

/-- The loop `for (string strDyLibPath : arrDyLibPaths)` of `SignNode`:
the final value of `bForceSign`, the final state and the calls made. -/
def injectAll {W : Type} (S : Sys W) (B : Bundle) (addr : List Nat) (strExePath : Str) :
    List Str → Bool → W → Bool × W × List Action
  | [], bForceSign, w => (bForceSign, w, [])
  | strDyLibPath :: more, bForceSign, w =>
    match S.machoInject w strExePath B.m_bWeakInject strDyLibPath bForceSign with
    | (b1, w1) =>
      match injectAll S B addr strExePath more b1 w1 with
      | (b2, w2, tr) => (b2, w2, ⟨addr, .injectDyLib strDyLibPath⟩ :: tr)

/-- The folder of a node, `strBaseFolder` in `SignNode`: the app folder for the
path `/`, the app folder followed by the node's path otherwise. -/
def baseFolderOf (B : Bundle) (n : Node) : Str :=
  if "/".toList ≠ n.path then B.m_strAppFolder ++ "/".toList ++ n.path else B.m_strAppFolder

/-- The manifest of a node as `SignNode` computes it in state `w`, with the
calls made: read from the prior file when `m_bForceSign` is off; generated
from scratch when the flag is on or nothing was read; updated from the
change-set otherwise. -/
def nodeCodeRes {W : Type} (S : Sys W) (L : Lib) (B : Bundle) (addr : List Nat) (n : Node)
    (w : W) : Option JValue × List Action :=
  let strCodeResFile := baseFolderOf B n ++ "/_CodeSignature/CodeResources".toList
  let jvRead : JValue :=
    if !B.m_bForceSign then readPListFile L (S.fs w) strCodeResFile else .null
  let trRead : List Action :=
    if !B.m_bForceSign then [⟨addr, .readCodeRes strCodeResFile jvRead⟩] else []
  if B.m_bForceSign || jvRead.isNull then
    (some (GenerateCodeResources L (S.fs w) (baseFolderOf B n)),
      trRead ++ [⟨addr, .genCodeRes (baseFolderOf B n)⟩])
  else
    match updateCodeRes L (S.fs w) B.m_strAppFolder n.path n.changed jvRead with
    | (r, ops) => (r, trRead ++ ops.map (fun o => ⟨addr, o⟩))

/-- The part of `ZAppBundle::SignNode` that deals with the node itself, after
its sub-bundles and loose dylibs: result, final state and calls made. An
exception thrown on the way counts as a failure. -/
def SignNodeSelf {W : Type} (S : Sys W) (L : Lib) (B : Bundle) (addr : List Nat) (n : Node)
    (w : W) : Bool × W × List Action :=
  let strInfoPlistSHA1 := DecodeStr n.sha1
  let strInfoPlistSHA256 := DecodeStr n.sha2
  if n.bid = [] ∨ n.exec = [] ∨ strInfoPlistSHA1 = [] ∨ strInfoPlistSHA256 = [] then
    (false, w, [])
  else
    let strExePath := baseFolderOf B n ++ "/".toList ++ n.exec
    if S.machoInit w strExePath then
      let w1 := S.createFolder w (baseFolderOf B n ++ "/_CodeSignature".toList)
      let strCodeResFile := baseFolderOf B n ++ "/_CodeSignature/CodeResources".toList
      match nodeCodeRes S L B addr n w1 with
      | (none, tr1) => (false, w1, tr1)
      | (some jvCodeRes, tr1) =>
        let strCodeResData := L.writePList jvCodeRes
        match S.writeFile w1 strCodeResFile strCodeResData with
        | (false, w2) => (false, w2, tr1 ++ [⟨addr, .writeCodeRes strCodeResFile jvCodeRes⟩])
        | (true, w2) =>
          match (if "/".toList = n.path ∧ B.arrDyLibPaths ≠ [] then
              injectAll S B addr strExePath B.arrDyLibPaths B.m_bForceSign w2
            else (B.m_bForceSign, w2, [])) with
          | (bForceSign, w3, tr3) =>
            match S.machoSign w3 strExePath bForceSign n.bid strInfoPlistSHA1
                strInfoPlistSHA256 strCodeResData with
            | (ok, w4) =>
              (ok, w4, tr1 ++ [⟨addr, .writeCodeRes strCodeResFile jvCodeRes⟩] ++ tr3 ++
                [⟨addr, .signExe strExePath strCodeResData⟩])
    else (false, w, [])

mutual
/-- `ZAppBundle::SignNode(jvNode)` for the node at address `addr`, from state
`w`: the result, the final state and the calls made, in order. The sub-bundles
are signed first, then the loose dylibs, then the node itself; the first
failure ends the signing. -/
def SignNode {W : Type} (S : Sys W) (L : Lib) (B : Bundle) (addr : List Nat) :
    Node → W → Bool × W × List Action
  | .mk path bid exec sha1 sha2 files changed folders, w =>
    match SignNodes S L B addr 0 folders w with
    | (false, w1, tr1) => (false, w1, tr1)
    | (true, w1, tr1) =>
      match signFiles S B addr files w1 with
      | (false, w2, tr2) => (false, w2, tr1 ++ tr2)
      | (true, w2, tr2) =>
        match SignNodeSelf S L B addr (.mk path bid exec sha1 sha2 files changed folders) w2 with
        | (ok, w3, tr3) => (ok, w3, tr1 ++ tr2 ++ tr3)
/-- The loop over `jvNode["folders"]` of `SignNode`, from the sub-bundle with
index `i` on. -/
def SignNodes {W : Type} (S : Sys W) (L : Lib) (B : Bundle) (addr : List Nat) (i : Nat) :
    List Node → W → Bool × W × List Action
  | [], w => (true, w, [])
  | n :: more, w =>
    match SignNode S L B (addr ++ [i]) n w with
    | (false, w1, tr1) => (false, w1, tr1)
    | (true, w1, tr1) =>
      match SignNodes S L B addr (i + 1) more w1 with
      | (ok, w2, tr2) => (ok, w2, tr1 ++ tr2)
end

/-- A world for the examples: the state counts the writes made, every file
reads as its own path and every operation succeeds. -/
def exampleSys : Sys Nat where
  fs := fun _ => exampleFs
  machoInit := fun _ _ => true
  machoSign := fun w _ _ _ _ _ _ => (true, w + 1)
  machoInject := fun w _ _ _ b => (b, w + 1)
  createFolder := fun w _ => w
  writeFile := fun w _ _ => (true, w + 1)

/-- The bundle settings of the examples: app folder `/app`, forced signing. -/
def exampleBundle : Bundle where
  m_strAppFolder := "/app".toList
  m_bForceSign := true
  m_bWeakInject := false
  arrDyLibPaths := []

/-- The calls in `pre` cover the sub-bundles and loose dylibs of the node `m` at
address `addr`: for every sub-bundle, the write of its `CodeResources` and the
`Sign` call on its executable; for every loose dylib, its `Sign` call. -/
def ChildrenSigned (B : Bundle) (m : Node) (addr : List Nat) (pre : List Action) : Prop :=
  (∀ k c, m.folders.get? k = some c →
    (∃ jv, (⟨addr ++ [k],
      .writeCodeRes (baseFolderOf B c ++ "/_CodeSignature/CodeResources".toList) jv⟩ : Action)
        ∈ pre) ∧
    (∃ data, (⟨addr ++ [k],
      .signExe (baseFolderOf B c ++ "/".toList ++ c.exec) data⟩ : Action) ∈ pre)) ∧
  (∀ f ∈ m.files, (⟨addr, .signFile f⟩ : Action) ∈ pre)

/-- The bundle settings of the examples with forced signing off. -/
def exampleBundleCached : Bundle where
  m_strAppFolder := "/app".toList
  m_bForceSign := false
  m_bWeakInject := false
  arrDyLibPaths := []

/-! ## `core/bundle.cpp`: finding the app folder and the objects to sign -/

/-- The test of the `readdir` loop of `FindAppFolder` on an entry name: it is
none of `.`, `..` and `__MACOSX`. -/
def findable (d_name : Str) : Bool :=
  decide (d_name ≠ ".".toList ∧ d_name ≠ "..".toList ∧ d_name ≠ "__MACOSX".toList)

/-- The test `IsPathSuffix(p, ".app") || IsPathSuffix(p, ".appex")` of
`FindAppFolder`. -/
def isAppPath (p : Str) : Bool :=
  IsPathSuffix p ".app".toList || IsPathSuffix p ".appex".toList

mutual
/-- The body of the `readdir` loop of `FindAppFolder` for one entry of the
listing of `strFolder`, on the output argument `strAppFolder`: the result and
the output argument afterwards. For an entry of type `DT_DIR` `isdir` is set;
for an entry of type `DT_UNKNOWN` the code calls `stat(strFolder.c_str(), ..)`,
that is on the directory being listed, which is a directory, so `isdir` is set
whatever the entry is. With `isdir` set the function is called on
`strSubFolder`: it returns at once when that path ends in `.app` or `.appex`,
and goes through the listing of `strSubFolder` otherwise, returning false when
`opendir` fails because the entry is no directory. -/
def FindAppFolderEntry (strFolder : Str) : DirEnt → Str → Bool × Str
  | .dir d_name entries, strAppFolder =>
    if findable d_name then
      if isAppPath (strFolder ++ "/".toList ++ d_name) then
        (true, strFolder ++ "/".toList ++ d_name)
      else FindAppFolderLoop (strFolder ++ "/".toList ++ d_name) entries strAppFolder
    else (false, strAppFolder)
  | .unknown d_name isDir entries, strAppFolder =>
    if findable d_name then
      if isAppPath (strFolder ++ "/".toList ++ d_name) then
        (true, strFolder ++ "/".toList ++ d_name)
      else if isDir then
        FindAppFolderLoop (strFolder ++ "/".toList ++ d_name) entries strAppFolder
      else (false, strAppFolder)
    else (false, strAppFolder)
  | .reg _, strAppFolder => (false, strAppFolder)
  | .other _, strAppFolder => (false, strAppFolder)
/-- The `readdir` loop of `FindAppFolder` over the listing of `strFolder`: the
first entry on which the recursive call returns true ends it. -/
def FindAppFolderLoop (strFolder : Str) : List DirEnt → Str → Bool × Str
  | [], strAppFolder => (false, strAppFolder)
  | ent :: more, strAppFolder =>
    match FindAppFolderEntry strFolder ent strAppFolder with
    | (true, out) => (true, out)
    | (false, out) => FindAppFolderLoop strFolder more out
end

/-- `FindAppFolder(strFolder, strAppFolder)` on a folder with the given listing:
the result and the output argument afterwards. -/
def FindAppFolder (strFolder : Str) (entries : List DirEnt) (strAppFolder : Str) : Bool × Str :=
  if isAppPath strFolder then (true, strFolder)
  else FindAppFolderLoop strFolder entries strAppFolder

/-- `ZAppBundle::GetSignFolderInfo(strFolder, jvNode, bGetName)`: the result
and the node afterwards. `ReadFile` leaves the data empty when the file cannot
be read; `SHASumBase64` gives the Base64 text of the two digests of the data. -/
def GetSignFolderInfo (L : Lib) (fs : FileSys) (strFolder : Str) (jvNode : JValue)
    (bGetName : Bool) : Bool × JValue :=
  let strInfoPlistData := (fs.read (strFolder ++ "/Info.plist".toList)).getD []
  let jvInfo := L.readPList strInfoPlistData
  let strBundleId := (jvInfo.get "CFBundleIdentifier".toList).asString
  let strBundleExe := (jvInfo.get "CFBundleExecutable".toList).asString
  let strBundleVersion := (jvInfo.get "CFBundleVersion".toList).asString
  if strBundleId = [] ∨ strBundleExe = [] then (false, jvNode)
  else
    let jv5 :=
      ((((jvNode.set "bundle_id".toList (.str strBundleId)).set
        "bundle_version".toList (.str strBundleVersion)).set
        "exec_name".toList (.str strBundleExe)).set
        "sha1".toList (.str (base64Text (L.sha1 strInfoPlistData)))).set
        "sha2".toList (.str (base64Text (L.sha256 strInfoPlistData)))
    if bGetName then
      let strBundleName := (jvInfo.get "CFBundleDisplayName".toList).asString
      (true, jv5.set "appname".toList
        (.str (if strBundleName = [] then (jvInfo.get "CFBundleName".toList).asString
          else strBundleName)))
    else (true, jv5)

/-- The node that `GetObjectsToSign` and `SignFolder` make of a `JValue` filled
by `GetSignFolderInfo`: `path` as set before the call, `bid` and `exec` mapped
from `bundle_id` and `exec_name`, the two digests, and no `files`, `changed`
or `folders` yet. -/
def nodeOfInfo (path : Str) (jvNode : JValue) : Node :=
  .mk path (jvNode.get "bundle_id".toList).asString (jvNode.get "exec_name".toList).asString
    (jvNode.get "sha1".toList).asString (jvNode.get "sha2".toList).asString [] [] []

/-- `jvInfo["files"].push_back(f)`. -/
def Node.pushFile : Node → Str → Node
  | .mk path bid exec sha1 sha2 files changed folders, f =>
    .mk path bid exec sha1 sha2 (files ++ [f]) changed folders

/-- `jvInfo["folders"].push_back(jvNode)`. -/
def Node.pushFolder : Node → Node → Node
  | .mk path bid exec sha1 sha2 files changed folders, jvNode =>
    .mk path bid exec sha1 sha2 files changed (folders ++ [jvNode])

/-- The test of `GetObjectsToSign` on the path of a directory: it ends in
`.app`, `.appex`, `.framework` or `.xctest`. -/
def isBundlePath (p : Str) : Bool :=
  IsPathSuffix p ".app".toList || IsPathSuffix p ".appex".toList ||
    IsPathSuffix p ".framework".toList || IsPathSuffix p ".xctest".toList

mutual
/-- The body of the `readdir` loop of `ZAppBundle::GetObjectsToSign` for one
entry of the listing of `strFolder`: the node `jvInfo` afterwards. A directory
with a bundle suffix gets a node of its own, filled from its listing and pushed
onto `folders`, when `GetSignFolderInfo` succeeds on it, and is passed over
otherwise; any other directory is gone through for `jvInfo` itself; a regular
file that ends in `.dylib` is pushed onto `files`. -/
def GetObjectsToSignEntry (L : Lib) (fs : FileSys) (m_strAppFolder strFolder : Str) :
    DirEnt → Node → Node
  | .dir d_name entries, jvInfo =>
    if d_name ≠ ".".toList ∧ d_name ≠ "..".toList then
      if isBundlePath (strFolder ++ "/".toList ++ d_name) then
        match GetSignFolderInfo L fs (strFolder ++ "/".toList ++ d_name)
            (JValue.null.set "path".toList
              (.str ((strFolder ++ "/".toList ++ d_name).drop (m_strAppFolder.length + 1))))
            false with
        | (true, jvNode) =>
          jvInfo.pushFolder
            (GetObjectsToSign L fs m_strAppFolder (strFolder ++ "/".toList ++ d_name) entries
              (nodeOfInfo ((strFolder ++ "/".toList ++ d_name).drop (m_strAppFolder.length + 1))
                jvNode))
        | (false, _) => jvInfo
      else GetObjectsToSign L fs m_strAppFolder (strFolder ++ "/".toList ++ d_name) entries jvInfo
    else jvInfo
  | .reg d_name, jvInfo =>
    if d_name ≠ ".".toList ∧ d_name ≠ "..".toList then
      if IsPathSuffix (strFolder ++ "/".toList ++ d_name) ".dylib".toList then
        jvInfo.pushFile ((strFolder ++ "/".toList ++ d_name).drop (m_strAppFolder.length + 1))
      else jvInfo
    else jvInfo
  | .other _, jvInfo => jvInfo
  | .unknown _ _ _, jvInfo => jvInfo
/-- `ZAppBundle::GetObjectsToSign(strFolder, jvInfo)` on the listing of
`strFolder`: the node afterwards (the function always returns true). -/
def GetObjectsToSign (L : Lib) (fs : FileSys) (m_strAppFolder strFolder : Str) :
    List DirEnt → Node → Node
  | [], jvInfo => jvInfo
  | ent :: more, jvInfo =>
    GetObjectsToSign L fs m_strAppFolder strFolder more
      (GetObjectsToSignEntry L fs m_strAppFolder strFolder ent jvInfo)
end

/-- The name of a directory ends in `.app` or `.appex` (written from the
claims about `FindAppFolder`). -/
def isAppName (d_name : Str) : Bool :=
  decide (".app".toList <:+ d_name) || decide (".appex".toList <:+ d_name)

mutual
/-- The directories at or below one entry of the listing of `strFolder` that
can be reached without entering `__MACOSX` and whose name ends in `.app` or
`.appex`, as paths, in depth-first pre-order (written from the claims about
`FindAppFolder`, not from the code). An entry of type `DT_UNKNOWN` counts for
what it is. The entries `.` and `..` stand for the directory itself and its
parent and contribute nothing. -/
def appDirsOf (strFolder : Str) : DirEnt → List Str
  | .dir d_name entries =>
    if d_name = ".".toList ∨ d_name = "..".toList ∨ d_name = "__MACOSX".toList then []
    else
      (if isAppName d_name then [strFolder ++ "/".toList ++ d_name] else []) ++
        appDirsIn (strFolder ++ "/".toList ++ d_name) entries
  | .unknown d_name isDir entries =>
    if d_name = ".".toList ∨ d_name = "..".toList ∨ d_name = "__MACOSX".toList then []
    else if isDir then
      (if isAppName d_name then [strFolder ++ "/".toList ++ d_name] else []) ++
        appDirsIn (strFolder ++ "/".toList ++ d_name) entries
    else []
  | .reg _ => []
  | .other _ => []
/-- The directories below `strFolder`, given its listing, that can be reached
without entering `__MACOSX` and whose name ends in `.app` or `.appex`, in
depth-first pre-order. -/
def appDirsIn (strFolder : Str) : List DirEnt → List Str
  | [] => []
  | ent :: more => appDirsOf strFolder ent ++ appDirsIn strFolder more
end

mutual
/-- Every entry of type `DT_UNKNOWN` at or below the entry is a directory. -/
def unknownAreDirsOf : DirEnt → Bool
  | .dir _ entries => unknownAreDirsIn entries
  | .unknown _ isDir entries => isDir && unknownAreDirsIn entries
  | .reg _ => true
  | .other _ => true
/-- Every entry of type `DT_UNKNOWN` in or below the listing is a directory. -/
def unknownAreDirsIn : List DirEnt → Bool
  | [] => true
  | ent :: more => unknownAreDirsOf ent && unknownAreDirsIn more
end

/-- A folder `/in` used to instantiate the statements about `FindAppFolder`:
it holds a regular file `Readme.app` whose type the file system does not
report. -/
def exampleInbox : List DirEnt := [.unknown "Readme.app".toList false []]

/-- A folder `/drop` used to instantiate the statements about `FindAppFolder`:
a text file and, inside the directory `docs`, a regular file `notes.appex`
whose type the file system does not report. -/
def exampleDrop : List DirEnt :=
  [.reg "a.txt".toList, .dir "docs".toList [.unknown "notes.appex".toList false []]]

/-- A folder `/ipa` used to instantiate the statements about `FindAppFolder`:
an extracted archive with a `__MACOSX` directory and `Payload/Demo.app`. -/
def examplePayload : List DirEnt :=
  [.dir "__MACOSX".toList [.dir "Ghost.app".toList []],
   .dir "Payload".toList
     [.reg "iTunesArtwork".toList,
      .dir "Demo.app".toList [.reg "Info.plist".toList, .dir "PlugIns".toList
        [.dir "Ext.appex".toList []]]]]

/-- The name of a directory ends in `.app`, `.appex`, `.framework` or `.xctest`
(written from the claims about `GetObjectsToSign`). -/
def isBundleName (d_name : Str) : Bool :=
  decide (".app".toList <:+ d_name) || decide (".appex".toList <:+ d_name) ||
    decide (".framework".toList <:+ d_name) || decide (".xctest".toList <:+ d_name)

/-- The `Info.plist` of the folder gives a bundle identifier and an executable
name that are not empty. -/
def hasBundleInfo (L : Lib) (fs : FileSys) (strFolder : Str) : Bool :=
  decide
    (((L.readPList ((fs.read (strFolder ++ "/Info.plist".toList)).getD [])).get
        "CFBundleIdentifier".toList).asString ≠ [] ∧
     ((L.readPList ((fs.read (strFolder ++ "/Info.plist".toList)).getD [])).get
        "CFBundleExecutable".toList).asString ≠ [])

mutual
/-- The bundle directories nearest to the directory that holds the entry
(written from the claims, not from the code): the directories of type `DT_DIR`
at or below the entry that have a bundle name and a usable `Info.plist` and are
reached through directories without a bundle name only. Each comes as its path
relative to the app folder, `rel` being the relative path of the holding
directory followed by `/` (empty for the app folder), and with its listing. -/
def nearestBundlesOf (L : Lib) (fs : FileSys) (app rel : Str) : DirEnt → List (Str × List DirEnt)
  | .dir d_name entries =>
    if d_name = ".".toList ∨ d_name = "..".toList then []
    else if isBundleName d_name then
      if hasBundleInfo L fs (app ++ "/".toList ++ (rel ++ d_name)) then [(rel ++ d_name, entries)]
      else []
    else nearestBundlesIn L fs app (rel ++ d_name ++ "/".toList) entries
  | .reg _ => []
  | .other _ => []
  | .unknown _ _ _ => []
/-- The bundle directories nearest to a directory with the given listing. -/
def nearestBundlesIn (L : Lib) (fs : FileSys) (app rel : Str) :
    List DirEnt → List (Str × List DirEnt)
  | [] => []
  | ent :: more => nearestBundlesOf L fs app rel ent ++ nearestBundlesIn L fs app rel more
end

mutual
/-- The `.dylib` files nearest to the directory that holds the entry (written
from the claims, not from the code): the regular files at or below the entry
whose name ends in `.dylib` and that are reached through directories without a
bundle name only, as paths relative to the app folder. -/
def nearestDylibsOf (rel : Str) : DirEnt → List Str
  | .dir d_name entries =>
    if d_name = ".".toList ∨ d_name = "..".toList then []
    else if isBundleName d_name then []
    else nearestDylibsIn (rel ++ d_name ++ "/".toList) entries
  | .reg d_name =>
    if d_name = ".".toList ∨ d_name = "..".toList then []
    else if decide (".dylib".toList <:+ d_name) then [rel ++ d_name] else []
  | .other _ => []
  | .unknown _ _ _ => []
/-- The `.dylib` files nearest to a directory with the given listing. -/
def nearestDylibsIn (rel : Str) : List DirEnt → List Str
  | [] => []
  | ent :: more => nearestDylibsOf rel ent ++ nearestDylibsIn rel more
end

mutual
/-- All bundle directories at or below the entry that discovery can reach
(written from the claims, not from the code): directories of type `DT_DIR` with
a bundle name and a usable `Info.plist`, reached without passing through a
directory with a bundle name that lacks one; relative paths, in depth-first
pre-order. -/
def allBundlesOf (L : Lib) (fs : FileSys) (app rel : Str) : DirEnt → List Str
  | .dir d_name entries =>
    if d_name = ".".toList ∨ d_name = "..".toList then []
    else if isBundleName d_name then
      if hasBundleInfo L fs (app ++ "/".toList ++ (rel ++ d_name)) then
        (rel ++ d_name) :: allBundlesIn L fs app (rel ++ d_name ++ "/".toList) entries
      else []
    else allBundlesIn L fs app (rel ++ d_name ++ "/".toList) entries
  | .reg _ => []
  | .other _ => []
  | .unknown _ _ _ => []
/-- All bundle directories below a directory with the given listing that
discovery can reach. -/
def allBundlesIn (L : Lib) (fs : FileSys) (app rel : Str) : List DirEnt → List Str
  | [] => []
  | ent :: more => allBundlesOf L fs app rel ent ++ allBundlesIn L fs app rel more
end

mutual
/-- All `.dylib` files at or below the entry that discovery can reach (written
from the claims, not from the code): regular files whose name ends in `.dylib`,
reached without passing through a directory with a bundle name that lacks a
usable `Info.plist`; relative paths. -/
def allDylibsOf (L : Lib) (fs : FileSys) (app rel : Str) : DirEnt → List Str
  | .dir d_name entries =>
    if d_name = ".".toList ∨ d_name = "..".toList then []
    else if isBundleName d_name then
      if hasBundleInfo L fs (app ++ "/".toList ++ (rel ++ d_name)) then
        allDylibsIn L fs app (rel ++ d_name ++ "/".toList) entries
      else []
    else allDylibsIn L fs app (rel ++ d_name ++ "/".toList) entries
  | .reg d_name =>
    if d_name = ".".toList ∨ d_name = "..".toList then []
    else if decide (".dylib".toList <:+ d_name) then [rel ++ d_name] else []
  | .other _ => []
  | .unknown _ _ _ => []
/-- All `.dylib` files below a directory with the given listing that discovery
can reach. -/
def allDylibsIn (L : Lib) (fs : FileSys) (app rel : Str) : List DirEnt → List Str
  | [] => []
  | ent :: more => allDylibsOf L fs app rel ent ++ allDylibsIn L fs app rel more
end

mutual
/-- The paths of all nodes below a node, in depth-first pre-order. -/
def Node.subPaths : Node → List Str
  | .mk _ _ _ _ _ _ _ folders => Node.subPathsList folders
/-- The paths of the nodes of a list and of all nodes below them. -/
def Node.subPathsList : List Node → List Str
  | [] => []
  | n :: more => (n.path :: Node.subPaths n) ++ Node.subPathsList more
end

mutual
/-- The entries of the `files` lists of a node and of all nodes below it. -/
def Node.allFiles : Node → List Str
  | .mk _ _ _ _ _ files _ folders => files ++ Node.allFilesList folders
/-- The entries of the `files` lists of the nodes of a list and of all nodes
below them. -/
def Node.allFilesList : List Node → List Str
  | [] => []
  | n :: more => Node.allFiles n ++ Node.allFilesList more
end

/-- The node `GetObjectsToSign` builds for the bundle directory with relative
path `p` and the given listing: filled by `GetSignFolderInfo` and then by the
discovery below the directory. -/
def bundleNode (L : Lib) (fs : FileSys) (app : Str) (d : Str × List DirEnt) : Node :=
  GetObjectsToSign L fs app (app ++ "/".toList ++ d.1) d.2
    (nodeOfInfo d.1
      (GetSignFolderInfo L fs (app ++ "/".toList ++ d.1)
        (JValue.null.set "path".toList (.str d.1)) false).2)

/-- The listing of the app folder `/app` of the discovery examples: a loose
dylib, the framework `F` with a dylib of its own, the directory
`Broken.framework`, which has no `Info.plist` but holds a dylib and the
framework `Deep`, and the extension `Ext`. -/
def exampleAppListing : List DirEnt :=
  [.reg "Info.plist".toList, .reg "Demo".toList, .reg "libroot.dylib".toList,
   .dir "Frameworks".toList
     [.dir "F.framework".toList
        [.reg "Info.plist".toList, .reg "F".toList, .reg "lib.dylib".toList],
      .dir "Broken.framework".toList
        [.reg "inner.dylib".toList,
         .dir "Deep.framework".toList [.reg "Info.plist".toList, .reg "Deep".toList]]],
   .dir "PlugIns".toList [.dir "Ext.appex".toList [.reg "Info.plist".toList, .reg "Ext".toList]]]

/-- The file system of the discovery examples: `/app` has the listing
`exampleAppListing`, and every file reads as its own path except the
`Info.plist` of `Broken.framework`, which does not exist. -/
def exampleAppFs : FileSys where
  dir := fun p => if p = "/app".toList then exampleAppListing else []
  read := fun p =>
    if p = "/app/Frameworks/Broken.framework/Info.plist".toList then none else some p

/-- Stand-ins for the library functions in the discovery examples: the plist
reader makes nothing of empty data and reads any other data as a plist with
the identifier `com.example` and the executable `Demo`. -/
def exampleAppLib : Lib where
  sha1 := fun d => [d.length % 256]
  sha256 := fun d => [d.length % 256, 1]
  readPList := fun d =>
    if d = [] then .null
    else .obj [("CFBundleIdentifier".toList, .str "com.example".toList),
               ("CFBundleExecutable".toList, .str "Demo".toList)]
  writePList := fun _ => []

/-- The root node of the discovery examples before `GetObjectsToSign`. -/
def exampleRoot : Node :=
  .mk "/".toList "com.example".toList "Demo".toList "QQ==".toList "QQ==".toList [] [] []

/-! ## `core/bundle.cpp`: signing a folder -/

/-- Modelled from the spec: `basename(path)` of libc for the path of a file,
the part after the last `/`. -/
def basename (path : Str) : Str := (path.reverse.takeWhile (fun c => c ≠ '/')).reverse

/-- One hexadecimal digit. -/
def hexDigit (n : Nat) : Char := "0123456789abcdef".toList.getD n '0'

/-- Modelled from the spec: the text of `SHA1Text`, the digest in hexadecimal
("`sha1-hex(appFolderAbsolutePath)`"). -/
def hexText (d : Bytes) : Str := d.flatMap (fun b => [hexDigit (b / 16 % 16), hexDigit (b % 16)])

/-- The cache file of an app folder, `./.arksigning_cache/<SHA1Text(folder)>.json`. -/
def cacheFile (L : Lib) (strAppFolder : Str) : Str :=
  "./.arksigning_cache/".toList ++ hexText (L.sha1 strAppFolder) ++ ".json".toList

/-- The member of `arksigningAsset` (`crypto/openssl.h`) that `SignFolder`
reads: the bytes of the provisioning profile. -/
structure arksigningAsset where
  m_strProvisionData : Str

/-- The world of `SignFolder`: the world of `SignNode` and the further
operations of `utils/common.h` and `utils/json.h`, which are not among the
sources. -/
structure FolderSys (W : Type) extends Sys W where
  /-- `IsFileExists(path)`. -/
  fileExists : W → Str → Bool
  /-- `remove(path) == 0` and the state afterwards. -/
  removeFile : W → Str → Bool × W
  /-- `jvRoot.readPath(path)`: the node tree read from the cache file. -/
  readCache : W → Str → Node
  /-- `jvRoot.styleWritePath(path)`. -/
  writeCache : W → Str → Node → W

/-- The calls a run of `SignFolder` makes that change the world, in the order it
makes them. -/
inductive FolderOp where
  /-- `remove(provisionPath)` in `RemoveEmbeddedMobileProvision`. -/
  | removeProvision (provisionPath : Str)
  /-- `WriteFile(pSignAsset->m_strProvisionData, path)`. -/
  | writeProvision (path : Str) (data : Str)
  /-- `WriteFile(strDyLibData, path)` for the entry `strDyLibFile` of
  `arrDyLibFiles`, and its result. -/
  | copyDyLib (strDyLibFile path data : Str) (ok : Bool)
  /-- A call made by `SignNode`. -/
  | sign (act : Action)
  /-- `jvRoot.styleWritePath(path)`. -/
  | writeCache (path : Str) (jvRoot : Node)

/-- `RemoveEmbeddedMobileProvision(appFolder)`: the result, the state afterwards
and the calls made. -/
def RemoveEmbeddedMobileProvision {W : Type} (S : FolderSys W) (appFolder : Str) (w : W) :
    Bool × W × List FolderOp :=
  if S.fileExists w (appFolder ++ "/embedded.mobileprovision".toList) then
    match S.removeFile w (appFolder ++ "/embedded.mobileprovision".toList) with
    | (true, w1) =>
      (true, w1, [.removeProvision (appFolder ++ "/embedded.mobileprovision".toList)])
    | (false, w1) =>
      (false, w1, [.removeProvision (appFolder ++ "/embedded.mobileprovision".toList)])
  else (true, w, [])

/-- The loop over `arrDyLibFiles` of `SignFolder`: the state afterwards, the
install names pushed onto `arrDyLibPaths`, in order, and the calls made. A file
whose data reads as empty is passed over, and so is one whose copy fails. -/
def copyDyLibs {W : Type} (S : FolderSys W) (m_strAppFolder : Str) :
    List Str → W → W × List Str × List FolderOp
  | [], w => (w, [], [])
  | strDyLibFile :: more, w =>
    if ((S.fs w).read strDyLibFile).getD [] ≠ [] then
      match S.writeFile w (m_strAppFolder ++ "/".toList ++ basename strDyLibFile)
          (((S.fs w).read strDyLibFile).getD []) with
      | (true, w1) =>
        match copyDyLibs S m_strAppFolder more w1 with
        | (w2, paths, ops) =>
          (w2, ("@executable_path/".toList ++ basename strDyLibFile) :: paths,
            .copyDyLib strDyLibFile (m_strAppFolder ++ "/".toList ++ basename strDyLibFile)
              (((S.fs w).read strDyLibFile).getD []) true :: ops)
      | (false, w1) =>
        match copyDyLibs S m_strAppFolder more w1 with
        | (w2, paths, ops) =>
          (w2, paths,
            .copyDyLib strDyLibFile (m_strAppFolder ++ "/".toList ++ basename strDyLibFile)
              (((S.fs w).read strDyLibFile).getD []) false :: ops)
    else copyDyLibs S m_strAppFolder more w

/-- The branch `if (m_bForceSign)` of `SignFolder` that builds `jvRoot` from the
folder: `none` when `GetSignFolderInfo` fails on the app folder. -/
def discoverRoot (L : Lib) (fs : FileSys) (m_strAppFolder : Str) (dont : Bool) : Option Node :=
  match GetSignFolderInfo L fs m_strAppFolder
      ((JValue.null.set "path".toList (.str "/".toList)).set "root".toList (.str m_strAppFolder))
      true with
  | (false, _) => none
  | (true, jvRoot) =>
    some (GetNodeChangedFiles dont
      (GetObjectsToSign L fs m_strAppFolder m_strAppFolder (fs.dir m_strAppFolder)
        (nodeOfInfo "/".toList jvRoot)))

/-- The step of `SignFolder` that deals with `embedded.mobileprovision` in the
app folder: the file is removed when `dontGenerateEmbeddedMobileProvision` is
set, and written with the bytes of the profile otherwise. The result is false
when `SignFolder` returns false at this step. -/
def provisionStep {W : Type} (S : FolderSys W) (asset : arksigningAsset)
    (m_strAppFolder : Str) (dont : Bool) (w : W) : Bool × W × List FolderOp :=
  if dont then RemoveEmbeddedMobileProvision S m_strAppFolder w
  else
    ((S.writeFile w (m_strAppFolder ++ "/embedded.mobileprovision".toList)
        asset.m_strProvisionData).1,
     (S.writeFile w (m_strAppFolder ++ "/embedded.mobileprovision".toList)
        asset.m_strProvisionData).2,
     [.writeProvision (m_strAppFolder ++ "/embedded.mobileprovision".toList)
        asset.m_strProvisionData])

/-- The first part of `ZAppBundle::SignFolder`, up to the end of the loop over
`arrDyLibFiles`: `m_strAppFolder` and `arrDyLibPaths` when it gets that far
(`none` when it returns false before), the state and the calls made. The former
value of `m_strAppFolder` plays no part, as the member is read only after
`FindAppFolder` has set it. -/
def SignFolderPrepare {W : Type} (S : FolderSys W) (pSignAsset : Option arksigningAsset)
    (strFolder : Str) (arrDyLibFiles : List Str) (dont : Bool) (w : W) :
    Option (Str × List Str) × W × List FolderOp :=
  match pSignAsset with
  | none => (none, w, [])
  | some asset =>
    match FindAppFolder strFolder ((S.fs w).dir strFolder) [] with
    | (false, _) => (none, w, [])
    | (true, m_strAppFolder) =>
      match provisionStep S asset m_strAppFolder dont w with
      | (false, w1, ops1) => (none, w1, ops1)
      | (true, w1, ops1) =>
        match copyDyLibs S m_strAppFolder arrDyLibFiles w1 with
        | (w2, paths, ops2) => (some (m_strAppFolder, paths), w2, ops1 ++ ops2)

/-- The second part of `ZAppBundle::SignFolder`, from the test of the cache file
on, in the state `w` the first part has left. -/
def SignFolderFinish {W : Type} (S : FolderSys W) (L : Lib) (m_strAppFolder : Str)
    (arrDyLibPaths : List Str) (bForce bWeakInject bEnableCache dont : Bool) (w : W) :
    Bool × W × List FolderOp :=
  let m_bForceSign := bForce || !S.fileExists w (cacheFile L m_strAppFolder)
  match (if m_bForceSign then discoverRoot L (S.fs w) m_strAppFolder dont
      else some (S.readCache w (cacheFile L m_strAppFolder))) with
  | none => (false, w, [])
  | some jvRoot =>
    match SignNode S.toSys L ⟨m_strAppFolder, m_bForceSign, bWeakInject, arrDyLibPaths⟩ []
        jvRoot w with
    | (true, w1, tr) =>
      if bEnableCache then
        (true,
          S.writeCache (S.createFolder w1 "./.arksigning_cache".toList)
            (cacheFile L m_strAppFolder) jvRoot,
          tr.map .sign ++ [.writeCache (cacheFile L m_strAppFolder) jvRoot])
      else (true, w1, tr.map .sign)
    | (false, w1, tr) => (false, w1, tr.map .sign)

/-- `ZAppBundle::SignFolder(pSignAsset, strFolder, .., arrDyLibFiles, bForce,
bWeakInject, bEnableCache, dontGenerateEmbeddedMobileProvision)` from state `w`:
the result, the final state and the calls made, in order. The three string
arguments the function ignores are left out. -/
def SignFolder {W : Type} (S : FolderSys W) (L : Lib) (pSignAsset : Option arksigningAsset)
    (strFolder : Str) (arrDyLibFiles : List Str)
    (bForce bWeakInject bEnableCache dont : Bool) (w : W) : Bool × W × List FolderOp :=
  match SignFolderPrepare S pSignAsset strFolder arrDyLibFiles dont w with
  | (none, w1, ops) => (false, w1, ops)
  | (some (m_strAppFolder, arrDyLibPaths), w1, ops) =>
    match SignFolderFinish S L m_strAppFolder arrDyLibPaths bForce bWeakInject bEnableCache
        dont w1 with
    | (ok, w2, ops2) => (ok, w2, ops ++ ops2)

/-- The laws of a file system that the statements about the provisioning
profile rely on: a file holds what was last written to it; writing, signing or
injecting into one file, creating a folder and writing the cache leave the
contents and the existence of every other path as they were; a removed file is
gone; a file that opens as a Mach-O image exists, and so does a regular file
that a listing shows. -/
structure FileLaws {W : Type} (S : FolderSys W) : Prop where
  read_writeFile_same : ∀ w p d, (S.writeFile w p d).1 = true →
    (S.fs (S.writeFile w p d).2).read p = some d
  read_writeFile_other : ∀ w p q d, p ≠ q →
    (S.fs (S.writeFile w q d).2).read p = (S.fs w).read p
  read_createFolder : ∀ w p q, (S.fs (S.createFolder w q)).read p = (S.fs w).read p
  read_machoSign_other : ∀ w p q b i h1 h2 c, p ≠ q →
    (S.fs (S.machoSign w q b i h1 h2 c).2).read p = (S.fs w).read p
  read_machoInject_other : ∀ w p q k d b, p ≠ q →
    (S.fs (S.machoInject w q k d b).2).read p = (S.fs w).read p
  read_writeCache_other : ∀ w p q n, p ≠ q →
    (S.fs (S.writeCache w q n)).read p = (S.fs w).read p
  exists_writeFile_other : ∀ w p q d, p ≠ q →
    S.fileExists (S.writeFile w q d).2 p = S.fileExists w p
  exists_createFolder_other : ∀ w p q, p ≠ q →
    S.fileExists (S.createFolder w q) p = S.fileExists w p
  exists_machoSign_other : ∀ w p q b i h1 h2 c, p ≠ q →
    S.fileExists (S.machoSign w q b i h1 h2 c).2 p = S.fileExists w p
  exists_machoInject_other : ∀ w p q k d b, p ≠ q →
    S.fileExists (S.machoInject w q k d b).2 p = S.fileExists w p
  exists_writeCache_other : ∀ w p q n, p ≠ q →
    S.fileExists (S.writeCache w q n) p = S.fileExists w p
  exists_removeFile : ∀ w p, (S.removeFile w p).1 = true →
    S.fileExists (S.removeFile w p).2 p = false
  machoInit_exists : ∀ w p, S.machoInit w p = true → S.fileExists w p = true
  listed_exists : ∀ w folder d_name, DirEnt.reg d_name ∈ (S.fs w).dir folder →
    S.fileExists w (folder ++ "/".toList ++ d_name) = true

/-- The property `Inv` of the world is kept by every operation of `SignNode` on
a path other than `P`, and while it holds `P` does not open as a Mach-O
image. -/
structure Keeps {W : Type} (S : Sys W) (P : Str) (Inv : W → Prop) : Prop where
  createFolder : ∀ w q, q ≠ P → Inv w → Inv (S.createFolder w q)
  writeFile : ∀ w q d, q ≠ P → Inv w → Inv (S.writeFile w q d).2
  machoSign : ∀ w q b i h1 h2 c, q ≠ P → Inv w → Inv (S.machoSign w q b i h1 h2 c).2
  machoInject : ∀ w q k d b, q ≠ P → Inv w → Inv (S.machoInject w q k d b).2
  machoInit : ∀ w q, Inv w → S.machoInit w q = true → q ≠ P

/-- The contents of the file at `p` in a world given as a list of files with
their contents; the first entry for a path is the one that counts. -/
def fileAt (w : List (Str × Str)) (p : Str) : Option Str :=
  (w.find? (fun e => decide (e.1 = p))).map (fun e => e.2)

/-- The world with the file at `p` holding `d`. -/
def putFile (w : List (Str × Str)) (p d : Str) : List (Str × Str) :=
  (p, d) :: w.filter (fun e => decide (e.1 ≠ p))

/-- The listing of `folder` in a world given as a list of files: the files
directly in the folder, as regular files. -/
def listFolder (w : List (Str × Str)) (folder : Str) : List DirEnt :=
  w.filterMap (fun e =>
    if (folder ++ "/".toList) <+: e.1 ∧ '/' ∉ e.1.drop (folder.length + 1) then
      some (.reg (e.1.drop (folder.length + 1)))
    else none)

/-- The root node found in the cache file of the examples: the app `Demo`
with an empty change-set and no sub-bundles. -/
def exampleCachedRoot : Node :=
  .mk "/".toList "com.example".toList "Demo".toList "QQ==".toList "QQ==".toList [] [] []

/-- A world for the examples of `SignFolder`: the state is the list of files
with their contents. A file opens as a Mach-O image when its contents begin
with `macho`; signing appends `+sig` to the file and injecting `+dylib`; every
cache file holds the node `exampleCachedRoot`. -/
def exampleWorld : FolderSys (List (Str × Str)) where
  fs := fun w => { dir := listFolder w, read := fileAt w }
  machoInit := fun w p =>
    match fileAt w p with
    | some d => decide ("macho".toList <+: d)
    | none => false
  machoSign := fun w p _ _ _ _ _ => (true, putFile w p (((fileAt w p).getD []) ++ "+sig".toList))
  machoInject := fun w p _ _ b =>
    (b, putFile w p (((fileAt w p).getD []) ++ "+dylib".toList))
  createFolder := fun w _ => w
  writeFile := fun w p d => (true, putFile w p d)
  fileExists := fun w p => (fileAt w p).isSome
  removeFile := fun w p => (true, w.filter (fun e => decide (e.1 ≠ p)))
  readCache := fun _ _ => exampleCachedRoot
  writeCache := fun w p _ => putFile w p "cache".toList

/-- Stand-ins for the library functions in the examples of `SignFolder`: the
plist reader makes nothing of empty data, reads the data `manifest` as a
manifest that lists `embedded.mobileprovision`, and any other data as a plist
with the identifier `com.example` and the executable `Demo`. -/
def exampleFolderLib : Lib where
  sha1 := fun d => [d.length % 256]
  sha256 := fun d => [d.length % 256, 1]
  readPList := fun d =>
    if d = [] then .null
    else if d = "manifest".toList then
      .obj [("files".toList,
              .obj [("embedded.mobileprovision".toList, .str "data:old".toList)]),
            ("files2".toList,
              .obj [("embedded.mobileprovision".toList,
                .obj [("hash".toList, .str "data:old".toList)])])]
    else .obj [("CFBundleIdentifier".toList, .str "com.example".toList),
               ("CFBundleExecutable".toList, .str "Demo".toList)]
  writePList := fun _ => "plist".toList

/-- The files of the examples of `SignFolder`: the app folder `/Demo.app` with
its `Info.plist`, its executable and a provisioning profile, and two dylibs
outside it, one of which is called `embedded.mobileprovision`. -/
def exampleFiles : List (Str × Str) :=
  [("/Demo.app/Info.plist".toList, "info".toList),
   ("/Demo.app/Demo".toList, "macho app".toList),
   ("/Demo.app/embedded.mobileprovision".toList, "old profile".toList),
   ("/lib/tweak.dylib".toList, "macho tweak".toList),
   ("/lib/embedded.mobileprovision".toList, "macho trick".toList)]

/-- The signing identity of the examples. -/
def exampleAsset : arksigningAsset := ⟨"profile".toList⟩

/-- The install name a call of `SignFolder` pushes onto `arrDyLibPaths`: the one
of a dylib whose copy into the app folder succeeded. -/
def FolderOp.installName : FolderOp → Option Str
  | .copyDyLib strDyLibFile _ _ true => some ("@executable_path/".toList ++ basename strDyLibFile)
  | _ => none

/-- The call of `SignNode` behind a call of `SignFolder`, if it is one. -/
def FolderOp.action : FolderOp → Option Action
  | .sign act => some act
  | _ => none

/-- The install names pushed onto `arrDyLibPaths` in a run of `SignFolder`, in
order. -/
def installNames (ops : List FolderOp) : List Str := ops.filterMap FolderOp.installName

/-- The calls `SignNode` made in a run of `SignFolder`, in order. -/
def signActions (ops : List FolderOp) : List Action := ops.filterMap FolderOp.action

/-- The call is an `InjectDyLib`. -/
def Op.isInject : Op → Bool
  | .injectDyLib _ => true
  | _ => false

/-- The call writes, from the root node, a manifest that has the key
`embedded.mobileprovision` in `files` and in `files2`. -/
def FolderOp.writesProfileKey : FolderOp → Bool
  | .sign ⟨[], .writeCodeRes _ jvCodeRes⟩ =>
    ((jvCodeRes.get "files".toList).find? "embedded.mobileprovision".toList).isSome &&
      ((jvCodeRes.get "files2".toList).find? "embedded.mobileprovision".toList).isSome
  | _ => false

/-- The files of the example app after an earlier run that left a cache file
and a manifest listing `embedded.mobileprovision`. -/
def exampleCachedFiles : List (Str × Str) :=
  [("./.arksigning_cache/09.json".toList, "cache".toList),
   ("/Demo.app/_CodeSignature/CodeResources".toList, "manifest".toList)] ++ exampleFiles

/-! ## `core/zsign.cpp`: tasks, workers and `main` -/

/-- The search of `rfind` from position `i` downwards. -/
def rfindFrom (s sub : Str) : Nat → Option Nat
  | 0 => if sub <+: s then some 0 else none
  | i + 1 => if sub <+: s.drop (i + 1) then some (i + 1) else rfindFrom s sub i

/-- `s.rfind(sub)` of `std::string`: the position of the last occurrence of `sub`
in `s`, `none` for `string::npos`. -/
def rfind (s sub : Str) : Option Nat := rfindFrom s sub s.length

/-- The `struct SigningTask`. -/
structure SigningTask where
  inputPath : Str
  outputPath : Str
  isZipFile : Bool

/-- The world of `zsign.cpp`: the world of `SignFolder` and the further
operations of `utils/common.h`, of libc and of the shell that `processFile`,
`bulkSign` and `main` use, which are not among the sources. -/
structure MainSys (W : Type) extends FolderSys W where
  /-- `IsFolder(path)`. -/
  isFolder : W → Str → Bool
  /-- `IsZipFile(path)`. -/
  isZipFile : W → Str → Bool
  /-- `RemoveFolder(path)`. -/
  removeFolder : W → Str → W
  /-- `SystemExec("unzip -qq -d '<folder>' '<file>'")`. -/
  unzip : W → Str → Str → Bool × W
  /-- `getcwd(..)`, `none` for `NULL`. -/
  getcwd : W → Option Str
  /-- `0 == chdir(path)` and the state afterwards. -/
  chdir : W → Str → Bool × W
  /-- `SystemExec("zip -q -<level> -r '<output>' Payload")` in the current
  directory; its result is not looked at. -/
  zip : W → Nat → Str → W
  /-- The value of `timer.Reset()` and of `GetMicroSecond()`. -/
  clock : W → Nat
  /-- `GetCanonicalizePath(path)`. -/
  canonicalize : W → Str → Str
  /-- `arksigningAsset::Init(cert, pkey, prov, entitlements, password)`: the
  identity when it returns true. -/
  assetInit : W → Str → Str → Str → Str → Str → Option arksigningAsset
  /-- `SystemExec("ideviceinstaller -i '<file>'")`. -/
  install : W → Str → W
  /-- `thread::hardware_concurrency()`, an `unsigned`. -/
  hardware_concurrency : Nat

/-- The name of the output file that `bulkSign` gives to the entry `d_name`: for
a zip file whose name contains `.ipa`, the name up to the last occurrence of
`.ipa` followed by `_signed.ipa`; in every other case the whole name followed
by `_signed.ipa`. -/
def outputNameOf (isZip : Bool) (d_name : Str) : Str :=
  if isZip then
    match rfind d_name ".ipa".toList with
    | some extPos => d_name.take extPos ++ "_signed.ipa".toList
    | none => d_name ++ "_signed.ipa".toList
  else d_name ++ "_signed.ipa".toList

/-- The body of the `readdir` loop of `bulkSign` for an entry of type `DT_REG`
or `DT_DIR` with the name `d_name`: the task pushed onto `allTasks`, if any.
For a folder, `FindAppFolder(fullPath.c_str(), fullPath)` overwrites `fullPath`
with the app folder it finds, which becomes the task's `inputPath`. -/
def taskOfEntry {W : Type} (S : MainSys W) (w : W) (inputFolder outputFolder d_name : Str) :
    Option SigningTask :=
  if d_name = ".".toList ∨ d_name = "..".toList then none
  else if S.isZipFile w (inputFolder ++ "/".toList ++ d_name) then
    some ⟨inputFolder ++ "/".toList ++ d_name,
      outputFolder ++ "/".toList ++ outputNameOf true d_name, true⟩
  else if S.isFolder w (inputFolder ++ "/".toList ++ d_name) then
    match FindAppFolder (inputFolder ++ "/".toList ++ d_name)
        ((S.fs w).dir (inputFolder ++ "/".toList ++ d_name))
        (inputFolder ++ "/".toList ++ d_name) with
    | (true, fullPath) =>
      some ⟨fullPath, outputFolder ++ "/".toList ++ outputNameOf false d_name, false⟩
    | (false, _) => none
  else none

/-- The task that `bulkSign` makes of one entry of the input folder: entries of
a type other than `DT_REG` and `DT_DIR` are passed over. -/
def taskOfDirEnt {W : Type} (S : MainSys W) (w : W) (inputFolder outputFolder : Str) :
    DirEnt → Option SigningTask
  | .reg d_name => taskOfEntry S w inputFolder outputFolder d_name
  | .dir d_name _ => taskOfEntry S w inputFolder outputFolder d_name
  | .other _ => none
  | .unknown _ _ _ => none

/-- The `readdir` loop of `bulkSign` over the listing of the input folder: the
vector `allTasks`. -/
def bulkTasks {W : Type} (S : MainSys W) (w : W) (inputFolder outputFolder : Str) :
    List DirEnt → List SigningTask
  | [] => []
  | ent :: more =>
    (taskOfDirEnt S w inputFolder outputFolder ent).toList ++
      bulkTasks S w inputFolder outputFolder more

/-- The number of workers `bulkSign` starts: `threadCount` after the
auto-detection and after `min(threadCount, (int)allTasks.size())`. The
conversions of the `unsigned` hardware concurrency and of the `size_t` size to
`int` keep the low 32 bits. -/
def workerCount (threadCount : Int) (hardware_concurrency nTasks : Nat) : Int :=
  min
    (if threadCount ≤ 0 then
      (if ofBits (hardware_concurrency % 4294967296) ≤ 0 then 2
        else ofBits (hardware_concurrency % 4294967296))
     else threadCount)
    (ofBits (nTasks % 4294967296))

/-- The calls a run of `processFile` makes that change the world, in the order
it makes them. -/
inductive ProcOp where
  /-- `RemoveFolder(path)`. -/
  | removeFolder (path : Str)
  /-- The `unzip` of the input into the folder, and its result. -/
  | unzip (folder input : Str) (ok : Bool)
  /-- A call made by `SignFolder` on the folder. -/
  | sign (folder : Str) (op : FolderOp)
  /-- `RemoveFile(path)`. -/
  | removeFile (path : Str)
  /-- The `zip` of `Payload` below the folder into the output file. -/
  | zip (baseFolder output : Str)

/-- The member `m_strAppFolder` of the bundle after `SignFolder`: empty, as
constructed, when the call returns before `FindAppFolder` or when that fails,
the app folder found otherwise. -/
def appFolderAfter {W : Type} (S : FolderSys W) (pSignAsset : Option arksigningAsset)
    (strFolder : Str) (w : W) : Str :=
  match pSignAsset with
  | none => []
  | some _ => (FindAppFolder strFolder ((S.fs w).dir strFolder) []).2

/-- The folder `processFile` signs: for a zip file the temp directory
`/tmp/arksigning_folder_<timer value>`, otherwise the input path. -/
def workFolderOf {W : Type} (S : MainSys W) (task : SigningTask) (w : W) : Str :=
  if task.isZipFile then "/tmp/arksigning_folder_".toList ++ Nat.toDigits 10 (S.clock w)
  else task.inputPath

/-- The part of `processFile` after `SignFolder` has returned true with an
output path given: the archive is made from the directory above `/Payload`.
The result is false when `processFile` returns false here, and the calls made
come with it. -/
def archiveStep {W : Type} (S : MainSys W) (m_strAppFolder outputPath : Str) (uZipLevel : Nat)
    (w : W) : Bool × W × List ProcOp :=
  match rfind m_strAppFolder "/Payload".toList with
  | none => (false, w, [])
  | some pos =>
    match S.getcwd w with
    | none => (true, w, [])
    | some szOldFolder =>
      match S.chdir w (m_strAppFolder.take pos) with
      | (false, w1) => (true, w1, [])
      | (true, w1) =>
        let w2 := (S.removeFile w1 outputPath).2
        let w3 := S.zip w2 uZipLevel outputPath
        let w4 := (S.chdir w3 szOldFolder).2
        (S.fileExists w4 outputPath, w4,
          [.removeFile outputPath, .zip (m_strAppFolder.take pos) outputPath])

/-- `processFile(task, pSignAsset, bForce, bWeakInject, bDontEmbedProfile,
arrDyLibFiles, .., uZipLevel, completedTasks, ..)` from state `w`: the result,
the final state, the value of `completedTasks` afterwards and the calls made,
in order. -/
def processFile {W : Type} (S : MainSys W) (L : Lib) (task : SigningTask)
    (pSignAsset : Option arksigningAsset) (bForce bWeakInject bDontEmbedProfile : Bool)
    (arrDyLibFiles : List Str) (uZipLevel : Nat) (completedTasks : Int) (w : W) :
    Bool × W × Int × List ProcOp :=
  let strFolder := workFolderOf S task w
  match (if task.isZipFile then
      ((S.unzip (S.removeFolder w strFolder) strFolder task.inputPath).1,
       (S.unzip (S.removeFolder w strFolder) strFolder task.inputPath).2,
       [ProcOp.removeFolder strFolder,
        ProcOp.unzip strFolder task.inputPath
          (S.unzip (S.removeFolder w strFolder) strFolder task.inputPath).1])
    else (true, w, [])) with
  | (false, w1, ops1) =>
    (false, S.removeFolder w1 strFolder, completedTasks + 1,
      ops1 ++ [.removeFolder strFolder])
  | (true, w1, ops1) =>
    match SignFolder S.toFolderSys L pSignAsset strFolder arrDyLibFiles bForce bWeakInject
        (!task.isZipFile) bDontEmbedProfile w1 with
    | (bRet, w2, fops) =>
      match (if bRet ∧ task.outputPath ≠ [] then
          archiveStep S (appFolderAfter S.toFolderSys pSignAsset strFolder w1) task.outputPath
            uZipLevel w2
        else (true, w2, [])) with
      | (false, w3, ops3) =>
        (false, w3, completedTasks + 1, ops1 ++ fops.map (ProcOp.sign strFolder) ++ ops3)
      | (true, w3, ops3) =>
        if task.isZipFile ∧ "/tmp/arksigning_folder_".toList <+: strFolder then
          (bRet, S.removeFolder w3 strFolder, completedTasks + 1,
            ops1 ++ fops.map (ProcOp.sign strFolder) ++ ops3 ++ [.removeFolder strFolder])
        else
          (bRet, w3, completedTasks + 1, ops1 ++ fops.map (ProcOp.sign strFolder) ++ ops3)

/-- Whether the calls leave the folder behind (written from the claim about the
cleanup): true when the last call that writes into the folder, by unzipping
into it or by signing in it, is not followed by a `RemoveFolder` of it. The
argument `dirty` tells whether the folder has been written to since its last
removal. -/
def leftBehind (folder : Str) : List ProcOp → Bool → Bool
  | [], dirty => dirty
  | .removeFolder path :: more, dirty =>
    leftBehind folder more (if path = folder then false else dirty)
  | .unzip f _ _ :: more, dirty => leftBehind folder more (if f = folder then true else dirty)
  | .sign f _ :: more, dirty => leftBehind folder more (if f = folder then true else dirty)
  | .removeFile _ :: more, dirty => leftBehind folder more dirty
  | .zip _ _ :: more, dirty => leftBehind folder more dirty

/-- The state of a run of the workers of `bulkSign`: the world, the task queue,
the task each busy worker holds, the two counters, the calls of
`reportSigningProgress` (file name, `current`, total) and the result of each
call of `processFile`, both in the order made. -/
structure BulkState (W : Type) where
  w : W
  taskQueue : List SigningTask
  busy : List (Nat × SigningTask)
  completedTasks : Int
  successfulTasks : Int
  progress : List (Str × Int × Int)
  results : List (SigningTask × Bool)

/-- A step of a worker of `bulkSign`. The workers run side by side; a run is
given by the order in which their steps take effect. `pop i`: worker `i` takes
a task off the queue, increments `completedTasks` and reports the progress.
`run i`: worker `i` finishes `processFile` on its task, taken as one step, and
counts the success. -/
inductive WorkerStep where
  | pop (i : Nat)
  | run (i : Nat)

/-- The effect of one step of a worker on the state; a step that the worker
cannot make (no such worker, nothing to pop, nothing held) leaves the state as
it is. -/
def workerStep {W : Type} (S : MainSys W) (L : Lib) (pSignAsset : Option arksigningAsset)
    (bForce bWeakInject bDontEmbedProfile : Bool) (arrDyLibFiles : List Str) (uZipLevel : Nat)
    (threadCount : Int) (total : Nat) : WorkerStep → BulkState W → BulkState W
  | .pop i, st =>
    if (i : Int) < threadCount ∧ (st.busy.lookup i).isNone then
      match st.taskQueue with
      | [] => st
      | task :: rest =>
        { st with
          taskQueue := rest
          busy := (i, task) :: st.busy
          completedTasks := st.completedTasks + 1
          progress := st.progress ++ [(task.inputPath, st.completedTasks + 1, (total : Int))] }
    else st
  | .run i, st =>
    match st.busy.lookup i with
    | none => st
    | some task =>
      match processFile S L task pSignAsset bForce bWeakInject bDontEmbedProfile arrDyLibFiles
          uZipLevel st.completedTasks st.w with
      | (success, w1, completed1, _) =>
        { st with
          w := w1
          busy := st.busy.filter (fun e => decide (e.1 ≠ i))
          completedTasks := completed1
          successfulTasks := if success then st.successfulTasks + 1 else st.successfulTasks
          results := st.results ++ [(task, success)] }

/-- The run of one worker that takes the tasks one after the other. -/
def sequentialSchedule : Nat → List WorkerStep
  | 0 => []
  | n + 1 => .pop 0 :: .run 0 :: sequentialSchedule n

/-- The vector `allTasks` of `bulkSign` in the state `w` after the output folder
has been created. -/
def allTasksOf {W : Type} (S : MainSys W) (inputFolder outputFolder : Str) (w : W) :
    List SigningTask :=
  bulkTasks S w inputFolder outputFolder ((S.fs w).dir inputFolder)

/-- The state in which the workers of `bulkSign` start. -/
def bulkStart {W : Type} (allTasks : List SigningTask) (w : W) : BulkState W :=
  ⟨w, allTasks, [], 0, 0, [], []⟩

/-- `bulkSign(inputFolder, outputFolder, pSignAsset, .., uZipLevel, threadCount)`
from state `w`, for a given order of the steps of its workers: the result and
the state of the workers at the end. The function returns only when the queue
is empty and every worker has finished its task; an order of steps that does
not get there gives `none`. -/
def bulkSign {W : Type} (S : MainSys W) (L : Lib) (inputFolder outputFolder : Str)
    (pSignAsset : Option arksigningAsset) (bForce bWeakInject bDontEmbedProfile : Bool)
    (arrDyLibFiles : List Str) (uZipLevel : Nat) (threadCount : Int)
    (schedule : List WorkerStep) (w : W) : Option (Bool × BulkState W) :=
  let w1 := S.createFolder w outputFolder
  let allTasks := allTasksOf S inputFolder outputFolder w1
  if allTasks.isEmpty then some (false, bulkStart [] w1)
  else
    let st := schedule.foldl
      (fun st step => workerStep S L pSignAsset bForce bWeakInject bDontEmbedProfile
        arrDyLibFiles uZipLevel (workerCount threadCount S.hardware_concurrency allTasks.length)
        allTasks.length step st)
      (bulkStart allTasks w1)
    if st.taskQueue.isEmpty && st.busy.isEmpty then
      some (decide (st.successfulTasks = (allTasks.length : Int)), st)
    else none

/-- One option as `getopt_long` hands it to the loop of `main`, with its
argument; `I` comes with `argv[optind]`, the argument that follows it, and
`h` stands for `-h` and for an option that is not recognised. -/
inductive Arg where
  | d | f | c (s : Str) | k (s : Str) | m (s : Str) | p (s : Str) | b (s : Str)
  | r (s : Str) | n (s : Str) | e (s : Str) | l (s : Str) | i | o (s : Str)
  | z (level : Nat) | w | E | q | v | B
  | inputfolder (s : Str) | outputfolder (s : Str) | parallel (threads : Option Int)
  | h | I (path : Str)

/-- The local variables of `main` that the options set, and `isDebug`: whether
the log level of `ZLog` is `E_DEBUG`, which `-d` makes it and `-q` unmakes. -/
structure MainVars where
  isDebug : Bool := false
  bForce : Bool := false
  bInstall : Bool := false
  bWeakInject : Bool := false
  bDontEmbedProfile : Bool := false
  bBulkMode : Bool := false
  uZipLevel : Nat := 0
  strCertFile : Str := []
  strPKeyFile : Str := []
  strProvFile : Str := []
  strPassword : Str := []
  strBundleId : Str := []
  strBundleVersion : Str := []
  strOutputFile : Str := []
  strDisplayName : Str := []
  strEntitlementsFile : Str := []
  strInputFolder : Str := []
  strOutputFolder : Str := []
  nParallelThreads : Int := 0
  arrDyLibFiles : List Str := []

/-- The case `'I'` of the option loop of `main`: the exit code and the state
afterwards. The result of `GetAppInfoJson` decides only what is printed. -/
def mainInfo {W : Type} (S : MainSys W) (path : Str) (w : W) : Int × W :=
  let strPath := S.canonicalize w path
  if !S.isFolder w strPath && !S.isZipFile w strPath then (-1, w)
  else if S.isZipFile w strPath then
    let strFolder := "/tmp/arksigning_info_".toList ++ Nat.toDigits 10 (S.clock w)
    match S.unzip (S.removeFolder w strFolder) strFolder strPath with
    | (false, w1) => (-1, S.removeFolder w1 strFolder)
    | (true, w1) => (0, S.removeFolder w1 strFolder)
  else
    (0, if "/tmp/arksigning_info_".toList <+: strPath then S.removeFolder w strPath else w)

/-- The option loop of `main`: either the exit code of a `return` inside the
loop, with the state then, or the variables as the options leave them. -/
def parseArgs {W : Type} (S : MainSys W) (w : W) : List Arg → MainVars → (Int × W) ⊕ MainVars
  | [], vars => .inr vars
  | .d :: more, vars => parseArgs S w more { vars with isDebug := true }
  | .f :: more, vars => parseArgs S w more { vars with bForce := true }
  | .c s :: more, vars => parseArgs S w more { vars with strCertFile := s }
  | .k s :: more, vars => parseArgs S w more { vars with strPKeyFile := s }
  | .m s :: more, vars => parseArgs S w more { vars with strProvFile := s }
  | .p s :: more, vars => parseArgs S w more { vars with strPassword := s }
  | .b s :: more, vars => parseArgs S w more { vars with strBundleId := s }
  | .r s :: more, vars => parseArgs S w more { vars with strBundleVersion := s }
  | .n s :: more, vars => parseArgs S w more { vars with strDisplayName := s }
  | .e s :: more, vars => parseArgs S w more { vars with strEntitlementsFile := s }
  | .l s :: more, vars =>
    parseArgs S w more { vars with arrDyLibFiles := vars.arrDyLibFiles ++ [s] }
  | .i :: more, vars => parseArgs S w more { vars with bInstall := true }
  | .o s :: more, vars => parseArgs S w more { vars with strOutputFile := S.canonicalize w s }
  | .z level :: more, vars => parseArgs S w more { vars with uZipLevel := level }
  | .w :: more, vars => parseArgs S w more { vars with bWeakInject := true }
  | .E :: more, vars => parseArgs S w more { vars with bDontEmbedProfile := true }
  | .q :: more, vars => parseArgs S w more { vars with isDebug := false }
  | .v :: _, _ => .inl (0, w)
  | .B :: more, vars => parseArgs S w more { vars with bBulkMode := true }
  | .inputfolder s :: more, vars =>
    parseArgs S w more { vars with strInputFolder := S.canonicalize w s }
  | .outputfolder s :: more, vars =>
    parseArgs S w more { vars with strOutputFolder := S.canonicalize w s }
  | .parallel (some threads) :: more, vars =>
    parseArgs S w more { vars with nParallelThreads := threads }
  | .parallel none :: more, vars => parseArgs S w more { vars with nParallelThreads := -1 }
  | .h :: _, _ => .inl (-1, w)
  | .I path :: _, _ => .inl (mainInfo S path w)

/-- The branch `if (bBulkMode)` of `main`: the exit code and the state
afterwards, `none` when the order of the workers' steps does not let `bulkSign`
return. -/
def mainBulk {W : Type} (S : MainSys W) (L : Lib) (vars : MainVars)
    (schedule : List WorkerStep) (w : W) : Option (Int × W) :=
  if vars.strInputFolder = [] ∨ vars.strOutputFolder = [] then some (-1, w)
  else if !S.isFolder w vars.strInputFolder then some (-1, w)
  else
    match S.assetInit w vars.strCertFile vars.strPKeyFile vars.strProvFile
        vars.strEntitlementsFile vars.strPassword with
    | none => some (-1, w)
    | some asset =>
      match bulkSign S L vars.strInputFolder vars.strOutputFolder (some asset) vars.bForce
          vars.bWeakInject vars.bDontEmbedProfile vars.arrDyLibFiles vars.uZipLevel
          vars.nParallelThreads schedule w with
      | none => none
      | some (bSuccess, st) => some (if bSuccess then 0 else -1, st.w)

/-- The branch of `main` for a file that is neither a folder nor a zip file: it
is opened as a Mach-O image, the dylibs are injected or the information is
printed, and `main` returns 0 in every case. -/
def mainMachO {W : Type} (S : MainSys W) (vars : MainVars) (strPath : Str) (w : W) : Int × W :=
  if S.machoInit w strPath then
    (0, (vars.arrDyLibFiles.foldl
      (fun (st : Bool × W) dyLibFile =>
        S.machoInject st.2 strPath vars.bWeakInject dyLibFile st.1) (false, w)).2)
  else (0, w)

/-- The call of `SignFolder` in `main` on the folder `strFolder`. -/
def mainSignFolder {W : Type} (S : MainSys W) (L : Lib) (vars : MainVars)
    (asset : arksigningAsset) (strFolder : Str) (bForce bEnableCache : Bool) (w : W) :
    Bool × W × List FolderOp :=
  SignFolder S.toFolderSys L (some asset) strFolder vars.arrDyLibFiles bForce
    vars.bWeakInject bEnableCache vars.bDontEmbedProfile w

/-- The value of `strOutputFile` in `main` after `SignFolder` has returned in
state `w`: the file given with `-o`, or `/tmp/arksigning_temp_<time>.ipa` when
`-i` is given and `-o` is not. -/
def outputFileOf {W : Type} (S : MainSys W) (vars : MainVars) (w : W) : Str :=
  if vars.bInstall ∧ vars.strOutputFile = [] then
    "/tmp/arksigning_temp_".toList ++ Nat.toDigits 10 (S.clock w) ++ ".ipa".toList
  else vars.strOutputFile

/-- The block `if (!strOutputFile.empty())` of `main`, entered in state `w1`
after `SignFolder` was called on `strFolder` in state `w`: the archive is made
as in `processFile`, with the zip level capped at 9. -/
def mainArchive {W : Type} (S : MainSys W) (vars : MainVars) (asset : arksigningAsset)
    (strFolder : Str) (w w1 : W) : Bool × W × List ProcOp :=
  archiveStep S (appFolderAfter S.toFolderSys (some asset) strFolder w) (outputFileOf S vars w1)
    (if vars.uZipLevel > 9 then 9 else vars.uZipLevel) w1

/-- The end of `main`, from the call of `SignFolder` on, for the folder
`strFolder` with the identity loaded. -/
def mainSign {W : Type} (S : MainSys W) (L : Lib) (vars : MainVars) (asset : arksigningAsset)
    (strFolder : Str) (bForce bEnableCache : Bool) (w : W) : Int × W :=
  match mainSignFolder S L vars asset strFolder bForce bEnableCache w with
  | (bRet, w1, _) =>
    match (if outputFileOf S vars w1 ≠ [] then mainArchive S vars asset strFolder w w1
      else (true, w1, [])) with
    | (false, w2, _) => (-1, w2)
    | (true, w2, _) =>
      let w3 := if bRet ∧ vars.bInstall then S.install w2 (outputFileOf S vars w1) else w2
      let w4 :=
        if "/tmp/arksigning_tmp_".toList <+: outputFileOf S vars w1 then
          (S.removeFile w3 (outputFileOf S vars w1)).2
        else w3
      let w5 :=
        if "/tmp/arksigning_folder_".toList <+: strFolder then S.removeFolder w4 strFolder
        else w4
      (if bRet then 0 else -1, w5)

/-- The part of `main` that follows the test of the path and the creation of
the debug folder: the Mach-O branch for a file that is neither a folder nor a
zip file, and otherwise the loading of the identity, the unzipping of a zip
file and the signing. -/
def mainPath {W : Type} (S : MainSys W) (L : Lib) (vars : MainVars) (strPath : Str) (w : W) :
    Int × W :=
  if !S.isFolder w strPath && !S.isZipFile w strPath then mainMachO S vars strPath w
  else
    match S.assetInit w vars.strCertFile vars.strPKeyFile vars.strProvFile
        vars.strEntitlementsFile vars.strPassword with
    | none => (-1, w)
    | some asset =>
      if !S.isFolder w strPath then
        let strFolder := "/tmp/arksigning_folder_".toList ++ Nat.toDigits 10 (S.clock w)
        match S.unzip (S.removeFolder w strFolder) strFolder strPath with
        | (false, w1) => (-1, S.removeFolder w1 strFolder)
        | (true, w1) => mainSign S L vars asset strFolder true false w1
      else mainSign S L vars asset strPath vars.bForce true w

/-- The state after the block `if (ZLog::IsDebug())` of `main`, which creates
the folder `./.arksigning_debug`. -/
def withDebugFolder {W : Type} (S : MainSys W) (vars : MainVars) (w : W) : W :=
  if vars.isDebug then S.createFolder w "./.arksigning_debug".toList else w

/-- The function `main` on the options as `getopt_long` reports them and the
first argument after the options, if there is one: the exit code and the final
state, `none` when the order of the workers' steps does not let `bulkSign`
return. -/
def main {W : Type} (S : MainSys W) (L : Lib) (args : List Arg) (argPath : Option Str)
    (schedule : List WorkerStep) (w : W) : Option (Int × W) :=
  match parseArgs S w args {} with
  | .inl r => some r
  | .inr vars =>
    if vars.bBulkMode then mainBulk S L vars schedule w
    else
      match argPath with
      | none => some (-1, w)
      | some path =>
        let strPath := S.canonicalize w path
        if !S.fileExists w strPath then some (-1, w)
        else some (mainPath S L vars strPath (withDebugFolder S vars w))

/-- The listing of `folder` in a world given as a list of files, with its
sub-directories down to the given depth: a name directly below the folder is a
regular file when the world has a file of that path, and a directory
otherwise. -/
def listTree : Nat → List (Str × Str) → Str → List DirEnt
  | 0, _, _ => []
  | depth + 1, w, folder =>
    ((w.filterMap (fun e =>
        if (folder ++ "/".toList) <+: e.1 then
          some ((e.1.drop (folder.length + 1)).takeWhile (fun c => c ≠ '/'))
        else none)).eraseDups).map (fun d_name =>
      if (fileAt w (folder ++ "/".toList ++ d_name)).isSome then DirEnt.reg d_name
      else DirEnt.dir d_name (listTree depth w (folder ++ "/".toList ++ d_name)))

/-- A world for the examples of `zsign.cpp`: the example world of `SignFolder`
with listings that show sub-directories. A file is a zip file when its
contents begin with `zip:`; unzipping `zip:payload` gives `Payload/Demo.app`
with an `Info.plist` and the executable `Demo`, unzipping `zip:bare` gives
`Demo.app` with the same files and no `Payload` directory, and unzipping
anything else fails. Every identity loads unless no key file is named. -/
def exampleMainWorld : MainSys (List (Str × Str)) where
  fs := fun w => { dir := listTree 6 w, read := fileAt w }
  machoInit := exampleWorld.machoInit
  machoSign := exampleWorld.machoSign
  machoInject := exampleWorld.machoInject
  createFolder := exampleWorld.createFolder
  writeFile := exampleWorld.writeFile
  fileExists := exampleWorld.fileExists
  removeFile := exampleWorld.removeFile
  readCache := exampleWorld.readCache
  writeCache := exampleWorld.writeCache
  isFolder := fun w p => w.any (fun e => decide ((p ++ "/".toList) <+: e.1))
  isZipFile := fun w p =>
    match fileAt w p with
    | some d => decide ("zip:".toList <+: d)
    | none => false
  removeFolder := fun w p => w.filter (fun e => !decide ((p ++ "/".toList) <+: e.1))
  unzip := fun w folder input =>
    if fileAt w input = some "zip:payload".toList then
      (true, putFile (putFile w (folder ++ "/Payload/Demo.app/Info.plist".toList) "info".toList)
        (folder ++ "/Payload/Demo.app/Demo".toList) "macho app".toList)
    else if fileAt w input = some "zip:bare".toList then
      (true, putFile (putFile w (folder ++ "/Demo.app/Info.plist".toList) "info".toList)
        (folder ++ "/Demo.app/Demo".toList) "macho app".toList)
    else (false, w)
  getcwd := fun _ => some "/work".toList
  chdir := fun w _ => (true, w)
  zip := fun w _ output => putFile w output "ipa".toList
  clock := fun _ => 7
  canonicalize := fun _ p => p
  assetInit := fun _ _ pkey _ _ _ => if pkey = [] then none else some exampleAsset
  install := fun w _ => w
  hardware_concurrency := 4

/-- The input folder `/in` of the batch examples: the zip file `App.ipa`, the
folder `App` with `Payload/Demo.app`, and the zip file `Bare.ipa` whose app is
not below a `Payload` directory. -/
def exampleInput : List (Str × Str) :=
  [("/in/App.ipa".toList, "zip:payload".toList),
   ("/in/App/Payload/Demo.app/Info.plist".toList, "info".toList),
   ("/in/App/Payload/Demo.app/Demo".toList, "macho app".toList),
   ("/in/Bare.ipa".toList, "zip:bare".toList)]

/-- The input folder `/inbox` of the naming examples: the app folder
`Demo.app` and the zip file `Old.zip`. -/
def exampleInbox2 : List (Str × Str) :=
  [("/inbox/Demo.app/Info.plist".toList, "info".toList),
   ("/inbox/Demo.app/Demo".toList, "macho app".toList),
   ("/inbox/Old.zip".toList, "zip:payload".toList)]

/-- The example world of `zsign.cpp` with a `zip` command that produces no
archive. -/
def exampleNoZipWorld : MainSys (List (Str × Str)) :=
  { exampleMainWorld with zip := fun w _ _ => w }

/-- What holds of the state of the workers at every point of a run over the
tasks `allTasks` (written from the claim about the batch exit code): no worker
holds two tasks; the tasks in the queue, the tasks held by a worker and the
tasks with a result are together the tasks of `allTasks`; `successfulTasks`
counts the results that are true; and every result is the result of a call of
`processFile` on its task. -/
structure BulkInv {W : Type} (S : MainSys W) (L : Lib) (pSignAsset : Option arksigningAsset)
    (bForce bWeakInject bDontEmbedProfile : Bool) (arrDyLibFiles : List Str) (uZipLevel : Nat)
    (allTasks : List SigningTask) (st : BulkState W) : Prop where
  nodup : (st.busy.map Prod.fst).Nodup
  perm : List.Perm (st.taskQueue ++ st.busy.map Prod.snd ++ st.results.map Prod.fst) allTasks
  count : st.successfulTasks = ((st.results.filter (fun x => x.2)).length : Int)
  outcome : ∀ x ∈ st.results, ∃ (c : Int) (w : W),
    x.2 = (processFile S L x.1 pSignAsset bForce bWeakInject bDontEmbedProfile arrDyLibFiles
      uZipLevel c w).1

/-- The signing of the folder and the archiving of the result succeed in `main`
(written from the claim about the exit code): `SignFolder` returns true and,
when there is an output file, the app folder lies below a `Payload` directory
and the output file exists once the archive step is over. -/
def signedAndArchived {W : Type} (S : MainSys W) (L : Lib) (vars : MainVars)
    (asset : arksigningAsset) (strFolder : Str) (bForce bEnableCache : Bool) (w : W) : Prop :=
  (mainSignFolder S L vars asset strFolder bForce bEnableCache w).1 = true ∧
  (outputFileOf S vars (mainSignFolder S L vars asset strFolder bForce bEnableCache w).2.1 ≠ [] →
    (rfind (appFolderAfter S.toFolderSys (some asset) strFolder w) "/Payload".toList).isSome
      = true ∧
    S.fileExists
      (mainArchive S vars asset strFolder w
        (mainSignFolder S L vars asset strFolder bForce bEnableCache w).2.1).2.1
      (outputFileOf S vars (mainSignFolder S L vars asset strFolder bForce bEnableCache w).2.1)
      = true)

/-- Every step of `main` on a folder or a zip file succeeds (written from the
claim about the exit code): the identity loads; a folder is signed and
archived, with the cache in use; a zip file is unzipped into the temp
directory, and the folder it gives is signed and archived, by force and
without the cache. -/
def signSteps {W : Type} (S : MainSys W) (L : Lib) (vars : MainVars) (strPath : Str) (w : W) :
    Prop :=
  ∃ asset, S.assetInit w vars.strCertFile vars.strPKeyFile vars.strProvFile
      vars.strEntitlementsFile vars.strPassword = some asset ∧
    ((S.isFolder w strPath = true ∧
        signedAndArchived S L vars asset strPath vars.bForce true w) ∨
     (S.isFolder w strPath = false ∧
        (S.unzip (S.removeFolder w
          ("/tmp/arksigning_folder_".toList ++ Nat.toDigits 10 (S.clock w)))
          ("/tmp/arksigning_folder_".toList ++ Nat.toDigits 10 (S.clock w)) strPath).1 = true ∧
        signedAndArchived S L vars asset
          ("/tmp/arksigning_folder_".toList ++ Nat.toDigits 10 (S.clock w)) true false
          (S.unzip (S.removeFolder w
            ("/tmp/arksigning_folder_".toList ++ Nat.toDigits 10 (S.clock w)))
            ("/tmp/arksigning_folder_".toList ++ Nat.toDigits 10 (S.clock w)) strPath).2))

/-- Every step of `main` in batch mode succeeds, for a given order of the
workers' steps (written from the claim about the exit code): both folders are
named and the input folder is one; the identity loads; there is a task; and
`bulkSign` returns with a result for every task, each the result true of a
call of `processFile` on the task. -/
def bulkSteps {W : Type} (S : MainSys W) (L : Lib) (vars : MainVars)
    (schedule : List WorkerStep) (w : W) : Prop :=
  vars.strInputFolder ≠ [] ∧ vars.strOutputFolder ≠ [] ∧
  S.isFolder w vars.strInputFolder = true ∧
  ∃ asset, S.assetInit w vars.strCertFile vars.strPKeyFile vars.strProvFile
      vars.strEntitlementsFile vars.strPassword = some asset ∧
    allTasksOf S vars.strInputFolder vars.strOutputFolder
      (S.createFolder w vars.strOutputFolder) ≠ [] ∧
    ∃ (b : Bool) (st : BulkState W),
      bulkSign S L vars.strInputFolder vars.strOutputFolder (some asset) vars.bForce
        vars.bWeakInject vars.bDontEmbedProfile vars.arrDyLibFiles vars.uZipLevel
        vars.nParallelThreads schedule w = some (b, st) ∧
      List.Perm (st.results.map Prod.fst)
        (allTasksOf S vars.strInputFolder vars.strOutputFolder
          (S.createFolder w vars.strOutputFolder)) ∧
      ∀ x ∈ st.results, x.2 = true ∧ ∃ (c : Int) (w2 : W),
        (processFile S L x.1 (some asset) vars.bForce vars.bWeakInject vars.bDontEmbedProfile
          vars.arrDyLibFiles vars.uZipLevel c w2).1 = true

/-! ## `core/bundle.cpp`: the change-sets of a discovered tree -/

mutual
/-- The entries of a node's tree lie below the node's path: the node has no
change-set yet, every entry of its `files` begins with its path followed by
`/`, and so does the path of every sub-bundle, for which the same holds in
turn. -/
def Node.rooted : Node → Bool
  | .mk path _ _ _ _ files changed folders =>
    changed.isEmpty && files.all (fun f => decide ((path ++ "/".toList) <+: f)) &&
      Node.rootedList path folders
/-- The nodes of the list lie below the path `P` and are rooted. -/
def Node.rootedList (P : Str) : List Node → Bool
  | [] => true
  | c :: more =>
    decide ((P ++ "/".toList) <+: c.path) && Node.rooted c && Node.rootedList P more
end

/-- The tree that `SignFolder` builds for the example app of the discovery
examples with the flag off. -/
def exampleDiscovered : Node :=
  GetNodeChangedFiles false
    (GetObjectsToSign exampleAppLib exampleAppFs "/app".toList "/app".toList exampleAppListing
      (nodeOfInfo "/".toList
        (GetSignFolderInfo exampleAppLib exampleAppFs "/app".toList
          ((JValue.null.set "path".toList (.str "/".toList)).set "root".toList
            (.str "/app".toList)) true).2))

/-- The node of `Frameworks/F.framework` in that tree. -/
def exampleFrameworkNode : Node :=
  GetNodeChangedFiles false
    (bundleNode exampleAppLib exampleAppFs "/app".toList
      ("Frameworks/F.framework".toList,
        [.reg "Info.plist".toList, .reg "F".toList, .reg "lib.dylib".toList]))

/-! ## Further examples for the manifest -/

/-- A folder with a listed file that cannot be read: `/app` holds `Info.plist`,
the executable `Demo` and `icon.png`, and reading `icon.png` fails. -/
def exampleUnreadableFs : FileSys where
  dir := fun p =>
    if p = "/app".toList then
      [.reg "Info.plist".toList, .reg "Demo".toList, .reg "icon.png".toList]
    else []
  read := fun p => if p = "/app/icon.png".toList then none else some p

/-- The world of `exampleSys` over the folder with the unreadable file. -/
def exampleUnreadableSys : Sys Nat where
  fs := fun _ => exampleUnreadableFs
  machoInit := fun _ _ => true
  machoSign := fun w _ _ _ _ _ _ => (true, w + 1)
  machoInject := fun w _ _ _ b => (b, w + 1)
  createFolder := fun w _ => w
  writeFile := fun w _ _ => (true, w + 1)

/-- The call writes a manifest whose `files` entry for the key is the rule
string `data:` with no digest after it. -/
def Op.writesEmptyHash (strKey : Str) : Op → Bool
  | .writeCodeRes _ jvCodeRes =>
    match (jvCodeRes.get "files".toList).find? strKey with
    | some (.str s) => decide (s = "data:".toList)
    | _ => false
  | _ => false

/-- The call writes a manifest. -/
def Op.isWrite : Op → Bool
  | .writeCodeRes _ _ => true
  | _ => false

/-- The call writes a cache file. -/
def FolderOp.isWriteCache : FolderOp → Bool
  | .writeCache _ _ => true
  | _ => false

/-- The app folder of the examples as it was when its manifest was generated:
`/app` holds `Info.plist`, the executable `Demo`, `icon.png` and `a.txt`, and
every file reads as its own path. -/
def exampleOldFs : FileSys where
  dir := fun p =>
    if p = "/app".toList then
      [.reg "Info.plist".toList, .reg "Demo".toList, .reg "icon.png".toList,
       .reg "a.txt".toList]
    else []
  read := fun p => some p

/-- The same folder later: `icon.png` has new contents and `b.txt` has been
added. -/
def exampleNewFs : FileSys where
  dir := fun p =>
    if p = "/app".toList then
      [.reg "Info.plist".toList, .reg "Demo".toList, .reg "icon.png".toList,
       .reg "a.txt".toList, .reg "b.txt".toList]
    else []
  read := fun p => if p = "/app/icon.png".toList then some "new icon".toList else some p

/-- The library of the examples with a plist reader that yields, for the prior
`CodeResources` of `/app`, the manifest generated from the earlier folder. -/
def exampleManifestLib : Lib where
  sha1 := exampleLib.sha1
  sha256 := exampleLib.sha256
  readPList := fun d =>
    if d = "/app/_CodeSignature/CodeResources".toList then
      GenerateCodeResources exampleLib exampleOldFs "/app".toList
    else exampleLib.readPList d
  writePList := exampleLib.writePList

/-- The world of `exampleSys` over the later folder. -/
def exampleNewSys : Sys Nat where
  fs := fun _ => exampleNewFs
  machoInit := fun _ _ => true
  machoSign := fun w _ _ _ _ _ _ => (true, w + 1)
  machoInject := fun w _ _ _ b => (b, w + 1)
  createFolder := fun w _ => w
  writeFile := fun w _ _ => (true, w + 1)

/-- The root node of the examples with the two files that differ in its
change-set. -/
def exampleChangedRoot : Node :=
  .mk "/".toList "com.example".toList "Demo".toList "QQ==".toList "QQ==".toList []
    ["icon.png".toList, "b.txt".toList] []

/-- The copy a call of `SignFolder` makes of a supplied dylib, if it is one: the
dylib, the path written and the data written. -/
def FolderOp.copied : FolderOp → Option (Str × Str × Str)
  | .copyDyLib strDyLibFile path data _ => some (strDyLibFile, path, data)
  | _ => none

/-- The copies of supplied dylibs made in a run of `SignFolder`, in order. -/
def copiesOf (ops : List FolderOp) : List (Str × Str × Str) := ops.filterMap FolderOp.copied

/-- The call is not a copy of a dylib that failed. -/
def FolderOp.copyOk : FolderOp → Bool
  | .copyDyLib _ _ _ ok => ok
  | _ => true

/-- The dylib of a copy that succeeded, if the call is one. -/
def FolderOp.copiedOk : FolderOp → Option Str
  | .copyDyLib strDyLibFile _ _ true => some strDyLibFile
  | _ => none

/-- The supplied dylibs whose copy succeeded in a run of `SignFolder`, in
order. -/
def okCopiesOf (ops : List FolderOp) : List Str := ops.filterMap FolderOp.copiedOk

/-! ## Properties of the Base64 primitives -/

theorem char_rfc : ∀ v < 64, GetB64char ((v : Nat) : Int) = rfcChar v := by decide

theorem index_rfcChar : ∀ v < 64, GetB64Index (rfcChar v) = ((v : Nat) : Int) := by decide

theorem rfcChar_ne_pad : ∀ v < 64, rfcChar v ≠ '=' := by decide

theorem rfcChar_ne_nul : ∀ v < 64, rfcChar v ≠ Char.ofNat 0 := by decide

theorem rfcChar_class : ∀ v < 64, (rfcChar v).isUpper = true ∨ (rfcChar v).isLower = true ∨
    (rfcChar v).isDigit = true ∨ rfcChar v = '+' ∨ rfcChar v = '/' := by decide

theorem or_low (a b : Nat) (k : Nat) (hb : b < 2 ^ k) : (2 ^ k * a) ||| b = 2 ^ k * a + b :=
  (Nat.mul_add_lt_is_or hb a).symm

theorem and63 (x : Nat) : x &&& 63 = x % 64 := Nat.and_pow_two_sub_one_eq_mod x 6

theorem encC0_eq (u0 : Nat) (h0 : u0 < 256) : encC0 u0 = rfcChar (u0 / 4) := by
  have h : (u0 >>> 2) &&& 0x3F = u0 / 4 := by
    rw [and63, Nat.shiftRight_eq_div_pow]; omega
  unfold encC0
  rw [h]
  exact char_rfc _ (by omega)

theorem encC1_eq (u0 u1 : Nat) (h1 : u1 < 256) :
    encC1 u0 u1 = rfcChar ((u0 % 4) * 16 + u1 / 16) := by
  have ha : u0 <<< 6 >>> 2 = 2 ^ 4 * u0 := by
    rw [Nat.shiftLeft_eq, Nat.shiftRight_eq_div_pow]; omega
  have hb : u1 >>> 4 = u1 / 16 := by rw [Nat.shiftRight_eq_div_pow]
  have h : ((u0 <<< 6 >>> 2) ||| (u1 >>> 4)) &&& 0x3F = (u0 % 4) * 16 + u1 / 16 := by
    rw [and63, ha, hb, or_low _ _ 4 (by omega)]; omega
  unfold encC1
  rw [h]
  exact char_rfc _ (by omega)

theorem encC2_eq (u1 u2 : Nat) (h2 : u2 < 256) :
    encC2 u1 u2 = rfcChar ((u1 % 16) * 4 + u2 / 64) := by
  have ha : u1 <<< 4 >>> 2 = 2 ^ 2 * u1 := by
    rw [Nat.shiftLeft_eq, Nat.shiftRight_eq_div_pow]; omega
  have hb : u2 >>> 6 = u2 / 64 := by rw [Nat.shiftRight_eq_div_pow]
  have h : ((u1 <<< 4 >>> 2) ||| (u2 >>> 6)) &&& 0x3F = (u1 % 16) * 4 + u2 / 64 := by
    rw [and63, ha, hb, or_low _ _ 2 (by omega)]; omega
  unfold encC2
  rw [h]
  exact char_rfc _ (by omega)

theorem encC3_eq (u2 : Nat) : encC3 u2 = rfcChar (u2 % 64) := by
  have h : (u2 <<< 2 >>> 2) &&& 0x3F = u2 % 64 := by
    rw [and63, Nat.shiftLeft_eq, Nat.shiftRight_eq_div_pow]; omega
  unfold encC3
  rw [h]
  exact char_rfc _ (by omega)

theorem rfcChar_ne_nl : ∀ v < 64, rfcChar v ≠ '\n' := by decide

theorem rfcChar_ne_cr : ∀ v < 64, rfcChar v ≠ '\r' := by decide

theorem rfc_arg (f : Nat → Char) {x y : Nat} (h : x = y) : f x = f y := by rw [h]

theorem encLoop_rfc (n : Int) : ∀ (k : Nat) (i : Int) (psrc : Bytes) (p64 : List Char),
    (psrc.length : Int) = n - i → psrc.length ≤ k → psrc ≠ [] → (∀ x ∈ psrc, x < 256) →
    encTail n (encLoop n k i psrc p64) = p64 ++ rfc4648 psrc := by
  intro k
  induction k with
  | zero =>
    intro i psrc p64 _ hk hne _
    exact absurd (List.length_eq_zero.mp (Nat.le_zero.mp hk)) hne
  | succ k ih =>
    intro i psrc p64 hlen hk hne hb
    rcases psrc with _ | ⟨a, _ | ⟨b, _ | ⟨c, rest⟩⟩⟩
    · exact absurd rfl hne
    · have ha : a < 256 := hb a (by simp)
      simp only [List.length_singleton, Nat.cast_one] at hlen
      have h1 : ¬ (i < n - 3) := by omega
      have h2 : i < n := by omega
      have h3 : n - i = 1 := by omega
      simp only [encLoop, h1, if_false, encTail, h2, if_true, h3, tailByte, rfc4648]
      norm_num
      rw [encC0_eq a ha, encC1_eq a 0 (by omega)]
      constructor
      · exact rfc_arg rfcChar (by omega)
      · exact rfc_arg rfcChar (by omega)
    · have ha : a < 256 := hb a (by simp)
      have hb2 : b < 256 := hb b (by simp)
      simp only [List.length_cons, List.length_nil] at hlen
      have h1 : ¬ (i < n - 3) := by omega
      have h2 : i < n := by omega
      have h3 : n - i = 2 := by omega
      simp only [encLoop, h1, if_false, encTail, h2, if_true, h3, tailByte, rfc4648]
      norm_num
      rw [encC0_eq a ha, encC1_eq a _ hb2, encC2_eq b 0 (by omega)]
      refine ⟨rfc_arg rfcChar (by omega), rfc_arg rfcChar (by omega), rfc_arg rfcChar (by omega)⟩
    · have ha : a < 256 := hb a (by simp)
      have hb2 : b < 256 := hb b (by simp)
      have hc : c < 256 := hb c (by simp)
      have hgrp : [encC0 a, encC1 a b, encC2 b c, encC3 c] =
          [rfcChar ((a * 65536 + b * 256 + c) / 262144 % 64),
           rfcChar ((a * 65536 + b * 256 + c) / 4096 % 64),
           rfcChar ((a * 65536 + b * 256 + c) / 64 % 64),
           rfcChar ((a * 65536 + b * 256 + c) % 64)] := by
        rw [encC0_eq a ha, encC1_eq a b hb2, encC2_eq b c hc, encC3_eq c]
        simp only [List.cons.injEq, and_true]
        refine ⟨rfc_arg rfcChar (by omega), rfc_arg rfcChar (by omega),
          rfc_arg rfcChar (by omega), rfc_arg rfcChar (by omega)⟩
      by_cases hr : rest = []
      · subst hr
        simp only [List.length_cons, List.length_nil] at hlen
        have h1 : ¬ (i < n - 3) := by omega
        have h2 : i < n := by omega
        have h3 : n - i = 3 := by omega
        simp only [encLoop, h1, if_false, encTail, h2, if_true, h3, tailByte, rfc4648]
        simp only [Nat.cast_zero, Nat.cast_one, Nat.cast_ofNat, List.getD_cons_zero,
          List.getD_cons_succ]
        simp
        have := hgrp
        simp only [List.cons.injEq, and_true] at this
        exact this
      · simp only [List.length_cons] at hlen hk
        have h1 : i < n - 3 := by
          have : 0 < rest.length := List.length_pos.mpr hr
          omega
        have hstep := ih (i + 3) rest (p64 ++ [encC0 a, encC1 a b, encC2 b c, encC3 c])
          (by omega) (by omega) hr (fun x hx => hb x (by simp [hx]))
        simp only [encLoop, h1, if_true, List.getD_cons_zero, List.getD_cons_succ, List.drop_succ_cons,
          List.drop_zero]
        rw [hstep, hgrp]
        simp [rfc4648]

theorem Encode_eq_rfc (b : Bytes) (hne : b ≠ []) (hb : ∀ x ∈ b, x < 256) :
    Encode b (b.length : Int) = rfc4648 b := by
  have hpos : 0 < b.length := List.length_pos.mpr hne
  have h0 : ¬ ((b.length : Int) = 0) := by omega
  have h1 : ¬ ((b.length : Int) ≤ 0) := by omega
  simp only [Encode, h0, if_false, h1]
  have := encLoop_rfc (b.length : Int) b.length 0 b [] (by simp) (by simp) hne hb
  simpa using this

/-- The shape of an RFC 4648 encoding: alphabet characters followed by the
padding, `4 * ceil(n / 3)` characters in all. -/
theorem rfc4648_shape : ∀ b : Bytes, ∃ body : List Char,
    rfc4648 b = body ++ List.replicate
      (if b.length % 3 = 1 then 2 else if b.length % 3 = 2 then 1 else 0) '=' ∧
    (rfc4648 b).length = 4 * ((b.length + 2) / 3) ∧
    ∀ c ∈ body, ∃ v, v < 64 ∧ c = rfcChar v := by
  intro b
  induction b using rfc4648.induct with
  | case1 => exact ⟨[], by simp [rfc4648]⟩
  | case2 a =>
    refine ⟨[rfcChar (a * 16 / 64 % 64), rfcChar (a * 16 % 64)], by simp [rfc4648], by simp [rfc4648], ?_⟩
    intro c hc
    simp only [List.mem_cons, List.mem_singleton, List.not_mem_nil, or_false] at hc
    rcases hc with rfl | rfl
    · exact ⟨_, Nat.mod_lt _ (by decide), rfl⟩
    · exact ⟨_, Nat.mod_lt _ (by decide), rfl⟩
  | case3 a b =>
    refine ⟨[rfcChar ((a * 256 + b) * 4 / 4096 % 64), rfcChar ((a * 256 + b) * 4 / 64 % 64),
      rfcChar ((a * 256 + b) * 4 % 64)], by simp [rfc4648], by simp [rfc4648], ?_⟩
    intro c hc
    simp only [List.mem_cons, List.mem_singleton, List.not_mem_nil, or_false] at hc
    rcases hc with rfl | rfl | rfl
    · exact ⟨_, Nat.mod_lt _ (by decide), rfl⟩
    · exact ⟨_, Nat.mod_lt _ (by decide), rfl⟩
    · exact ⟨_, Nat.mod_lt _ (by decide), rfl⟩
  | case4 a b c rest ih =>
    obtain ⟨body, h1, h2, h3⟩ := ih
    refine ⟨rfcChar ((a * 65536 + b * 256 + c) / 262144 % 64) ::
      rfcChar ((a * 65536 + b * 256 + c) / 4096 % 64) ::
      rfcChar ((a * 65536 + b * 256 + c) / 64 % 64) ::
      rfcChar ((a * 65536 + b * 256 + c) % 64) :: body, ?_, ?_, ?_⟩
    · have hm : (a :: b :: c :: rest).length % 3 = rest.length % 3 := by
        simp only [List.length_cons]; omega
      rw [hm]
      simp only [rfc4648, List.cons_append, List.cons.injEq, true_and]
      exact h1
    · simp only [rfc4648, List.length_cons, h2]; omega
    · intro x hx
      simp only [List.mem_cons] at hx
      rcases hx with rfl | rfl | rfl | rfl | hx
      · exact ⟨_, Nat.mod_lt _ (by decide), rfl⟩
      · exact ⟨_, Nat.mod_lt _ (by decide), rfl⟩
      · exact ⟨_, Nat.mod_lt _ (by decide), rfl⟩
      · exact ⟨_, Nat.mod_lt _ (by decide), rfl⟩
      · exact h3 x hx

/-- C5. `ZBase64::Encode`, called with the explicit length of a non-empty byte
sequence, returns its RFC 4648 Base64 encoding: `4 * ceil(n / 3)` characters,
all from `A-Z`, `a-z`, `0-9`, `+`, `/` except for the `=` padding that ends the
text (two when `n mod 3 = 1`, one when `n mod 3 = 2`, none otherwise), and no
line break. -/
theorem Encode_is_rfc4648 (b : Bytes) (hne : b ≠ []) (hb : ∀ x ∈ b, x < 256) :
    Encode b (b.length : Int) = rfc4648 b ∧
    (Encode b (b.length : Int)).length = 4 * ((b.length + 2) / 3) ∧
    (∃ body : List Char,
      Encode b (b.length : Int) = body ++ List.replicate
        (if b.length % 3 = 1 then 2 else if b.length % 3 = 2 then 1 else 0) '=' ∧
      ∀ c ∈ body, c.isUpper = true ∨ c.isLower = true ∨ c.isDigit = true ∨ c = '+' ∨ c = '/') ∧
    (∀ c ∈ Encode b (b.length : Int), c ≠ '\n' ∧ c ≠ '\r') := by
  have he := Encode_eq_rfc b hne hb
  obtain ⟨body, h1, h2, h3⟩ := rfc4648_shape b
  have hcls : ∀ c ∈ body,
      c.isUpper = true ∨ c.isLower = true ∨ c.isDigit = true ∨ c = '+' ∨ c = '/' := by
    intro c hc
    obtain ⟨v, hv, rfl⟩ := h3 c hc
    exact rfcChar_class v hv
  refine ⟨he, by rw [he]; exact h2, ⟨body, by rw [he]; exact h1, hcls⟩, ?_⟩
  intro c hc
  rw [he, h1, List.mem_append] at hc
  rcases hc with hc | hc
  · obtain ⟨v, hv, rfl⟩ := h3 c hc
    exact ⟨rfcChar_ne_nl v hv, rfcChar_ne_cr v hv⟩
  · have := (List.mem_replicate.mp hc).2
    subst this
    exact ⟨by decide, by decide⟩

/-- The encoding of the one byte `A` is `QQ==`. -/
theorem Encode_is_rfc4648_witness :
    Encode [65] (([65] : Bytes).length : Int) = rfc4648 [65] ∧
    (Encode [65] (([65] : Bytes).length : Int)).length = 4 * ((([65] : Bytes).length + 2) / 3) ∧
    (∃ body : List Char,
      Encode [65] (([65] : Bytes).length : Int) = body ++ List.replicate
        (if ([65] : Bytes).length % 3 = 1 then 2
          else if ([65] : Bytes).length % 3 = 2 then 1 else 0) '=' ∧
      ∀ c ∈ body, c.isUpper = true ∨ c.isLower = true ∨ c.isDigit = true ∨ c = '+' ∨ c = '/') ∧
    (∀ c ∈ Encode [65] (([65] : Bytes).length : Int), c ≠ '\n' ∧ c ≠ '\r') :=
  Encode_is_rfc4648 [65] (by decide) (by decide)

theorem toBits_natCast (a : Nat) (h : a < 4294967296) : toBits (a : Int) = a := by
  unfold toBits
  have : ((a : Int) % 4294967296) = (a : Int) := Int.emod_eq_of_lt (by omega) (by omega)
  rw [this]
  simp

theorem ofBits_natCast (a : Nat) (h : a < 2147483648) : ofBits a = (a : Int) := by
  unfold ofBits
  rw [if_pos h]

theorem shlInt_natCast (a k : Nat) (h : a * 2 ^ k < 2147483648) :
    shlInt (a : Int) k = ((a * 2 ^ k : Nat) : Int) := by
  unfold shlInt
  have e : (a : Int) * 2 ^ k = ((a * 2 ^ k : Nat) : Int) := by push_cast; rfl
  rw [e, toBits_natCast _ (by omega), ofBits_natCast _ h]

theorem shrInt_natCast (a k : Nat) : shrInt (a : Int) k = ((a / 2 ^ k : Nat) : Int) := by
  unfold shrInt
  push_cast
  rfl

theorem orInt_natCast (a b : Nat) (ha : a < 2 ^ 31) (hb : b < 2 ^ 31) :
    orInt (a : Int) (b : Int) = ((a ||| b : Nat) : Int) := by
  unfold orInt
  have hab : a ||| b < 2 ^ 31 := Nat.or_lt_two_pow ha hb
  rw [toBits_natCast a (by omega), toBits_natCast b (by omega), ofBits_natCast _ (by omega)]

theorem andInt_255 (a : Nat) (ha : a < 2 ^ 31) :
    andInt (a : Int) 0xFF = ((a % 256 : Nat) : Int) := by
  unfold andInt
  have h255 : toBits 0xFF = 255 := by decide
  have hm : a &&& 255 = a % 256 := Nat.and_pow_two_sub_one_eq_mod a 8
  have hlt : a % 256 < 256 := Nat.mod_lt _ (by decide)
  rw [toBits_natCast a (by omega), h255, hm, ofBits_natCast _ (by omega)]

theorem decI0_val (i : Nat) (hi : i < 64) (j : Nat) (hj : j < 64) :
    (andInt (orInt (shlInt ((i : Nat) : Int) 2) (shrInt (shlInt ((j : Nat) : Int) 2) 6)) 0xFF).toNat
      = i * 4 + j / 16 := by
  rw [shlInt_natCast i 2 (by omega), shlInt_natCast j 2 (by omega), shrInt_natCast,
    orInt_natCast _ _ (by omega) (by have := Nat.div_le_self (j * 2 ^ 2) (2 ^ 6); omega)]
  have e1 : i * 2 ^ 2 = 2 ^ 2 * i := by omega
  have e2 : j * 2 ^ 2 / 2 ^ 6 = j / 16 := by omega
  rw [e1, e2, or_low _ _ 2 (by omega), andInt_255 _ (by omega)]
  simp only [Int.toNat_ofNat]
  omega

theorem decI1_val (i : Nat) (hi : i < 64) (j : Nat) (hj : j < 64) :
    (andInt (orInt (shlInt ((i : Nat) : Int) 4) (shrInt (shlInt ((j : Nat) : Int) 2) 4)) 0xFF).toNat
      = (i % 16) * 16 + j / 4 := by
  rw [shlInt_natCast i 4 (by omega), shlInt_natCast j 2 (by omega), shrInt_natCast,
    orInt_natCast _ _ (by omega) (by have := Nat.div_le_self (j * 2 ^ 2) (2 ^ 4); omega)]
  have e1 : i * 2 ^ 4 = 2 ^ 4 * i := by omega
  have e2 : j * 2 ^ 2 / 2 ^ 4 = j / 4 := by omega
  rw [e1, e2, or_low _ _ 4 (by omega), andInt_255 _ (by omega)]
  simp only [Int.toNat_ofNat]
  omega

theorem decI2_val (i : Nat) (hi : i < 64) (j : Nat) (hj : j < 64) :
    (andInt (orInt (shlInt ((i : Nat) : Int) 6) (shrInt (shlInt ((j : Nat) : Int) 2) 2)) 0xFF).toNat
      = (i % 4) * 64 + j := by
  rw [shlInt_natCast i 6 (by omega), shlInt_natCast j 2 (by omega), shrInt_natCast,
    orInt_natCast _ _ (by omega) (by have := Nat.div_le_self (j * 2 ^ 2) (2 ^ 2); omega)]
  have e1 : i * 2 ^ 6 = 2 ^ 6 * i := by omega
  have e2 : j * 2 ^ 2 / 2 ^ 2 = j := by omega
  rw [e1, e2, or_low _ _ 6 (by omega), andInt_255 _ (by omega)]
  simp only [Int.toNat_ofNat]
  omega

theorem decB0_rfc (i : Nat) (hi : i < 64) (j : Nat) (hj : j < 64) :
    decB0 (rfcChar i) (rfcChar j) = i * 4 + j / 16 := by
  unfold decB0
  rw [index_rfcChar i hi, index_rfcChar j hj]
  exact decI0_val i hi j hj

theorem decB1_rfc (i : Nat) (hi : i < 64) (j : Nat) (hj : j < 64) :
    decB1 (rfcChar i) (rfcChar j) = (i % 16) * 16 + j / 4 := by
  unfold decB1
  rw [index_rfcChar i hi, index_rfcChar j hj]
  exact decI1_val i hi j hj

theorem decB2_rfc (i : Nat) (hi : i < 64) (j : Nat) (hj : j < 64) :
    decB2 (rfcChar i) (rfcChar j) = (i % 4) * 64 + j := by
  unfold decB2
  rw [index_rfcChar i hi, index_rfcChar j hj]
  exact decI2_val i hi j hj

theorem rfc4648_length (b : Bytes) : (rfc4648 b).length = 4 * ((b.length + 2) / 3) := by
  obtain ⟨_, _, h, _⟩ := rfc4648_shape b
  exact h

theorem rfc4648_no_nul (b : Bytes) : ∀ c ∈ rfc4648 b, c ≠ Char.ofNat 0 := by
  obtain ⟨body, h1, _, h3⟩ := rfc4648_shape b
  intro c hc
  rw [h1, List.mem_append] at hc
  rcases hc with hc | hc
  · obtain ⟨v, hv, rfl⟩ := h3 c hc
    exact rfcChar_ne_nul v hv
  · have := (List.mem_replicate.mp hc).2
    subst this
    decide

theorem strlen_rfc4648 (b : Bytes) : strlen (rfc4648 b) = (rfc4648 b).length := by
  unfold strlen
  congr 1
  rw [List.takeWhile_eq_self_iff]
  intro c hc
  simpa using rfc4648_no_nul b c hc

theorem decLoop_rfc (n : Int) : ∀ (k : Nat) (i : Int) (b : Bytes) (pbuf : Bytes),
    ((rfc4648 b).length : Int) = n - i → (rfc4648 b).length ≤ k → b ≠ [] →
    (∀ x ∈ b, x < 256) →
    decTail n (decLoop n k i (rfc4648 b) pbuf) = pbuf ++ b := by
  intro k
  induction k with
  | zero =>
    intro i b pbuf _ hk hne _
    rw [rfc4648_length] at hk
    have : 0 < b.length := List.length_pos.mpr hne
    omega
  | succ k ih =>
    intro i b pbuf hlen hk hne hb
    rcases b with _ | ⟨a, _ | ⟨b, _ | ⟨c, rest⟩⟩⟩
    · exact absurd rfl hne
    · have ha : a < 256 := hb a (by simp)
      simp only [rfc4648, List.length_cons, List.length_nil] at hlen
      have h1 : ¬ (i < n - 4) := by omega
      have h2 : i < n := by omega
      have h3 : n - i = 4 := by omega
      simp only [rfc4648, decLoop, h1, if_false, decTail, h2, if_true, h3, tailChar]
      norm_num
      rw [decB0_rfc _ (Nat.mod_lt _ (by decide)) _ (Nat.mod_lt _ (by decide))]
      omega
    · have ha : a < 256 := hb a (by simp)
      have hb2 : b < 256 := hb b (by simp)
      simp only [rfc4648, List.length_cons, List.length_nil] at hlen
      have h1 : ¬ (i < n - 4) := by omega
      have h2 : i < n := by omega
      have h3 : n - i = 4 := by omega
      simp only [rfc4648, decLoop, h1, if_false, decTail, h2, if_true, h3, tailChar]
      norm_num
      have e1 := rfcChar_ne_pad (((a * 256 + b) * 4 / 64) % 64) (Nat.mod_lt _ (by decide))
      have e2 := rfcChar_ne_pad (((a * 256 + b) * 4) % 64) (Nat.mod_lt _ (by decide))
      simp only [Ne.symm e1, Ne.symm e2, not_false_eq_true, and_self, if_true]
      rw [decB0_rfc _ (Nat.mod_lt _ (by decide)) _ (Nat.mod_lt _ (by decide)),
        decB1_rfc _ (Nat.mod_lt _ (by decide)) _ (Nat.mod_lt _ (by decide))]
      simp
      omega
    · have ha : a < 256 := hb a (by simp)
      have hb2 : b < 256 := hb b (by simp)
      have hc : c < 256 := hb c (by simp)
      have e1 := rfcChar_ne_pad ((a * 65536 + b * 256 + c) / 4096 % 64) (Nat.mod_lt _ (by decide))
      have e2 := rfcChar_ne_pad ((a * 65536 + b * 256 + c) / 64 % 64) (Nat.mod_lt _ (by decide))
      have e3 := rfcChar_ne_pad ((a * 65536 + b * 256 + c) % 64) (Nat.mod_lt _ (by decide))
      have hgrp : [decB0 (rfcChar ((a * 65536 + b * 256 + c) / 262144 % 64))
            (rfcChar ((a * 65536 + b * 256 + c) / 4096 % 64)),
          decB1 (rfcChar ((a * 65536 + b * 256 + c) / 4096 % 64))
            (rfcChar ((a * 65536 + b * 256 + c) / 64 % 64)),
          decB2 (rfcChar ((a * 65536 + b * 256 + c) / 64 % 64))
            (rfcChar ((a * 65536 + b * 256 + c) % 64))] = [a, b, c] := by
        rw [decB0_rfc _ (Nat.mod_lt _ (by decide)) _ (Nat.mod_lt _ (by decide)),
          decB1_rfc _ (Nat.mod_lt _ (by decide)) _ (Nat.mod_lt _ (by decide)),
          decB2_rfc _ (Nat.mod_lt _ (by decide)) _ (Nat.mod_lt _ (by decide))]
        simp only [List.cons.injEq, and_true]
        refine ⟨by omega, by omega, by omega⟩
      by_cases hr : rest = []
      · subst hr
        simp only [rfc4648, List.length_cons, List.length_nil] at hlen
        have h1 : ¬ (i < n - 4) := by omega
        have h2 : i < n := by omega
        have h3 : n - i = 4 := by omega
        simp only [rfc4648, decLoop, h1, if_false, decTail, h2, if_true, h3, tailChar]
        norm_num
        simp only [Ne.symm e1, Ne.symm e2, Ne.symm e3, not_false_eq_true, and_self, if_true]
        have := hgrp
        simp only [List.cons.injEq, and_true] at this
        simp [this.1, this.2.1, this.2.2]
      · have hrl := rfc4648_length rest
        have hpos : 0 < rest.length := List.length_pos.mpr hr
        simp only [rfc4648, List.length_cons] at hlen hk
        have h1 : i < n - 4 := by omega
        have hstep := ih (i + 4) rest (pbuf ++ [a, b, c])
          (by omega) (by omega) hr (fun x hx => hb x (by simp [hx]))
        simp only [rfc4648, decLoop, h1, if_true, List.getD_cons_zero, List.getD_cons_succ,
          List.drop_succ_cons, List.drop_zero]
        rw [hgrp, hstep]
        simp

theorem Decode_rfc (b : Bytes) (hne : b ≠ []) (hb : ∀ x ∈ b, x < 256) (nSrcLen d : Int)
    (hn : nSrcLen = 0 ∨ nSrcLen = ((rfc4648 b).length : Int)) :
    Decode (rfc4648 b) nSrcLen d = (b, (b.length : Int)) := by
  have hl := rfc4648_length b
  have hpos : 0 < b.length := List.length_pos.mpr hne
  have hn2 : (if nSrcLen = 0 then (strlen (rfc4648 b) : Int) else nSrcLen)
      = ((rfc4648 b).length : Int) := by
    rcases hn with h | h
    · simp [h, strlen_rfc4648]
    · rw [h]; split
      · rw [strlen_rfc4648]
      · rfl
  have h1 : ¬ (((rfc4648 b).length : Int) ≤ 0) := by omega
  simp only [Decode, hn2, h1, if_false]
  have := decLoop_rfc ((rfc4648 b).length : Int) (rfc4648 b).length 0 b [] (by simp) (by simp)
    hne hb
  simp only [Int.toNat_ofNat, List.nil_append] at this ⊢
  rw [this]

/-- C6. Decoding the text `ZBase64::Encode` produces for a non-empty byte
sequence gives the sequence back, and the reported length is its length; this
holds for the call with the length found by `strlen`, for the call with the
explicit text length, and for the `string&` overload that `SignNode` uses on the
`sha1` (20 bytes) and `sha2` (32 bytes) fields. -/
theorem Decode_Encode_roundtrip (b : Bytes) (hne : b ≠ []) (hb : ∀ x ∈ b, x < 256) :
    Decode (Encode b (b.length : Int)) 0 0 = (b, (b.length : Int)) ∧
    Decode (Encode b (b.length : Int)) ((Encode b (b.length : Int)).length : Int) 0
      = (b, (b.length : Int)) ∧
    DecodeStr (Encode b (b.length : Int)) = b := by
  rw [Encode_eq_rfc b hne hb]
  have h0 := Decode_rfc b hne hb 0 0 (Or.inl rfl)
  refine ⟨h0, Decode_rfc b hne hb _ 0 (Or.inr rfl), ?_⟩
  unfold DecodeStr
  rw [h0]
  simp

/-- A 20-byte digest survives the trip through `Encode` and `Decode`. -/
theorem Decode_Encode_roundtrip_witness :
    Decode (Encode (List.range 20) ((List.range 20).length : Int)) 0 0
      = (List.range 20, ((List.range 20).length : Int)) ∧
    Decode (Encode (List.range 20) ((List.range 20).length : Int))
      ((Encode (List.range 20) ((List.range 20).length : Int)).length : Int) 0
      = (List.range 20, ((List.range 20).length : Int)) ∧
    DecodeStr (Encode (List.range 20) ((List.range 20).length : Int)) = List.range 20 :=
  Decode_Encode_roundtrip (List.range 20) (by decide) (by decide)

/-- C7. The encoding of the byte `A` is `QQ==`; decoding it gives the byte back,
but decoding it with the padding removed gives three bytes, `A` followed by
two bytes `0xFF`: the two missing characters are read as NUL, which is not `=`,
so the second and third byte of the group are written. -/
theorem Decode_unpadded_adds_bytes :
    Encode [65] 1 = "QQ==".toList ∧
    Decode "QQ==".toList 0 0 = ([65], 1) ∧
    Decode "QQ".toList 0 0 = ([65, 255, 255], 3) ∧
    DecodeStr "QQ".toList = [65, 255, 255] := by
  decide

/-- C8, as stated, fails: `QUJD` is valid Base64 for `ABC`, and with a space
inserted after the second character the decoder returns six bytes, of which
only the first is right. The space is not skipped: it is decoded as index -1. -/
theorem Decode_does_not_skip_invalid :
    (∀ c ∈ "QUJD".toList, GetB64Index c ≠ -1) ∧ GetB64Index ' ' = -1 ∧
    Decode "QUJD".toList 0 0 = ([65, 66, 67], 3) ∧
    Decode "QU JD".toList 0 0 = ([65, 255, 201, 255, 255, 255], 6) := by
  decide

theorem decTail_decLoop_extends (n : Int) : ∀ (k : Nat) (i : Int) (psrc : Str) (pbuf : Bytes),
    ∃ t, decTail n (decLoop n k i psrc pbuf) = pbuf ++ t := by
  have htail : ∀ (i : Int) (psrc : Str) (pbuf : Bytes),
      ∃ t, decTail n (i, psrc, pbuf) = pbuf ++ t := by
    intro i psrc pbuf
    unfold decTail
    by_cases h : i < n
    · simp only [h, if_true]
      split
      · split
        · exact ⟨_, by simp only [List.append_assoc]; rfl⟩
        · exact ⟨_, by simp only [List.append_assoc]; rfl⟩
      · split
        · exact ⟨_, by simp only [List.append_assoc]; rfl⟩
        · exact ⟨_, rfl⟩
    · simp only [h, if_false]
      exact ⟨[], by simp⟩
  intro k
  induction k with
  | zero => intro i psrc pbuf; exact htail i psrc pbuf
  | succ k ih =>
    intro i psrc pbuf
    unfold decLoop
    by_cases h : i < n - 4
    · simp only [h, if_true]
      obtain ⟨t, ht⟩ := ih (i + 4) (psrc.drop 4)
        (pbuf ++ [decB0 (psrc.getD 0 (Char.ofNat 0)) (psrc.getD 1 (Char.ofNat 0)),
          decB1 (psrc.getD 1 (Char.ofNat 0)) (psrc.getD 2 (Char.ofNat 0)),
          decB2 (psrc.getD 2 (Char.ofNat 0)) (psrc.getD 3 (Char.ofNat 0))])
      exact ⟨_, by rw [ht, List.append_assoc]⟩
    · simp only [h, if_false]
      exact htail i psrc pbuf

theorem decGroups_length : ∀ (k : Nat) (p : Str), p.length = 4 * k →
    (decGroups p).length = 3 * k := by
  intro k
  induction k with
  | zero =>
    intro p hp
    have : p = [] := List.length_eq_zero.mp (by omega)
    subst this
    rfl
  | succ k ih =>
    intro p hp
    rcases p with _ | ⟨c0, _ | ⟨c1, _ | ⟨c2, _ | ⟨c3, p⟩⟩⟩⟩ <;>
      simp only [List.length_cons, List.length_nil] at hp <;> try omega
    simp only [decGroups, List.length_cons]
    rw [ih p (by omega)]
    omega

theorem decLoop_leading_groups (n : Int) : ∀ (k : Nat) (m : Nat) (i : Int) (p r : Str)
    (pbuf : Bytes), p.length = 4 * m → r ≠ [] → ((p ++ r).length : Int) = n - i →
    (p ++ r).length ≤ k →
    ∃ t, decTail n (decLoop n k i (p ++ r) pbuf) = pbuf ++ decGroups p ++ t := by
  intro k
  induction k with
  | zero =>
    intro m i p r pbuf _ hr _ hk
    have : 0 < r.length := List.length_pos.mpr hr
    simp only [List.length_append] at hk
    omega
  | succ k ih =>
    intro m i p r pbuf hp hr hlen hk
    have hrpos : 0 < r.length := List.length_pos.mpr hr
    rcases p with _ | ⟨c0, _ | ⟨c1, _ | ⟨c2, _ | ⟨c3, p⟩⟩⟩⟩
    · obtain ⟨t, ht⟩ := decTail_decLoop_extends n (k + 1) i ([] ++ r) pbuf
      exact ⟨t, by rw [ht]; simp [decGroups]⟩
    · simp only [List.length_cons, List.length_nil] at hp; omega
    · simp only [List.length_cons, List.length_nil] at hp; omega
    · simp only [List.length_cons, List.length_nil] at hp; omega
    · simp only [List.length_cons, List.length_append] at hp hlen hk
      have h1 : i < n - 4 := by omega
      obtain ⟨t, ht⟩ := ih (m - 1) (i + 4) p r (pbuf ++ [decB0 c0 c1, decB1 c1 c2, decB2 c2 c3])
        (by omega) hr (by simp only [List.length_append]; omega)
        (by simp only [List.length_append]; omega)
      refine ⟨t, ?_⟩
      simp only [List.cons_append, decLoop, h1, if_true, List.getD_cons_zero,
        List.getD_cons_succ, List.drop_succ_cons, List.drop_zero]
      rw [ht]
      simp [decGroups]

/-- C8, amended. `Decode` takes the text four characters at a time and gives
every character, valid or not, its place in its group. What an insertion
leaves alone is the output of the whole groups before it: two texts that share
their first `4 * m` characters, each with at least one character after them,
decode to the same first `3 * m` bytes, the bytes of those `m` groups. -/
theorem Decode_keeps_leading_groups (m : Nat) (p r r2 : Str) (hp : p.length = 4 * m)
    (hr : r ≠ []) (hr2 : r2 ≠ []) :
    (Decode (p ++ r) ((p ++ r).length : Int) 0).1.take (3 * m) = decGroups p ∧
    (Decode (p ++ r2) ((p ++ r2).length : Int) 0).1.take (3 * m)
      = (Decode (p ++ r) ((p ++ r).length : Int) 0).1.take (3 * m) := by
  have key : ∀ q : Str, q ≠ [] →
      (Decode (p ++ q) ((p ++ q).length : Int) 0).1.take (3 * m) = decGroups p := by
    intro q hq
    have hqpos : 0 < q.length := List.length_pos.mpr hq
    have h0 : ¬ (((p ++ q).length : Int) = 0) := by
      simp only [List.length_append]; omega
    have h1 : ¬ (((p ++ q).length : Int) ≤ 0) := by
      simp only [List.length_append]; omega
    obtain ⟨t, ht⟩ := decLoop_leading_groups ((p ++ q).length : Int) (p ++ q).length m 0 p q []
      hp hq (by simp) (by simp)
    simp only [Decode, h0, if_false, h1, Int.toNat_ofNat]
    rw [ht]
    simp only [List.nil_append]
    rw [List.take_append_of_le_length (by rw [decGroups_length m p hp])]
    exact List.take_of_length_le (by rw [decGroups_length m p hp])
  exact ⟨key r hr, by rw [key r2 hr2, key r hr]⟩

/-- The group `QUJD` decodes to `ABC` whatever follows it, here `RA==` and a
text with a space in it. -/
theorem Decode_keeps_leading_groups_witness :
    (Decode ("QUJD".toList ++ "RA==".toList)
      (("QUJD".toList ++ "RA==".toList).length : Int) 0).1.take (3 * 1)
      = decGroups "QUJD".toList ∧
    (Decode ("QUJD".toList ++ "R A==".toList)
      (("QUJD".toList ++ "R A==".toList).length : Int) 0).1.take (3 * 1)
      = (Decode ("QUJD".toList ++ "RA==".toList)
          (("QUJD".toList ++ "RA==".toList).length : Int) 0).1.take (3 * 1) :=
  Decode_keeps_leading_groups 1 "QUJD".toList "RA==".toList "R A==".toList
    (by decide) (by decide) (by decide)

/-! ## Properties of the manifest builder -/

theorem objFind_objSet_same (k : Str) (v : JValue) : ∀ o, objFind k (objSet k v o) = some v
  | [] => by simp [objSet, objFind]
  | (k2, v2) :: rest => by
    by_cases h : k2 = k
    · simp [objSet, objFind, h]
    · simp [objSet, objFind, h, objFind_objSet_same k v rest]

theorem objFind_objSet_ne (k k1 : Str) (v : JValue) (h : k1 ≠ k) :
    ∀ o, objFind k1 (objSet k v o) = objFind k1 o
  | [] => by simp [objSet, objFind, Ne.symm h]
  | (k2, v2) :: rest => by
    by_cases h2 : k2 = k
    · subst h2
      simp [objSet, objFind, Ne.symm h]
    · by_cases h3 : k2 = k1
      · subst h3
        simp [objSet, objFind, h2]
      · simp [objSet, objFind, h2, h3, objFind_objSet_ne k k1 v h rest]

theorem find_set_same (jv : JValue) (k : Str) (v : JValue) : (jv.set k v).find? k = some v := by
  cases jv <;> simp [JValue.set, JValue.find?, objFind, objFind_objSet_same]

theorem find_set_ne (jv : JValue) (k k1 : Str) (v : JValue) (h : k1 ≠ k) :
    (jv.set k v).find? k1 = jv.find? k1 := by
  cases jv <;> simp [JValue.set, JValue.find?, objFind, objFind_objSet_ne k k1 v h, Ne.symm h]

theorem get_set_same (jv : JValue) (k : Str) (v : JValue) : (jv.set k v).get k = v := by
  simp [JValue.get, find_set_same]

theorem get_set_ne (jv : JValue) (k k1 : Str) (v : JValue) (h : k1 ≠ k) :
    (jv.set k v).get k1 = jv.get k1 := by
  simp [JValue.get, find_set_ne jv k k1 v h]

theorem get_setPath_ne (k k1 : Str) (ks : List Str) (v jv : JValue) (h : k1 ≠ k) :
    (JValue.setPath (k :: ks) v jv).get k1 = jv.get k1 := by
  simp [JValue.setPath, get_set_ne _ _ _ _ h]

theorem get_setPath_same (k : Str) (ks : List Str) (v jv : JValue) :
    (JValue.setPath (k :: ks) v jv).get k = JValue.setPath ks v (jv.get k) := by
  simp [JValue.setPath, get_set_same]

theorem get_codeResRules (jv : JValue) (k : Str) (h1 : k ≠ "rules".toList)
    (h2 : k ≠ "rules2".toList) : (codeResRules jv).get k = jv.get k := by
  simp only [codeResRules, List.map, get_setPath_ne _ _ _ _ _ h1, get_setPath_ne _ _ _ _ _ h2]

theorem find_set (jv : JValue) (k p : Str) (v : JValue) :
    (jv.set k v).find? p = if p = k then some v else jv.find? p := by
  by_cases h : p = k
  · subst h; simp [find_set_same]
  · simp [h, find_set_ne jv k p v h]

theorem get_of_find_none {jv : JValue} {k : Str} (h : jv.find? k = none) : jv.get k = .null := by
  simp [JValue.get, h]

theorem get_of_find_some {jv : JValue} {k : Str} {v : JValue} (h : jv.find? k = some v) :
    jv.get k = v := by
  simp [JValue.get, h]

theorem objSet_objSet (k : Str) (a b : JValue) :
    ∀ o, objSet k b (objSet k a o) = objSet k b o
  | [] => by simp [objSet]
  | (k2, v2) :: rest => by
    by_cases h : k2 = k
    · simp [objSet, h]
    · simp [objSet, h, objSet_objSet k a b rest]

theorem set_set (jv : JValue) (k : Str) (a b : JValue) :
    (jv.set k a).set k b = jv.set k b := by
  cases jv <;> simp [JValue.set, objSet, objSet_objSet]

theorem stepFiles_get_files2 (h1 : Str) (jv : JValue) (k : Str) :
    (codeResStepFiles h1 jv k).get "files2".toList = jv.get "files2".toList := by
  have hne : "files2".toList ≠ "files".toList := by decide
  unfold codeResStepFiles
  split
  · split <;> simp only [get_setPath_ne _ _ _ _ _ hne]
  · rfl

theorem stepFiles2_get_files (h1 h2 : Str) (jv : JValue) (k : Str) :
    (codeResStepFiles2 h1 h2 jv k).get "files".toList = jv.get "files".toList := by
  have hne : "files".toList ≠ "files2".toList := by decide
  unfold codeResStepFiles2
  split
  · split <;> simp only [get_setPath_ne _ _ _ _ _ hne]
  · rfl

theorem stepFiles2_get_files2 (h1 h2 : Str) (jv : JValue) (k : Str) :
    (codeResStepFiles2 h1 h2 jv k).get "files2".toList =
      if bomit2 k = true then jv.get "files2".toList
      else (jv.get "files2".toList).set k
        (if hasSubstr k ".lproj/".toList = true then
          ((((jv.get "files2".toList).get k).set "hash".toList (.str ("data:".toList ++ h1))).set
            "hash2".toList (.str ("data:".toList ++ h2))).set "optional".toList (.bool true)
        else
          (((jv.get "files2".toList).get k).set "hash".toList (.str ("data:".toList ++ h1))).set
            "hash2".toList (.str ("data:".toList ++ h2))) := by
  unfold codeResStepFiles2
  by_cases hb : bomit2 k = true
  · simp only [hb, Bool.not_true, if_true, Bool.false_eq_true, if_false]
  · have hb2 : bomit2 k = false := by simpa using hb
    simp only [hb2, Bool.not_false, if_true, Bool.false_eq_true, if_false]
    by_cases hl : hasSubstr k ".lproj/".toList = true
    · simp only [hl, if_true, get_setPath_same]
      simp only [JValue.setPath, get_set_same, set_set]
    · have hl2 : hasSubstr k ".lproj/".toList = false := by simpa using hl
      simp only [hl2, Bool.false_eq_true, if_false, get_setPath_same]
      simp only [JValue.setPath, get_set_same, set_set]

theorem stepFiles_get_files (h1 : Str) (jv : JValue) (k : Str) :
    (codeResStepFiles h1 jv k).get "files".toList =
      if bomit1 k = true then jv.get "files".toList
      else (jv.get "files".toList).set k
        (if hasSubstr k ".lproj/".toList = true then
          (((jv.get "files".toList).get k).set "hash".toList (.str ("data:".toList ++ h1))).set
            "optional".toList (.bool true)
        else .str ("data:".toList ++ h1)) := by
  unfold codeResStepFiles
  by_cases hb : bomit1 k = true
  · simp only [hb, Bool.not_true, if_true, Bool.false_eq_true, if_false]
  · have hb2 : bomit1 k = false := by simpa using hb
    simp only [hb2, Bool.not_false, if_true, Bool.false_eq_true, if_false]
    by_cases hl : hasSubstr k ".lproj/".toList = true
    · simp only [hl, if_true, get_setPath_same]
      simp only [JValue.setPath, get_set_same, set_set]
    · have hl2 : hasSubstr k ".lproj/".toList = false := by simpa using hl
      simp only [hl2, Bool.false_eq_true, if_false, get_setPath_same]
      simp only [JValue.setPath, get_set_same, set_set]

/-- The two Base64 digests `GenerateCodeResources` computes for a key. -/
theorem files2Entry_fix (h1 h2 : Str) (k : Str) (prev : JValue)
    (hp : prev = .null ∨ prev = files2Entry h1 h2 k) :
    (if hasSubstr k ".lproj/".toList = true then
      ((prev.set "hash".toList (.str ("data:".toList ++ h1))).set
        "hash2".toList (.str ("data:".toList ++ h2))).set "optional".toList (.bool true)
    else
      (prev.set "hash".toList (.str ("data:".toList ++ h1))).set
        "hash2".toList (.str ("data:".toList ++ h2))) = files2Entry h1 h2 k := by
  have e1 : ¬ ("hash".toList = "hash2".toList) := by decide
  have e2 : ¬ ("hash".toList = "optional".toList) := by decide
  have e3 : ¬ ("hash2".toList = "optional".toList) := by decide
  unfold files2Entry
  rcases hp with rfl | rfl
  · split <;> simp [JValue.set, objSet, e1, e2, e3]
  · unfold files2Entry
    split <;> simp [JValue.set, objSet, e1, e2, e3]

theorem filesEntry_fix (h1 : Str) (k : Str) (prev : JValue)
    (hp : prev = .null ∨ prev = filesEntry h1 k) :
    (if hasSubstr k ".lproj/".toList = true then
      (prev.set "hash".toList (.str ("data:".toList ++ h1))).set "optional".toList (.bool true)
    else .str ("data:".toList ++ h1)) = filesEntry h1 k := by
  have e2 : ¬ ("hash".toList = "optional".toList) := by decide
  unfold filesEntry
  rcases hp with rfl | rfl
  · split <;> simp [JValue.set, objSet, e2]
  · unfold filesEntry
    split <;> simp [JValue.set, objSet, e2]

theorem step_files2_inv (L : Lib) (fs : FileSys) (strFolder : Str) (jv : JValue) (k : Str)
    (hinv : (jv.get "files2".toList).find? k = none ∨
      (jv.get "files2".toList).find? k = some (files2Entry
        (SHASumBase64File L fs (strFolder ++ "/".toList ++ k)).2.1
        (SHASumBase64File L fs (strFolder ++ "/".toList ++ k)).2.2 k)) :
    (codeResStep L fs strFolder jv k).get "files2".toList =
      if bomit2 k = true then jv.get "files2".toList
      else (jv.get "files2".toList).set k (files2Entry
        (SHASumBase64File L fs (strFolder ++ "/".toList ++ k)).2.1
        (SHASumBase64File L fs (strFolder ++ "/".toList ++ k)).2.2 k) := by
  unfold codeResStep
  simp only [stepFiles2_get_files2, stepFiles_get_files2]
  have hp : (jv.get "files2".toList).get k = .null ∨
      (jv.get "files2".toList).get k = files2Entry
        (SHASumBase64File L fs (strFolder ++ "/".toList ++ k)).2.1
        (SHASumBase64File L fs (strFolder ++ "/".toList ++ k)).2.2 k := by
    rcases hinv with h | h
    · exact Or.inl (get_of_find_none h)
    · exact Or.inr (get_of_find_some h)
  rw [files2Entry_fix _ _ k _ hp]

theorem step_files_inv (L : Lib) (fs : FileSys) (strFolder : Str) (jv : JValue) (k : Str)
    (hinv : (jv.get "files".toList).find? k = none ∨
      (jv.get "files".toList).find? k = some (filesEntry
        (SHASumBase64File L fs (strFolder ++ "/".toList ++ k)).2.1 k)) :
    (codeResStep L fs strFolder jv k).get "files".toList =
      if bomit1 k = true then jv.get "files".toList
      else (jv.get "files".toList).set k (filesEntry
        (SHASumBase64File L fs (strFolder ++ "/".toList ++ k)).2.1 k) := by
  unfold codeResStep
  simp only [stepFiles2_get_files, stepFiles_get_files]
  have hp : (jv.get "files".toList).get k = .null ∨
      (jv.get "files".toList).get k = filesEntry
        (SHASumBase64File L fs (strFolder ++ "/".toList ++ k)).2.1 k := by
    rcases hinv with h | h
    · exact Or.inl (get_of_find_none h)
    · exact Or.inr (get_of_find_some h)
  rw [filesEntry_fix _ k _ hp]

theorem fold_files2 (L : Lib) (fs : FileSys) (strFolder : Str) :
    ∀ (l : List Str) (jv : JValue),
    (∀ p, (jv.get "files2".toList).find? p = none ∨
      (jv.get "files2".toList).find? p = some (files2Entry
        (SHASumBase64File L fs (strFolder ++ "/".toList ++ p)).2.1
        (SHASumBase64File L fs (strFolder ++ "/".toList ++ p)).2.2 p)) →
    ∀ p, ((l.foldl (codeResStep L fs strFolder) jv).get "files2".toList).find? p =
      if p ∈ l ∧ bomit2 p = false then some (files2Entry
        (SHASumBase64File L fs (strFolder ++ "/".toList ++ p)).2.1
        (SHASumBase64File L fs (strFolder ++ "/".toList ++ p)).2.2 p)
      else (jv.get "files2".toList).find? p := by
  intro l
  induction l with
  | nil => intro jv _ p; simp
  | cons k l ih =>
    intro jv hinv p
    have hstep := step_files2_inv L fs strFolder jv k (hinv k)
    have hfind : ∀ q, ((codeResStep L fs strFolder jv k).get "files2".toList).find? q =
        if q = k ∧ bomit2 k = false then some (files2Entry
          (SHASumBase64File L fs (strFolder ++ "/".toList ++ q)).2.1
          (SHASumBase64File L fs (strFolder ++ "/".toList ++ q)).2.2 q)
        else (jv.get "files2".toList).find? q := by
      intro q
      rw [hstep]
      by_cases hb : bomit2 k = true
      · simp [hb]
      · have hb2 : bomit2 k = false := by simpa using hb
        simp only [hb2, Bool.false_eq_true, if_false, find_set, and_true]
        by_cases hq : q = k
        · subst hq; simp
        · simp [hq]
    have hinv2 : ∀ q, ((codeResStep L fs strFolder jv k).get "files2".toList).find? q = none ∨
        ((codeResStep L fs strFolder jv k).get "files2".toList).find? q = some (files2Entry
          (SHASumBase64File L fs (strFolder ++ "/".toList ++ q)).2.1
          (SHASumBase64File L fs (strFolder ++ "/".toList ++ q)).2.2 q) := by
      intro q
      rw [hfind q]
      split
      · exact Or.inr rfl
      · exact hinv q
    rw [List.foldl_cons, ih _ hinv2 p, hfind p]
    by_cases hpk : p = k
    · subst hpk
      by_cases hb : bomit2 p = false
      · simp [hb]
      · simp [hb]
    · by_cases hpl : p ∈ l <;> simp [hpk, hpl]

theorem fold_files (L : Lib) (fs : FileSys) (strFolder : Str) :
    ∀ (l : List Str) (jv : JValue),
    (∀ p, (jv.get "files".toList).find? p = none ∨
      (jv.get "files".toList).find? p = some (filesEntry
        (SHASumBase64File L fs (strFolder ++ "/".toList ++ p)).2.1 p)) →
    ∀ p, ((l.foldl (codeResStep L fs strFolder) jv).get "files".toList).find? p =
      if p ∈ l ∧ bomit1 p = false then some (filesEntry
        (SHASumBase64File L fs (strFolder ++ "/".toList ++ p)).2.1 p)
      else (jv.get "files".toList).find? p := by
  intro l
  induction l with
  | nil => intro jv _ p; simp
  | cons k l ih =>
    intro jv hinv p
    have hstep := step_files_inv L fs strFolder jv k (hinv k)
    have hfind : ∀ q, ((codeResStep L fs strFolder jv k).get "files".toList).find? q =
        if q = k ∧ bomit1 k = false then some (filesEntry
          (SHASumBase64File L fs (strFolder ++ "/".toList ++ q)).2.1 q)
        else (jv.get "files".toList).find? q := by
      intro q
      rw [hstep]
      by_cases hb : bomit1 k = true
      · simp [hb]
      · have hb2 : bomit1 k = false := by simpa using hb
        simp only [hb2, Bool.false_eq_true, if_false, find_set, and_true]
        by_cases hq : q = k
        · subst hq; simp
        · simp [hq]
    have hinv2 : ∀ q, ((codeResStep L fs strFolder jv k).get "files".toList).find? q = none ∨
        ((codeResStep L fs strFolder jv k).get "files".toList).find? q = some (filesEntry
          (SHASumBase64File L fs (strFolder ++ "/".toList ++ q)).2.1 q) := by
      intro q
      rw [hfind q]
      split
      · exact Or.inr rfl
      · exact hinv q
    rw [List.foldl_cons, ih _ hinv2 p, hfind p]
    by_cases hpk : p = k
    · subst hpk
      by_cases hb : bomit1 p = false
      · simp [hb]
      · simp [hb]
    · by_cases hpl : p ∈ l <;> simp [hpk, hpl]

theorem mem_setInsert (s : List Str) (x p : Str) : p ∈ setInsert s x ↔ p ∈ s ∨ p = x := by
  unfold setInsert
  split
  · constructor
    · exact Or.inl
    · rintro (h | rfl)
      · exact h
      · assumption
  · simp

theorem mem_setErase (s : List Str) (x p : Str) : p ∈ setErase s x ↔ p ∈ s ∧ p ≠ x := by
  simp [setErase]

mutual
theorem mem_GetFolderFilesEntry (base : Str) : ∀ (ent : DirEnt) (strFolder r : Str)
    (s : List Str), strFolder ++ "/".toList = base ++ "/".toList ++ r →
    ∀ p, p ∈ GetFolderFilesEntry strFolder base ent s ↔
      p ∈ s ∨ ∃ q, q ∈ typedFilesOf ent ∧ p = r ++ q
  | .reg n, strFolder, r, s, hr, p => by
    have hdrop : (strFolder ++ "/".toList ++ n).drop (base.length + 1) = r ++ n := by
      rw [hr, List.append_assoc]
      exact List.drop_left' (by simp)
    unfold GetFolderFilesEntry typedFilesOf
    by_cases hn : n ≠ ".".toList ∧ n ≠ "..".toList
    · rw [if_pos hn, if_pos hn, mem_setInsert, hdrop]
      constructor
      · rintro (h | h)
        · exact Or.inl h
        · exact Or.inr ⟨n, List.mem_singleton.mpr rfl, h⟩
      · rintro (h | ⟨q, hq, h⟩)
        · exact Or.inl h
        · rw [List.mem_singleton.mp hq] at h
          exact Or.inr h
    · rw [if_neg hn, if_neg hn]
      simp
  | .other n, strFolder, r, s, hr, p => by
    simp [GetFolderFilesEntry, typedFilesOf]
  | .unknown n d es, strFolder, r, s, hr, p => by
    simp [GetFolderFilesEntry, typedFilesOf]
  | .dir n entries, strFolder, r, s, hr, p => by
    unfold GetFolderFilesEntry typedFilesOf
    by_cases hn : n ≠ ".".toList ∧ n ≠ "..".toList
    · rw [if_pos hn, if_pos hn]
      have hr2 : (strFolder ++ "/".toList ++ n) ++ "/".toList
          = base ++ "/".toList ++ (r ++ n ++ "/".toList) := by
        rw [hr]; simp only [List.append_assoc]
      rw [mem_GetFolderFiles base entries (strFolder ++ "/".toList ++ n) (r ++ n ++ "/".toList)
        s hr2 p]
      constructor
      · rintro (h | ⟨q, hq, rfl⟩)
        · exact Or.inl h
        · exact Or.inr ⟨n ++ "/".toList ++ q, List.mem_map.mpr ⟨q, hq, rfl⟩,
            by simp only [List.append_assoc]⟩
      · rintro (h | ⟨q, hq, rfl⟩)
        · exact Or.inl h
        · obtain ⟨q2, hq2, rfl⟩ := List.mem_map.mp hq
          exact Or.inr ⟨q2, hq2, by simp only [List.append_assoc]⟩
    · rw [if_neg hn, if_neg hn]
      simp
theorem mem_GetFolderFiles (base : Str) : ∀ (entries : List DirEnt) (strFolder r : Str)
    (s : List Str), strFolder ++ "/".toList = base ++ "/".toList ++ r →
    ∀ p, p ∈ GetFolderFiles strFolder base entries s ↔
      p ∈ s ∨ ∃ q, q ∈ typedFilesIn entries ∧ p = r ++ q
  | [], strFolder, r, s, hr, p => by
    simp [GetFolderFiles, typedFilesIn]
  | ent :: more, strFolder, r, s, hr, p => by
    unfold GetFolderFiles typedFilesIn
    rw [mem_GetFolderFiles base more strFolder r _ hr p,
      mem_GetFolderFilesEntry base ent strFolder r s hr p]
    simp only [List.mem_append]
    constructor
    · rintro ((h | ⟨q, hq, rfl⟩) | ⟨q, hq, rfl⟩)
      · exact Or.inl h
      · exact Or.inr ⟨q, Or.inl hq, rfl⟩
      · exact Or.inr ⟨q, Or.inr hq, rfl⟩
    · rintro (h | ⟨q, hq | hq, rfl⟩)
      · exact Or.inl (Or.inl h)
      · exact Or.inl (Or.inr ⟨q, hq, rfl⟩)
      · exact Or.inr ⟨q, hq, rfl⟩
end

theorem mem_codeResFiles (L : Lib) (fs : FileSys) (strFolder p : Str) :
    p ∈ codeResFiles L fs strFolder ↔
      p ∈ typedFilesIn (fs.dir strFolder) ∧ p ≠ bundleExeOf L fs strFolder ∧
      p ≠ "_CodeSignature/CodeResources".toList := by
  unfold codeResFiles
  rw [mem_setErase, mem_setErase,
    mem_GetFolderFiles strFolder (fs.dir strFolder) strFolder [] [] (by simp) p]
  simp [and_assoc]

theorem init_get_files2 :
    ((JValue.null.set "files".toList (.obj [])).set "files2".toList (.obj [])).get
      "files2".toList = .obj [] := by
  rw [get_set_same]

theorem init_get_files :
    ((JValue.null.set "files".toList (.obj [])).set "files2".toList (.obj [])).get
      "files".toList = .obj [] := by
  rw [get_set_ne _ _ _ _ (by decide), get_set_same]

theorem GenerateCodeResources_files2_find (L : Lib) (fs : FileSys) (strFolder p : Str) :
    ((GenerateCodeResources L fs strFolder).get "files2".toList).find? p =
      if p ∈ codeResFiles L fs strFolder ∧ bomit2 p = false then some (files2Entry
        (SHASumBase64File L fs (strFolder ++ "/".toList ++ p)).2.1
        (SHASumBase64File L fs (strFolder ++ "/".toList ++ p)).2.2 p)
      else none := by
  unfold GenerateCodeResources
  rw [get_codeResRules _ _ (by decide) (by decide)]
  rw [fold_files2 L fs strFolder _ _ (by intro q; left; rw [init_get_files2]; rfl) p]
  rw [init_get_files2]
  rfl

theorem GenerateCodeResources_files_find (L : Lib) (fs : FileSys) (strFolder p : Str) :
    ((GenerateCodeResources L fs strFolder).get "files".toList).find? p =
      if p ∈ codeResFiles L fs strFolder ∧ bomit1 p = false then some (filesEntry
        (SHASumBase64File L fs (strFolder ++ "/".toList ++ p)).2.1 p)
      else none := by
  unfold GenerateCodeResources
  rw [get_codeResRules _ _ (by decide) (by decide)]
  rw [fold_files L fs strFolder _ _ (by intro q; left; rw [init_get_files]; rfl) p]
  rw [init_get_files]
  rfl

theorem bomit2_eq_false (p : Str) : bomit2 p = false ↔
    p ≠ "Info.plist".toList ∧ p ≠ "PkgInfo".toList ∧ ¬ (".DS_Store".toList <:+ p) ∧
    ¬ (".lproj/locversion.plist".toList <:+ p) := by
  simp [bomit2, IsPathSuffix, and_assoc]

theorem bomit1_eq_false (p : Str) : bomit1 p = false ↔
    ¬ (".lproj/locversion.plist".toList <:+ p) := by
  simp [bomit1, IsPathSuffix]

theorem SHASumBase64File_of_read (L : Lib) (fs : FileSys) (f d : Str)
    (h : fs.read f = some d) :
    SHASumBase64File L fs f = (true, base64Text (L.sha1 d), base64Text (L.sha256 d)) := by
  simp [SHASumBase64File, h]

/-- What `files2` does list. The `files2` map of the manifest
`GenerateCodeResources` builds has a key `p` exactly when `p` is the relative
path of a file that `GetFolderFiles` reaches (reported as `DT_REG`, below
directories reported as `DT_DIR`) other than the executable named in
`Info.plist`, `_CodeSignature/CodeResources`, the top-level `Info.plist` and
`PkgInfo`, and paths ending in `.DS_Store` or in `.lproj/locversion.plist`; its
entry holds `hash` = `data:` + Base64(SHA-1) and
`hash2` = `data:` + Base64(SHA-256) of the contents of `<folder>/p`, and
`optional` = true exactly when `p` contains `.lproj/`. -/
theorem GenerateCodeResources_files2 (L : Lib) (fs : FileSys) (strFolder p : Str) :
    (((GenerateCodeResources L fs strFolder).get "files2".toList).has p = true ↔
      p ∈ typedFilesIn (fs.dir strFolder) ∧ p ≠ bundleExeOf L fs strFolder ∧
      p ≠ "_CodeSignature/CodeResources".toList ∧
      p ≠ "Info.plist".toList ∧ p ≠ "PkgInfo".toList ∧ ¬ (".DS_Store".toList <:+ p) ∧
      ¬ (".lproj/locversion.plist".toList <:+ p)) ∧
    (((GenerateCodeResources L fs strFolder).get "files2".toList).has p = true →
      ∀ d, fs.read (strFolder ++ "/".toList ++ p) = some d →
        (((GenerateCodeResources L fs strFolder).get "files2".toList).get p).get "hash".toList
          = .str ("data:".toList ++ base64Text (L.sha1 d)) ∧
        (((GenerateCodeResources L fs strFolder).get "files2".toList).get p).get "hash2".toList
          = .str ("data:".toList ++ base64Text (L.sha256 d)) ∧
        ((((GenerateCodeResources L fs strFolder).get "files2".toList).get p).get
            "optional".toList = .bool true ↔ ".lproj/".toList <:+: p)) := by
  have hf := GenerateCodeResources_files2_find L fs strFolder p
  have hhas : ((GenerateCodeResources L fs strFolder).get "files2".toList).has p = true ↔
      (p ∈ codeResFiles L fs strFolder ∧ bomit2 p = false) := by
    unfold JValue.has
    rw [hf]
    split <;> simp_all
  refine ⟨?_, ?_⟩
  · rw [hhas, mem_codeResFiles, bomit2_eq_false]
    simp only [and_assoc]
  · intro h d hd
    have hc := hhas.mp h
    rw [if_pos hc] at hf
    have hg := get_of_find_some hf
    rw [hg, SHASumBase64File_of_read L fs _ d hd]
    unfold files2Entry
    by_cases hl : hasSubstr p ".lproj/".toList = true
    · have hl2 : ".lproj/".toList <:+: p := of_decide_eq_true hl
      rw [if_pos hl]
      exact ⟨rfl, rfl, fun _ => hl2, fun _ => rfl⟩
    · have hl2 : ¬ (".lproj/".toList <:+: p) := fun h => hl (decide_eq_true h)
      rw [if_neg hl]
      refine ⟨rfl, rfl, fun h => ?_, fun h => absurd h hl2⟩
      have hnull : (JValue.obj [("hash".toList, .str ("data:".toList ++ base64Text (L.sha1 d))),
          ("hash2".toList, .str ("data:".toList ++ base64Text (L.sha256 d)))]).get
            "optional".toList = .null := rfl
      rw [hnull] at h
      exact JValue.noConfusion h

/-- In the example folder `icon.png` is listed in `files2` with the digests of
`/app/icon.png`, and is not optional. -/
theorem GenerateCodeResources_files2_example :
    ((GenerateCodeResources exampleLib exampleFs "/app".toList).get "files2".toList).has
      "icon.png".toList = true ∧
    (((GenerateCodeResources exampleLib exampleFs "/app".toList).get "files2".toList).get
        "icon.png".toList).get "hash".toList
      = .str ("data:".toList ++ base64Text (exampleLib.sha1 "/app/icon.png".toList)) ∧
    ¬ ((((GenerateCodeResources exampleLib exampleFs "/app".toList).get "files2".toList).get
        "icon.png".toList).get "optional".toList = .bool true) :=
  have h := (GenerateCodeResources_files2 exampleLib exampleFs "/app".toList
    "icon.png".toList).2 (by decide) "/app/icon.png".toList (by decide)
  ⟨by decide, h.1, fun hopt => absurd (h.2.2.mp hopt) (by decide)⟩

/-- What `files` does list. The `files` map of the manifest
`GenerateCodeResources` builds has a key `p` exactly when `p` is the relative
path of a file that `GetFolderFiles` reaches (reported as `DT_REG`, below
directories reported as `DT_DIR`) other than the executable,
`_CodeSignature/CodeResources` and paths ending in
`.lproj/locversion.plist` (so `Info.plist` and `PkgInfo` are listed); its value
is the string `data:` + Base64(SHA-1 of the contents) when `p` contains no
`.lproj/`, and the object with that string as `hash` and `optional` = true
otherwise. -/
theorem GenerateCodeResources_files (L : Lib) (fs : FileSys) (strFolder p : Str) :
    (((GenerateCodeResources L fs strFolder).get "files".toList).has p = true ↔
      p ∈ typedFilesIn (fs.dir strFolder) ∧ p ≠ bundleExeOf L fs strFolder ∧
      p ≠ "_CodeSignature/CodeResources".toList ∧
      ¬ (".lproj/locversion.plist".toList <:+ p)) ∧
    (((GenerateCodeResources L fs strFolder).get "files".toList).has p = true →
      ∀ d, fs.read (strFolder ++ "/".toList ++ p) = some d →
        ((GenerateCodeResources L fs strFolder).get "files".toList).find? p = some
          (if ".lproj/".toList <:+: p then
            .obj [("hash".toList, .str ("data:".toList ++ base64Text (L.sha1 d))),
                  ("optional".toList, .bool true)]
          else .str ("data:".toList ++ base64Text (L.sha1 d)))) := by
  have hf := GenerateCodeResources_files_find L fs strFolder p
  have hhas : ((GenerateCodeResources L fs strFolder).get "files".toList).has p = true ↔
      (p ∈ codeResFiles L fs strFolder ∧ bomit1 p = false) := by
    unfold JValue.has
    rw [hf]
    split <;> simp_all
  refine ⟨?_, ?_⟩
  · rw [hhas, mem_codeResFiles, bomit1_eq_false]
    simp only [and_assoc]
  · intro h d hd
    have hc := hhas.mp h
    rw [if_pos hc] at hf
    rw [hf, SHASumBase64File_of_read L fs _ d hd]
    unfold filesEntry
    by_cases hl : hasSubstr p ".lproj/".toList = true
    · have hl2 : ".lproj/".toList <:+: p := of_decide_eq_true hl
      rw [if_pos hl, if_pos hl2]
    · have hl2 : ¬ (".lproj/".toList <:+: p) := fun h => hl (decide_eq_true h)
      rw [if_neg hl, if_neg hl2]

/-- In the example folder `en.lproj/a.strings` is listed in `files` as an
optional entry, and `Info.plist` is listed too. -/
theorem GenerateCodeResources_files_example :
    ((GenerateCodeResources exampleLib exampleFs "/app".toList).get "files".toList).has
      "Info.plist".toList = true ∧
    ((GenerateCodeResources exampleLib exampleFs "/app".toList).get "files".toList).find?
        "en.lproj/a.strings".toList = some
      (.obj [("hash".toList,
          .str ("data:".toList ++ base64Text (exampleLib.sha1 "/app/en.lproj/a.strings".toList))),
        ("optional".toList, .bool true)]) :=
  ⟨by decide,
   (GenerateCodeResources_files exampleLib exampleFs "/app".toList
      "en.lproj/a.strings".toList).2 (by decide) "/app/en.lproj/a.strings".toList (by decide)⟩

/-- C3. The manifest `GenerateCodeResources` builds lists neither the executable
named in the folder's `Info.plist` nor `_CodeSignature/CodeResources`, in
`files` and in `files2` alike. -/
theorem GenerateCodeResources_omits_exe_and_manifest (L : Lib) (fs : FileSys)
    (strFolder : Str) :
    ((GenerateCodeResources L fs strFolder).get "files".toList).has
      (bundleExeOf L fs strFolder) = false ∧
    ((GenerateCodeResources L fs strFolder).get "files2".toList).has
      (bundleExeOf L fs strFolder) = false ∧
    ((GenerateCodeResources L fs strFolder).get "files".toList).has
      "_CodeSignature/CodeResources".toList = false ∧
    ((GenerateCodeResources L fs strFolder).get "files2".toList).has
      "_CodeSignature/CodeResources".toList = false := by
  have h1 : bundleExeOf L fs strFolder ∉ codeResFiles L fs strFolder := by
    rw [mem_codeResFiles]; simp
  have h2 : "_CodeSignature/CodeResources".toList ∉ codeResFiles L fs strFolder := by
    rw [mem_codeResFiles]; simp
  unfold JValue.has
  rw [GenerateCodeResources_files_find, GenerateCodeResources_files2_find,
    GenerateCodeResources_files_find, GenerateCodeResources_files2_find,
    if_neg (fun h => h1 h.1), if_neg (fun h => h1 h.1),
    if_neg (fun h => h2 h.1), if_neg (fun h => h2 h.1)]
  exact ⟨rfl, rfl, rfl, rfl⟩

/-! ## Properties of the change-sets -/

mutual
theorem GetChangedFiles_acc : ∀ (n : Node) (arr : List Str),
    GetChangedFiles n arr = arr ++ GetChangedFiles n []
  | .mk _ _ _ _ _ files _ folders, arr => by
    unfold GetChangedFiles
    rw [GetChangedFilesFolders_acc folders (arr ++ files),
      GetChangedFilesFolders_acc folders ([] ++ files)]
    simp
theorem GetChangedFilesFolders_acc : ∀ (ns : List Node) (arr : List Str),
    GetChangedFilesFolders ns arr = arr ++ GetChangedFilesFolders ns []
  | [], arr => by simp [GetChangedFilesFolders]
  | c :: more, arr => by
    unfold GetChangedFilesFolders
    rw [GetChangedFilesFolders_acc more (GetChangedFiles c arr ++ _),
      GetChangedFilesFolders_acc more (GetChangedFiles c [] ++ _), GetChangedFiles_acc c arr]
    simp
end

theorem GetNodeChangedFilesFolders_eq_map (dont : Bool) : ∀ ns : List Node,
    GetNodeChangedFilesFolders dont ns = ns.map (GetNodeChangedFiles dont)
  | [] => by simp [GetNodeChangedFilesFolders]
  | n :: more => by
    unfold GetNodeChangedFilesFolders
    rw [GetNodeChangedFilesFolders_eq_map dont more]
    rfl

theorem GetNodeChangedFiles_path (dont : Bool) (n : Node) :
    (GetNodeChangedFiles dont n).path = n.path := by
  cases n; simp [GetNodeChangedFiles, Node.path]

theorem GetNodeChangedFiles_exec (dont : Bool) (n : Node) :
    (GetNodeChangedFiles dont n).exec = n.exec := by
  cases n; simp [GetNodeChangedFiles, Node.exec]

theorem GetNodeChangedFiles_files (dont : Bool) (n : Node) :
    (GetNodeChangedFiles dont n).files = n.files := by
  cases n; simp [GetNodeChangedFiles, Node.files]

theorem GetNodeChangedFiles_folders (dont : Bool) (n : Node) :
    (GetNodeChangedFiles dont n).folders = n.folders.map (GetNodeChangedFiles dont) := by
  cases n; simp [GetNodeChangedFiles, Node.folders, GetNodeChangedFilesFolders_eq_map]

mutual
theorem GetChangedFiles_annotated (dont : Bool) : ∀ (n : Node) (arr : List Str),
    GetChangedFiles (GetNodeChangedFiles dont n) arr = GetChangedFiles n arr
  | .mk path bid exec sha1 sha2 files changed folders, arr => by
    unfold GetNodeChangedFiles
    simp only [GetChangedFiles]
    exact GetChangedFilesFolders_annotated dont folders (arr ++ files)
theorem GetChangedFilesFolders_annotated (dont : Bool) : ∀ (ns : List Node) (arr : List Str),
    GetChangedFilesFolders (GetNodeChangedFilesFolders dont ns) arr
      = GetChangedFilesFolders ns arr
  | [], arr => by simp [GetNodeChangedFilesFolders]
  | c :: more, arr => by
    unfold GetNodeChangedFilesFolders
    simp only [GetChangedFilesFolders]
    rw [GetChangedFiles_annotated dont c arr, GetNodeChangedFiles_path,
      GetNodeChangedFiles_exec]
    exact GetChangedFilesFolders_annotated dont more _
end

theorem GetNodeChangedFiles_changed_eq (dont : Bool) (n : Node) :
    (GetNodeChangedFiles dont n).changed = n.changed ++ GetChangedFiles n [] ++
      (if dont = false ∧ n.path = "/".toList then ["embedded.mobileprovision".toList] else []) := by
  cases n with
  | mk path bid exec sha1 sha2 files changed folders =>
    have h : GetChangedFiles (.mk path bid exec sha1 sha2 files changed
        (GetNodeChangedFilesFolders dont folders)) []
        = GetChangedFiles (.mk path bid exec sha1 sha2 files changed folders) [] := by
      simp only [GetChangedFiles]
      exact GetChangedFilesFolders_annotated dont folders _
    unfold GetNodeChangedFiles
    simp only [Node.changed, Node.path, h]
    cases dont
    · by_cases hp : "/".toList = path
      · rw [if_pos (by rfl), if_pos hp, if_pos ⟨rfl, hp.symm⟩]
      · rw [if_pos (by rfl), if_neg hp, if_neg (fun e => hp e.2.symm), List.append_nil]
    · rw [if_neg (by decide), if_neg (fun e => Bool.noConfusion e.1), List.append_nil]

theorem Node.at_GetNodeChangedFiles (dont : Bool) : ∀ (a : List Nat) (n : Node),
    (GetNodeChangedFiles dont n).at a = (n.at a).map (GetNodeChangedFiles dont)
  | [], n => by simp [Node.at]
  | i :: a, n => by
    have e : ∀ m : Node, m.at (i :: a) =
        (match m.folders.get? i with
          | some c => c.at a
          | none => none) := fun _ => rfl
    rw [e, e, GetNodeChangedFiles_folders, List.get?_eq_getElem?, List.getElem?_map, ← List.get?_eq_getElem?]
    cases h : n.folders.get? i with
    | none => simp
    | some c => simp [Node.at_GetNodeChangedFiles dont a c]

theorem Node.at_cons (n : Node) (i : Nat) (b : List Nat) (d : Node) :
    n.at (i :: b) = some d ↔ ∃ c, n.folders.get? i = some c ∧ c.at b = some d := by
  have e : n.at (i :: b) =
      (match n.folders.get? i with
        | some c => c.at b
        | none => none) := rfl
  rw [e]
  cases h : n.folders.get? i with
  | none => simp
  | some c => simp

mutual
theorem mem_GetChangedFiles : ∀ (n : Node) (x : Str), x ∈ GetChangedFiles n [] ↔
    (∃ b d, n.at b = some d ∧ x ∈ d.files) ∨
    (∃ b d, b ≠ [] ∧ n.at b = some d ∧
      (x = d.path ++ "/_CodeSignature/CodeResources".toList ∨
       x = d.path ++ "/".toList ++ d.exec))
  | .mk path bid exec sha1 sha2 files changed folders, x => by
    unfold GetChangedFiles
    rw [GetChangedFilesFolders_acc, List.nil_append, List.mem_append,
      mem_GetChangedFilesFolders folders x]
    constructor
    · rintro (h | ⟨i, c, hc, h | h | h⟩)
      · exact Or.inl ⟨[], _, rfl, h⟩
      · obtain ⟨b, d, hd, hx⟩ := h
        exact Or.inl ⟨i :: b, d, (Node.at_cons _ i b d).mpr ⟨c, hc, hd⟩, hx⟩
      · obtain ⟨b, d, hb, hd, hx⟩ := h
        exact Or.inr ⟨i :: b, d, by simp, (Node.at_cons _ i b d).mpr ⟨c, hc, hd⟩, hx⟩
      · exact Or.inr ⟨[i], c, by simp, (Node.at_cons _ i [] c).mpr ⟨c, hc, rfl⟩, h⟩
    · rintro (⟨b, d, hd, hx⟩ | ⟨b, d, hb, hd, hx⟩)
      · cases b with
        | nil =>
          simp only [Node.at, Option.some.injEq] at hd
          subst hd
          exact Or.inl hx
        | cons i b =>
          obtain ⟨c, hc, hd2⟩ := (Node.at_cons _ i b d).mp hd
          exact Or.inr ⟨i, c, hc, Or.inl ⟨b, d, hd2, hx⟩⟩
      · cases b with
        | nil => exact absurd rfl hb
        | cons i b =>
          obtain ⟨c, hc, hd2⟩ := (Node.at_cons _ i b d).mp hd
          cases b with
          | nil =>
            simp only [Node.at, Option.some.injEq] at hd2
            subst hd2
            exact Or.inr ⟨i, c, hc, Or.inr (Or.inr hx)⟩
          | cons j b =>
            exact Or.inr ⟨i, c, hc, Or.inr (Or.inl ⟨j :: b, d, by simp, hd2, hx⟩)⟩
theorem mem_GetChangedFilesFolders : ∀ (ns : List Node) (x : Str),
    x ∈ GetChangedFilesFolders ns [] ↔
    ∃ i c, ns.get? i = some c ∧
      ((∃ b d, c.at b = some d ∧ x ∈ d.files) ∨
       (∃ b d, b ≠ [] ∧ c.at b = some d ∧
        (x = d.path ++ "/_CodeSignature/CodeResources".toList ∨
         x = d.path ++ "/".toList ++ d.exec)) ∨
       (x = c.path ++ "/_CodeSignature/CodeResources".toList ∨
        x = c.path ++ "/".toList ++ c.exec))
  | [], x => by simp [GetChangedFilesFolders]
  | c :: more, x => by
    unfold GetChangedFilesFolders
    rw [GetChangedFilesFolders_acc, List.mem_append, List.mem_append,
      mem_GetChangedFiles c x, mem_GetChangedFilesFolders more x]
    constructor
    · rintro ((h | h) | ⟨i, c2, hc2, h⟩)
      · rcases h with h | h
        · exact ⟨0, c, rfl, Or.inl h⟩
        · exact ⟨0, c, rfl, Or.inr (Or.inl h)⟩
      · simp only [List.mem_cons, List.mem_singleton, List.not_mem_nil, or_false] at h
        exact ⟨0, c, rfl, Or.inr (Or.inr h)⟩
      · exact ⟨i + 1, c2, hc2, h⟩
    · rintro ⟨i, c2, hc2, h⟩
      cases i with
      | zero =>
        simp only [List.get?_cons_zero, Option.some.injEq] at hc2
        subst hc2
        rcases h with h | h | h
        · exact Or.inl (Or.inl (Or.inl h))
        · exact Or.inl (Or.inl (Or.inr h))
        · refine Or.inl (Or.inr ?_)
          simp only [List.mem_cons, List.mem_singleton, List.not_mem_nil, or_false]
          exact h
      | succ i =>
        exact Or.inr ⟨i, c2, hc2, h⟩
end

/-- C10, as stated, fails: in the example the root's change-set holds the
dylib of the framework, which is neither one of the root's own `files`, nor
the manifest or the executable of a sub-bundle, nor the provisioning profile. -/
theorem GetNodeChangedFiles_has_descendant_files :
    "Frameworks/F.framework/lib.dylib".toList ∈ (GetNodeChangedFiles false exampleTree).changed ∧
    "Frameworks/F.framework/lib.dylib".toList ∉ exampleTree.files ∧
    (∀ c ∈ exampleTree.folders,
      "Frameworks/F.framework/lib.dylib".toList
        ≠ c.path ++ "/_CodeSignature/CodeResources".toList ∧
      "Frameworks/F.framework/lib.dylib".toList ≠ c.path ++ "/".toList ++ c.exec) ∧
    "Frameworks/F.framework/lib.dylib".toList ≠ "embedded.mobileprovision".toList := by
  decide

/-- C10, amended. After `GetNodeChangedFiles` every node of the tree is still
in its place with its `path`, `exec` and `files`, and its change-set consists
of what it held before and exactly: every entry of the `files` list of the node
and of every node below it, for every node below it (sub-bundles of any depth)
`<its path>/_CodeSignature/CodeResources` and `<its path>/<its executable>`,
and `embedded.mobileprovision` when the flag is off and the node's path
is `/`. -/
theorem GetNodeChangedFiles_changed (dont : Bool) (root : Node) (a : List Nat) (n : Node)
    (h : root.at a = some n) :
    ∃ n2, (GetNodeChangedFiles dont root).at a = some n2 ∧
      n2.path = n.path ∧ n2.exec = n.exec ∧ n2.files = n.files ∧
      ∀ x, x ∈ n2.changed ↔
        x ∈ n.changed ∨
        (∃ b d, n.at b = some d ∧ x ∈ d.files) ∨
        (∃ b d, b ≠ [] ∧ n.at b = some d ∧
          (x = d.path ++ "/_CodeSignature/CodeResources".toList ∨
           x = d.path ++ "/".toList ++ d.exec)) ∨
        (dont = false ∧ n.path = "/".toList ∧ x = "embedded.mobileprovision".toList) := by
  refine ⟨GetNodeChangedFiles dont n, ?_, GetNodeChangedFiles_path dont n,
    GetNodeChangedFiles_exec dont n, GetNodeChangedFiles_files dont n, ?_⟩
  · rw [Node.at_GetNodeChangedFiles, h]; rfl
  · intro x
    rw [GetNodeChangedFiles_changed_eq, List.mem_append, List.mem_append, mem_GetChangedFiles]
    by_cases hc : dont = false ∧ n.path = "/".toList
    · rw [if_pos hc, List.mem_singleton]
      constructor
      · rintro ((h1 | h2 | h3) | h4)
        · exact Or.inl h1
        · exact Or.inr (Or.inl h2)
        · exact Or.inr (Or.inr (Or.inl h3))
        · exact Or.inr (Or.inr (Or.inr ⟨hc.1, hc.2, h4⟩))
      · rintro (h1 | h2 | h3 | h4)
        · exact Or.inl (Or.inl h1)
        · exact Or.inl (Or.inr (Or.inl h2))
        · exact Or.inl (Or.inr (Or.inr h3))
        · exact Or.inr h4.2.2
    · rw [if_neg hc]
      constructor
      · rintro ((h1 | h2 | h3) | h4)
        · exact Or.inl h1
        · exact Or.inr (Or.inl h2)
        · exact Or.inr (Or.inr (Or.inl h3))
        · exact absurd h4 (List.not_mem_nil _)
      · rintro (h1 | h2 | h3 | h4)
        · exact Or.inl (Or.inl h1)
        · exact Or.inl (Or.inr (Or.inl h2))
        · exact Or.inl (Or.inr (Or.inr h3))
        · exact absurd ⟨h4.1, h4.2.1⟩ hc

/-- The root of the example, at the empty address, after the annotation. -/
theorem GetNodeChangedFiles_changed_witness :
    ∃ n2, (GetNodeChangedFiles false exampleTree).at [] = some n2 ∧
      n2.path = exampleTree.path ∧ n2.exec = exampleTree.exec ∧ n2.files = exampleTree.files ∧
      ∀ x, x ∈ n2.changed ↔
        x ∈ exampleTree.changed ∨
        (∃ b d, exampleTree.at b = some d ∧ x ∈ d.files) ∨
        (∃ b d, b ≠ [] ∧ exampleTree.at b = some d ∧
          (x = d.path ++ "/_CodeSignature/CodeResources".toList ∨
           x = d.path ++ "/".toList ++ d.exec)) ∨
        (false = false ∧ exampleTree.path = "/".toList ∧
          x = "embedded.mobileprovision".toList) :=
  GetNodeChangedFiles_changed false exampleTree [] exampleTree rfl

/-! ## Properties of the signing traversal -/

theorem SignNode_eq {W : Type} (S : Sys W) (L : Lib) (B : Bundle) (a : List Nat)
    (path bid exec sha1 sha2 : Str) (files changed : List Str) (folders : List Node) (w : W) :
    SignNode S L B a (.mk path bid exec sha1 sha2 files changed folders) w =
      if (SignNodes S L B a 0 folders w).1 = true then
        if (signFiles S B a files (SignNodes S L B a 0 folders w).2.1).1 = true then
          ((SignNodeSelf S L B a (.mk path bid exec sha1 sha2 files changed folders)
              (signFiles S B a files (SignNodes S L B a 0 folders w).2.1).2.1).1,
           (SignNodeSelf S L B a (.mk path bid exec sha1 sha2 files changed folders)
              (signFiles S B a files (SignNodes S L B a 0 folders w).2.1).2.1).2.1,
           (SignNodes S L B a 0 folders w).2.2 ++
             (signFiles S B a files (SignNodes S L B a 0 folders w).2.1).2.2 ++
             (SignNodeSelf S L B a (.mk path bid exec sha1 sha2 files changed folders)
              (signFiles S B a files (SignNodes S L B a 0 folders w).2.1).2.1).2.2)
        else (false, (signFiles S B a files (SignNodes S L B a 0 folders w).2.1).2.1,
          (SignNodes S L B a 0 folders w).2.2 ++
            (signFiles S B a files (SignNodes S L B a 0 folders w).2.1).2.2)
      else (false, (SignNodes S L B a 0 folders w).2.1, (SignNodes S L B a 0 folders w).2.2) := by
  rw [SignNode]
  rcases h1 : SignNodes S L B a 0 folders w with ⟨ok1, w1, tr1⟩
  cases ok1
  · simp
  · simp only [if_true]
    rcases h2 : signFiles S B a files w1 with ⟨ok2, w2, tr2⟩
    cases ok2
    · simp
    · simp

theorem SignNodes_cons_eq {W : Type} (S : Sys W) (L : Lib) (B : Bundle) (a : List Nat)
    (i : Nat) (n : Node) (more : List Node) (w : W) :
    SignNodes S L B a i (n :: more) w =
      if (SignNode S L B (a ++ [i]) n w).1 = true then
        ((SignNodes S L B a (i + 1) more (SignNode S L B (a ++ [i]) n w).2.1).1,
         (SignNodes S L B a (i + 1) more (SignNode S L B (a ++ [i]) n w).2.1).2.1,
         (SignNode S L B (a ++ [i]) n w).2.2 ++
           (SignNodes S L B a (i + 1) more (SignNode S L B (a ++ [i]) n w).2.1).2.2)
      else (false, (SignNode S L B (a ++ [i]) n w).2.1, (SignNode S L B (a ++ [i]) n w).2.2) := by
  rw [SignNodes]
  rcases h1 : SignNode S L B (a ++ [i]) n w with ⟨ok1, w1, tr1⟩
  cases ok1
  · simp
  · simp

theorem signFiles_cons_eq {W : Type} (S : Sys W) (B : Bundle) (a : List Nat) (f : Str)
    (more : List Str) (w : W) :
    signFiles S B a (f :: more) w =
      if S.machoInit w (B.m_strAppFolder ++ "/".toList ++ f) = true then
        if (S.machoSign w (B.m_strAppFolder ++ "/".toList ++ f) B.m_bForceSign [] [] [] []).1
            = true then
          ((signFiles S B a more
              (S.machoSign w (B.m_strAppFolder ++ "/".toList ++ f) B.m_bForceSign [] [] [] []).2).1,
           (signFiles S B a more
              (S.machoSign w (B.m_strAppFolder ++ "/".toList ++ f) B.m_bForceSign [] [] [] []).2).2.1,
           ⟨a, .signFile f⟩ :: (signFiles S B a more
              (S.machoSign w (B.m_strAppFolder ++ "/".toList ++ f) B.m_bForceSign [] [] [] []).2).2.2)
        else (false,
          (S.machoSign w (B.m_strAppFolder ++ "/".toList ++ f) B.m_bForceSign [] [] [] []).2,
          [⟨a, .signFile f⟩])
      else (false, w, []) := by
  rw [signFiles]
  split
  · rcases h1 : S.machoSign w (B.m_strAppFolder ++ "/".toList ++ f) B.m_bForceSign [] [] [] []
      with ⟨ok, w1⟩
    cases ok <;> simp
  · rfl

theorem signFiles_nodes {W : Type} (S : Sys W) (B : Bundle) (a : List Nat) :
    ∀ (fs : List Str) (w : W) (x : Action), x ∈ (signFiles S B a fs w).2.2 →
      ∃ f, x = ⟨a, .signFile f⟩
  | [], w, x, hx => by simp [signFiles] at hx
  | f :: more, w, x, hx => by
    rw [signFiles_cons_eq] at hx
    split at hx
    · split at hx
      · rcases List.mem_cons.mp hx with hx | hx
        · exact ⟨f, hx⟩
        · exact signFiles_nodes S B a more _ x hx
      · exact ⟨f, List.mem_singleton.mp hx⟩
    · exact absurd hx (List.not_mem_nil _)

theorem signFiles_ok {W : Type} (S : Sys W) (B : Bundle) (a : List Nat) :
    ∀ (fs : List Str) (w : W), (signFiles S B a fs w).1 = true →
      ∀ f ∈ fs, (⟨a, .signFile f⟩ : Action) ∈ (signFiles S B a fs w).2.2
  | [], w, _, f, hf => absurd hf (List.not_mem_nil _)
  | g :: more, w, hok, f, hf => by
    rw [signFiles_cons_eq] at hok ⊢
    split at hok
    · rename_i hi
      rw [if_pos hi]
      split at hok
      · rename_i hs
        rw [if_pos hs]
        rcases List.mem_cons.mp hf with rfl | hf
        · exact List.mem_cons_self _ _
        · exact List.mem_cons_of_mem _ (signFiles_ok S B a more _ hok f hf)
      · exact absurd hok (by simp)
    · exact absurd hok (by simp)

theorem updateCodeRes_ops (L : Lib) (fs : FileSys) (app folder : Str) :
    ∀ (l : List Str) (jv : JValue) (o : Op),
      o ∈ (updateCodeRes L fs app folder l jv).2 → ∃ f, o = .hashChanged f
  | [], jv, o, ho => by simp [updateCodeRes] at ho
  | f :: more, jv, o, ho => by
    rw [updateCodeRes] at ho
    split at ho
    · exact ⟨f, List.mem_singleton.mp ho⟩
    · rename_i jv2 _
      rcases h : updateCodeRes L fs app folder more jv2 with ⟨r, ops⟩
      rw [h] at ho
      rcases List.mem_cons.mp ho with ho | ho
      · exact ⟨f, ho⟩
      · exact updateCodeRes_ops L fs app folder more jv2 o (by rw [h]; exact ho)

theorem nodeCodeRes_cases {W : Type} (S : Sys W) (L : Lib) (B : Bundle) (a : List Nat)
    (n : Node) (w : W) :
    (B.m_bForceSign = true ∧ nodeCodeRes S L B a n w =
      (some (GenerateCodeResources L (S.fs w) (baseFolderOf B n)),
        [⟨a, .genCodeRes (baseFolderOf B n)⟩])) ∨
    (B.m_bForceSign = false ∧
      (readPListFile L (S.fs w)
        (baseFolderOf B n ++ "/_CodeSignature/CodeResources".toList)).isNull = true ∧
      nodeCodeRes S L B a n w =
      (some (GenerateCodeResources L (S.fs w) (baseFolderOf B n)),
        [⟨a, .readCodeRes (baseFolderOf B n ++ "/_CodeSignature/CodeResources".toList)
            (readPListFile L (S.fs w)
              (baseFolderOf B n ++ "/_CodeSignature/CodeResources".toList))⟩,
         ⟨a, .genCodeRes (baseFolderOf B n)⟩])) ∨
    (B.m_bForceSign = false ∧
      (readPListFile L (S.fs w)
        (baseFolderOf B n ++ "/_CodeSignature/CodeResources".toList)).isNull = false ∧
      nodeCodeRes S L B a n w =
      ((updateCodeRes L (S.fs w) B.m_strAppFolder n.path n.changed
          (readPListFile L (S.fs w)
            (baseFolderOf B n ++ "/_CodeSignature/CodeResources".toList))).1,
        ⟨a, .readCodeRes (baseFolderOf B n ++ "/_CodeSignature/CodeResources".toList)
            (readPListFile L (S.fs w)
              (baseFolderOf B n ++ "/_CodeSignature/CodeResources".toList))⟩ ::
          (updateCodeRes L (S.fs w) B.m_strAppFolder n.path n.changed
            (readPListFile L (S.fs w)
              (baseFolderOf B n ++ "/_CodeSignature/CodeResources".toList))).2.map
            (fun o => ⟨a, o⟩))) := by
  unfold nodeCodeRes
  cases hB : B.m_bForceSign
  · cases hN : (readPListFile L (S.fs w)
        (baseFolderOf B n ++ "/_CodeSignature/CodeResources".toList)).isNull
    · right; right
      refine ⟨rfl, rfl, ?_⟩
      simp only [Bool.not_false, if_true, Bool.false_or, hN, Bool.false_eq_true, if_false,
        List.singleton_append]
    · right; left
      refine ⟨rfl, rfl, ?_⟩
      simp only [Bool.not_false, if_true, Bool.false_or, hN, List.singleton_append]
  · left
    refine ⟨rfl, ?_⟩
    simp only [Bool.not_true, Bool.false_eq_true, if_false, Bool.true_or, if_true,
      List.nil_append]

theorem nodeCodeRes_nodes {W : Type} (S : Sys W) (L : Lib) (B : Bundle) (a : List Nat)
    (n : Node) (w : W) (x : Action) (hx : x ∈ (nodeCodeRes S L B a n w).2) : x.node = a := by
  rcases nodeCodeRes_cases S L B a n w with ⟨_, h⟩ | ⟨_, _, h⟩ | ⟨_, _, h⟩
  · rw [h] at hx
    rw [List.mem_singleton.mp hx]
  · rw [h] at hx
    simp only [List.mem_cons, List.mem_singleton, List.not_mem_nil, or_false] at hx
    rcases hx with rfl | rfl <;> rfl
  · rw [h] at hx
    simp only [List.mem_cons, List.mem_map] at hx
    rcases hx with rfl | ⟨o, _, rfl⟩ <;> rfl

theorem injectAll_cons_eq {W : Type} (S : Sys W) (B : Bundle) (a : List Nat) (exe p : Str)
    (more : List Str) (b : Bool) (w : W) :
    injectAll S B a exe (p :: more) b w =
      ((injectAll S B a exe more (S.machoInject w exe B.m_bWeakInject p b).1
          (S.machoInject w exe B.m_bWeakInject p b).2).1,
       (injectAll S B a exe more (S.machoInject w exe B.m_bWeakInject p b).1
          (S.machoInject w exe B.m_bWeakInject p b).2).2.1,
       ⟨a, .injectDyLib p⟩ ::
        (injectAll S B a exe more (S.machoInject w exe B.m_bWeakInject p b).1
          (S.machoInject w exe B.m_bWeakInject p b).2).2.2) := by
  rw [injectAll]

theorem injectAll_nodes {W : Type} (S : Sys W) (B : Bundle) (a : List Nat) (exe : Str) :
    ∀ (l : List Str) (b : Bool) (w : W) (x : Action),
      x ∈ (injectAll S B a exe l b w).2.2 → ∃ p, x = ⟨a, .injectDyLib p⟩
  | [], b, w, x, hx => by simp [injectAll] at hx
  | p :: more, b, w, x, hx => by
    rw [injectAll_cons_eq] at hx
    rcases List.mem_cons.mp hx with hx | hx
    · exact ⟨p, hx⟩
    · exact injectAll_nodes S B a exe more _ _ x hx

theorem SignNodeSelf_cases {W : Type} (S : Sys W) (L : Lib) (B : Bundle) (a : List Nat)
    (n : Node) (w : W) :
    ((SignNodeSelf S L B a n w).1 = false ∧ (SignNodeSelf S L B a n w).2.2 = []) ∨
    ((SignNodeSelf S L B a n w).1 = false ∧
      (nodeCodeRes S L B a n
        (S.createFolder w (baseFolderOf B n ++ "/_CodeSignature".toList))).1 = none ∧
      (SignNodeSelf S L B a n w).2.2 = (nodeCodeRes S L B a n
        (S.createFolder w (baseFolderOf B n ++ "/_CodeSignature".toList))).2) ∨
    (∃ jv tr3, (nodeCodeRes S L B a n
        (S.createFolder w (baseFolderOf B n ++ "/_CodeSignature".toList))).1 = some jv ∧
      (∀ x ∈ tr3, ∃ p, x = (⟨a, .injectDyLib p⟩ : Action)) ∧
      (((SignNodeSelf S L B a n w).1 = false ∧
        (SignNodeSelf S L B a n w).2.2 = (nodeCodeRes S L B a n
          (S.createFolder w (baseFolderOf B n ++ "/_CodeSignature".toList))).2 ++
          [⟨a, .writeCodeRes (baseFolderOf B n ++ "/_CodeSignature/CodeResources".toList) jv⟩]) ∨
       (SignNodeSelf S L B a n w).2.2 = (nodeCodeRes S L B a n
          (S.createFolder w (baseFolderOf B n ++ "/_CodeSignature".toList))).2 ++
          [⟨a, .writeCodeRes (baseFolderOf B n ++ "/_CodeSignature/CodeResources".toList) jv⟩]
          ++ tr3 ++
          [⟨a, .signExe (baseFolderOf B n ++ "/".toList ++ n.exec) (L.writePList jv)⟩])) := by
  unfold SignNodeSelf
  by_cases hg : n.bid = [] ∨ n.exec = [] ∨ DecodeStr n.sha1 = [] ∨ DecodeStr n.sha2 = []
  · left
    simp only [hg, if_true, and_self]
  · by_cases hi : S.machoInit w (baseFolderOf B n ++ "/".toList ++ n.exec) = true
    · simp only [hg, if_false, hi, if_true]
      rcases hc : nodeCodeRes S L B a n
        (S.createFolder w (baseFolderOf B n ++ "/_CodeSignature".toList)) with ⟨r, tr1⟩
      cases r with
      | none =>
        right; left
        exact ⟨rfl, rfl, rfl⟩
      | some jv =>
        right; right
        simp only
        rcases hw : S.writeFile (S.createFolder w (baseFolderOf B n ++ "/_CodeSignature".toList))
          (baseFolderOf B n ++ "/_CodeSignature/CodeResources".toList) (L.writePList jv)
          with ⟨okw, w2⟩
        cases okw
        · exact ⟨jv, [], rfl, fun x hx => absurd hx (List.not_mem_nil _), Or.inl ⟨rfl, rfl⟩⟩
        · simp only
          by_cases hr : "/".toList = n.path ∧ B.arrDyLibPaths ≠ []
          · rw [if_pos hr]
            refine ⟨jv, (injectAll S B a (baseFolderOf B n ++ "/".toList ++ n.exec)
              B.arrDyLibPaths B.m_bForceSign w2).2.2, rfl,
              injectAll_nodes S B a _ _ _ _, Or.inr rfl⟩
          · rw [if_neg hr]
            exact ⟨jv, [], rfl, fun x hx => absurd hx (List.not_mem_nil _), Or.inr (by simp)⟩
    · left
      simp only [hg, if_false, hi, Bool.false_eq_true, and_self]

theorem SignNodeSelf_nodes {W : Type} (S : Sys W) (L : Lib) (B : Bundle) (a : List Nat)
    (n : Node) (w : W) (x : Action) (hx : x ∈ (SignNodeSelf S L B a n w).2.2) : x.node = a := by
  rcases SignNodeSelf_cases S L B a n w with ⟨_, h⟩ | ⟨_, _, h⟩ | ⟨jv, tr3, _, h3, ⟨_, h⟩ | h⟩
  · rw [h] at hx
    exact absurd hx (List.not_mem_nil _)
  · rw [h] at hx
    exact nodeCodeRes_nodes S L B a n _ x hx
  · rw [h] at hx
    rcases List.mem_append.mp hx with hx | hx
    · exact nodeCodeRes_nodes S L B a n _ x hx
    · rw [List.mem_singleton.mp hx]
  · rw [h] at hx
    simp only [List.mem_append, List.mem_singleton] at hx
    rcases hx with ((hx | hx) | hx) | hx
    · exact nodeCodeRes_nodes S L B a n _ x hx
    · rw [hx]
    · obtain ⟨p, rfl⟩ := h3 x hx
      rfl
    · rw [hx]

theorem SignNodeSelf_ok {W : Type} (S : Sys W) (L : Lib) (B : Bundle) (a : List Nat)
    (n : Node) (w : W) (hok : (SignNodeSelf S L B a n w).1 = true) :
    (∃ jv, (⟨a, .writeCodeRes (baseFolderOf B n ++ "/_CodeSignature/CodeResources".toList) jv⟩
      : Action) ∈ (SignNodeSelf S L B a n w).2.2) ∧
    (∃ data, (⟨a, .signExe (baseFolderOf B n ++ "/".toList ++ n.exec) data⟩ : Action)
      ∈ (SignNodeSelf S L B a n w).2.2) := by
  rcases SignNodeSelf_cases S L B a n w with ⟨h0, _⟩ | ⟨h0, _, _⟩ | ⟨jv, tr3, _, _, ⟨h0, _⟩ | h⟩
  · rw [h0] at hok; exact absurd hok (by decide)
  · rw [h0] at hok; exact absurd hok (by decide)
  · rw [h0] at hok; exact absurd hok (by decide)
  · rw [h]
    exact ⟨⟨jv, by simp⟩, ⟨L.writePList jv, by simp⟩⟩

theorem SignNode_ok {W : Type} (S : Sys W) (L : Lib) (B : Bundle) (a : List Nat)
    (n : Node) (w : W) (hok : (SignNode S L B a n w).1 = true) :
    (∃ jv, (⟨a, .writeCodeRes (baseFolderOf B n ++ "/_CodeSignature/CodeResources".toList) jv⟩
      : Action) ∈ (SignNode S L B a n w).2.2) ∧
    (∃ data, (⟨a, .signExe (baseFolderOf B n ++ "/".toList ++ n.exec) data⟩ : Action)
      ∈ (SignNode S L B a n w).2.2) := by
  cases n with
  | mk path bid exec sha1 sha2 files changed folders =>
    rw [SignNode_eq] at hok ⊢
    split at hok
    · rename_i h1
      rw [if_pos h1]
      split at hok
      · rename_i h2
        rw [if_pos h2]
        obtain ⟨⟨jv, hjv⟩, ⟨d, hd⟩⟩ := SignNodeSelf_ok S L B a _ _ hok
        exact ⟨⟨jv, List.mem_append_right _ hjv⟩, ⟨d, List.mem_append_right _ hd⟩⟩
      · exact absurd hok (by simp)
    · exact absurd hok (by simp)

theorem SignNodes_ok {W : Type} (S : Sys W) (L : Lib) (B : Bundle) (a : List Nat) :
    ∀ (ns : List Node) (i : Nat) (w : W), (SignNodes S L B a i ns w).1 = true →
      ∀ k c, ns.get? k = some c →
        (∃ jv, (⟨a ++ [i + k],
          .writeCodeRes (baseFolderOf B c ++ "/_CodeSignature/CodeResources".toList) jv⟩
            : Action) ∈ (SignNodes S L B a i ns w).2.2) ∧
        (∃ data, (⟨a ++ [i + k],
          .signExe (baseFolderOf B c ++ "/".toList ++ c.exec) data⟩ : Action)
            ∈ (SignNodes S L B a i ns w).2.2)
  | [], i, w, _, k, c, hc => by simp at hc
  | n :: more, i, w, hok, k, c, hc => by
    rw [SignNodes_cons_eq] at hok ⊢
    split at hok
    · rename_i h1
      rw [if_pos h1]
      simp only at hok ⊢
      cases k with
      | zero =>
        simp only [List.get?_cons_zero, Option.some.injEq] at hc
        subst hc
        obtain ⟨⟨jv, hjv⟩, ⟨d, hd⟩⟩ := SignNode_ok S L B (a ++ [i]) n w h1
        exact ⟨⟨jv, List.mem_append_left _ hjv⟩, ⟨d, List.mem_append_left _ hd⟩⟩
      | succ k =>
        simp only [List.get?_cons_succ] at hc
        obtain ⟨⟨jv, hjv⟩, ⟨d, hd⟩⟩ := SignNodes_ok S L B a more (i + 1) _ hok k c hc
        have e : i + (k + 1) = i + 1 + k := by omega
        rw [e]
        exact ⟨⟨jv, List.mem_append_right _ hjv⟩, ⟨d, List.mem_append_right _ hd⟩⟩
    · exact absurd hok (by simp)

mutual
theorem SignNode_nodes {W : Type} (S : Sys W) (L : Lib) (B : Bundle) :
    ∀ (n : Node) (a : List Nat) (w : W) (x : Action),
      x ∈ (SignNode S L B a n w).2.2 → x.node = a ∨ ∃ j t, x.node = a ++ j :: t
  | .mk path bid exec sha1 sha2 files changed folders, a, w, x, hx => by
    rw [SignNode_eq] at hx
    have hch : ∀ y ∈ (SignNodes S L B a 0 folders w).2.2, ∃ j t, y.node = a ++ j :: t := by
      intro y hy
      obtain ⟨j, t, _, h⟩ := SignNodes_nodes S L B folders a 0 w y hy
      exact ⟨j, t, h⟩
    split at hx
    · split at hx
      · simp only [List.mem_append] at hx
        rcases hx with (hx | hx) | hx
        · exact Or.inr (hch x hx)
        · obtain ⟨f, rfl⟩ := signFiles_nodes S B a files _ x hx
          exact Or.inl rfl
        · exact Or.inl (SignNodeSelf_nodes S L B a _ _ x hx)
      · simp only [List.mem_append] at hx
        rcases hx with hx | hx
        · exact Or.inr (hch x hx)
        · obtain ⟨f, rfl⟩ := signFiles_nodes S B a files _ x hx
          exact Or.inl rfl
    · exact Or.inr (hch x hx)
theorem SignNodes_nodes {W : Type} (S : Sys W) (L : Lib) (B : Bundle) :
    ∀ (ns : List Node) (a : List Nat) (i : Nat) (w : W) (x : Action),
      x ∈ (SignNodes S L B a i ns w).2.2 → ∃ j t, i ≤ j ∧ x.node = a ++ j :: t
  | [], a, i, w, x, hx => by simp [SignNodes] at hx
  | n :: more, a, i, w, x, hx => by
    rw [SignNodes_cons_eq] at hx
    have hhead : ∀ y ∈ (SignNode S L B (a ++ [i]) n w).2.2, ∃ j t, i ≤ j ∧ y.node = a ++ j :: t := by
      intro y hy
      rcases SignNode_nodes S L B n (a ++ [i]) w y hy with h | ⟨j, t, h⟩
      · exact ⟨i, [], Nat.le_refl _, by rw [h]⟩
      · exact ⟨i, j :: t, Nat.le_refl _, by rw [h]; simp⟩
    split at hx
    · simp only [List.mem_append] at hx
      rcases hx with hx | hx
      · exact hhead x hx
      · obtain ⟨j, t, hj, h⟩ := SignNodes_nodes S L B more a (i + 1) _ x hx
        exact ⟨j, t, by omega, h⟩
    · exact hhead x hx
end

theorem append_split_right {α : Type} (A B pre post : List α) (act : α)
    (h : A ++ B = pre ++ act :: post) (hA : act ∉ A) :
    ∃ pre2, pre = A ++ pre2 ∧ B = pre2 ++ act :: post := by
  rcases List.append_eq_append_iff.mp h with ⟨a2, h1, h2⟩ | ⟨c2, h1, h2⟩
  · exact ⟨a2, h1, h2⟩
  · cases c2 with
    | nil =>
      refine ⟨[], ?_, ?_⟩
      · rw [h1]; simp
      · simpa using h2.symm
    | cons y c3 =>
      simp only [List.cons_append, List.cons.injEq] at h2
      rw [h1, ← h2.1] at hA
      exact absurd (List.mem_append_right _ (List.mem_cons_self _ _)) hA

theorem append_split_left {α : Type} (A B pre post : List α) (act : α)
    (h : A ++ B = pre ++ act :: post) (hB : act ∉ B) :
    ∃ post2, A = pre ++ act :: post2 ∧ post = post2 ++ B := by
  rcases List.append_eq_append_iff.mp h with ⟨a2, _, h2⟩ | ⟨c2, h1, h2⟩
  · rw [h2] at hB
    exact absurd (List.mem_append_right _ (List.mem_cons_self _ _)) hB
  · cases c2 with
    | nil =>
      simp only [List.nil_append] at h2
      rw [← h2] at hB
      exact absurd (List.mem_cons_self _ _) hB
    | cons y c3 =>
      simp only [List.cons_append, List.cons.injEq] at h2
      exact ⟨c3, by rw [h1, h2.1], h2.2⟩

theorem ChildrenSigned_mono (B : Bundle) (m : Node) (addr : List Nat) (pre pre2 : List Action)
    (hsub : ∀ x ∈ pre, x ∈ pre2) (h : ChildrenSigned B m addr pre) :
    ChildrenSigned B m addr pre2 := by
  refine ⟨fun k c hc => ?_, fun f hf => hsub _ (h.2 f hf)⟩
  obtain ⟨⟨jv, hjv⟩, ⟨d, hd⟩⟩ := h.1 k c hc
  exact ⟨⟨jv, hsub _ hjv⟩, ⟨d, hsub _ hd⟩⟩

theorem node_ne_child (a : List Nat) (j : Nat) (t : List Nat) : a ≠ a ++ j :: t := by
  intro h
  have := congrArg List.length h
  simp at this

mutual
theorem SignNode_children_first_aux {W : Type} (S : Sys W) (L : Lib) (B : Bundle) :
    ∀ (n : Node) (a0 : List Nat) (w : W) (rel : List Nat) (m : Node)
      (pre post : List Action) (act : Action),
      n.at rel = some m → (SignNode S L B a0 n w).2.2 = pre ++ act :: post →
      act.node = a0 ++ rel → act.op.isManifest = true →
      ChildrenSigned B m (a0 ++ rel) pre
  | .mk path bid exec sha1 sha2 files changed folders, a0, w, rel, m, pre, post, act,
      hm, htr, hnode, hman => by
    have hch : ∀ y ∈ (SignNodes S L B a0 0 folders w).2.2, ∃ j t, y.node = a0 ++ j :: t := by
      intro y hy
      obtain ⟨j, t, _, h⟩ := SignNodes_nodes S L B folders a0 0 w y hy
      exact ⟨j, t, h⟩
    have hfl : ∀ w2, ∀ y ∈ (signFiles S B a0 files w2).2.2,
        y.node = a0 ∧ y.op.isManifest = false := by
      intro w2 y hy
      obtain ⟨f, rfl⟩ := signFiles_nodes S B a0 files w2 y hy
      exact ⟨rfl, rfl⟩
    rw [SignNode_eq] at htr
    cases rel with
    | nil =>
      simp only [Node.at, Option.some.injEq] at hm
      subst hm
      rw [List.append_nil] at hnode ⊢
      have hnotch : act ∉ (SignNodes S L B a0 0 folders w).2.2 := by
        intro hin
        obtain ⟨j, t, h⟩ := hch act hin
        rw [hnode] at h
        exact node_ne_child a0 j t h
      have hnotfl : ∀ w2, act ∉ (signFiles S B a0 files w2).2.2 := by
        intro w2 hin
        have := (hfl w2 act hin).2
        rw [hman] at this
        exact Bool.noConfusion this
      have hact : act ∈ pre ++ act :: post :=
        List.mem_append_right _ (List.mem_cons_self _ _)
      split at htr
      · rename_i h1
        split at htr
        · rename_i h2
          simp only at htr
          obtain ⟨pre2, hpre, _⟩ := append_split_right _ _ pre post act htr (by
            intro hin
            rcases List.mem_append.mp hin with hin | hin
            · exact hnotch hin
            · exact hnotfl _ hin)
          refine ⟨fun k c hc => ?_, fun f hf => ?_⟩
          · obtain ⟨⟨jv, hjv⟩, ⟨d, hd⟩⟩ := SignNodes_ok S L B a0 folders 0 w h1 k c hc
            rw [Nat.zero_add] at hjv hd
            rw [hpre]
            exact ⟨⟨jv, List.mem_append_left _ (List.mem_append_left _ hjv)⟩,
              ⟨d, List.mem_append_left _ (List.mem_append_left _ hd)⟩⟩
          · rw [hpre]
            exact List.mem_append_left _ (List.mem_append_right _
              (signFiles_ok S B a0 files _ h2 f hf))
        · simp only at htr
          rw [← htr] at hact
          rcases List.mem_append.mp hact with hin | hin
          · exact absurd hin hnotch
          · exact absurd hin (hnotfl _)
      · simp only at htr
        rw [← htr] at hact
        exact absurd hact hnotch
    | cons j rel2 =>
      obtain ⟨c, hc, hcm⟩ := (Node.at_cons _ j rel2 m).mp hm
      have hc2 : folders.get? j = some c := hc
      have hnotself : ∀ y : Action, y.node = a0 → act ≠ y := by
        intro y hy he
        rw [he, hy] at hnode
        exact node_ne_child a0 j rel2 hnode
      have hrest : ∀ rest : List Action, (∀ y ∈ rest, y.node = a0) →
          (SignNodes S L B a0 0 folders w).2.2 ++ rest = pre ++ act :: post →
          ChildrenSigned B m (a0 ++ j :: rel2) pre := by
        intro rest hr h
        obtain ⟨post2, hA, _⟩ := append_split_left _ _ pre post act h (by
          intro hin
          exact hnotself act (hr act hin) rfl)
        have := SignNodes_children_first_aux S L B folders a0 0 w j c rel2 m pre post2 act
          hc2 hcm hA (by rw [Nat.zero_add]; exact hnode) hman
        rw [Nat.zero_add] at this
        exact this
      split at htr
      · split at htr
        · simp only [List.append_assoc] at htr
          refine hrest _ ?_ htr
          intro y hy
          rcases List.mem_append.mp hy with hy | hy
          · exact (hfl _ y hy).1
          · exact SignNodeSelf_nodes S L B a0 _ _ y hy
        · simp only at htr
          exact hrest _ (fun y hy => (hfl _ y hy).1) htr
      · simp only at htr
        exact hrest [] (fun y hy => absurd hy (List.not_mem_nil _)) (by rw [List.append_nil]; exact htr)
theorem SignNodes_children_first_aux {W : Type} (S : Sys W) (L : Lib) (B : Bundle) :
    ∀ (ns : List Node) (a0 : List Nat) (i : Nat) (w : W) (j : Nat) (c : Node)
      (rel : List Nat) (m : Node) (pre post : List Action) (act : Action),
      ns.get? j = some c → c.at rel = some m →
      (SignNodes S L B a0 i ns w).2.2 = pre ++ act :: post →
      act.node = a0 ++ (i + j) :: rel → act.op.isManifest = true →
      ChildrenSigned B m (a0 ++ (i + j) :: rel) pre
  | [], a0, i, w, j, c, rel, m, pre, post, act, hc, _, _, _, _ => by simp at hc
  | n :: more, a0, i, w, j, c, rel, m, pre, post, act, hc, hcm, htr, hnode, hman => by
    rw [SignNodes_cons_eq] at htr
    have hact : act ∈ pre ++ act :: post :=
      List.mem_append_right _ (List.mem_cons_self _ _)
    cases j with
    | zero =>
      simp only [List.get?_cons_zero, Option.some.injEq] at hc
      subst hc
      rw [Nat.add_zero] at hnode ⊢
      have hnode2 : act.node = (a0 ++ [i]) ++ rel := by rw [hnode]; simp
      have hgoal : ∀ pre0 post0, (SignNode S L B (a0 ++ [i]) n w).2.2 = pre0 ++ act :: post0 →
          ChildrenSigned B m (a0 ++ i :: rel) pre0 := by
        intro pre0 post0 h
        have := SignNode_children_first_aux S L B n (a0 ++ [i]) w rel m pre0 post0 act
          hcm h hnode2 hman
        simpa using this
      split at htr
      · simp only at htr
        obtain ⟨post2, hA, _⟩ := append_split_left _ _ pre post act htr (by
          intro hin
          obtain ⟨j2, t, hj2, h⟩ := SignNodes_nodes S L B more a0 (i + 1) _ act hin
          rw [hnode] at h
          have := List.append_cancel_left h
          simp only [List.cons.injEq] at this
          omega)
        exact hgoal pre post2 hA
      · simp only at htr
        exact hgoal pre post htr
    | succ j =>
      simp only [List.get?_cons_succ] at hc
      have hnothead : act ∉ (SignNode S L B (a0 ++ [i]) n w).2.2 := by
        intro hin
        rcases SignNode_nodes S L B n (a0 ++ [i]) w act hin with h | ⟨j2, t, h⟩
        · rw [hnode] at h
          have e : a0 ++ (i + (j + 1)) :: rel = a0 ++ [i] ↔ False := by
            constructor
            · intro h2
              have := List.append_cancel_left h2
              simp only [List.cons.injEq] at this
              omega
            · exact False.elim
          exact e.mp h
        · rw [hnode] at h
          have h2 : a0 ++ (i + (j + 1)) :: rel = a0 ++ (i :: j2 :: t) := by
            rw [h]; simp
          have := List.append_cancel_left h2
          simp only [List.cons.injEq] at this
          omega
      split at htr
      · simp only at htr
        obtain ⟨pre2, hpre, hB⟩ := append_split_right _ _ pre post act htr hnothead
        have e : i + (j + 1) = i + 1 + j := by omega
        have := SignNodes_children_first_aux S L B more a0 (i + 1) _ j c rel m pre2 post act
          hc hcm hB (by rw [← e]; exact hnode) hman
        rw [← e] at this
        rw [hpre]
        exact ChildrenSigned_mono B m _ pre2 _ (fun x hx => List.mem_append_right _ hx) this
      · simp only at htr
        rw [← htr] at hact
        exact absurd hact hnothead
end

/-- C4. In the sequence of calls `SignNode` makes on a tree, whenever the node at
address `a` generates or updates its manifest, the calls made before that
point include, for every sub-bundle of the node, the write of the
sub-bundle's `CodeResources` and the `Sign` call on its executable, and the
`Sign` call on every loose dylib of the node. -/
theorem SignNode_children_before_manifest {W : Type} (S : Sys W) (L : Lib) (B : Bundle)
    (root : Node) (w : W) (a : List Nat) (n : Node) (pre post : List Action) (act : Action)
    (hn : root.at a = some n)
    (htr : (SignNode S L B [] root w).2.2 = pre ++ act :: post)
    (hnode : act.node = a) (hman : act.op.isManifest = true) :
    (∀ k c, n.folders.get? k = some c →
      (∃ jv, (⟨a ++ [k],
        .writeCodeRes (baseFolderOf B c ++ "/_CodeSignature/CodeResources".toList) jv⟩ : Action)
          ∈ pre) ∧
      (∃ data, (⟨a ++ [k],
        .signExe (baseFolderOf B c ++ "/".toList ++ c.exec) data⟩ : Action) ∈ pre)) ∧
    (∀ f ∈ n.files, (⟨a, .signFile f⟩ : Action) ∈ pre) := by
  have h := SignNode_children_first_aux S L B root [] w a n pre post act hn htr
    (by rw [hnode]; rfl) hman
  rw [List.nil_append] at h
  exact h

/-- In the example the root generates its manifest as the sixth call; the five
calls before it include the write of the framework's manifest, the signing of
the framework's executable and the signing of the root's dylib. -/
theorem SignNode_children_before_manifest_witness :
    (∃ jv, (⟨[0], .writeCodeRes
        "/app/Frameworks/F.framework/_CodeSignature/CodeResources".toList jv⟩ : Action)
      ∈ (SignNode exampleSys exampleLib exampleBundle [] exampleTree 0).2.2.take 5) ∧
    (∃ data, (⟨[0], .signExe "/app/Frameworks/F.framework/F".toList data⟩ : Action)
      ∈ (SignNode exampleSys exampleLib exampleBundle [] exampleTree 0).2.2.take 5) ∧
    (⟨[], .signFile "libroot.dylib".toList⟩ : Action)
      ∈ (SignNode exampleSys exampleLib exampleBundle [] exampleTree 0).2.2.take 5 :=
  have h := SignNode_children_before_manifest exampleSys exampleLib exampleBundle exampleTree 0
    [] exampleTree ((SignNode exampleSys exampleLib exampleBundle [] exampleTree 0).2.2.take 5)
    ((SignNode exampleSys exampleLib exampleBundle [] exampleTree 0).2.2.drop 6)
    ⟨[], .genCodeRes "/app".toList⟩ rfl rfl rfl rfl
  ⟨(h.1 0 _ rfl).1, (h.1 0 _ rfl).2, h.2 _ (List.mem_cons_self _ _)⟩

theorem updateCodeResStep_frame (L : Lib) (fs : FileSys) (app folder : Str) (M J : JValue)
    (f : Str) (h : updateCodeResStep L fs app folder M f = some J) :
    (∀ key, key ≠ "files".toList → key ≠ "files2".toList → J.get key = M.get key) ∧
    ∀ k, changedKey folder f ≠ some k →
      (J.get "files".toList).find? k = (M.get "files".toList).find? k ∧
      (J.get "files2".toList).find? k = (M.get "files2".toList).find? k := by
  unfold updateCodeResStep at h
  rcases hs : SHASumBase64File L fs (app ++ "/".toList ++ f) with ⟨ok, s1, s2⟩
  rw [hs] at h
  cases ok
  · exact absurd h (by simp)
  · cases hk : changedKey folder f with
    | none => rw [hk] at h; exact absurd h (by simp)
    | some key =>
      rw [hk] at h
      simp only [Option.some.injEq] at h
      subst h
      have e12 : "files".toList ≠ "files2".toList := by decide
      refine ⟨fun key2 h1 h2 => ?_, fun k hne => ?_⟩
      · rw [get_setPath_ne _ _ _ _ _ h2, get_setPath_ne _ _ _ _ _ h2,
          get_setPath_ne _ _ _ _ _ h1]
      · have hkk : k ≠ key := fun e => hne (by rw [e])
        constructor
        · rw [get_setPath_ne _ _ _ _ _ e12, get_setPath_ne _ _ _ _ _ e12, get_setPath_same]
          simp only [JValue.setPath]
          rw [find_set_ne _ _ _ _ hkk]
        · rw [get_setPath_same, get_setPath_same, get_setPath_ne _ _ _ _ _ e12.symm]
          simp only [JValue.setPath]
          rw [find_set_ne _ _ _ _ hkk, find_set_ne _ _ _ _ hkk]

theorem updateCodeRes_frame (L : Lib) (fs : FileSys) (app folder : Str) :
    ∀ (l : List Str) (M J : JValue), (updateCodeRes L fs app folder l M).1 = some J →
      (∀ key, key ≠ "files".toList → key ≠ "files2".toList → J.get key = M.get key) ∧
      ∀ k, (∀ f ∈ l, changedKey folder f ≠ some k) →
        (J.get "files".toList).find? k = (M.get "files".toList).find? k ∧
        (J.get "files2".toList).find? k = (M.get "files2".toList).find? k
  | [], M, J, h => by
    simp only [updateCodeRes, Option.some.injEq] at h
    subst h
    exact ⟨fun _ _ _ => rfl, fun _ _ => ⟨rfl, rfl⟩⟩
  | f :: more, M, J, h => by
    rw [updateCodeRes] at h
    cases hs : updateCodeResStep L fs app folder M f with
    | none => rw [hs] at h; exact absurd h (by simp)
    | some M2 =>
      rw [hs] at h
      have hrec := updateCodeRes_frame L fs app folder more M2 J h
      have hstep := updateCodeResStep_frame L fs app folder M M2 f hs
      refine ⟨fun key h1 h2 => ?_, fun k hk => ?_⟩
      · rw [hrec.1 key h1 h2, hstep.1 key h1 h2]
      · have h1 := hrec.2 k (fun g hg => hk g (List.mem_cons_of_mem _ hg))
        have h2 := hstep.2 k (hk f (List.mem_cons_self _ _))
        exact ⟨by rw [h1.1, h2.1], by rw [h1.2, h2.2]⟩

theorem nodeCodeRes_no_write {W : Type} (S : Sys W) (L : Lib) (B : Bundle) (a : List Nat)
    (n : Node) (w : W) (b : List Nat) (file : Str) (J : JValue) :
    (⟨b, .writeCodeRes file J⟩ : Action) ∉ (nodeCodeRes S L B a n w).2 := by
  intro hx
  rcases nodeCodeRes_cases S L B a n w with ⟨_, h⟩ | ⟨_, _, h⟩ | ⟨_, _, h⟩
  · rw [h] at hx
    simp at hx
  · rw [h] at hx
    simp at hx
  · rw [h] at hx
    simp only [List.mem_cons, List.mem_map] at hx
    rcases hx with hx | ⟨o, ho, hx⟩
    · simp at hx
    · obtain ⟨f, rfl⟩ := updateCodeRes_ops L (S.fs w) _ _ _ _ o ho
      simp at hx

theorem SignNodeSelf_write_frame {W : Type} (S : Sys W) (L : Lib) (B : Bundle) (a : List Nat)
    (n : Node) (w : W) (hforce : B.m_bForceSign = false) (b : List Nat) (file : Str)
    (J : JValue) (hJ : (⟨b, .writeCodeRes file J⟩ : Action) ∈ (SignNodeSelf S L B a n w).2.2) :
    ∃ M, (⟨b, .readCodeRes file M⟩ : Action) ∈ (SignNodeSelf S L B a n w).2.2 ∧
      (M.isNull = false →
        (∀ key, key ≠ "files".toList → key ≠ "files2".toList → J.get key = M.get key) ∧
        ∀ k, (∀ f ∈ n.changed, changedKey n.path f ≠ some k) →
          (J.get "files".toList).find? k = (M.get "files".toList).find? k ∧
          (J.get "files2".toList).find? k = (M.get "files2".toList).find? k) := by
  have hmain : ∀ jv, (nodeCodeRes S L B a n
        (S.createFolder w (baseFolderOf B n ++ "/_CodeSignature".toList))).1 = some jv →
      (⟨b, .writeCodeRes file J⟩ : Action) =
        ⟨a, .writeCodeRes (baseFolderOf B n ++ "/_CodeSignature/CodeResources".toList) jv⟩ →
      ∃ M, (⟨b, .readCodeRes file M⟩ : Action) ∈ (nodeCodeRes S L B a n
          (S.createFolder w (baseFolderOf B n ++ "/_CodeSignature".toList))).2 ∧
        (M.isNull = false →
          (∀ key, key ≠ "files".toList → key ≠ "files2".toList → J.get key = M.get key) ∧
          ∀ k, (∀ f ∈ n.changed, changedKey n.path f ≠ some k) →
            (J.get "files".toList).find? k = (M.get "files".toList).find? k ∧
            (J.get "files2".toList).find? k = (M.get "files2".toList).find? k) := by
    intro jv hjv he
    simp only [Action.mk.injEq, Op.writeCodeRes.injEq] at he
    obtain ⟨rfl, rfl, rfl⟩ := he
    rcases nodeCodeRes_cases S L B b n
      (S.createFolder w (baseFolderOf B n ++ "/_CodeSignature".toList))
      with ⟨hf, _⟩ | ⟨_, hnull, h⟩ | ⟨_, hnull, h⟩
    · rw [hforce] at hf
      exact absurd hf (by decide)
    · refine ⟨_, by rw [h]; exact List.mem_cons_self _ _, fun hM => ?_⟩
      rw [hnull] at hM
      exact absurd hM (by decide)
    · refine ⟨_, by rw [h]; exact List.mem_cons_self _ _, fun _ => ?_⟩
      rw [h] at hjv
      exact updateCodeRes_frame L _ _ _ _ _ _ hjv
  rcases SignNodeSelf_cases S L B a n w with ⟨_, h⟩ | ⟨_, _, h⟩ | ⟨jv, tr3, hjv, h3, ⟨_, h⟩ | h⟩
  · rw [h] at hJ
    exact absurd hJ (List.not_mem_nil _)
  · rw [h] at hJ
    exact absurd hJ (nodeCodeRes_no_write S L B a n _ b file J)
  · rw [h] at hJ ⊢
    rcases List.mem_append.mp hJ with hJ | hJ
    · exact absurd hJ (nodeCodeRes_no_write S L B a n _ b file J)
    · obtain ⟨M, hM, hfr⟩ := hmain jv hjv (List.mem_singleton.mp hJ)
      exact ⟨M, List.mem_append_left _ hM, hfr⟩
  · rw [h] at hJ ⊢
    simp only [List.mem_append, List.mem_singleton] at hJ
    rcases hJ with ((hJ | hJ) | hJ) | hJ
    · exact absurd hJ (nodeCodeRes_no_write S L B a n _ b file J)
    · obtain ⟨M, hM, hfr⟩ := hmain jv hjv hJ
      exact ⟨M, List.mem_append_left _ (List.mem_append_left _ (List.mem_append_left _ hM)),
        hfr⟩
    · obtain ⟨p, hp⟩ := h3 _ hJ
      simp at hp
    · simp at hJ

mutual
theorem SignNode_event_origin {W : Type} (S : Sys W) (L : Lib) (B : Bundle) :
    ∀ (n : Node) (a0 : List Nat) (w : W) (x : Action),
      x ∈ (SignNode S L B a0 n w).2.2 → (∀ f, x.op ≠ .signFile f) →
      ∃ rel m w2, n.at rel = some m ∧ x.node = a0 ++ rel ∧
        x ∈ (SignNodeSelf S L B (a0 ++ rel) m w2).2.2 ∧
        ∀ y ∈ (SignNodeSelf S L B (a0 ++ rel) m w2).2.2, y ∈ (SignNode S L B a0 n w).2.2
  | .mk path bid exec sha1 sha2 files changed folders, a0, w, x, hx, hop => by
    have hfl : ∀ w2, x ∉ (signFiles S B a0 files w2).2.2 := by
      intro w2 hin
      obtain ⟨f, rfl⟩ := signFiles_nodes S B a0 files w2 x hin
      exact hop f rfl
    have hch : x ∈ (SignNodes S L B a0 0 folders w).2.2 →
        (∀ y ∈ (SignNodes S L B a0 0 folders w).2.2,
          y ∈ (SignNode S L B a0 (.mk path bid exec sha1 sha2 files changed folders) w).2.2) →
        ∃ rel m w2, (Node.mk path bid exec sha1 sha2 files changed folders).at rel = some m ∧
          x.node = a0 ++ rel ∧ x ∈ (SignNodeSelf S L B (a0 ++ rel) m w2).2.2 ∧
          ∀ y ∈ (SignNodeSelf S L B (a0 ++ rel) m w2).2.2,
            y ∈ (SignNode S L B a0 (.mk path bid exec sha1 sha2 files changed folders) w).2.2 := by
      intro hin hsub
      obtain ⟨j, c, rel, m, w2, hc, hcm, hnode, hxs, hincl⟩ :=
        SignNodes_event_origin S L B folders a0 0 w x hin hop
      rw [Nat.zero_add] at hnode hxs hincl
      exact ⟨j :: rel, m, w2, (Node.at_cons _ j rel m).mpr ⟨c, hc, hcm⟩, hnode, hxs,
        fun y hy => hsub y (hincl y hy)⟩
    rw [SignNode_eq] at hx
    split at hx
    · rename_i h1
      split at hx
      · rename_i h2
        have hT : (SignNode S L B a0 (.mk path bid exec sha1 sha2 files changed folders) w).2.2
            = (SignNodes S L B a0 0 folders w).2.2 ++
              (signFiles S B a0 files (SignNodes S L B a0 0 folders w).2.1).2.2 ++
              (SignNodeSelf S L B a0 (.mk path bid exec sha1 sha2 files changed folders)
                (signFiles S B a0 files (SignNodes S L B a0 0 folders w).2.1).2.1).2.2 := by
          rw [SignNode_eq, if_pos h1, if_pos h2]
        simp only [List.mem_append] at hx
        rcases hx with (hx | hx) | hx
        · exact hch hx (fun y hy => by
            rw [hT]; exact List.mem_append_left _ (List.mem_append_left _ hy))
        · exact absurd hx (hfl _)
        · refine ⟨[], _, (signFiles S B a0 files (SignNodes S L B a0 0 folders w).2.1).2.1,
            rfl, ?_, ?_, ?_⟩
          · rw [List.append_nil]
            exact SignNodeSelf_nodes S L B a0 _ _ x hx
          · rw [List.append_nil]
            exact hx
          · intro y hy
            rw [List.append_nil] at hy
            rw [hT]
            exact List.mem_append_right _ hy
      · rename_i h2
        have hT : (SignNode S L B a0 (.mk path bid exec sha1 sha2 files changed folders) w).2.2
            = (SignNodes S L B a0 0 folders w).2.2 ++
              (signFiles S B a0 files (SignNodes S L B a0 0 folders w).2.1).2.2 := by
          rw [SignNode_eq, if_pos h1, if_neg h2]
        simp only [List.mem_append] at hx
        rcases hx with hx | hx
        · exact hch hx (fun y hy => by rw [hT]; exact List.mem_append_left _ hy)
        · exact absurd hx (hfl _)
    · rename_i h1
      have hT : (SignNode S L B a0 (.mk path bid exec sha1 sha2 files changed folders) w).2.2
          = (SignNodes S L B a0 0 folders w).2.2 := by
        rw [SignNode_eq, if_neg h1]
      exact hch hx (fun y hy => by rw [hT]; exact hy)
theorem SignNodes_event_origin {W : Type} (S : Sys W) (L : Lib) (B : Bundle) :
    ∀ (ns : List Node) (a0 : List Nat) (i : Nat) (w : W) (x : Action),
      x ∈ (SignNodes S L B a0 i ns w).2.2 → (∀ f, x.op ≠ .signFile f) →
      ∃ j c rel m w2, ns.get? j = some c ∧ c.at rel = some m ∧
        x.node = a0 ++ (i + j) :: rel ∧
        x ∈ (SignNodeSelf S L B (a0 ++ (i + j) :: rel) m w2).2.2 ∧
        ∀ y ∈ (SignNodeSelf S L B (a0 ++ (i + j) :: rel) m w2).2.2,
          y ∈ (SignNodes S L B a0 i ns w).2.2
  | [], a0, i, w, x, hx, _ => by simp [SignNodes] at hx
  | n :: more, a0, i, w, x, hx, hop => by
    have hhead : x ∈ (SignNode S L B (a0 ++ [i]) n w).2.2 →
        (∀ y ∈ (SignNode S L B (a0 ++ [i]) n w).2.2,
          y ∈ (SignNodes S L B a0 i (n :: more) w).2.2) →
        ∃ j c rel m w2, (n :: more).get? j = some c ∧ c.at rel = some m ∧
          x.node = a0 ++ (i + j) :: rel ∧
          x ∈ (SignNodeSelf S L B (a0 ++ (i + j) :: rel) m w2).2.2 ∧
          ∀ y ∈ (SignNodeSelf S L B (a0 ++ (i + j) :: rel) m w2).2.2,
            y ∈ (SignNodes S L B a0 i (n :: more) w).2.2 := by
      intro hin hsub
      obtain ⟨rel, m, w2, hm, hnode, hxs, hincl⟩ :=
        SignNode_event_origin S L B n (a0 ++ [i]) w x hin hop
      have e : a0 ++ [i] ++ rel = a0 ++ (i + 0) :: rel := by simp
      rw [e] at hnode hxs hincl
      exact ⟨0, n, rel, m, w2, rfl, hm, hnode, hxs, fun y hy => hsub y (hincl y hy)⟩
    rw [SignNodes_cons_eq] at hx
    split at hx
    · rename_i h1
      have hT : (SignNodes S L B a0 i (n :: more) w).2.2
          = (SignNode S L B (a0 ++ [i]) n w).2.2 ++
            (SignNodes S L B a0 (i + 1) more (SignNode S L B (a0 ++ [i]) n w).2.1).2.2 := by
        rw [SignNodes_cons_eq, if_pos h1]
      simp only [List.mem_append] at hx
      rcases hx with hx | hx
      · exact hhead hx (fun y hy => by rw [hT]; exact List.mem_append_left _ hy)
      · obtain ⟨j, c, rel, m, w2, hc, hcm, hnode, hxs, hincl⟩ :=
          SignNodes_event_origin S L B more a0 (i + 1) _ x hx hop
        have e : i + 1 + j = i + (j + 1) := by omega
        rw [e] at hnode hxs hincl
        exact ⟨j + 1, c, rel, m, w2, hc, hcm, hnode, hxs,
          fun y hy => by rw [hT]; exact List.mem_append_right _ (hincl y hy)⟩
    · rename_i h1
      have hT : (SignNodes S L B a0 i (n :: more) w).2.2
          = (SignNode S L B (a0 ++ [i]) n w).2.2 := by
        rw [SignNodes_cons_eq, if_neg h1]
      exact hhead hx (fun y hy => by rw [hT]; exact hy)
end

/-- C9. With forced signing off, every manifest `SignNode` writes for a node of
the tree comes after the read of that node's prior `CodeResources`, and when the
read gave a manifest `M` (not null) the manifest written agrees with `M` on
`rules`, on `rules2` and on every key of `files` and of `files2` that is not the
key of an entry of the node's change-set. -/
theorem SignNode_incremental_frame {W : Type} (S : Sys W) (L : Lib) (B : Bundle)
    (root : Node) (w : W) (a : List Nat) (n : Node) (file : Str) (J : JValue)
    (hforce : B.m_bForceSign = false) (hn : root.at a = some n)
    (hJ : (⟨a, .writeCodeRes file J⟩ : Action) ∈ (SignNode S L B [] root w).2.2) :
    ∃ M, (⟨a, .readCodeRes file M⟩ : Action) ∈ (SignNode S L B [] root w).2.2 ∧
      (M.isNull = false →
        J.get "rules".toList = M.get "rules".toList ∧
        J.get "rules2".toList = M.get "rules2".toList ∧
        ∀ k, (∀ f ∈ n.changed, changedKey n.path f ≠ some k) →
          (J.get "files".toList).find? k = (M.get "files".toList).find? k ∧
          (J.get "files2".toList).find? k = (M.get "files2".toList).find? k) := by
  obtain ⟨rel, m, w2, hm, hnode, hxs, hincl⟩ :=
    SignNode_event_origin S L B root [] w _ hJ (fun f h => Op.noConfusion h)
  simp only [List.nil_append] at hnode hxs hincl
  have hrel : rel = a := hnode.symm
  subst hrel
  rw [hn, Option.some.injEq] at hm
  subst hm
  obtain ⟨M, hM, hfr⟩ := SignNodeSelf_write_frame S L B rel n w2 hforce rel file J hxs
  refine ⟨M, hincl _ hM, fun hnn => ?_⟩
  obtain ⟨h1, h2⟩ := hfr hnn
  exact ⟨h1 _ (by decide) (by decide), h1 _ (by decide) (by decide), h2⟩

/-- The example with forced signing off, where every `CodeResources` reads as a
manifest: the manifest the root writes, as its thirteenth call, agrees with
the one read for the root outside the keys of the root's change-set. -/
theorem SignNode_incremental_frame_witness :
    ∃ M, (⟨[], .readCodeRes "/app/_CodeSignature/CodeResources".toList M⟩ : Action) ∈
        (SignNode exampleSys exampleLib exampleBundleCached []
          (GetNodeChangedFiles false exampleTree) 0).2.2 ∧
      (M.isNull = false →
        ((nodeCodeRes exampleSys exampleLib exampleBundleCached []
            (GetNodeChangedFiles false exampleTree) 0).1.getD .null).get "rules".toList
          = M.get "rules".toList ∧
        ((nodeCodeRes exampleSys exampleLib exampleBundleCached []
            (GetNodeChangedFiles false exampleTree) 0).1.getD .null).get "rules2".toList
          = M.get "rules2".toList ∧
        ∀ k, (∀ f ∈ (GetNodeChangedFiles false exampleTree).changed,
            changedKey (GetNodeChangedFiles false exampleTree).path f ≠ some k) →
          (((nodeCodeRes exampleSys exampleLib exampleBundleCached []
              (GetNodeChangedFiles false exampleTree) 0).1.getD .null).get
                "files".toList).find? k = (M.get "files".toList).find? k ∧
          (((nodeCodeRes exampleSys exampleLib exampleBundleCached []
              (GetNodeChangedFiles false exampleTree) 0).1.getD .null).get
                "files2".toList).find? k = (M.get "files2".toList).find? k) :=
  SignNode_incremental_frame exampleSys exampleLib exampleBundleCached
    (GetNodeChangedFiles false exampleTree) 0 [] (GetNodeChangedFiles false exampleTree)
    "/app/_CodeSignature/CodeResources".toList
    ((nodeCodeRes exampleSys exampleLib exampleBundleCached []
      (GetNodeChangedFiles false exampleTree) 0).1.getD .null)
    rfl rfl (@List.get?_mem _ _ 12 _ rfl)

/-! ## Properties of the provisioning entry of the change-sets -/

theorem slash_mem_manifest_path (p : Str) :
    '/' ∈ p ++ "/_CodeSignature/CodeResources".toList := by
  simp

theorem slash_mem_exec_path (p e : Str) : '/' ∈ p ++ "/".toList ++ e := by
  simp

theorem provision_not_dylib :
    IsPathSuffix "embedded.mobileprovision".toList ".dylib".toList = false := by
  decide

theorem provision_not_collected (n : Node)
    (hfiles : ∀ b d, n.at b = some d → ∀ f ∈ d.files, IsPathSuffix f ".dylib".toList = true) :
    "embedded.mobileprovision".toList ∉ GetChangedFiles n [] := by
  rw [mem_GetChangedFiles]
  rintro (⟨b, d, hd, hx⟩ | ⟨b, d, _, _, hx | hx⟩)
  · have h := hfiles b d hd _ hx
    rw [provision_not_dylib] at h
    exact Bool.false_ne_true h
  · have h : '/' ∈ "embedded.mobileprovision".toList := by
      rw [hx]; exact slash_mem_manifest_path _
    revert h; decide
  · have h : '/' ∈ "embedded.mobileprovision".toList := by
      rw [hx]; exact slash_mem_exec_path _ _
    revert h; decide

theorem Node.at_append (n : Node) : ∀ (a b : List Nat) (m d : Node),
    n.at a = some m → m.at b = some d → n.at (a ++ b) = some d := by
  intro a
  induction a generalizing n with
  | nil =>
    intro b m d hm hd
    have e : n.at [] = some n := rfl
    rw [e] at hm
    cases hm
    exact hd
  | cons i a ih =>
    intro b m d hm hd
    obtain ⟨c, hc, hcm⟩ := (Node.at_cons n i a m).mp hm
    exact (Node.at_cons n i (a ++ b) d).mpr ⟨c, hc, ih c b m d hcm hd⟩

/-- C11. For a tree whose root has the path `/` and whose `files` lists hold
`.dylib` paths (as discovery leaves them), `GetNodeChangedFiles(root, d)` appends
to the root's change-set a list that contains `embedded.mobileprovision` exactly
when `d` is false, so that the change-set of a root that had none before
contains it exactly when `d` is false; and to the change-set of every node whose
path is not `/` it appends a list that does not contain it. -/
theorem GetNodeChangedFiles_provision (d : Bool) (root : Node)
    (hroot : root.path = "/".toList)
    (hfiles : ∀ a n, root.at a = some n → ∀ f ∈ n.files, IsPathSuffix f ".dylib".toList = true) :
    (∃ added, (GetNodeChangedFiles d root).changed = root.changed ++ added ∧
      ("embedded.mobileprovision".toList ∈ added ↔ d = false)) ∧
    (root.changed = [] →
      ("embedded.mobileprovision".toList ∈ (GetNodeChangedFiles d root).changed ↔ d = false)) ∧
    ∀ a n, root.at a = some n → n.path ≠ "/".toList →
      ∃ m added, (GetNodeChangedFiles d root).at a = some m ∧
        m.changed = n.changed ++ added ∧ "embedded.mobileprovision".toList ∉ added := by
  have hadd : ∃ added, (GetNodeChangedFiles d root).changed = root.changed ++ added ∧
      ("embedded.mobileprovision".toList ∈ added ↔ d = false) := by
    refine ⟨GetChangedFiles root [] ++
      (if d = false ∧ root.path = "/".toList then ["embedded.mobileprovision".toList] else []),
      ?_, ?_⟩
    · rw [GetNodeChangedFiles_changed_eq, List.append_assoc]
    · have hno := provision_not_collected root hfiles
      rw [List.mem_append]
      constructor
      · rintro (h | h)
        · exact absurd h hno
        · by_cases hc : d = false ∧ root.path = "/".toList
          · exact hc.1
          · rw [if_neg hc] at h
            exact absurd h (List.not_mem_nil _)
      · intro hd
        right
        rw [if_pos ⟨hd, hroot⟩]
        exact List.mem_singleton.mpr rfl
  refine ⟨hadd, ?_, ?_⟩
  · intro hc
    obtain ⟨added, e, hiff⟩ := hadd
    rw [e, hc, List.nil_append]
    exact hiff
  · intro a n hn hp
    refine ⟨GetNodeChangedFiles d n, GetChangedFiles n [], ?_, ?_, ?_⟩
    · rw [Node.at_GetNodeChangedFiles, hn]; rfl
    · rw [GetNodeChangedFiles_changed_eq, if_neg (fun h => hp h.2), List.append_nil]
    · exact provision_not_collected n
        (fun b e he => hfiles (a ++ b) e (Node.at_append root a b n e hn he))

/-- C11 at the example tree, with the flag off. -/
theorem GetNodeChangedFiles_provision_witness :
    (∃ added, (GetNodeChangedFiles false exampleTree).changed = exampleTree.changed ++ added ∧
      ("embedded.mobileprovision".toList ∈ added ↔ false = false)) ∧
    (exampleTree.changed = [] →
      ("embedded.mobileprovision".toList ∈ (GetNodeChangedFiles false exampleTree).changed ↔
        false = false)) ∧
    ∀ a n, exampleTree.at a = some n → n.path ≠ "/".toList →
      ∃ m added, (GetNodeChangedFiles false exampleTree).at a = some m ∧
        m.changed = n.changed ++ added ∧ "embedded.mobileprovision".toList ∉ added :=
  GetNodeChangedFiles_provision false exampleTree rfl (by
    intro a n hn f hf
    match a, hn with
    | [], hn =>
      cases hn
      have : f = "libroot.dylib".toList := by simpa [exampleTree, Node.files] using hf
      subst this; decide
    | [0], hn =>
      cases hn
      have : f = "Frameworks/F.framework/lib.dylib".toList := by
        simpa [exampleTree, Node.files] using hf
      subst this; decide
    | 0 :: _ :: _, hn => simp [Node.at, exampleTree, Node.folders] at hn
    | (_ + 1) :: _, hn => simp [Node.at, exampleTree, Node.folders] at hn)

/-! ## Properties of the discovery of bundles -/

theorem GetSignFolderInfo_eq (L : Lib) (fs : FileSys) (strFolder : Str) (jvNode : JValue)
    (bGetName : Bool) :
    GetSignFolderInfo L fs strFolder jvNode bGetName =
      if ((L.readPList ((fs.read (strFolder ++ "/Info.plist".toList)).getD [])).get
            "CFBundleIdentifier".toList).asString = [] ∨
          ((L.readPList ((fs.read (strFolder ++ "/Info.plist".toList)).getD [])).get
            "CFBundleExecutable".toList).asString = [] then (false, jvNode)
      else (true, (GetSignFolderInfo L fs strFolder jvNode bGetName).2) := by
  unfold GetSignFolderInfo
  by_cases h : ((L.readPList ((fs.read (strFolder ++ "/Info.plist".toList)).getD [])).get
            "CFBundleIdentifier".toList).asString = [] ∨
          ((L.readPList ((fs.read (strFolder ++ "/Info.plist".toList)).getD [])).get
            "CFBundleExecutable".toList).asString = []
  · simp only [if_pos h]
  · simp only [if_neg h]
    cases bGetName <;> rfl

theorem GetSignFolderInfo_fields (L : Lib) (fs : FileSys) (strFolder : Str) (jvNode : JValue)
    (bGetName : Bool)
    (h : ¬ (((L.readPList ((fs.read (strFolder ++ "/Info.plist".toList)).getD [])).get
            "CFBundleIdentifier".toList).asString = [] ∨
          ((L.readPList ((fs.read (strFolder ++ "/Info.plist".toList)).getD [])).get
            "CFBundleExecutable".toList).asString = [])) :
    ((GetSignFolderInfo L fs strFolder jvNode bGetName).2.get "bundle_id".toList =
      .str ((L.readPList ((fs.read (strFolder ++ "/Info.plist".toList)).getD [])).get
        "CFBundleIdentifier".toList).asString) ∧
    ((GetSignFolderInfo L fs strFolder jvNode bGetName).2.get "exec_name".toList =
      .str ((L.readPList ((fs.read (strFolder ++ "/Info.plist".toList)).getD [])).get
        "CFBundleExecutable".toList).asString) ∧
    ((GetSignFolderInfo L fs strFolder jvNode bGetName).2.get "bundle_version".toList =
      .str ((L.readPList ((fs.read (strFolder ++ "/Info.plist".toList)).getD [])).get
        "CFBundleVersion".toList).asString) ∧
    ((GetSignFolderInfo L fs strFolder jvNode bGetName).2.get "sha1".toList =
      .str (base64Text (L.sha1 ((fs.read (strFolder ++ "/Info.plist".toList)).getD [])))) ∧
    ((GetSignFolderInfo L fs strFolder jvNode bGetName).2.get "sha2".toList =
      .str (base64Text (L.sha256 ((fs.read (strFolder ++ "/Info.plist".toList)).getD [])))) := by
  have k1 : "bundle_id".toList ≠ "bundle_version".toList := by decide
  have k2 : "bundle_id".toList ≠ "exec_name".toList := by decide
  have k3 : "bundle_id".toList ≠ "sha1".toList := by decide
  have k4 : "bundle_id".toList ≠ "sha2".toList := by decide
  have k5 : "bundle_id".toList ≠ "appname".toList := by decide
  have k6 : "exec_name".toList ≠ "sha1".toList := by decide
  have k7 : "exec_name".toList ≠ "sha2".toList := by decide
  have k8 : "exec_name".toList ≠ "appname".toList := by decide
  have k9 : "bundle_version".toList ≠ "exec_name".toList := by decide
  have k10 : "bundle_version".toList ≠ "sha1".toList := by decide
  have k11 : "bundle_version".toList ≠ "sha2".toList := by decide
  have k12 : "bundle_version".toList ≠ "appname".toList := by decide
  have k13 : "sha1".toList ≠ "sha2".toList := by decide
  have k14 : "sha1".toList ≠ "appname".toList := by decide
  have k15 : "sha2".toList ≠ "appname".toList := by decide
  unfold GetSignFolderInfo
  simp only [if_neg h]
  cases bGetName
  · simp only [Bool.false_eq_true, if_false]
    refine ⟨?_, ?_, ?_, ?_, ?_⟩
    · rw [get_set_ne _ _ _ _ k4, get_set_ne _ _ _ _ k3, get_set_ne _ _ _ _ k2,
        get_set_ne _ _ _ _ k1, get_set_same]
    · rw [get_set_ne _ _ _ _ k7, get_set_ne _ _ _ _ k6, get_set_same]
    · rw [get_set_ne _ _ _ _ k11, get_set_ne _ _ _ _ k10, get_set_ne _ _ _ _ k9, get_set_same]
    · rw [get_set_ne _ _ _ _ k13, get_set_same]
    · rw [get_set_same]
  · simp only [if_true]
    refine ⟨?_, ?_, ?_, ?_, ?_⟩
    · rw [get_set_ne _ _ _ _ k5, get_set_ne _ _ _ _ k4, get_set_ne _ _ _ _ k3,
        get_set_ne _ _ _ _ k2, get_set_ne _ _ _ _ k1, get_set_same]
    · rw [get_set_ne _ _ _ _ k8, get_set_ne _ _ _ _ k7, get_set_ne _ _ _ _ k6, get_set_same]
    · rw [get_set_ne _ _ _ _ k12, get_set_ne _ _ _ _ k11, get_set_ne _ _ _ _ k10,
        get_set_ne _ _ _ _ k9, get_set_same]
    · rw [get_set_ne _ _ _ _ k14, get_set_ne _ _ _ _ k13, get_set_same]
    · rw [get_set_ne _ _ _ _ k15, get_set_same]

/-- C20. `GetSignFolderInfo` returns false exactly when the plist read from
`<folder>/Info.plist` gives an empty `CFBundleIdentifier` or an empty
`CFBundleExecutable` (a missing key reads as empty), and then leaves the node
as it was; this is the case when the file cannot be read, given that the plist
reader makes nothing of empty data. Otherwise it returns true and the node has
`bundle_id`, `exec_name`, `bundle_version`, `sha1` and `sha2` set from the
plist and from the Base64 digests of the file's data. -/
theorem GetSignFolderInfo_result (L : Lib) (fs : FileSys) (strFolder : Str) (jvNode : JValue)
    (bGetName : Bool) :
    ((GetSignFolderInfo L fs strFolder jvNode bGetName).1 = false ↔
      (((L.readPList ((fs.read (strFolder ++ "/Info.plist".toList)).getD [])).get
          "CFBundleIdentifier".toList).asString = [] ∨
        ((L.readPList ((fs.read (strFolder ++ "/Info.plist".toList)).getD [])).get
          "CFBundleExecutable".toList).asString = [])) ∧
    ((GetSignFolderInfo L fs strFolder jvNode bGetName).1 = false →
      (GetSignFolderInfo L fs strFolder jvNode bGetName).2 = jvNode) ∧
    (fs.read (strFolder ++ "/Info.plist".toList) = none → L.readPList [] = .null →
      GetSignFolderInfo L fs strFolder jvNode bGetName = (false, jvNode)) ∧
    ((GetSignFolderInfo L fs strFolder jvNode bGetName).1 = true →
      (GetSignFolderInfo L fs strFolder jvNode bGetName).2.get "bundle_id".toList =
        .str ((L.readPList ((fs.read (strFolder ++ "/Info.plist".toList)).getD [])).get
          "CFBundleIdentifier".toList).asString ∧
      (GetSignFolderInfo L fs strFolder jvNode bGetName).2.get "exec_name".toList =
        .str ((L.readPList ((fs.read (strFolder ++ "/Info.plist".toList)).getD [])).get
          "CFBundleExecutable".toList).asString ∧
      (GetSignFolderInfo L fs strFolder jvNode bGetName).2.get "bundle_version".toList =
        .str ((L.readPList ((fs.read (strFolder ++ "/Info.plist".toList)).getD [])).get
          "CFBundleVersion".toList).asString ∧
      (GetSignFolderInfo L fs strFolder jvNode bGetName).2.get "sha1".toList =
        .str (base64Text (L.sha1 ((fs.read (strFolder ++ "/Info.plist".toList)).getD []))) ∧
      (GetSignFolderInfo L fs strFolder jvNode bGetName).2.get "sha2".toList =
        .str (base64Text (L.sha256 ((fs.read (strFolder ++ "/Info.plist".toList)).getD [])))) := by
  by_cases h : ((L.readPList ((fs.read (strFolder ++ "/Info.plist".toList)).getD [])).get
            "CFBundleIdentifier".toList).asString = [] ∨
          ((L.readPList ((fs.read (strFolder ++ "/Info.plist".toList)).getD [])).get
            "CFBundleExecutable".toList).asString = []
  · have e := GetSignFolderInfo_eq L fs strFolder jvNode bGetName
    rw [if_pos h] at e
    refine ⟨?_, ?_, ?_, ?_⟩
    · rw [e]; exact ⟨fun _ => h, fun _ => rfl⟩
    · intro _; rw [e]
    · intro _ _; exact e
    · intro ht; rw [e] at ht; exact absurd ht (by simp)
  · have e := GetSignFolderInfo_eq L fs strFolder jvNode bGetName
    rw [if_neg h] at e
    refine ⟨?_, ?_, ?_, ?_⟩
    · rw [e]; exact ⟨fun hf => absurd hf (by simp), fun hh => absurd hh h⟩
    · intro hf; rw [e] at hf; exact absurd hf (by simp)
    · intro hr hn
      exfalso; apply h; left
      rw [hr, Option.getD_none, hn]; rfl
    · intro _; exact GetSignFolderInfo_fields L fs strFolder jvNode bGetName h

/-! ## Properties of the search for the app folder -/

theorem suffix_path_name (s f n : Str) (hs : '/' ∉ s) :
    s <:+ f ++ "/".toList ++ n ↔ s <:+ n := by
  have e : f ++ "/".toList ++ n = f ++ '/' :: n := by simp
  rw [e]
  clear e
  induction f with
  | nil =>
    rw [List.nil_append, List.suffix_cons_iff]
    constructor
    · rintro (h | h)
      · exact absurd (h ▸ List.mem_cons_self _ _) hs
      · exact h
    · exact Or.inr
  | cons c f ih =>
    rw [List.cons_append, List.suffix_cons_iff]
    constructor
    · rintro (h | h)
      · exact absurd (h ▸ List.mem_cons_of_mem _ (List.mem_append_right _ (List.mem_cons_self _ _))) hs
      · exact ih.mp h
    · intro h; exact Or.inr (ih.mpr h)

theorem IsPathSuffix_path_name (s f n : Str) (hs : '/' ∉ s) :
    IsPathSuffix (f ++ "/".toList ++ n) s = IsPathSuffix n s := by
  unfold IsPathSuffix
  exact decide_eq_decide.mpr (suffix_path_name s f n hs)

theorem isAppPath_path_name (f n : Str) : isAppPath (f ++ "/".toList ++ n) = isAppName n := by
  unfold isAppPath isAppName
  rw [IsPathSuffix_path_name _ _ _ (by decide), IsPathSuffix_path_name _ _ _ (by decide)]
  rfl

theorem findable_false (n : Str)
    (h : n = ".".toList ∨ n = "..".toList ∨ n = "__MACOSX".toList) : findable n = false := by
  unfold findable
  rcases h with h | h | h <;> subst h <;> decide

theorem findable_true (n : Str)
    (h : ¬ (n = ".".toList ∨ n = "..".toList ∨ n = "__MACOSX".toList)) : findable n = true := by
  unfold findable
  exact decide_eq_true ⟨fun e => h (Or.inl e), fun e => h (Or.inr (Or.inl e)),
    fun e => h (Or.inr (Or.inr e))⟩

theorem FindAppFolderLoop_cons (strFolder : Str) (ent : DirEnt) (more : List DirEnt) (out : Str) :
    FindAppFolderLoop strFolder (ent :: more) out =
      if (FindAppFolderEntry strFolder ent out).1 = true then
        (true, (FindAppFolderEntry strFolder ent out).2)
      else FindAppFolderLoop strFolder more (FindAppFolderEntry strFolder ent out).2 := by
  rw [FindAppFolderLoop]
  rcases FindAppFolderEntry strFolder ent out with ⟨b, o⟩
  cases b <;> simp

theorem firstOr_nil_append (out : Str) (xs ys : List Str) :
    (match xs ++ ys with | [] => (false, out) | c :: _ => (true, c)) =
      (match xs with
        | [] => (match ys with | [] => (false, out) | c :: _ => (true, c))
        | c :: _ => (true, c)) := by
  cases xs <;> rfl

mutual
theorem FindAppFolderEntry_spec : ∀ (ent : DirEnt) (strFolder out : Str),
    unknownAreDirsOf ent = true →
    FindAppFolderEntry strFolder ent out =
      (match appDirsOf strFolder ent with | [] => (false, out) | c :: _ => (true, c))
  | .reg n, strFolder, out, _ => by simp [FindAppFolderEntry, appDirsOf]
  | .other n, strFolder, out, _ => by simp [FindAppFolderEntry, appDirsOf]
  | .dir n es, strFolder, out, h => by
    have h2 : unknownAreDirsIn es = true := by simpa [unknownAreDirsOf] using h
    unfold FindAppFolderEntry appDirsOf
    rw [isAppPath_path_name]
    by_cases hn : n = ".".toList ∨ n = "..".toList ∨ n = "__MACOSX".toList
    · rw [findable_false n hn, if_pos hn]
      rfl
    · rw [findable_true n hn, if_neg hn, if_pos rfl]
      cases hA : isAppName n
      · simp only [Bool.false_eq_true, if_false, if_true, List.nil_append]
        exact FindAppFolderLoop_spec es _ out h2
      · simp only [if_true]
        rfl
  | .unknown n d es, strFolder, out, h => by
    have h1 : d = true := by
      simp only [unknownAreDirsOf, Bool.and_eq_true] at h; exact h.1
    have h2 : unknownAreDirsIn es = true := by
      simp only [unknownAreDirsOf, Bool.and_eq_true] at h; exact h.2
    subst h1
    unfold FindAppFolderEntry appDirsOf
    rw [isAppPath_path_name]
    by_cases hn : n = ".".toList ∨ n = "..".toList ∨ n = "__MACOSX".toList
    · rw [findable_false n hn, if_pos hn]
      rfl
    · rw [findable_true n hn, if_neg hn, if_pos rfl]
      cases hA : isAppName n
      · simp only [Bool.false_eq_true, if_false, if_true, List.nil_append]
        exact FindAppFolderLoop_spec es _ out h2
      · simp only [if_true]
        rfl
theorem FindAppFolderLoop_spec : ∀ (es : List DirEnt) (strFolder out : Str),
    unknownAreDirsIn es = true →
    FindAppFolderLoop strFolder es out =
      (match appDirsIn strFolder es with | [] => (false, out) | c :: _ => (true, c))
  | [], strFolder, out, _ => by simp [FindAppFolderLoop, appDirsIn]
  | ent :: more, strFolder, out, h => by
    have h1 : unknownAreDirsOf ent = true := by
      simp only [unknownAreDirsIn, Bool.and_eq_true] at h; exact h.1
    have h2 : unknownAreDirsIn more = true := by
      simp only [unknownAreDirsIn, Bool.and_eq_true] at h; exact h.2
    rw [FindAppFolderLoop_cons, FindAppFolderEntry_spec ent strFolder out h1, appDirsIn,
      firstOr_nil_append]
    cases hE : appDirsOf strFolder ent with
    | nil => simpa using FindAppFolderLoop_spec more strFolder out h2
    | cons c cs => simp
end

/-- When every entry of unknown type is a directory, `FindAppFolder` returns
the folder itself when its path ends in `.app` or `.appex`, otherwise the first
candidate below it in depth-first pre-order, and false with the output argument
untouched when there is none. -/
theorem FindAppFolder_spec (strFolder : Str) (es : List DirEnt) (out : Str)
    (h : unknownAreDirsIn es = true) :
    FindAppFolder strFolder es out =
      if isAppPath strFolder then (true, strFolder)
      else (match appDirsIn strFolder es with | [] => (false, out) | c :: _ => (true, c)) := by
  unfold FindAppFolder
  rw [FindAppFolderLoop_spec es strFolder out h]

theorem FindAppFolder_spec_example :
    unknownAreDirsIn examplePayload = true ∧
    FindAppFolder "/ipa".toList examplePayload [] = (true, "/ipa/Payload/Demo.app".toList) ∧
    appDirsIn "/ipa".toList examplePayload =
      ["/ipa/Payload/Demo.app".toList, "/ipa/Payload/Demo.app/PlugIns/Ext.appex".toList] := by
  decide

/-- C15: the code on the folder `/in`, whose only entry is the regular file
`Readme.app` reported with type `DT_UNKNOWN`. `FindAppFolder` returns true with
the output `/in/Readme.app`, although the folder's own path has no app suffix
and no directory below it is a candidate: the output is not a directory. -/
theorem FindAppFolder_returns_unknown_file :
    FindAppFolder "/in".toList exampleInbox [] = (true, "/in/Readme.app".toList) ∧
    isAppPath "/in".toList = false ∧
    appDirsIn "/in".toList exampleInbox = [] ∧
    unknownAreDirsIn exampleInbox = false := by
  decide

/-- C16: the code on the folder `/drop`, where the only name with an app suffix
belongs to the regular file `docs/notes.appex` reported with type `DT_UNKNOWN`.
The folder's own path has no app suffix and no directory reachable from it has
such a name, yet `FindAppFolder` returns true and overwrites the output
argument. -/
theorem FindAppFolder_true_without_candidate :
    isAppPath "/drop".toList = false ∧
    appDirsIn "/drop".toList exampleDrop = [] ∧
    (FindAppFolder "/drop".toList exampleDrop "before".toList).1 = true ∧
    (FindAppFolder "/drop".toList exampleDrop "before".toList).2 =
      "/drop/docs/notes.appex".toList := by
  decide

/-! ## Properties of the objects to sign -/

theorem isBundlePath_path_name (f n : Str) :
    isBundlePath (f ++ "/".toList ++ n) = isBundleName n := by
  unfold isBundlePath isBundleName
  rw [IsPathSuffix_path_name _ _ _ (by decide), IsPathSuffix_path_name _ _ _ (by decide),
    IsPathSuffix_path_name _ _ _ (by decide), IsPathSuffix_path_name _ _ _ (by decide)]
  rfl

theorem GetSignFolderInfo_fst (L : Lib) (fs : FileSys) (strFolder : Str) (jvNode : JValue)
    (bGetName : Bool) :
    (GetSignFolderInfo L fs strFolder jvNode bGetName).1 = hasBundleInfo L fs strFolder := by
  rw [GetSignFolderInfo_eq]
  unfold hasBundleInfo
  by_cases h : ((L.readPList ((fs.read (strFolder ++ "/Info.plist".toList)).getD [])).get
            "CFBundleIdentifier".toList).asString = [] ∨
          ((L.readPList ((fs.read (strFolder ++ "/Info.plist".toList)).getD [])).get
            "CFBundleExecutable".toList).asString = []
  · rw [if_pos h]
    symm
    apply decide_eq_false
    rintro ⟨h1, h2⟩
    rcases h with h | h
    · exact h1 h
    · exact h2 h
  · rw [if_neg h]
    symm
    apply decide_eq_true
    exact ⟨fun e => h (Or.inl e), fun e => h (Or.inr e)⟩

theorem relPath_drop (app strFolder rel n : Str)
    (hrel : strFolder ++ "/".toList = app ++ "/".toList ++ rel) :
    strFolder ++ "/".toList ++ n = app ++ "/".toList ++ (rel ++ n) ∧
    (strFolder ++ "/".toList ++ n).drop (app.length + 1) = rel ++ n ∧
    (strFolder ++ "/".toList ++ n) ++ "/".toList = app ++ "/".toList ++ (rel ++ n ++ "/".toList) := by
  have e : strFolder ++ "/".toList ++ n = app ++ "/".toList ++ (rel ++ n) := by
    rw [hrel, List.append_assoc]
  refine ⟨e, ?_, ?_⟩
  · rw [e]
    exact List.drop_left' (by simp)
  · rw [e]; simp only [List.append_assoc]

theorem GetObjectsToSignEntry_dir (L : Lib) (fs : FileSys) (app strFolder n : Str)
    (es : List DirEnt) (jvInfo : Node) :
    GetObjectsToSignEntry L fs app strFolder (.dir n es) jvInfo =
      if n ≠ ".".toList ∧ n ≠ "..".toList then
        if isBundlePath (strFolder ++ "/".toList ++ n) then
          if (GetSignFolderInfo L fs (strFolder ++ "/".toList ++ n)
              (JValue.null.set "path".toList
                (.str ((strFolder ++ "/".toList ++ n).drop (app.length + 1)))) false).1 = true then
            jvInfo.pushFolder
              (GetObjectsToSign L fs app (strFolder ++ "/".toList ++ n) es
                (nodeOfInfo ((strFolder ++ "/".toList ++ n).drop (app.length + 1))
                  (GetSignFolderInfo L fs (strFolder ++ "/".toList ++ n)
                    (JValue.null.set "path".toList
                      (.str ((strFolder ++ "/".toList ++ n).drop (app.length + 1)))) false).2))
          else jvInfo
        else GetObjectsToSign L fs app (strFolder ++ "/".toList ++ n) es jvInfo
      else jvInfo := by
  rw [GetObjectsToSignEntry]
  by_cases hn : n ≠ ".".toList ∧ n ≠ "..".toList
  · rw [if_pos hn, if_pos hn]
    cases hB : isBundlePath (strFolder ++ "/".toList ++ n)
    · rfl
    · simp only [if_true]
      rcases GetSignFolderInfo L fs (strFolder ++ "/".toList ++ n)
              (JValue.null.set "path".toList
                (.str ((strFolder ++ "/".toList ++ n).drop (app.length + 1)))) false with ⟨b, jv⟩
      cases b <;> simp
  · rw [if_neg hn, if_neg hn]

theorem Node.pushFolder_fields (n c : Node) :
    (n.pushFolder c).path = n.path ∧ (n.pushFolder c).files = n.files ∧
    (n.pushFolder c).folders = n.folders ++ [c] ∧ (n.pushFolder c).changed = n.changed ∧
    (n.pushFolder c).exec = n.exec ∧ (n.pushFolder c).bid = n.bid := by
  cases n; exact ⟨rfl, rfl, rfl, rfl, rfl, rfl⟩

theorem Node.pushFile_fields (n : Node) (f : Str) :
    (n.pushFile f).path = n.path ∧ (n.pushFile f).files = n.files ++ [f] ∧
    (n.pushFile f).folders = n.folders ∧ (n.pushFile f).changed = n.changed ∧
    (n.pushFile f).exec = n.exec ∧ (n.pushFile f).bid = n.bid := by
  cases n; exact ⟨rfl, rfl, rfl, rfl, rfl, rfl⟩

mutual
theorem GetObjectsToSignEntry_keeps (L : Lib) (fs : FileSys) (app : Str) :
    ∀ (ent : DirEnt) (strFolder : Str) (jvInfo : Node),
    (GetObjectsToSignEntry L fs app strFolder ent jvInfo).path = jvInfo.path ∧
    (GetObjectsToSignEntry L fs app strFolder ent jvInfo).changed = jvInfo.changed ∧
    (GetObjectsToSignEntry L fs app strFolder ent jvInfo).exec = jvInfo.exec ∧
    (GetObjectsToSignEntry L fs app strFolder ent jvInfo).bid = jvInfo.bid
  | .reg n, strFolder, jvInfo => by
    rw [GetObjectsToSignEntry]
    split
    · split
      · exact ⟨(Node.pushFile_fields _ _).1, (Node.pushFile_fields _ _).2.2.2.1,
          (Node.pushFile_fields _ _).2.2.2.2.1, (Node.pushFile_fields _ _).2.2.2.2.2⟩
      · exact ⟨rfl, rfl, rfl, rfl⟩
    · exact ⟨rfl, rfl, rfl, rfl⟩
  | .other n, strFolder, jvInfo => by rw [GetObjectsToSignEntry]; exact ⟨rfl, rfl, rfl, rfl⟩
  | .unknown n d es, strFolder, jvInfo => by
    rw [GetObjectsToSignEntry]; exact ⟨rfl, rfl, rfl, rfl⟩
  | .dir n es, strFolder, jvInfo => by
    rw [GetObjectsToSignEntry_dir]
    split
    · split
      · split
        · exact ⟨(Node.pushFolder_fields _ _).1, (Node.pushFolder_fields _ _).2.2.2.1,
            (Node.pushFolder_fields _ _).2.2.2.2.1, (Node.pushFolder_fields _ _).2.2.2.2.2⟩
        · exact ⟨rfl, rfl, rfl, rfl⟩
      · exact GetObjectsToSign_keeps L fs app es _ jvInfo
    · exact ⟨rfl, rfl, rfl, rfl⟩
theorem GetObjectsToSign_keeps (L : Lib) (fs : FileSys) (app : Str) :
    ∀ (es : List DirEnt) (strFolder : Str) (jvInfo : Node),
    (GetObjectsToSign L fs app strFolder es jvInfo).path = jvInfo.path ∧
    (GetObjectsToSign L fs app strFolder es jvInfo).changed = jvInfo.changed ∧
    (GetObjectsToSign L fs app strFolder es jvInfo).exec = jvInfo.exec ∧
    (GetObjectsToSign L fs app strFolder es jvInfo).bid = jvInfo.bid
  | [], strFolder, jvInfo => by rw [GetObjectsToSign]; exact ⟨rfl, rfl, rfl, rfl⟩
  | ent :: more, strFolder, jvInfo => by
    rw [GetObjectsToSign]
    have h1 := GetObjectsToSign_keeps L fs app more strFolder
      (GetObjectsToSignEntry L fs app strFolder ent jvInfo)
    have h2 := GetObjectsToSignEntry_keeps L fs app ent strFolder jvInfo
    exact ⟨h1.1.trans h2.1, h1.2.1.trans h2.2.1, h1.2.2.1.trans h2.2.2.1,
      h1.2.2.2.trans h2.2.2.2⟩
end

mutual
theorem GetObjectsToSignEntry_level (L : Lib) (fs : FileSys) (app : Str) :
    ∀ (ent : DirEnt) (strFolder rel : Str) (jvInfo : Node),
    strFolder ++ "/".toList = app ++ "/".toList ++ rel →
    (GetObjectsToSignEntry L fs app strFolder ent jvInfo).folders =
      jvInfo.folders ++ (nearestBundlesOf L fs app rel ent).map (bundleNode L fs app) ∧
    (GetObjectsToSignEntry L fs app strFolder ent jvInfo).files =
      jvInfo.files ++ nearestDylibsOf rel ent
  | .other n, strFolder, rel, jvInfo, _ => by
    rw [GetObjectsToSignEntry]; simp [nearestBundlesOf, nearestDylibsOf]
  | .unknown n d es, strFolder, rel, jvInfo, _ => by
    rw [GetObjectsToSignEntry]; simp [nearestBundlesOf, nearestDylibsOf]
  | .reg n, strFolder, rel, jvInfo, hrel => by
    obtain ⟨e1, e2, _⟩ := relPath_drop app strFolder rel n hrel
    rw [GetObjectsToSignEntry, nearestBundlesOf, nearestDylibsOf,
      IsPathSuffix_path_name _ _ _ (by decide), e2]
    by_cases hn : n = ".".toList ∨ n = "..".toList
    · rw [if_neg (fun h => hn.elim h.1 h.2), if_pos hn]
      simp
    · rw [if_pos ⟨fun e => hn (Or.inl e), fun e => hn (Or.inr e)⟩, if_neg hn]
      unfold IsPathSuffix
      by_cases hd : ".dylib".toList <:+ n
      · rw [if_pos (decide_eq_true hd), if_pos (decide_eq_true hd)]
        exact ⟨by rw [(Node.pushFile_fields _ _).2.2.1]; simp, (Node.pushFile_fields _ _).2.1⟩
      · rw [if_neg (by simpa using hd), if_neg (by simpa using hd)]
        simp
  | .dir n es, strFolder, rel, jvInfo, hrel => by
    obtain ⟨e1, e2, e3⟩ := relPath_drop app strFolder rel n hrel
    rw [GetObjectsToSignEntry_dir, nearestBundlesOf, nearestDylibsOf, isBundlePath_path_name,
      GetSignFolderInfo_fst, e2, e1]
    by_cases hn : n = ".".toList ∨ n = "..".toList
    · rw [if_neg (fun h => hn.elim h.1 h.2), if_pos hn, if_pos hn]
      simp
    · rw [if_pos ⟨fun e => hn (Or.inl e), fun e => hn (Or.inr e)⟩, if_neg hn, if_neg hn]
      cases hB : isBundleName n
      · simp only [Bool.false_eq_true, if_false]
        rw [← e1]
        exact GetObjectsToSign_level L fs app es _ _ jvInfo e3
      · simp only [if_true]
        cases hI : hasBundleInfo L fs (app ++ "/".toList ++ (rel ++ n))
        · simp
        · simp only [if_true]
          exact ⟨by rw [(Node.pushFolder_fields _ _).2.2.1]; rfl,
            by rw [(Node.pushFolder_fields _ _).2.1]; simp⟩
theorem GetObjectsToSign_level (L : Lib) (fs : FileSys) (app : Str) :
    ∀ (es : List DirEnt) (strFolder rel : Str) (jvInfo : Node),
    strFolder ++ "/".toList = app ++ "/".toList ++ rel →
    (GetObjectsToSign L fs app strFolder es jvInfo).folders =
      jvInfo.folders ++ (nearestBundlesIn L fs app rel es).map (bundleNode L fs app) ∧
    (GetObjectsToSign L fs app strFolder es jvInfo).files =
      jvInfo.files ++ nearestDylibsIn rel es
  | [], strFolder, rel, jvInfo, _ => by
    rw [GetObjectsToSign]; simp [nearestBundlesIn, nearestDylibsIn]
  | ent :: more, strFolder, rel, jvInfo, hrel => by
    rw [GetObjectsToSign, nearestBundlesIn, nearestDylibsIn]
    have h1 := GetObjectsToSign_level L fs app more strFolder rel
      (GetObjectsToSignEntry L fs app strFolder ent jvInfo) hrel
    have h2 := GetObjectsToSignEntry_level L fs app ent strFolder rel jvInfo hrel
    rw [h1.1, h1.2, h2.1, h2.2]
    simp only [List.map_append, List.append_assoc, and_self]
end

theorem Node.subPathsList_append : ∀ (a b : List Node),
    Node.subPathsList (a ++ b) = Node.subPathsList a ++ Node.subPathsList b
  | [], b => rfl
  | n :: a, b => by
    rw [List.cons_append, Node.subPathsList, Node.subPathsList, Node.subPathsList_append a b]
    simp only [List.append_assoc]

theorem Node.allFilesList_append : ∀ (a b : List Node),
    Node.allFilesList (a ++ b) = Node.allFilesList a ++ Node.allFilesList b
  | [], b => rfl
  | n :: a, b => by
    rw [List.cons_append, Node.allFilesList, Node.allFilesList, Node.allFilesList_append a b]
    simp only [List.append_assoc]

theorem Node.subPaths_eq (n : Node) : n.subPaths = Node.subPathsList n.folders := by
  cases n; rfl

theorem Node.allFiles_eq (n : Node) : n.allFiles = n.files ++ Node.allFilesList n.folders := by
  cases n; rfl

theorem bundleNode_level (L : Lib) (fs : FileSys) (app : Str) (d : Str × List DirEnt) :
    (bundleNode L fs app d).path = d.1 ∧
    (bundleNode L fs app d).folders =
      (nearestBundlesIn L fs app (d.1 ++ "/".toList) d.2).map (bundleNode L fs app) ∧
    (bundleNode L fs app d).files = nearestDylibsIn (d.1 ++ "/".toList) d.2 := by
  have hrel : (app ++ "/".toList ++ d.1) ++ "/".toList
      = app ++ "/".toList ++ (d.1 ++ "/".toList) := by
    simp only [List.append_assoc]
  have h := GetObjectsToSign_level L fs app d.2 (app ++ "/".toList ++ d.1) (d.1 ++ "/".toList)
    (nodeOfInfo d.1
      (GetSignFolderInfo L fs (app ++ "/".toList ++ d.1)
        (JValue.null.set "path".toList (.str d.1)) false).2) hrel
  have hk := GetObjectsToSign_keeps L fs app d.2 (app ++ "/".toList ++ d.1)
    (nodeOfInfo d.1
      (GetSignFolderInfo L fs (app ++ "/".toList ++ d.1)
        (JValue.null.set "path".toList (.str d.1)) false).2)
  refine ⟨hk.1, ?_, ?_⟩
  · exact h.1.trans (by simp [nodeOfInfo, Node.folders])
  · exact h.2.trans (by simp [nodeOfInfo, Node.files])

mutual
theorem nearestBundlesOf_all (L : Lib) (fs : FileSys) (app : Str) :
    ∀ (ent : DirEnt) (rel : Str),
    Node.subPathsList ((nearestBundlesOf L fs app rel ent).map (bundleNode L fs app)) =
      allBundlesOf L fs app rel ent ∧
    List.Perm
      (nearestDylibsOf rel ent ++
        Node.allFilesList ((nearestBundlesOf L fs app rel ent).map (bundleNode L fs app)))
      (allDylibsOf L fs app rel ent)
  | .other n, rel => by
    simp [nearestBundlesOf, nearestDylibsOf, allBundlesOf, allDylibsOf, Node.subPathsList,
      Node.allFilesList]
  | .unknown n d es, rel => by
    simp [nearestBundlesOf, nearestDylibsOf, allBundlesOf, allDylibsOf, Node.subPathsList,
      Node.allFilesList]
  | .reg n, rel => by
    rw [nearestBundlesOf, nearestDylibsOf, allBundlesOf, allDylibsOf]
    simp [Node.subPathsList, Node.allFilesList]
  | .dir n es, rel => by
    rw [nearestBundlesOf, nearestDylibsOf, allBundlesOf, allDylibsOf]
    by_cases hn : n = ".".toList ∨ n = "..".toList
    · rw [if_pos hn, if_pos hn, if_pos hn, if_pos hn]
      simp [Node.subPathsList, Node.allFilesList]
    · rw [if_neg hn, if_neg hn, if_neg hn, if_neg hn]
      cases hB : isBundleName n
      · simp only [Bool.false_eq_true, if_false]
        exact nearestBundlesIn_all L fs app es _
      · simp only [if_true]
        cases hI : hasBundleInfo L fs (app ++ "/".toList ++ (rel ++ n))
        · simp [Node.subPathsList, Node.allFilesList]
        · simp only [if_true, List.map_cons, List.map_nil, Node.subPathsList,
            Node.allFilesList, List.append_nil, List.nil_append]
          obtain ⟨hp, hf, hfi⟩ := bundleNode_level L fs app (rel ++ n, es)
          have ih := nearestBundlesIn_all L fs app es (rel ++ n ++ "/".toList)
          rw [Node.subPaths_eq, Node.allFiles_eq, hp, hf, hfi]
          exact ⟨by rw [ih.1], ih.2⟩
theorem nearestBundlesIn_all (L : Lib) (fs : FileSys) (app : Str) :
    ∀ (es : List DirEnt) (rel : Str),
    Node.subPathsList ((nearestBundlesIn L fs app rel es).map (bundleNode L fs app)) =
      allBundlesIn L fs app rel es ∧
    List.Perm
      (nearestDylibsIn rel es ++
        Node.allFilesList ((nearestBundlesIn L fs app rel es).map (bundleNode L fs app)))
      (allDylibsIn L fs app rel es)
  | [], rel => by
    simp [nearestBundlesIn, nearestDylibsIn, allBundlesIn, allDylibsIn, Node.subPathsList,
      Node.allFilesList]
  | ent :: more, rel => by
    rw [nearestBundlesIn, nearestDylibsIn, allBundlesIn, allDylibsIn, List.map_append,
      Node.subPathsList_append, Node.allFilesList_append]
    have h1 := nearestBundlesOf_all L fs app ent rel
    have h2 := nearestBundlesIn_all L fs app more rel
    refine ⟨by rw [h1.1, h2.1], ?_⟩
    refine List.Perm.trans ?_ (List.Perm.append h1.2 h2.2)
    simp only [List.append_assoc]
    apply List.Perm.append_left
    rw [← List.append_assoc, ← List.append_assoc]
    exact List.Perm.append_right _ List.perm_append_comm
end

theorem GetObjectsToSign_subPaths (L : Lib) (fs : FileSys) (app strFolder rel : Str)
    (es : List DirEnt) (jvInfo : Node)
    (hrel : strFolder ++ "/".toList = app ++ "/".toList ++ rel) :
    (GetObjectsToSign L fs app strFolder es jvInfo).subPaths =
      jvInfo.subPaths ++ allBundlesIn L fs app rel es := by
  have h := GetObjectsToSign_level L fs app es strFolder rel jvInfo hrel
  rw [Node.subPaths_eq, h.1, Node.subPathsList_append, (nearestBundlesIn_all L fs app es rel).1,
    Node.subPaths_eq]

theorem SignFolder_eq {W : Type} (S : FolderSys W) (L : Lib) (pSignAsset : Option arksigningAsset)
    (strFolder : Str) (arrDyLibFiles : List Str)
    (bForce bWeakInject bEnableCache dont : Bool) (w : W) :
    SignFolder S L pSignAsset strFolder arrDyLibFiles bForce bWeakInject bEnableCache dont w =
      match (SignFolderPrepare S pSignAsset strFolder arrDyLibFiles dont w).1 with
      | none =>
        (false, (SignFolderPrepare S pSignAsset strFolder arrDyLibFiles dont w).2.1,
          (SignFolderPrepare S pSignAsset strFolder arrDyLibFiles dont w).2.2)
      | some x =>
        ((SignFolderFinish S L x.1 x.2 bForce bWeakInject bEnableCache dont
            (SignFolderPrepare S pSignAsset strFolder arrDyLibFiles dont w).2.1).1,
         (SignFolderFinish S L x.1 x.2 bForce bWeakInject bEnableCache dont
            (SignFolderPrepare S pSignAsset strFolder arrDyLibFiles dont w).2.1).2.1,
         (SignFolderPrepare S pSignAsset strFolder arrDyLibFiles dont w).2.2 ++
          (SignFolderFinish S L x.1 x.2 bForce bWeakInject bEnableCache dont
            (SignFolderPrepare S pSignAsset strFolder arrDyLibFiles dont w).2.1).2.2) := by
  unfold SignFolder
  rcases SignFolderPrepare S pSignAsset strFolder arrDyLibFiles dont w with ⟨o, w1, ops⟩
  cases o with
  | none => rfl
  | some x =>
    rcases x with ⟨app, paths⟩
    rfl

theorem SignFolderFinish_forced {W : Type} (S : FolderSys W) (L : Lib) (app : Str)
    (paths : List Str) (bWeakInject bEnableCache dont : Bool) (w : W)
    (h : S.fileExists w (cacheFile L app) = false) :
    SignFolderFinish S L app paths false bWeakInject bEnableCache dont w =
      SignFolderFinish S L app paths true bWeakInject bEnableCache dont w := by
  unfold SignFolderFinish
  rw [h]
  rfl

/-- C12. If the cache file of the app folder does not exist when `SignFolder`
tests for it, the call with `bForce` off makes the same calls, ends in the same
state and returns the same result as the call with `bForce` on. -/
theorem SignFolder_without_cache_is_forced {W : Type} (S : FolderSys W) (L : Lib)
    (pSignAsset : Option arksigningAsset) (strFolder : Str) (arrDyLibFiles : List Str)
    (bWeakInject bEnableCache dont : Bool) (w : W)
    (hcache : ∀ app paths,
      (SignFolderPrepare S pSignAsset strFolder arrDyLibFiles dont w).1 = some (app, paths) →
      S.fileExists (SignFolderPrepare S pSignAsset strFolder arrDyLibFiles dont w).2.1
        (cacheFile L app) = false) :
    SignFolder S L pSignAsset strFolder arrDyLibFiles false bWeakInject bEnableCache dont w =
      SignFolder S L pSignAsset strFolder arrDyLibFiles true bWeakInject bEnableCache dont w := by
  rw [SignFolder_eq, SignFolder_eq]
  cases hP : (SignFolderPrepare S pSignAsset strFolder arrDyLibFiles dont w).1 with
  | none => rfl
  | some x =>
    simp only
    rw [SignFolderFinish_forced S L x.1 x.2 bWeakInject bEnableCache dont _
      (hcache x.1 x.2 hP)]

/-- C12 at the example app, which has no cache file. -/
theorem SignFolder_without_cache_is_forced_witness :
    SignFolder exampleWorld exampleFolderLib (some exampleAsset) "/Demo.app".toList
        ["/lib/tweak.dylib".toList] false false true false exampleFiles =
      SignFolder exampleWorld exampleFolderLib (some exampleAsset) "/Demo.app".toList
        ["/lib/tweak.dylib".toList] true false true false exampleFiles :=
  SignFolder_without_cache_is_forced exampleWorld exampleFolderLib (some exampleAsset)
    "/Demo.app".toList ["/lib/tweak.dylib".toList] false true false exampleFiles (by
      intro app paths h
      have e : (SignFolderPrepare exampleWorld (some exampleAsset) "/Demo.app".toList
          ["/lib/tweak.dylib".toList] false exampleFiles).1
          = some ("/Demo.app".toList, ["@executable_path/tweak.dylib".toList]) := by decide
      rw [e] at h
      cases h
      decide)

theorem fileAt_cons (e : Str × Str) (w : List (Str × Str)) (p : Str) :
    fileAt (e :: w) p = if e.1 = p then some e.2 else fileAt w p := by
  unfold fileAt
  rw [List.find?_cons]
  by_cases h : e.1 = p
  · simp [h]
  · simp [h]

theorem fileAt_filter_other (q p : Str) (h : p ≠ q) : ∀ (w : List (Str × Str)),
    fileAt (w.filter (fun e => decide (e.1 ≠ q))) p = fileAt w p
  | [] => rfl
  | e :: w => by
    rw [List.filter_cons]
    by_cases he : e.1 = q
    · have hp : ¬ e.1 = p := fun e2 => h (e2.symm.trans he)
      rw [if_neg (by simpa using he), fileAt_cons e w p, if_neg hp]
      exact fileAt_filter_other q p h w
    · rw [if_pos (by simpa using he), fileAt_cons, fileAt_cons, fileAt_filter_other q p h w]

theorem fileAt_filter_same (p : Str) : ∀ (w : List (Str × Str)),
    fileAt (w.filter (fun e => decide (e.1 ≠ p))) p = none
  | [] => rfl
  | e :: w => by
    rw [List.filter_cons]
    by_cases he : e.1 = p
    · rw [if_neg (by simpa using he)]
      exact fileAt_filter_same p w
    · rw [if_pos (by simpa using he), fileAt_cons, if_neg he]
      exact fileAt_filter_same p w

theorem fileAt_putFile_same (w : List (Str × Str)) (p d : Str) :
    fileAt (putFile w p d) p = some d := by
  unfold putFile
  rw [fileAt_cons, if_pos rfl]

theorem fileAt_putFile_other (w : List (Str × Str)) (p q d : Str) (h : p ≠ q) :
    fileAt (putFile w q d) p = fileAt w p := by
  unfold putFile
  rw [fileAt_cons, if_neg (fun e => h e.symm)]
  exact fileAt_filter_other q p h w

theorem listFolder_exists (folder n : Str) : ∀ (w : List (Str × Str)),
    DirEnt.reg n ∈ listFolder w folder → (fileAt w (folder ++ "/".toList ++ n)).isSome = true
  | [], h => by simp [listFolder] at h
  | e :: w, h => by
    unfold listFolder at h
    rw [List.filterMap_cons] at h
    rw [fileAt_cons]
    by_cases hc : (folder ++ "/".toList) <+: e.1 ∧ '/' ∉ e.1.drop (folder.length + 1)
    · rw [if_pos hc] at h
      rcases List.mem_cons.mp h with h | h
      · have hn : n = e.1.drop (folder.length + 1) := by
          injection h
        obtain ⟨t, ht⟩ := hc.1
        have hd : e.1.drop (folder.length + 1) = t := by
          rw [← ht]
          exact List.drop_left' (by simp)
        rw [if_pos (by rw [hn, hd, ← ht])]
        rfl
      · by_cases he : e.1 = folder ++ "/".toList ++ n
        · rw [if_pos he]; rfl
        · rw [if_neg he]
          exact listFolder_exists folder n w h
    · rw [if_neg hc] at h
      by_cases he : e.1 = folder ++ "/".toList ++ n
      · rw [if_pos he]; rfl
      · rw [if_neg he]
        exact listFolder_exists folder n w h

/-- The example world obeys the laws of a file system. -/
theorem exampleWorld_laws : FileLaws exampleWorld where
  read_writeFile_same := fun w p d _ => fileAt_putFile_same w p d
  read_writeFile_other := fun w p q d h => fileAt_putFile_other w p q d h
  read_createFolder := fun _ _ _ => rfl
  read_machoSign_other := fun w p q _ _ _ _ _ h => fileAt_putFile_other w p q _ h
  read_machoInject_other := fun w p q _ _ _ h => fileAt_putFile_other w p q _ h
  read_writeCache_other := fun w p q _ h => fileAt_putFile_other w p q _ h
  exists_writeFile_other := fun w p q d h =>
    congrArg Option.isSome (fileAt_putFile_other w p q d h)
  exists_createFolder_other := fun _ _ _ _ => rfl
  exists_machoSign_other := fun w p q _ _ _ _ _ h =>
    congrArg Option.isSome (fileAt_putFile_other w p q _ h)
  exists_machoInject_other := fun w p q _ _ _ h =>
    congrArg Option.isSome (fileAt_putFile_other w p q _ h)
  exists_writeCache_other := fun w p q _ h =>
    congrArg Option.isSome (fileAt_putFile_other w p q _ h)
  exists_removeFile := fun w p _ => congrArg Option.isSome (fileAt_filter_same p w)
  machoInit_exists := fun w p h => by
    have h2 : (match fileAt w p with
        | some d => decide ("macho".toList <+: d)
        | none => false) = true := h
    show (fileAt w p).isSome = true
    cases hf : fileAt w p with
    | none => rw [hf] at h2; exact absurd h2 (by simp)
    | some d => rfl
  listed_exists := fun w folder n h => listFolder_exists folder n w h

/-- In the example world a file that holds the example profile does not open as
a Mach-O image. -/
theorem exampleWorld_profile_not_macho (w : List (Str × Str)) (p : Str)
    (h : (exampleWorld.fs w).read p = some exampleAsset.m_strProvisionData) :
    exampleWorld.machoInit w p = false := by
  have h2 : fileAt w p = some "profile".toList := h
  show (match fileAt w p with
    | some d => decide ("macho".toList <+: d)
    | none => false) = false
  rw [h2]
  decide

theorem ne_of_getLast? {x y : Str} (h : x.getLast? ≠ y.getLast?) : x ≠ y :=
  fun e => h (congrArg List.getLast? e)

theorem codeSignature_ne_provision (base app : Str) :
    base ++ "/_CodeSignature".toList ≠ app ++ "/embedded.mobileprovision".toList := by
  apply ne_of_getLast?
  simp

theorem codeResources_ne_provision (base app : Str) :
    base ++ "/_CodeSignature/CodeResources".toList ≠
      app ++ "/embedded.mobileprovision".toList := by
  apply ne_of_getLast?
  simp

theorem cacheFolder_ne_provision (app : Str) :
    "./.arksigning_cache".toList ≠ app ++ "/embedded.mobileprovision".toList := by
  apply ne_of_getLast?
  simp

theorem cacheFile_ne_provision (L : Lib) (app app2 : Str) :
    cacheFile L app2 ≠ app ++ "/embedded.mobileprovision".toList := by
  intro e
  have h : (cacheFile L app2).reverse.take 3 =
      (app ++ "/embedded.mobileprovision".toList).reverse.take 3 := by rw [e]
  unfold cacheFile at h
  simp at h

theorem signFiles_keeps {W : Type} (S : Sys W) (B : Bundle) (a : List Nat) (P : Str)
    (Inv : W → Prop) (K : Keeps S P Inv) :
    ∀ (files : List Str) (w : W), Inv w → Inv (signFiles S B a files w).2.1
  | [], w, h => h
  | f :: more, w, h => by
    rw [signFiles_cons_eq]
    by_cases hi : S.machoInit w (B.m_strAppFolder ++ "/".toList ++ f) = true
    · rw [if_pos hi]
      have hq := K.machoInit w _ h hi
      have h1 := K.machoSign w _ B.m_bForceSign [] [] [] [] hq h
      split
      · exact signFiles_keeps S B a P Inv K more _ h1
      · exact h1
    · rw [if_neg hi]
      exact h

theorem injectAll_keeps {W : Type} (S : Sys W) (B : Bundle) (a : List Nat) (P exe : Str)
    (Inv : W → Prop) (K : Keeps S P Inv) (hq : exe ≠ P) :
    ∀ (l : List Str) (b : Bool) (w : W), Inv w → Inv (injectAll S B a exe l b w).2.1
  | [], b, w, h => h
  | p :: more, b, w, h => by
    rw [injectAll_cons_eq]
    exact injectAll_keeps S B a P exe Inv K hq more _ _ (K.machoInject w exe _ p b hq h)

theorem SignNodeSelf_keeps {W : Type} (S : Sys W) (L : Lib) (B : Bundle) (a : List Nat)
    (Inv : W → Prop) (K : Keeps S (B.m_strAppFolder ++ "/embedded.mobileprovision".toList) Inv)
    (n : Node) (w : W) (h : Inv w) : Inv (SignNodeSelf S L B a n w).2.1 := by
  unfold SignNodeSelf
  by_cases hg : n.bid = [] ∨ n.exec = [] ∨ DecodeStr n.sha1 = [] ∨ DecodeStr n.sha2 = []
  · simp only [hg, if_true]
    exact h
  · by_cases hi : S.machoInit w (baseFolderOf B n ++ "/".toList ++ n.exec) = true
    · have hq := K.machoInit w _ h hi
      have h1 := K.createFolder w (baseFolderOf B n ++ "/_CodeSignature".toList)
        (codeSignature_ne_provision _ _) h
      simp only [hg, if_false, hi, if_true]
      rcases hc : nodeCodeRes S L B a n
        (S.createFolder w (baseFolderOf B n ++ "/_CodeSignature".toList)) with ⟨r, tr1⟩
      cases r with
      | none => exact h1
      | some jv =>
        simp only
        have h2 := K.writeFile _ (baseFolderOf B n ++ "/_CodeSignature/CodeResources".toList)
          (L.writePList jv) (codeResources_ne_provision _ _) h1
        rcases hw : S.writeFile (S.createFolder w (baseFolderOf B n ++ "/_CodeSignature".toList))
          (baseFolderOf B n ++ "/_CodeSignature/CodeResources".toList) (L.writePList jv)
          with ⟨okw, w2⟩
        rw [hw] at h2
        cases okw
        · exact h2
        · simp only
          by_cases hr : "/".toList = n.path ∧ B.arrDyLibPaths ≠ []
          · rw [if_pos hr]
            exact K.machoSign _ _ _ _ _ _ _ hq
              (injectAll_keeps S B a _ _ Inv K hq _ _ _ h2)
          · rw [if_neg hr]
            exact K.machoSign _ _ _ _ _ _ _ hq h2
    · simp only [hg, if_false, hi, Bool.false_eq_true]
      exact h

mutual
theorem SignNode_keeps {W : Type} (S : Sys W) (L : Lib) (B : Bundle) (Inv : W → Prop)
    (K : Keeps S (B.m_strAppFolder ++ "/embedded.mobileprovision".toList) Inv) :
    ∀ (n : Node) (a : List Nat) (w : W), Inv w → Inv (SignNode S L B a n w).2.1
  | .mk path bid exec sha1 sha2 files changed folders, a, w, h => by
    rw [SignNode_eq]
    have h1 := SignNodes_keeps S L B Inv K folders a 0 w h
    have h2 := signFiles_keeps S B a _ Inv K files _ h1
    split
    · split
      · exact SignNodeSelf_keeps S L B a Inv K _ _ h2
      · exact h2
    · exact h1
theorem SignNodes_keeps {W : Type} (S : Sys W) (L : Lib) (B : Bundle) (Inv : W → Prop)
    (K : Keeps S (B.m_strAppFolder ++ "/embedded.mobileprovision".toList) Inv) :
    ∀ (ns : List Node) (a : List Nat) (i : Nat) (w : W), Inv w →
      Inv (SignNodes S L B a i ns w).2.1
  | [], a, i, w, h => h
  | n :: more, a, i, w, h => by
    rw [SignNodes_cons_eq]
    have h1 := SignNode_keeps S L B Inv K n (a ++ [i]) w h
    split
    · exact SignNodes_keeps S L B Inv K more a (i + 1) _ h1
    · exact h1
end

theorem SignFolderPrepare_some {W : Type} (S : FolderSys W)
    (pSignAsset : Option arksigningAsset) (strFolder : Str) (arrDyLibFiles : List Str)
    (dont : Bool) (w : W) (x : Str × List Str)
    (h : (SignFolderPrepare S pSignAsset strFolder arrDyLibFiles dont w).1 = some x) :
    ∃ asset, pSignAsset = some asset ∧
      FindAppFolder strFolder ((S.fs w).dir strFolder) [] = (true, x.1) ∧
      (provisionStep S asset x.1 dont w).1 = true ∧
      (SignFolderPrepare S pSignAsset strFolder arrDyLibFiles dont w).2.1 =
        (copyDyLibs S x.1 arrDyLibFiles (provisionStep S asset x.1 dont w).2.1).1 ∧
      x.2 = (copyDyLibs S x.1 arrDyLibFiles (provisionStep S asset x.1 dont w).2.1).2.1 ∧
      (SignFolderPrepare S pSignAsset strFolder arrDyLibFiles dont w).2.2 =
        (provisionStep S asset x.1 dont w).2.2 ++
          (copyDyLibs S x.1 arrDyLibFiles (provisionStep S asset x.1 dont w).2.1).2.2 := by
  unfold SignFolderPrepare at h ⊢
  cases pSignAsset with
  | none => simp at h
  | some asset =>
    refine ⟨asset, rfl, ?_⟩
    simp only at h ⊢
    rcases hF : FindAppFolder strFolder ((S.fs w).dir strFolder) [] with ⟨b, app⟩
    rw [hF] at h
    cases b with
    | false => simp at h
    | true =>
      simp only at h ⊢
      rcases hP : provisionStep S asset app dont w with ⟨ok, w1, ops1⟩
      rw [hP] at h
      cases ok with
      | false => simp at h
      | true =>
        simp only at h ⊢
        rcases hC : copyDyLibs S app arrDyLibFiles w1 with ⟨w2, paths, ops2⟩
        rw [hC] at h
        simp only [Option.some.injEq] at h
        subst h
        simp only [hP, hC, and_self]

theorem SignFolderFinish_ok {W : Type} (S : FolderSys W) (L : Lib) (app : Str)
    (paths : List Str) (bForce bWeakInject bEnableCache dont : Bool) (w : W)
    (h : (SignFolderFinish S L app paths bForce bWeakInject bEnableCache dont w).1 = true) :
    ∃ root,
      (if (bForce || !S.fileExists w (cacheFile L app)) = true then
          discoverRoot L (S.fs w) app dont
        else some (S.readCache w (cacheFile L app))) = some root ∧
      (SignNode S.toSys L ⟨app, bForce || !S.fileExists w (cacheFile L app), bWeakInject, paths⟩
        [] root w).1 = true ∧
      (SignFolderFinish S L app paths bForce bWeakInject bEnableCache dont w).2.1 =
        (if bEnableCache = true then
          S.writeCache
            (S.createFolder
              (SignNode S.toSys L
                ⟨app, bForce || !S.fileExists w (cacheFile L app), bWeakInject, paths⟩
                [] root w).2.1 "./.arksigning_cache".toList)
            (cacheFile L app) root
        else (SignNode S.toSys L
                ⟨app, bForce || !S.fileExists w (cacheFile L app), bWeakInject, paths⟩
                [] root w).2.1) ∧
      (SignFolderFinish S L app paths bForce bWeakInject bEnableCache dont w).2.2 =
        (SignNode S.toSys L
          ⟨app, bForce || !S.fileExists w (cacheFile L app), bWeakInject, paths⟩
          [] root w).2.2.map FolderOp.sign ++
        (if bEnableCache = true then [.writeCache (cacheFile L app) root] else []) := by
  unfold SignFolderFinish at h ⊢
  simp only at h ⊢
  rcases hR : (if (bForce || !S.fileExists w (cacheFile L app)) = true then
          discoverRoot L (S.fs w) app dont
        else some (S.readCache w (cacheFile L app))) with _ | root
  · rw [hR] at h
    simp at h
  · rw [hR] at h
    refine ⟨root, rfl, ?_⟩
    simp only at h ⊢
    rcases hS : SignNode S.toSys L
        ⟨app, bForce || !S.fileExists w (cacheFile L app), bWeakInject, paths⟩ [] root w
      with ⟨ok, w1, tr⟩
    rw [hS] at h
    cases ok with
    | false => simp at h
    | true =>
      cases bEnableCache <;> simp

theorem copyDyLibs_cons {W : Type} (S : FolderSys W) (app f : Str) (more : List Str) (w : W) :
    copyDyLibs S app (f :: more) w =
      if ((S.fs w).read f).getD [] ≠ [] then
        ((copyDyLibs S app more
            (S.writeFile w (app ++ "/".toList ++ basename f) (((S.fs w).read f).getD [])).2).1,
         (if (S.writeFile w (app ++ "/".toList ++ basename f)
              (((S.fs w).read f).getD [])).1 = true then
            ["@executable_path/".toList ++ basename f] else []) ++
          (copyDyLibs S app more
            (S.writeFile w (app ++ "/".toList ++ basename f) (((S.fs w).read f).getD [])).2).2.1,
         .copyDyLib f (app ++ "/".toList ++ basename f) (((S.fs w).read f).getD [])
            (S.writeFile w (app ++ "/".toList ++ basename f) (((S.fs w).read f).getD [])).1 ::
          (copyDyLibs S app more
            (S.writeFile w (app ++ "/".toList ++ basename f) (((S.fs w).read f).getD [])).2).2.2)
      else copyDyLibs S app more w := by
  rw [copyDyLibs]
  by_cases hd : ((S.fs w).read f).getD [] ≠ []
  · rw [if_pos hd, if_pos hd]
    rcases S.writeFile w (app ++ "/".toList ++ basename f) (((S.fs w).read f).getD [])
      with ⟨ok, w1⟩
    cases ok <;> simp
  · rw [if_neg hd, if_neg hd]

theorem rootFile_ne_provision (app b : Str) (h : b ≠ "embedded.mobileprovision".toList) :
    app ++ "/".toList ++ b ≠ app ++ "/embedded.mobileprovision".toList := by
  intro e
  apply h
  have e2 : app ++ ('/' :: b) = app ++ ('/' :: "embedded.mobileprovision".toList) := by
    simpa using e
  have e3 := List.append_cancel_left e2
  injection e3

theorem copyDyLibs_keeps {W : Type} (S : FolderSys W) (app : Str) (Inv : W → Prop)
    (K : Keeps S.toSys (app ++ "/embedded.mobileprovision".toList) Inv) :
    ∀ (files : List Str) (w : W),
      (∀ f ∈ files, basename f ≠ "embedded.mobileprovision".toList) →
      Inv w → Inv (copyDyLibs S app files w).1
  | [], w, _, h => h
  | f :: more, w, hn, h => by
    rw [copyDyLibs_cons]
    have hn2 : ∀ g ∈ more, basename g ≠ "embedded.mobileprovision".toList :=
      fun g hg => hn g (List.mem_cons_of_mem _ hg)
    split
    · exact copyDyLibs_keeps S app Inv K more _ hn2
        (K.writeFile w _ _ (rootFile_ne_provision app _ (hn f (List.mem_cons_self _ _))) h)
    · exact copyDyLibs_keeps S app Inv K more w hn2 h

theorem keeps_profile {W : Type} (S : FolderSys W) (laws : FileLaws S) (P data : Str)
    (hmacho : ∀ w p, (S.fs w).read p = some data → S.machoInit w p = false) :
    Keeps S.toSys P (fun w => (S.fs w).read P = some data) where
  createFolder := fun w q _ h => (laws.read_createFolder w P q).trans h
  writeFile := fun w q d hq h => (laws.read_writeFile_other w P q d (Ne.symm hq)).trans h
  machoSign := fun w q b i h1 h2 c hq h =>
    (laws.read_machoSign_other w P q b i h1 h2 c (Ne.symm hq)).trans h
  machoInject := fun w q k d b hq h =>
    (laws.read_machoInject_other w P q k d b (Ne.symm hq)).trans h
  machoInit := fun w q h hi e => by
    rw [e, hmacho w P h] at hi
    exact Bool.false_ne_true hi

theorem keeps_absent {W : Type} (S : FolderSys W) (laws : FileLaws S) (P : Str) :
    Keeps S.toSys P (fun w => S.fileExists w P = false) where
  createFolder := fun w q hq h => (laws.exists_createFolder_other w P q (Ne.symm hq)).trans h
  writeFile := fun w q d hq h => (laws.exists_writeFile_other w P q d (Ne.symm hq)).trans h
  machoSign := fun w q b i h1 h2 c hq h =>
    (laws.exists_machoSign_other w P q b i h1 h2 c (Ne.symm hq)).trans h
  machoInject := fun w q k d b hq h =>
    (laws.exists_machoInject_other w P q k d b (Ne.symm hq)).trans h
  machoInit := fun w q h hi e => by
    have hx := laws.machoInit_exists w q hi
    rw [e, h] at hx
    exact Bool.false_ne_true hx

theorem provisionStep_written {W : Type} (S : FolderSys W) (laws : FileLaws S)
    (asset : arksigningAsset) (app : Str) (w : W)
    (h : (provisionStep S asset app false w).1 = true) :
    (S.fs (provisionStep S asset app false w).2.1).read
      (app ++ "/embedded.mobileprovision".toList) = some asset.m_strProvisionData :=
  laws.read_writeFile_same w _ _ h

theorem provisionStep_removed {W : Type} (S : FolderSys W) (laws : FileLaws S)
    (asset : arksigningAsset) (app : Str) (w : W)
    (h : (provisionStep S asset app true w).1 = true) :
    S.fileExists (provisionStep S asset app true w).2.1
      (app ++ "/embedded.mobileprovision".toList) = false := by
  unfold provisionStep RemoveEmbeddedMobileProvision at h ⊢
  simp only [if_true] at h ⊢
  cases hE : S.fileExists w (app ++ "/embedded.mobileprovision".toList)
  · simp only [Bool.false_eq_true, if_false]
    exact hE
  · rw [hE] at h
    simp only [if_true] at h ⊢
    have hl := laws.exists_removeFile w (app ++ "/embedded.mobileprovision".toList)
    rcases hR : S.removeFile w (app ++ "/embedded.mobileprovision".toList) with ⟨ok, w1⟩
    rw [hR] at h hl
    cases ok
    · simp at h
    · exact hl rfl

theorem provisionStep_ops {W : Type} (S : FolderSys W) (asset : arksigningAsset) (app : Str)
    (dont : Bool) (w : W) (op : FolderOp) (h : op ∈ (provisionStep S asset app dont w).2.2) :
    (dont = true ∧ op = .removeProvision (app ++ "/embedded.mobileprovision".toList)) ∨
    (dont = false ∧ op = .writeProvision (app ++ "/embedded.mobileprovision".toList)
      asset.m_strProvisionData) := by
  cases dont
  · right
    exact ⟨rfl, List.mem_singleton.mp h⟩
  · left
    refine ⟨rfl, ?_⟩
    unfold provisionStep RemoveEmbeddedMobileProvision at h
    simp only [if_true] at h
    split at h
    · rcases hR : S.removeFile w (app ++ "/embedded.mobileprovision".toList) with ⟨ok, w1⟩
      rw [hR] at h
      cases ok <;> exact List.mem_singleton.mp h
    · exact absurd h (List.not_mem_nil _)

theorem copyDyLibs_ops {W : Type} (S : FolderSys W) (app : Str) :
    ∀ (files : List Str) (w : W) (op : FolderOp), op ∈ (copyDyLibs S app files w).2.2 →
      ∃ f data ok, f ∈ files ∧ data ≠ [] ∧
        op = .copyDyLib f (app ++ "/".toList ++ basename f) data ok
  | [], w, op, h => absurd h (List.not_mem_nil _)
  | f :: more, w, op, h => by
    rw [copyDyLibs_cons] at h
    split at h
    · rename_i hd
      rcases List.mem_cons.mp h with h | h
      · exact ⟨f, _, _, List.mem_cons_self _ _, hd, h⟩
      · obtain ⟨g, data, ok, hg, hd2, e⟩ := copyDyLibs_ops S app more _ op h
        exact ⟨g, data, ok, List.mem_cons_of_mem _ hg, hd2, e⟩
    · obtain ⟨g, data, ok, hg, hd2, e⟩ := copyDyLibs_ops S app more _ op h
      exact ⟨g, data, ok, List.mem_cons_of_mem _ hg, hd2, e⟩

theorem SignFolder_run {W : Type} (S : FolderSys W) (L : Lib) (asset : arksigningAsset)
    (strFolder : Str) (arrDyLibFiles : List Str)
    (bForce bWeakInject bEnableCache dont : Bool) (w : W)
    (hok : (SignFolder S L (some asset) strFolder arrDyLibFiles bForce bWeakInject bEnableCache
      dont w).1 = true) :
    ∃ app root,
      FindAppFolder strFolder ((S.fs w).dir strFolder) [] = (true, app) ∧
      (provisionStep S asset app dont w).1 = true ∧
      (if (bForce || !S.fileExists
            (copyDyLibs S app arrDyLibFiles (provisionStep S asset app dont w).2.1).1
            (cacheFile L app)) = true then
          discoverRoot L
            (S.fs (copyDyLibs S app arrDyLibFiles (provisionStep S asset app dont w).2.1).1)
            app dont
        else some (S.readCache
            (copyDyLibs S app arrDyLibFiles (provisionStep S asset app dont w).2.1).1
            (cacheFile L app))) = some root ∧
      (SignNode S.toSys L
        ⟨app, bForce || !S.fileExists
            (copyDyLibs S app arrDyLibFiles (provisionStep S asset app dont w).2.1).1
            (cacheFile L app), bWeakInject,
          (copyDyLibs S app arrDyLibFiles (provisionStep S asset app dont w).2.1).2.1⟩
        [] root
        (copyDyLibs S app arrDyLibFiles (provisionStep S asset app dont w).2.1).1).1 = true ∧
      (SignFolder S L (some asset) strFolder arrDyLibFiles bForce bWeakInject bEnableCache
        dont w).2.1 =
        (if bEnableCache = true then
          S.writeCache
            (S.createFolder
              (SignNode S.toSys L
                ⟨app, bForce || !S.fileExists
                    (copyDyLibs S app arrDyLibFiles (provisionStep S asset app dont w).2.1).1
                    (cacheFile L app), bWeakInject,
                  (copyDyLibs S app arrDyLibFiles (provisionStep S asset app dont w).2.1).2.1⟩
                [] root
                (copyDyLibs S app arrDyLibFiles (provisionStep S asset app dont w).2.1).1).2.1
              "./.arksigning_cache".toList)
            (cacheFile L app) root
        else
          (SignNode S.toSys L
            ⟨app, bForce || !S.fileExists
                (copyDyLibs S app arrDyLibFiles (provisionStep S asset app dont w).2.1).1
                (cacheFile L app), bWeakInject,
              (copyDyLibs S app arrDyLibFiles (provisionStep S asset app dont w).2.1).2.1⟩
            [] root
            (copyDyLibs S app arrDyLibFiles (provisionStep S asset app dont w).2.1).1).2.1) ∧
      (SignFolder S L (some asset) strFolder arrDyLibFiles bForce bWeakInject bEnableCache
        dont w).2.2 =
        (provisionStep S asset app dont w).2.2 ++
          (copyDyLibs S app arrDyLibFiles (provisionStep S asset app dont w).2.1).2.2 ++
          ((SignNode S.toSys L
            ⟨app, bForce || !S.fileExists
                (copyDyLibs S app arrDyLibFiles (provisionStep S asset app dont w).2.1).1
                (cacheFile L app), bWeakInject,
              (copyDyLibs S app arrDyLibFiles (provisionStep S asset app dont w).2.1).2.1⟩
            [] root
            (copyDyLibs S app arrDyLibFiles
              (provisionStep S asset app dont w).2.1).1).2.2.map FolderOp.sign ++
          (if bEnableCache = true then [.writeCache (cacheFile L app) root] else [])) := by
  rw [SignFolder_eq] at hok ⊢
  cases hP : (SignFolderPrepare S (some asset) strFolder arrDyLibFiles dont w).1 with
  | none =>
    rw [hP] at hok
    exact absurd hok (by simp)
  | some x =>
    rw [hP] at hok
    simp only at hok ⊢
    obtain ⟨asset2, ha, hF, hpv, hw, hx, hops⟩ :=
      SignFolderPrepare_some S (some asset) strFolder arrDyLibFiles dont w x hP
    cases ha
    rcases x with ⟨app, paths⟩
    simp only at hF hpv hw hx hops hok ⊢
    subst hx
    obtain ⟨root, hroot, hsn, hst, htr⟩ := SignFolderFinish_ok S L app _ bForce bWeakInject
      bEnableCache dont _ hok
    rw [hw] at hroot hsn hst htr
    refine ⟨app, root, hF, hpv, hroot, hsn, ?_, ?_⟩
    · rw [hw]; exact hst
    · rw [hw, hops, htr]

theorem SignFolder_profile_kept {W : Type} (S : FolderSys W) (L : Lib)
    (asset : arksigningAsset) (strFolder : Str) (arrDyLibFiles : List Str)
    (bForce bWeakInject bEnableCache : Bool) (w : W) (laws : FileLaws S)
    (hmacho : ∀ w p, (S.fs w).read p = some asset.m_strProvisionData → S.machoInit w p = false)
    (hnames : ∀ f ∈ arrDyLibFiles, basename f ≠ "embedded.mobileprovision".toList)
    (hok : (SignFolder S L (some asset) strFolder arrDyLibFiles bForce bWeakInject bEnableCache
      false w).1 = true)
    (app : Str) (hF : FindAppFolder strFolder ((S.fs w).dir strFolder) [] = (true, app)) :
    (S.fs (SignFolder S L (some asset) strFolder arrDyLibFiles bForce bWeakInject
      bEnableCache false w).2.1).read (app ++ "/embedded.mobileprovision".toList) =
      some asset.m_strProvisionData := by
  obtain ⟨app2, root, hF2, hpv, _, _, hst, _⟩ := SignFolder_run S L asset strFolder
    arrDyLibFiles bForce bWeakInject bEnableCache false w hok
  rw [hF] at hF2
  injection hF2 with _ happ
  subst happ
  have h1 := copyDyLibs_keeps S app
    (fun w => (S.fs w).read (app ++ "/embedded.mobileprovision".toList) =
      some asset.m_strProvisionData)
    (keeps_profile S laws _ _ hmacho) arrDyLibFiles _ hnames
    (provisionStep_written S laws asset app w hpv)
  have h2 := SignNode_keeps S.toSys L
    ⟨app, bForce || !S.fileExists
        (copyDyLibs S app arrDyLibFiles (provisionStep S asset app false w).2.1).1
        (cacheFile L app), bWeakInject,
      (copyDyLibs S app arrDyLibFiles (provisionStep S asset app false w).2.1).2.1⟩
    (fun w => (S.fs w).read (app ++ "/embedded.mobileprovision".toList) =
      some asset.m_strProvisionData)
    (keeps_profile S laws _ _ hmacho) root [] _ h1
  rw [hst]
  cases bEnableCache
  · exact h2
  · simp only [if_true]
    rw [laws.read_writeCache_other _ _ _ _ (Ne.symm (cacheFile_ne_provision L app app)),
      laws.read_createFolder]
    exact h2

theorem SignFolder_profile_absent {W : Type} (S : FolderSys W) (L : Lib)
    (asset : arksigningAsset) (strFolder : Str) (arrDyLibFiles : List Str)
    (bForce bWeakInject bEnableCache : Bool) (w : W) (laws : FileLaws S)
    (hnames : ∀ f ∈ arrDyLibFiles, basename f ≠ "embedded.mobileprovision".toList)
    (hok : (SignFolder S L (some asset) strFolder arrDyLibFiles bForce bWeakInject bEnableCache
      true w).1 = true)
    (app : Str) (hF : FindAppFolder strFolder ((S.fs w).dir strFolder) [] = (true, app)) :
    S.fileExists (SignFolder S L (some asset) strFolder arrDyLibFiles bForce bWeakInject
      bEnableCache true w).2.1 (app ++ "/embedded.mobileprovision".toList) = false := by
  obtain ⟨app2, root, hF2, hpv, _, _, hst, _⟩ := SignFolder_run S L asset strFolder
    arrDyLibFiles bForce bWeakInject bEnableCache true w hok
  rw [hF] at hF2
  injection hF2 with _ happ
  subst happ
  have h1 := copyDyLibs_keeps S app
    (fun w => S.fileExists w (app ++ "/embedded.mobileprovision".toList) = false)
    (keeps_absent S laws _) arrDyLibFiles _ hnames
    (provisionStep_removed S laws asset app w hpv)
  have h2 := SignNode_keeps S.toSys L
    ⟨app, bForce || !S.fileExists
        (copyDyLibs S app arrDyLibFiles (provisionStep S asset app true w).2.1).1
        (cacheFile L app), bWeakInject,
      (copyDyLibs S app arrDyLibFiles (provisionStep S asset app true w).2.1).2.1⟩
    (fun w => S.fileExists w (app ++ "/embedded.mobileprovision".toList) = false)
    (keeps_absent S laws _) root [] _ h1
  rw [hst]
  cases bEnableCache
  · exact h2
  · simp only [if_true]
    rw [laws.exists_writeCache_other _ _ _ _ (Ne.symm (cacheFile_ne_provision L app app)),
      laws.exists_createFolder_other _ _ _ (Ne.symm (cacheFolder_ne_provision app))]
    exact h2

/-- C18, as stated, fails: with the profile `profile` and the dylib
`/lib/embedded.mobileprovision` to inject, `SignFolder` succeeds on the example
app and `/Demo.app/embedded.mobileprovision` ends up holding the bytes of the
dylib; with the flag set as well, the file exists afterwards. -/
theorem SignFolder_dylib_overwrites_profile :
    (SignFolder exampleWorld exampleFolderLib (some exampleAsset) "/Demo.app".toList
      ["/lib/embedded.mobileprovision".toList] false false false false exampleFiles).1 = true ∧
    fileAt (SignFolder exampleWorld exampleFolderLib (some exampleAsset) "/Demo.app".toList
      ["/lib/embedded.mobileprovision".toList] false false false false exampleFiles).2.1
      "/Demo.app/embedded.mobileprovision".toList = some "macho trick".toList ∧
    exampleAsset.m_strProvisionData = "profile".toList ∧
    (SignFolder exampleWorld exampleFolderLib (some exampleAsset) "/Demo.app".toList
      ["/lib/embedded.mobileprovision".toList] false false false true exampleFiles).1 = true ∧
    exampleWorld.fileExists
      (SignFolder exampleWorld exampleFolderLib (some exampleAsset) "/Demo.app".toList
        ["/lib/embedded.mobileprovision".toList] false false false true exampleFiles).2.1
      "/Demo.app/embedded.mobileprovision".toList = true := by
  decide

/-- C18, amended. In a world that obeys the laws of a file system and in which
a file holding the profile does not open as a Mach-O image, let `SignFolder`
succeed on a list of dylibs none of which is called `embedded.mobileprovision`.
Then with the flag off `<app folder>/embedded.mobileprovision` holds exactly
the bytes of the profile afterwards, with the flag on that file does not exist
afterwards, and the only write of a profile that `SignFolder` makes goes to
that path in the app folder, never into a sub-bundle. -/
theorem SignFolder_provision {W : Type} (S : FolderSys W) (L : Lib) (asset : arksigningAsset)
    (strFolder : Str) (arrDyLibFiles : List Str)
    (bForce bWeakInject bEnableCache dont : Bool) (w : W)
    (laws : FileLaws S)
    (hmacho : ∀ w p, (S.fs w).read p = some asset.m_strProvisionData → S.machoInit w p = false)
    (hnames : ∀ f ∈ arrDyLibFiles, basename f ≠ "embedded.mobileprovision".toList)
    (hok : (SignFolder S L (some asset) strFolder arrDyLibFiles bForce bWeakInject bEnableCache
      dont w).1 = true) :
    ∃ app, FindAppFolder strFolder ((S.fs w).dir strFolder) [] = (true, app) ∧
      (dont = false →
        (S.fs (SignFolder S L (some asset) strFolder arrDyLibFiles bForce bWeakInject
          bEnableCache dont w).2.1).read (app ++ "/embedded.mobileprovision".toList) =
          some asset.m_strProvisionData) ∧
      (dont = true →
        S.fileExists (SignFolder S L (some asset) strFolder arrDyLibFiles bForce bWeakInject
          bEnableCache dont w).2.1 (app ++ "/embedded.mobileprovision".toList) = false) ∧
      (∀ op ∈ (SignFolder S L (some asset) strFolder arrDyLibFiles bForce bWeakInject
          bEnableCache dont w).2.2, ∀ p d, op = .writeProvision p d →
        dont = false ∧ p = app ++ "/embedded.mobileprovision".toList ∧
          d = asset.m_strProvisionData) := by
  obtain ⟨app, root, hF, hpv, _, _, hst, hops⟩ := SignFolder_run S L asset strFolder
    arrDyLibFiles bForce bWeakInject bEnableCache dont w hok
  refine ⟨app, hF, ?_, ?_, ?_⟩
  · intro hd
    subst hd
    exact SignFolder_profile_kept S L asset strFolder arrDyLibFiles bForce bWeakInject
      bEnableCache w laws hmacho hnames hok app hF
  · intro hd
    subst hd
    exact SignFolder_profile_absent S L asset strFolder arrDyLibFiles bForce bWeakInject
      bEnableCache w laws hnames hok app hF
  · intro op hop p d he
    rw [hops] at hop
    simp only [List.mem_append, List.mem_map] at hop
    rcases hop with (hop | hop) | ((⟨a, _, e⟩ | hop))
    · rcases provisionStep_ops S asset app dont w op hop with ⟨_, e⟩ | ⟨hd, e⟩
      · rw [e] at he; cases he
      · rw [e] at he
        injection he with e1 e2
        exact ⟨hd, e1.symm, e2.symm⟩
    · obtain ⟨f, data, ok, _, _, e⟩ := copyDyLibs_ops S app arrDyLibFiles _ op hop
      rw [e] at he; cases he
    · rw [← e] at he; cases he
    · cases bEnableCache
      · simp at hop
      · simp only [if_true, List.mem_singleton] at hop
        rw [hop] at he; cases he

/-- C18, amended, at the example app with the dylib `/lib/tweak.dylib`, once
with the flag off and once with the flag on. -/
theorem SignFolder_provision_witness :
    (∃ app, FindAppFolder "/Demo.app".toList
        ((exampleWorld.fs exampleFiles).dir "/Demo.app".toList) [] = (true, app) ∧
      (false = false →
        (exampleWorld.fs (SignFolder exampleWorld exampleFolderLib (some exampleAsset)
          "/Demo.app".toList ["/lib/tweak.dylib".toList] false false true false
          exampleFiles).2.1).read (app ++ "/embedded.mobileprovision".toList) =
          some exampleAsset.m_strProvisionData) ∧
      (false = true →
        exampleWorld.fileExists (SignFolder exampleWorld exampleFolderLib (some exampleAsset)
          "/Demo.app".toList ["/lib/tweak.dylib".toList] false false true false
          exampleFiles).2.1 (app ++ "/embedded.mobileprovision".toList) = false) ∧
      (∀ op ∈ (SignFolder exampleWorld exampleFolderLib (some exampleAsset)
          "/Demo.app".toList ["/lib/tweak.dylib".toList] false false true false
          exampleFiles).2.2, ∀ p d, op = .writeProvision p d →
        false = false ∧ p = app ++ "/embedded.mobileprovision".toList ∧
          d = exampleAsset.m_strProvisionData)) ∧
    (∃ app, FindAppFolder "/Demo.app".toList
        ((exampleWorld.fs exampleFiles).dir "/Demo.app".toList) [] = (true, app) ∧
      (true = false →
        (exampleWorld.fs (SignFolder exampleWorld exampleFolderLib (some exampleAsset)
          "/Demo.app".toList ["/lib/tweak.dylib".toList] false false true true
          exampleFiles).2.1).read (app ++ "/embedded.mobileprovision".toList) =
          some exampleAsset.m_strProvisionData) ∧
      (true = true →
        exampleWorld.fileExists (SignFolder exampleWorld exampleFolderLib (some exampleAsset)
          "/Demo.app".toList ["/lib/tweak.dylib".toList] false false true true
          exampleFiles).2.1 (app ++ "/embedded.mobileprovision".toList) = false) ∧
      (∀ op ∈ (SignFolder exampleWorld exampleFolderLib (some exampleAsset)
          "/Demo.app".toList ["/lib/tweak.dylib".toList] false false true true
          exampleFiles).2.2, ∀ p d, op = .writeProvision p d →
        true = false ∧ p = app ++ "/embedded.mobileprovision".toList ∧
          d = exampleAsset.m_strProvisionData)) :=
  ⟨SignFolder_provision exampleWorld exampleFolderLib exampleAsset "/Demo.app".toList
      ["/lib/tweak.dylib".toList] false false true false exampleFiles exampleWorld_laws
      exampleWorld_profile_not_macho (by decide) (by decide),
   SignFolder_provision exampleWorld exampleFolderLib exampleAsset "/Demo.app".toList
      ["/lib/tweak.dylib".toList] false false true true exampleFiles exampleWorld_laws
      exampleWorld_profile_not_macho (by decide) (by decide)⟩

theorem reg_of_mem_typedFilesIn (p : Str) (hp : '/' ∉ p) : ∀ (es : List DirEnt),
    p ∈ typedFilesIn es → DirEnt.reg p ∈ es
  | [], h => by simp [typedFilesIn] at h
  | e :: es, h => by
    rw [typedFilesIn, List.mem_append] at h
    rcases h with h | h
    · cases e with
      | reg n =>
        rw [typedFilesOf] at h
        split at h
        · rw [List.mem_singleton.mp h]
          exact List.mem_cons_self _ _
        · exact absurd h (List.not_mem_nil _)
      | dir n sub =>
        rw [typedFilesOf] at h
        split at h
        · obtain ⟨q, _, rfl⟩ := List.mem_map.mp h
          exact absurd (slash_mem_exec_path n q) hp
        · exact absurd h (List.not_mem_nil _)
      | other n => simp [typedFilesOf] at h
      | unknown n d sub => simp [typedFilesOf] at h
    · exact List.mem_cons_of_mem _ (reg_of_mem_typedFilesIn p hp es h)

theorem GenerateCodeResources_unlisted (L : Lib) (fs : FileSys) (strFolder p : Str)
    (h : p ∉ typedFilesIn (fs.dir strFolder)) :
    ((GenerateCodeResources L fs strFolder).get "files".toList).find? p = none ∧
    ((GenerateCodeResources L fs strFolder).get "files2".toList).find? p = none := by
  have hc : p ∉ codeResFiles L fs strFolder := fun hm => h ((mem_codeResFiles L fs strFolder p).mp hm).1
  rw [GenerateCodeResources_files_find, GenerateCodeResources_files2_find,
    if_neg (fun hh => hc hh.1), if_neg (fun hh => hc hh.1)]
  exact ⟨rfl, rfl⟩

theorem GenerateCodeResources_absent_file {W : Type} (S : FolderSys W) (laws : FileLaws S)
    (L : Lib) (app : Str) (w : W)
    (h : S.fileExists w (app ++ "/embedded.mobileprovision".toList) = false) :
    ((GenerateCodeResources L (S.fs w) app).get "files".toList).find?
      "embedded.mobileprovision".toList = none ∧
    ((GenerateCodeResources L (S.fs w) app).get "files2".toList).find?
      "embedded.mobileprovision".toList = none := by
  apply GenerateCodeResources_unlisted
  intro hm
  have hr := reg_of_mem_typedFilesIn _ (by decide) _ hm
  have hx := laws.listed_exists w app _ hr
  have e : app ++ "/".toList ++ "embedded.mobileprovision".toList =
      app ++ "/embedded.mobileprovision".toList := by simp
  rw [e, h] at hx
  exact Bool.false_ne_true hx

theorem SignNode_forced_manifest {W : Type} (S : Sys W) (L : Lib) (B : Bundle)
    (hB : B.m_bForceSign = true) (Inv : W → Prop)
    (K : Keeps S (B.m_strAppFolder ++ "/embedded.mobileprovision".toList) Inv)
    (n : Node) (a : List Nat) (w : W) (h : Inv w) (p : Str) (jv : JValue)
    (hx : (⟨a, .writeCodeRes p jv⟩ : Action) ∈ (SignNode S L B a n w).2.2) :
    ∃ w2, Inv w2 ∧ jv = GenerateCodeResources L (S.fs w2) (baseFolderOf B n) := by
  cases n with
  | mk path bid exec sha1 sha2 files changed folders =>
    have h1 := SignNodes_keeps S L B Inv K folders a 0 w h
    have h2 := signFiles_keeps S B a _ Inv K files _ h1
    have h3 := K.createFolder _
      (baseFolderOf B (.mk path bid exec sha1 sha2 files changed folders) ++
        "/_CodeSignature".toList) (codeSignature_ne_provision _ _) h2
    have hch : (⟨a, .writeCodeRes p jv⟩ : Action) ∉ (SignNodes S L B a 0 folders w).2.2 := by
      intro hin
      obtain ⟨j, t, _, e⟩ := SignNodes_nodes S L B folders a 0 w _ hin
      exact node_ne_child a j t e
    have hfl : ∀ w2, (⟨a, .writeCodeRes p jv⟩ : Action) ∉ (signFiles S B a files w2).2.2 := by
      intro w2 hin
      obtain ⟨f, e⟩ := signFiles_nodes S B a files w2 _ hin
      cases e
    have hself : (⟨a, .writeCodeRes p jv⟩ : Action) ∈
        (SignNodeSelf S L B a (.mk path bid exec sha1 sha2 files changed folders)
          (signFiles S B a files (SignNodes S L B a 0 folders w).2.1).2.1).2.2 := by
      rw [SignNode_eq] at hx
      split at hx
      · split at hx
        · simp only [List.mem_append] at hx
          rcases hx with (hx | hx) | hx
          · exact absurd hx hch
          · exact absurd hx (hfl _)
          · exact hx
        · simp only [List.mem_append] at hx
          rcases hx with hx | hx
          · exact absurd hx hch
          · exact absurd hx (hfl _)
      · exact absurd hx hch
    refine ⟨_, h3, ?_⟩
    have hgen : nodeCodeRes S L B a (.mk path bid exec sha1 sha2 files changed folders)
        (S.createFolder (signFiles S B a files (SignNodes S L B a 0 folders w).2.1).2.1
          (baseFolderOf B (.mk path bid exec sha1 sha2 files changed folders) ++
            "/_CodeSignature".toList)) =
        (some (GenerateCodeResources L
          (S.fs (S.createFolder (signFiles S B a files (SignNodes S L B a 0 folders w).2.1).2.1
            (baseFolderOf B (.mk path bid exec sha1 sha2 files changed folders) ++
              "/_CodeSignature".toList)))
          (baseFolderOf B (.mk path bid exec sha1 sha2 files changed folders))),
         [⟨a, .genCodeRes (baseFolderOf B (.mk path bid exec sha1 sha2 files changed folders))⟩]) := by
      rcases nodeCodeRes_cases S L B a (.mk path bid exec sha1 sha2 files changed folders)
        (S.createFolder (signFiles S B a files (SignNodes S L B a 0 folders w).2.1).2.1
          (baseFolderOf B (.mk path bid exec sha1 sha2 files changed folders) ++
            "/_CodeSignature".toList)) with ⟨_, e⟩ | ⟨hf, _⟩ | ⟨hf, _⟩
      · exact e
      · rw [hB] at hf; exact absurd hf (by decide)
      · rw [hB] at hf; exact absurd hf (by decide)
    rcases SignNodeSelf_cases S L B a (.mk path bid exec sha1 sha2 files changed folders)
        (signFiles S B a files (SignNodes S L B a 0 folders w).2.1).2.1
      with ⟨_, e⟩ | ⟨_, _, e⟩ | ⟨jv0, tr3, hjv, h3i, ⟨_, e⟩ | e⟩
    · rw [e] at hself
      exact absurd hself (List.not_mem_nil _)
    · rw [e, hgen] at hself
      simp at hself
    · rw [hgen] at hjv
      rw [e, hgen] at hself
      simp only [List.mem_append, List.mem_singleton] at hself
      rcases hself with hs | hs
      · cases hs
      · injection hs with _ e2
        injection e2 with _ e3
        rw [e3]
        injection hjv with e4
        exact e4.symm
    · rw [hgen] at hjv
      rw [e, hgen] at hself
      simp only [List.mem_append, List.mem_singleton] at hself
      rcases hself with ((hs | hs) | hs) | hs
      · cases hs
      · injection hs with _ e2
        injection e2 with _ e3
        rw [e3]
        injection hjv with e4
        exact e4.symm
      · obtain ⟨q, e5⟩ := h3i _ hs
        cases e5
      · cases hs

theorem discoverRoot_path (L : Lib) (fs : FileSys) (app : Str) (dont : Bool) (root : Node)
    (h : discoverRoot L fs app dont = some root) : root.path = "/".toList := by
  unfold discoverRoot at h
  split at h
  · exact absurd h (by simp)
  · injection h with h
    rw [← h, GetNodeChangedFiles_path, (GetObjectsToSign_keeps L fs app _ _ _).1]
    rfl

/-- C19, as stated, fails: on the example app with a cache file and an earlier
manifest that lists `embedded.mobileprovision`, `SignFolder` with the flag set
and `bForce` off succeeds and removes the file, yet the manifest it writes for
the root still has the key in `files` and in `files2`. -/
theorem SignFolder_cached_keeps_profile_key :
    (SignFolder exampleWorld exampleFolderLib (some exampleAsset) "/Demo.app".toList
      [] false false true true exampleCachedFiles).1 = true ∧
    exampleWorld.fileExists exampleCachedFiles "/Demo.app/embedded.mobileprovision".toList
      = true ∧
    exampleWorld.fileExists
      (SignFolder exampleWorld exampleFolderLib (some exampleAsset) "/Demo.app".toList
        [] false false true true exampleCachedFiles).2.1
      "/Demo.app/embedded.mobileprovision".toList = false ∧
    (SignFolder exampleWorld exampleFolderLib (some exampleAsset) "/Demo.app".toList
      [] false false true true exampleCachedFiles).2.2.any FolderOp.writesProfileKey = true := by
  decide

/-- C19, amended. In a world that obeys the laws of a file system, let
`SignFolder` succeed with the flag set on a list of dylibs none of which is
called `embedded.mobileprovision`. Then `<app folder>/embedded.mobileprovision`
does not exist afterwards, the manifest of the root is written, and, when the
manifests are built anew because `bForce` is on or there is no cache file, no
manifest written for the root has the key `embedded.mobileprovision` in `files`
or in `files2`. -/
theorem SignFolder_removes_profile {W : Type} (S : FolderSys W) (L : Lib)
    (asset : arksigningAsset) (strFolder : Str) (arrDyLibFiles : List Str)
    (bForce bWeakInject bEnableCache : Bool) (w : W) (laws : FileLaws S)
    (hnames : ∀ f ∈ arrDyLibFiles, basename f ≠ "embedded.mobileprovision".toList)
    (hok : (SignFolder S L (some asset) strFolder arrDyLibFiles bForce bWeakInject bEnableCache
      true w).1 = true) :
    ∃ app, FindAppFolder strFolder ((S.fs w).dir strFolder) [] = (true, app) ∧
      S.fileExists (SignFolder S L (some asset) strFolder arrDyLibFiles bForce bWeakInject
        bEnableCache true w).2.1 (app ++ "/embedded.mobileprovision".toList) = false ∧
      (∃ p jv, FolderOp.sign ⟨[], .writeCodeRes p jv⟩ ∈
        (SignFolder S L (some asset) strFolder arrDyLibFiles bForce bWeakInject
          bEnableCache true w).2.2) ∧
      ((bForce = true ∨ S.fileExists
          (copyDyLibs S app arrDyLibFiles (provisionStep S asset app true w).2.1).1
          (cacheFile L app) = false) →
        ∀ p jv, FolderOp.sign ⟨[], .writeCodeRes p jv⟩ ∈
          (SignFolder S L (some asset) strFolder arrDyLibFiles bForce bWeakInject
            bEnableCache true w).2.2 →
          ((jv.get "files".toList).find? "embedded.mobileprovision".toList = none ∧
           (jv.get "files2".toList).find? "embedded.mobileprovision".toList = none)) := by
  obtain ⟨app, root, hF, hpv, hroot, hsn, hst, hops⟩ := SignFolder_run S L asset strFolder
    arrDyLibFiles bForce bWeakInject bEnableCache true w hok
  refine ⟨app, hF, SignFolder_profile_absent S L asset strFolder arrDyLibFiles bForce
    bWeakInject bEnableCache w laws hnames hok app hF, ?_, ?_⟩
  · obtain ⟨⟨jv, hjv⟩, _⟩ := SignNode_ok S.toSys L _ [] root _ hsn
    have hm := List.mem_map_of_mem FolderOp.sign hjv
    exact ⟨_, jv, by
      rw [hops]
      exact List.mem_append_right _ (List.mem_append_left _ hm)⟩
  · intro hforce p jv hin
    have hf : (bForce || !S.fileExists
        (copyDyLibs S app arrDyLibFiles (provisionStep S asset app true w).2.1).1
        (cacheFile L app)) = true := by
      rcases hforce with h | h
      · rw [h]; rfl
      · rw [h]; cases bForce <;> rfl
    rw [hf] at hroot hsn hops
    rw [if_pos rfl] at hroot
    have hpath := discoverRoot_path L _ app true root hroot
    rw [hops] at hin
    have hin2 : (⟨[], .writeCodeRes p jv⟩ : Action) ∈
        (SignNode S.toSys L
          ⟨app, true, bWeakInject,
            (copyDyLibs S app arrDyLibFiles (provisionStep S asset app true w).2.1).2.1⟩
          [] root
          (copyDyLibs S app arrDyLibFiles (provisionStep S asset app true w).2.1).1).2.2 := by
      simp only [List.mem_append, List.mem_map] at hin
      rcases hin with (hin | hin) | (⟨x, hx, e⟩ | hin)
      · rcases provisionStep_ops S asset app true w _ hin with ⟨_, e⟩ | ⟨_, e⟩ <;> cases e
      · obtain ⟨f, data, ok, _, _, e⟩ := copyDyLibs_ops S app arrDyLibFiles _ _ hin
        cases e
      · injection e with e
        rw [← e]; exact hx
      · cases bEnableCache
        · simp at hin
        · simp at hin
    have h1 := copyDyLibs_keeps S app
      (fun w => S.fileExists w (app ++ "/embedded.mobileprovision".toList) = false)
      (keeps_absent S laws _) arrDyLibFiles _ hnames
      (provisionStep_removed S laws asset app w hpv)
    obtain ⟨w2, hw2, hjv⟩ := SignNode_forced_manifest S.toSys L
      ⟨app, true, bWeakInject,
        (copyDyLibs S app arrDyLibFiles (provisionStep S asset app true w).2.1).2.1⟩ rfl
      (fun w => S.fileExists w (app ++ "/embedded.mobileprovision".toList) = false)
      (keeps_absent S laws _) root [] _ h1 p jv hin2
    have hbase : baseFolderOf
        ⟨app, true, bWeakInject,
          (copyDyLibs S app arrDyLibFiles (provisionStep S asset app true w).2.1).2.1⟩ root
        = app := by
      unfold baseFolderOf
      rw [hpath]
      simp
    rw [hjv, hbase]
    exact GenerateCodeResources_absent_file S laws L app w2 hw2

/-- C19, amended, at the example app, which holds `embedded.mobileprovision`
and has no cache file. -/
theorem SignFolder_removes_profile_witness :
    ∃ app, FindAppFolder "/Demo.app".toList
        ((exampleWorld.fs exampleFiles).dir "/Demo.app".toList) [] = (true, app) ∧
      exampleWorld.fileExists (SignFolder exampleWorld exampleFolderLib (some exampleAsset)
        "/Demo.app".toList ["/lib/tweak.dylib".toList] false false true true
        exampleFiles).2.1 (app ++ "/embedded.mobileprovision".toList) = false ∧
      (∃ p jv, FolderOp.sign ⟨[], .writeCodeRes p jv⟩ ∈
        (SignFolder exampleWorld exampleFolderLib (some exampleAsset)
          "/Demo.app".toList ["/lib/tweak.dylib".toList] false false true true
          exampleFiles).2.2) ∧
      ((false = true ∨ exampleWorld.fileExists
          (copyDyLibs exampleWorld app ["/lib/tweak.dylib".toList]
            (provisionStep exampleWorld exampleAsset app true exampleFiles).2.1).1
          (cacheFile exampleFolderLib app) = false) →
        ∀ p jv, FolderOp.sign ⟨[], .writeCodeRes p jv⟩ ∈
          (SignFolder exampleWorld exampleFolderLib (some exampleAsset)
            "/Demo.app".toList ["/lib/tweak.dylib".toList] false false true true
            exampleFiles).2.2 →
          ((jv.get "files".toList).find? "embedded.mobileprovision".toList = none ∧
           (jv.get "files2".toList).find? "embedded.mobileprovision".toList = none)) :=
  SignFolder_removes_profile exampleWorld exampleFolderLib exampleAsset "/Demo.app".toList
    ["/lib/tweak.dylib".toList] false false true exampleFiles exampleWorld_laws
    (by decide) (by decide)

theorem injectAll_trace {W : Type} (S : Sys W) (B : Bundle) (a : List Nat) (exe : Str) :
    ∀ (l : List Str) (b : Bool) (w : W),
      (injectAll S B a exe l b w).2.2 = l.map (fun p => (⟨a, .injectDyLib p⟩ : Action))
  | [], b, w => rfl
  | p :: more, b, w => by
    rw [injectAll_cons_eq, List.map_cons, injectAll_trace S B a exe more]

theorem nodeCodeRes_no_inject {W : Type} (S : Sys W) (L : Lib) (B : Bundle) (a : List Nat)
    (n : Node) (w : W) (x : Action) (hx : x ∈ (nodeCodeRes S L B a n w).2) :
    x.op.isInject = false := by
  rcases nodeCodeRes_cases S L B a n w with ⟨_, h⟩ | ⟨_, _, h⟩ | ⟨_, _, h⟩
  · rw [h] at hx
    rw [List.mem_singleton.mp hx]; rfl
  · rw [h] at hx
    simp only [List.mem_cons, List.mem_singleton, List.not_mem_nil, or_false] at hx
    rcases hx with rfl | rfl <;> rfl
  · rw [h] at hx
    simp only [List.mem_cons, List.mem_map] at hx
    rcases hx with rfl | ⟨o, ho, rfl⟩
    · rfl
    · obtain ⟨f, rfl⟩ := updateCodeRes_ops L (S.fs w) _ _ _ _ o ho
      rfl

/-- The calls `SignNode` makes on a node's executable after the write of its
manifest: one `InjectDyLib` for each install name, in order, when the node's
path is `/`, and none otherwise. -/
theorem SignNodeSelf_shape {W : Type} (S : Sys W) (L : Lib) (B : Bundle) (a : List Nat)
    (n : Node) (w : W) :
    ((SignNodeSelf S L B a n w).1 = false ∧
      ∀ x ∈ (SignNodeSelf S L B a n w).2.2, x.op.isInject = false) ∨
    (∃ pre data, (∀ x ∈ pre, x.op.isInject = false) ∧
      (SignNodeSelf S L B a n w).2.2 = pre ++
        (if "/".toList = n.path then
          B.arrDyLibPaths.map (fun p => (⟨a, .injectDyLib p⟩ : Action)) else []) ++
        [⟨a, .signExe (baseFolderOf B n ++ "/".toList ++ n.exec) data⟩]) := by
  unfold SignNodeSelf
  by_cases hg : n.bid = [] ∨ n.exec = [] ∨ DecodeStr n.sha1 = [] ∨ DecodeStr n.sha2 = []
  · left
    simp only [hg, if_true, true_and]
    intro x hx
    exact absurd hx (List.not_mem_nil _)
  · by_cases hi : S.machoInit w (baseFolderOf B n ++ "/".toList ++ n.exec) = true
    · simp only [hg, if_false, hi, if_true]
      have hno := nodeCodeRes_no_inject S L B a n
        (S.createFolder w (baseFolderOf B n ++ "/_CodeSignature".toList))
      rcases hc : nodeCodeRes S L B a n
        (S.createFolder w (baseFolderOf B n ++ "/_CodeSignature".toList)) with ⟨r, tr1⟩
      rw [hc] at hno
      cases r with
      | none =>
        left
        exact ⟨rfl, hno⟩
      | some jv =>
        simp only
        rcases hw : S.writeFile (S.createFolder w (baseFolderOf B n ++ "/_CodeSignature".toList))
          (baseFolderOf B n ++ "/_CodeSignature/CodeResources".toList) (L.writePList jv)
          with ⟨okw, w2⟩
        cases okw
        · left
          refine ⟨rfl, ?_⟩
          intro x hx
          rcases List.mem_append.mp hx with hx | hx
          · exact hno x hx
          · rw [List.mem_singleton.mp hx]; rfl
        · right
          simp only
          refine ⟨tr1 ++ [⟨a, .writeCodeRes
            (baseFolderOf B n ++ "/_CodeSignature/CodeResources".toList) jv⟩],
            L.writePList jv, ?_, ?_⟩
          · intro x hx
            rcases List.mem_append.mp hx with hx | hx
            · exact hno x hx
            · rw [List.mem_singleton.mp hx]; rfl
          · by_cases hr : "/".toList = n.path ∧ B.arrDyLibPaths ≠ []
            · rw [if_pos hr, if_pos hr.1]
              simp only [injectAll_trace]
            · rw [if_neg hr]
              by_cases hp : "/".toList = n.path
              · have he : B.arrDyLibPaths = [] := by
                  by_contra hne
                  exact hr ⟨hp, hne⟩
                rw [if_pos hp, he]
                simp
              · rw [if_neg hp]
    · left
      simp only [hg, if_false, hi, Bool.false_eq_true, if_false, true_and]
      intro x hx
      exact absurd hx (List.not_mem_nil _)

theorem mem_map_inject (a : List Nat) (l : List Str) (x : Action)
    (h : x ∈ l.map (fun p => (⟨a, .injectDyLib p⟩ : Action))) :
    ∃ p, p ∈ l ∧ x = ⟨a, .injectDyLib p⟩ := by
  obtain ⟨p, hp, e⟩ := List.mem_map.mp h
  exact ⟨p, hp, e.symm⟩

theorem SignNodeSelf_inject_path {W : Type} (S : Sys W) (L : Lib) (B : Bundle) (a : List Nat)
    (n : Node) (w : W) (x : Action) (hx : x ∈ (SignNodeSelf S L B a n w).2.2)
    (hi : x.op.isInject = true) : n.path = "/".toList ∧ ∃ p, p ∈ B.arrDyLibPaths ∧
      x = ⟨a, .injectDyLib p⟩ := by
  rcases SignNodeSelf_shape S L B a n w with ⟨_, h⟩ | ⟨pre, data, hpre, e⟩
  · rw [h x hx] at hi
    exact absurd hi (by decide)
  · rw [e] at hx
    simp only [List.mem_append, List.mem_singleton] at hx
    rcases hx with (hx | hx) | hx
    · rw [hpre x hx] at hi
      exact absurd hi (by decide)
    · by_cases hp : "/".toList = n.path
      · rw [if_pos hp] at hx
        exact ⟨hp.symm, mem_map_inject a _ x hx⟩
      · rw [if_neg hp] at hx
        exact absurd hx (List.not_mem_nil _)
    · rw [hx] at hi
      exact absurd hi (by simp [Op.isInject])

theorem SignNode_inject_path {W : Type} (S : Sys W) (L : Lib) (B : Bundle) (n : Node)
    (a : List Nat) (w : W) (x : Action) (hx : x ∈ (SignNode S L B a n w).2.2)
    (hi : x.op.isInject = true) :
    ∃ rel m p, n.at rel = some m ∧ x.node = a ++ rel ∧ m.path = "/".toList ∧
      p ∈ B.arrDyLibPaths ∧ x.op = .injectDyLib p := by
  have hop : ∀ f, x.op ≠ .signFile f := by
    intro f e
    rw [e] at hi
    exact absurd hi (by simp [Op.isInject])
  obtain ⟨rel, m, w2, hm, hn, hin, _⟩ := SignNode_event_origin S L B n a w x hx hop
  obtain ⟨hp, p, hpm, e⟩ := SignNodeSelf_inject_path S L B (a ++ rel) m w2 x hin hi
  exact ⟨rel, m, p, hm, hn, hp, hpm, by rw [e]⟩

theorem SignNode_root_trace {W : Type} (S : Sys W) (L : Lib) (B : Bundle) (n : Node)
    (a : List Nat) (w : W) (hok : (SignNode S L B a n w).1 = true) :
    ∃ pre data, (∀ x ∈ pre, x.node = a → x.op.isInject = false) ∧
      (SignNode S L B a n w).2.2 = pre ++
        (if "/".toList = n.path then
          B.arrDyLibPaths.map (fun p => (⟨a, .injectDyLib p⟩ : Action)) else []) ++
        [⟨a, .signExe (baseFolderOf B n ++ "/".toList ++ n.exec) data⟩] := by
  cases n with
  | mk path bid exec sha1 sha2 files changed folders =>
    rw [SignNode_eq] at hok ⊢
    by_cases h1 : (SignNodes S L B a 0 folders w).1 = true
    · rw [if_pos h1] at hok ⊢
      by_cases h2 : (signFiles S B a files (SignNodes S L B a 0 folders w).2.1).1 = true
      · rw [if_pos h2] at hok ⊢
        simp only at hok ⊢
        rcases SignNodeSelf_shape S L B a (.mk path bid exec sha1 sha2 files changed folders)
            (signFiles S B a files (SignNodes S L B a 0 folders w).2.1).2.1
          with ⟨hf, _⟩ | ⟨pre, data, hpre, e⟩
        · rw [hf] at hok
          exact absurd hok (by decide)
        · refine ⟨(SignNodes S L B a 0 folders w).2.2 ++
            (signFiles S B a files (SignNodes S L B a 0 folders w).2.1).2.2 ++ pre, data, ?_, ?_⟩
          · intro x hx hn
            simp only [List.mem_append] at hx
            rcases hx with (hx | hx) | hx
            · obtain ⟨j, t, _, e2⟩ := SignNodes_nodes S L B folders a 0 w x hx
              rw [hn] at e2
              exact absurd e2 (node_ne_child a j t)
            · obtain ⟨f, rfl⟩ := signFiles_nodes S B a files _ x hx
              rfl
            · exact hpre x hx
          · rw [e]
            simp only [List.append_assoc]
      · rw [if_neg h2] at hok
        exact absurd hok (by simp)
    · rw [if_neg h1] at hok
      exact absurd hok (by simp)

theorem Node.at_mem_subPaths : ∀ (a : List Nat) (n m : Node), a ≠ [] → n.at a = some m →
    m.path ∈ n.subPaths := by
  intro a
  induction a with
  | nil => intro n m h; exact absurd rfl h
  | cons i a ih =>
    intro n m _ hm
    obtain ⟨c, hc, hcm⟩ := (Node.at_cons n i a m).mp hm
    rw [Node.subPaths_eq]
    have hmem : c ∈ n.folders := List.get?_mem hc
    have key : ∀ (l : List Node), c ∈ l → m.path ∈ Node.subPathsList l := by
      intro l
      induction l with
      | nil => intro h; exact absurd h (List.not_mem_nil _)
      | cons d l ihl =>
        intro h
        rw [Node.subPathsList]
        rcases List.mem_cons.mp h with h | h
        · subst h
          apply List.mem_append_left
          cases a with
          | nil =>
            have e : c.at [] = some c := rfl
            rw [e] at hcm
            injection hcm with hcm
            rw [hcm]
            exact List.mem_cons_self _ _
          | cons j b =>
            exact List.mem_cons_of_mem _ (ih c m (by simp) hcm)
        · exact List.mem_append_right _ (ihl h)
    exact key _ hmem

theorem isBundleName_append (rel n : Str) (h : isBundleName n = true) :
    isBundleName (rel ++ n) = true := by
  unfold isBundleName at h ⊢
  simp only [Bool.or_eq_true, decide_eq_true_eq] at h ⊢
  have ext : ∀ s : Str, s <:+ n → s <:+ rel ++ n :=
    fun s hs => hs.trans (List.suffix_append rel n)
  rcases h with ((h | h) | h) | h
  · exact Or.inl (Or.inl (Or.inl (ext _ h)))
  · exact Or.inl (Or.inl (Or.inr (ext _ h)))
  · exact Or.inl (Or.inr (ext _ h))
  · exact Or.inr (ext _ h)

mutual
theorem allBundlesOf_named (L : Lib) (fs : FileSys) (app : Str) :
    ∀ (ent : DirEnt) (rel p : Str), p ∈ allBundlesOf L fs app rel ent → isBundleName p = true
  | .reg n, rel, p, h => by simp [allBundlesOf] at h
  | .other n, rel, p, h => by simp [allBundlesOf] at h
  | .unknown n d es, rel, p, h => by simp [allBundlesOf] at h
  | .dir n es, rel, p, h => by
    rw [allBundlesOf] at h
    split at h
    · exact absurd h (List.not_mem_nil _)
    · split at h
      · rename_i hB
        split at h
        · rcases List.mem_cons.mp h with h | h
          · rw [h]; exact isBundleName_append rel n hB
          · exact allBundlesIn_named L fs app es _ p h
        · exact absurd h (List.not_mem_nil _)
      · exact allBundlesIn_named L fs app es _ p h
theorem allBundlesIn_named (L : Lib) (fs : FileSys) (app : Str) :
    ∀ (es : List DirEnt) (rel p : Str), p ∈ allBundlesIn L fs app rel es → isBundleName p = true
  | [], rel, p, h => by simp [allBundlesIn] at h
  | ent :: more, rel, p, h => by
    rw [allBundlesIn, List.mem_append] at h
    rcases h with h | h
    · exact allBundlesOf_named L fs app ent rel p h
    · exact allBundlesIn_named L fs app more rel p h
end

theorem discoverRoot_subpaths (L : Lib) (fs : FileSys) (app : Str) (dont : Bool) (root : Node)
    (h : discoverRoot L fs app dont = some root) (a : List Nat) (m : Node) (ha : a ≠ [])
    (hm : root.at a = some m) : m.path ≠ "/".toList := by
  unfold discoverRoot at h
  split at h
  · exact absurd h (by simp)
  · rename_i jv _
    injection h with h
    rw [← h, Node.at_GetNodeChangedFiles] at hm
    cases hT : (GetObjectsToSign L fs app app (fs.dir app) (nodeOfInfo "/".toList jv)).at a with
    | none => rw [hT] at hm; simp at hm
    | some m0 =>
      rw [hT] at hm
      simp only [Option.map_some', Option.some.injEq] at hm
      rw [← hm, GetNodeChangedFiles_path]
      have hmem := Node.at_mem_subPaths a _ m0 ha hT
      rw [GetObjectsToSign_subPaths L fs app app [] (fs.dir app) _ (by simp)] at hmem
      have hnil : (nodeOfInfo "/".toList jv).subPaths = [] := rfl
      rw [hnil, List.nil_append] at hmem
      have hb := allBundlesIn_named L fs app _ _ _ hmem
      intro e
      rw [e] at hb
      exact absurd hb (by decide)

theorem copyDyLibs_paths {W : Type} (S : FolderSys W) (app : Str) :
    ∀ (files : List Str) (w : W),
      (copyDyLibs S app files w).2.1 = installNames (copyDyLibs S app files w).2.2
  | [], w => rfl
  | f :: more, w => by
    rw [copyDyLibs_cons]
    split
    · simp only
      rw [copyDyLibs_paths S app more]
      unfold installNames
      rw [List.filterMap_cons]
      cases (S.writeFile w (app ++ "/".toList ++ basename f) (((S.fs w).read f).getD [])).1
      · simp [FolderOp.installName]
      · simp [FolderOp.installName]
    · exact copyDyLibs_paths S app more w

theorem copyDyLibs_sublist {W : Type} (S : FolderSys W) (app : Str) :
    ∀ (files : List Str) (w : W),
      List.Sublist (copyDyLibs S app files w).2.1
        (files.map (fun f => "@executable_path/".toList ++ basename f))
  | [], w => List.Sublist.slnil
  | f :: more, w => by
    rw [copyDyLibs_cons, List.map_cons]
    split
    · simp only
      cases (S.writeFile w (app ++ "/".toList ++ basename f) (((S.fs w).read f).getD [])).1
      · simp only [Bool.false_eq_true, if_false, List.nil_append]
        exact List.Sublist.cons _ (copyDyLibs_sublist S app more _)
      · simp only [if_true, List.singleton_append]
        exact List.Sublist.cons₂ _ (copyDyLibs_sublist S app more _)
    · exact List.Sublist.cons _ (copyDyLibs_sublist S app more w)

theorem copyDyLibs_all {W : Type} (S : FolderSys W) (app : Str)
    (hwrite : ∀ w p d, (S.writeFile w p d).1 = true) :
    ∀ (files : List Str) (w : W),
      (∀ w2 f, f ∈ files → ((S.fs w2).read f).getD [] ≠ []) →
      (copyDyLibs S app files w).2.1 =
        files.map (fun f => "@executable_path/".toList ++ basename f)
  | [], w, _ => rfl
  | f :: more, w, hread => by
    rw [copyDyLibs_cons, if_pos (hread w f (List.mem_cons_self _ _)), List.map_cons]
    simp only
    rw [hwrite, if_pos rfl, copyDyLibs_all S app hwrite more _
      (fun w2 g hg => hread w2 g (List.mem_cons_of_mem _ hg))]
    rfl

theorem installNames_append (a b : List FolderOp) :
    installNames (a ++ b) = installNames a ++ installNames b := by
  unfold installNames
  exact List.filterMap_append _ _ _

theorem signActions_append (a b : List FolderOp) :
    signActions (a ++ b) = signActions a ++ signActions b := by
  unfold signActions
  exact List.filterMap_append _ _ _

theorem signActions_sign (tr : List Action) : signActions (tr.map FolderOp.sign) = tr := by
  unfold signActions
  induction tr with
  | nil => rfl
  | cons x tr ih => rw [List.map_cons, List.filterMap_cons]; simp [FolderOp.action, ih]

theorem installNames_sign (tr : List Action) : installNames (tr.map FolderOp.sign) = [] := by
  unfold installNames
  induction tr with
  | nil => rfl
  | cons x tr ih => rw [List.map_cons, List.filterMap_cons]; simp [FolderOp.installName, ih]

theorem provisionStep_filter {W : Type} (S : FolderSys W) (asset : arksigningAsset) (app : Str)
    (dont : Bool) (w : W) :
    installNames (provisionStep S asset app dont w).2.2 = [] ∧
    signActions (provisionStep S asset app dont w).2.2 = [] := by
  have h : ∀ l : List FolderOp, (∀ op ∈ l, op.installName = none ∧ op.action = none) →
      installNames l = [] ∧ signActions l = [] := by
    intro l hl
    unfold installNames signActions
    constructor
    · exact List.filterMap_eq_nil_iff.mpr (fun op hop => (hl op hop).1)
    · exact List.filterMap_eq_nil_iff.mpr (fun op hop => (hl op hop).2)
  apply h
  intro op hop
  rcases provisionStep_ops S asset app dont w op hop with ⟨_, e⟩ | ⟨_, e⟩ <;> rw [e] <;>
    exact ⟨rfl, rfl⟩

theorem copyDyLibs_no_action {W : Type} (S : FolderSys W) (app : Str) (files : List Str)
    (w : W) : signActions (copyDyLibs S app files w).2.2 = [] := by
  unfold signActions
  apply List.filterMap_eq_nil_iff.mpr
  intro op hop
  obtain ⟨f, data, ok, _, _, e⟩ := copyDyLibs_ops S app files w op hop
  rw [e]; rfl

theorem SignFolder_filters {W : Type} (S : FolderSys W) (app : Str) (asset : arksigningAsset)
    (files : List Str) (dont : Bool) (w : W) (tr : List Action) (post : List FolderOp)
    (hpost : ∀ op ∈ post, ∃ p n, op = .writeCache p n) :
    installNames ((provisionStep S asset app dont w).2.2 ++
      (copyDyLibs S app files (provisionStep S asset app dont w).2.1).2.2 ++
      (tr.map FolderOp.sign ++ post)) =
      (copyDyLibs S app files (provisionStep S asset app dont w).2.1).2.1 ∧
    signActions ((provisionStep S asset app dont w).2.2 ++
      (copyDyLibs S app files (provisionStep S asset app dont w).2.1).2.2 ++
      (tr.map FolderOp.sign ++ post)) = tr := by
  have hp1 : installNames post = [] := by
    unfold installNames
    apply List.filterMap_eq_nil_iff.mpr
    intro op hop
    obtain ⟨p, n, e⟩ := hpost op hop
    rw [e]; rfl
  have hp2 : signActions post = [] := by
    unfold signActions
    apply List.filterMap_eq_nil_iff.mpr
    intro op hop
    obtain ⟨p, n, e⟩ := hpost op hop
    rw [e]; rfl
  rw [installNames_append, installNames_append, installNames_append, signActions_append,
    signActions_append, signActions_append, (provisionStep_filter S asset app dont w).1,
    (provisionStep_filter S asset app dont w).2, copyDyLibs_no_action, signActions_sign,
    installNames_sign, hp1, hp2, ← copyDyLibs_paths]
  simp

/-- C17, as stated, fails: the dylib `/lib/missing.dylib` cannot be read, so
`SignFolder` passes it over; the call succeeds on the example app with one
dylib supplied, no install name is recorded and the root executable gets no
`InjectDyLib` call. -/
theorem SignFolder_skips_unreadable_dylib :
    ["/lib/missing.dylib".toList].length = 1 ∧
    (SignFolder exampleWorld exampleFolderLib (some exampleAsset) "/Demo.app".toList
      ["/lib/missing.dylib".toList] false false false false exampleFiles).1 = true ∧
    installNames (SignFolder exampleWorld exampleFolderLib (some exampleAsset)
      "/Demo.app".toList ["/lib/missing.dylib".toList] false false false false
      exampleFiles).2.2 = [] ∧
    ((signActions (SignFolder exampleWorld exampleFolderLib (some exampleAsset)
      "/Demo.app".toList ["/lib/missing.dylib".toList] false false false false
      exampleFiles).2.2).filter (fun x => x.op.isInject)).length = 0 := by
  decide

theorem provisionStep_read {W : Type} (S : FolderSys W) (asset : arksigningAsset) (app : Str)
    (dont : Bool) (w : W)
    (hwrite : ∀ x p q d, p ≠ q → (S.fs (S.writeFile x q d).2).read p = (S.fs x).read p)
    (hremove : ∀ x p q, p ≠ q → (S.fs (S.removeFile x q).2).read p = (S.fs x).read p)
    (f : Str) (hf : f ≠ app ++ "/embedded.mobileprovision".toList) :
    (S.fs (provisionStep S asset app dont w).2.1).read f = (S.fs w).read f := by
  unfold provisionStep
  cases dont with
  | false => exact hwrite w f _ _ hf
  | true =>
    simp only [if_true]
    unfold RemoveEmbeddedMobileProvision
    split
    · have h := hremove w f _ hf
      rcases hr : S.removeFile w (app ++ "/embedded.mobileprovision".toList) with ⟨ok, w1⟩
      rw [hr] at h
      cases ok <;> exact h
    · rfl

theorem copiesOf_append (a b : List FolderOp) : copiesOf (a ++ b) = copiesOf a ++ copiesOf b := by
  unfold copiesOf
  exact List.filterMap_append _ _ _

theorem copiesOf_nil_of (l : List FolderOp) (h : ∀ op ∈ l, op.copied = none) :
    copiesOf l = [] := by
  unfold copiesOf
  exact List.filterMap_eq_nil_iff.mpr h

theorem okCopiesOf_append (a b : List FolderOp) :
    okCopiesOf (a ++ b) = okCopiesOf a ++ okCopiesOf b := by
  unfold okCopiesOf
  exact List.filterMap_append _ _ _

theorem okCopiesOf_nil_of (l : List FolderOp) (h : ∀ op ∈ l, op.copiedOk = none) :
    okCopiesOf l = [] := by
  unfold okCopiesOf
  exact List.filterMap_eq_nil_iff.mpr h

/-- The install names recorded in a run are those of the dylibs whose copy
succeeded. -/
theorem installNames_okCopies : ∀ (ops : List FolderOp),
    installNames ops =
      (okCopiesOf ops).map (fun f => "@executable_path/".toList ++ basename f)
  | [] => rfl
  | op :: ops => by
    have ih := installNames_okCopies ops
    unfold installNames okCopiesOf at ih ⊢
    rw [List.filterMap_cons, List.filterMap_cons]
    cases op with
    | copyDyLib f p d ok =>
      cases ok
      · simp only [FolderOp.installName, FolderOp.copiedOk]
        exact ih
      · simp only [FolderOp.installName, FolderOp.copiedOk, List.map_cons]
        rw [ih]
    | removeProvision p => simp only [FolderOp.installName, FolderOp.copiedOk]; exact ih
    | writeProvision p d => simp only [FolderOp.installName, FolderOp.copiedOk]; exact ih
    | sign a => simp only [FolderOp.installName, FolderOp.copiedOk]; exact ih
    | writeCache p n => simp only [FolderOp.installName, FolderOp.copiedOk]; exact ih

/-- The loop over `arrDyLibFiles`, when no supplied dylib is itself the target
of a copy and the supplied dylibs read in state `w` as they do in state `w0`:
one copy is made, in order, of each dylib whose data in `w0` is not empty, to
`<app folder>/<basename>` and with that data; the dylibs whose copy succeeds
are among the dylibs copied, in order, and are all of them when no copy
fails. -/
theorem copyDyLibs_exact {W : Type} (S : FolderSys W) (app : Str)
    (hwrite : ∀ x p q d, p ≠ q → (S.fs (S.writeFile x q d).2).read p = (S.fs x).read p)
    (w0 : W) :
    ∀ (files : List Str) (w : W),
      (∀ f ∈ files, (S.fs w).read f = (S.fs w0).read f) →
      (∀ f ∈ files, ∀ g ∈ files, f ≠ app ++ "/".toList ++ basename g) →
      copiesOf (copyDyLibs S app files w).2.2 =
        (files.filter (fun f => decide (((S.fs w0).read f).getD [] ≠ []))).map
          (fun f => (f, app ++ "/".toList ++ basename f, ((S.fs w0).read f).getD [])) ∧
      List.Sublist (okCopiesOf (copyDyLibs S app files w).2.2)
        (files.filter (fun f => decide (((S.fs w0).read f).getD [] ≠ []))) ∧
      ((copyDyLibs S app files w).2.2.all FolderOp.copyOk = true →
        okCopiesOf (copyDyLibs S app files w).2.2 =
          files.filter (fun f => decide (((S.fs w0).read f).getD [] ≠ [])))
  | [], w, _, _ => ⟨rfl, List.Sublist.slnil, fun _ => rfl⟩
  | f :: more, w, hread, hout => by
    have hr : (S.fs w).read f = (S.fs w0).read f := hread f (List.mem_cons_self _ _)
    have hout2 : ∀ g ∈ more, ∀ k ∈ more, g ≠ app ++ "/".toList ++ basename k :=
      fun g hg k hk => hout g (List.mem_cons_of_mem _ hg) k (List.mem_cons_of_mem _ hk)
    rw [copyDyLibs_cons, List.filter_cons]
    by_cases hd : ((S.fs w).read f).getD [] ≠ []
    · have hd0 : decide (((S.fs w0).read f).getD [] ≠ []) = true := by
        rw [← hr]
        exact decide_eq_true hd
      rw [if_pos hd, if_pos hd0]
      have hread2 : ∀ g ∈ more,
          (S.fs (S.writeFile w (app ++ "/".toList ++ basename f)
            (((S.fs w).read f).getD [])).2).read g = (S.fs w0).read g := by
        intro g hg
        rw [hwrite w g _ _ (hout g (List.mem_cons_of_mem _ hg) f (List.mem_cons_self _ _))]
        exact hread g (List.mem_cons_of_mem _ hg)
      obtain ⟨ih1, ih2, ih3⟩ := copyDyLibs_exact S app hwrite w0 more _ hread2 hout2
      simp only [List.map_cons]
      refine ⟨?_, ?_, ?_⟩
      · unfold copiesOf at ih1 ⊢
        rw [List.filterMap_cons]
        simp only [FolderOp.copied]
        rw [ih1, hr]
      · unfold okCopiesOf at ih2 ⊢
        rw [List.filterMap_cons]
        cases (S.writeFile w (app ++ "/".toList ++ basename f)
            (((S.fs w).read f).getD [])).1
        · simp only [FolderOp.copiedOk]
          exact List.Sublist.cons _ ih2
        · simp only [FolderOp.copiedOk]
          exact List.Sublist.cons₂ _ ih2
      · intro hall
        rw [List.all_cons, Bool.and_eq_true] at hall
        have hokf : (S.writeFile w (app ++ "/".toList ++ basename f)
            (((S.fs w).read f).getD [])).1 = true := hall.1
        have ih3b := ih3 hall.2
        unfold okCopiesOf at ih3b ⊢
        rw [List.filterMap_cons, hokf]
        simp only [FolderOp.copiedOk]
        rw [ih3b]
    · have hd0 : ¬ decide (((S.fs w0).read f).getD [] ≠ []) = true := by
        rw [← hr]
        simpa using hd
      rw [if_neg hd, if_neg hd0]
      exact copyDyLibs_exact S app hwrite w0 more w
        (fun g hg => hread g (List.mem_cons_of_mem _ hg)) hout2

/-- C17, amended. Let `SignFolder` succeed, in a world where writing or
removing one file leaves the contents of the others as they were, on dylibs
none of which is itself the profile of the app folder or the target of a copy.
Then it makes one copy, in the order supplied, of each supplied dylib whose
data reads as not empty, to `<app folder>/<basename>` and with the data of the
dylib, and none of a dylib that cannot be read or is empty. The install names
it records are those of the dylibs whose copy succeeded, which are among the
dylibs copied, in order, and are all of them when no copy fails. The calls of
`SignNode` end with one `InjectDyLib` on the root executable for each recorded
install name, in order, followed by the `Sign` call on the root executable,
provided the root's path is `/`, and no other call on the root is an
`InjectDyLib`. An `InjectDyLib` is only ever made on the executable of a node
whose path is `/`; when the tree is built from the folder, that is the root
alone. -/
theorem SignFolder_injects {W : Type} (S : FolderSys W) (L : Lib) (asset : arksigningAsset)
    (strFolder : Str) (arrDyLibFiles : List Str)
    (bForce bWeakInject bEnableCache dont : Bool) (w : W)
    (hok : (SignFolder S L (some asset) strFolder arrDyLibFiles bForce bWeakInject bEnableCache
      dont w).1 = true)
    (hwrite : ∀ x p q d, p ≠ q → (S.fs (S.writeFile x q d).2).read p = (S.fs x).read p)
    (hremove : ∀ x p q, p ≠ q → (S.fs (S.removeFile x q).2).read p = (S.fs x).read p)
    (houtside : ∀ f ∈ arrDyLibFiles,
      f ≠ (FindAppFolder strFolder ((S.fs w).dir strFolder) []).2 ++
        "/embedded.mobileprovision".toList ∧
      ∀ g ∈ arrDyLibFiles,
        f ≠ (FindAppFolder strFolder ((S.fs w).dir strFolder) []).2 ++ "/".toList ++
          basename g) :
    ∃ (app : Str) (root : Node) (pre : List Action) (data : Str),
      FindAppFolder strFolder ((S.fs w).dir strFolder) [] = (true, app) ∧
      copiesOf (SignFolder S L (some asset) strFolder arrDyLibFiles bForce bWeakInject
          bEnableCache dont w).2.2 =
        (arrDyLibFiles.filter (fun f => decide (((S.fs w).read f).getD [] ≠ []))).map
          (fun f => (f, app ++ "/".toList ++ basename f, ((S.fs w).read f).getD [])) ∧
      installNames (SignFolder S L (some asset) strFolder arrDyLibFiles bForce bWeakInject
          bEnableCache dont w).2.2 =
        (okCopiesOf (SignFolder S L (some asset) strFolder arrDyLibFiles bForce bWeakInject
          bEnableCache dont w).2.2).map (fun f => "@executable_path/".toList ++ basename f) ∧
      List.Sublist
        (okCopiesOf (SignFolder S L (some asset) strFolder arrDyLibFiles bForce bWeakInject
          bEnableCache dont w).2.2)
        (arrDyLibFiles.filter (fun f => decide (((S.fs w).read f).getD [] ≠ []))) ∧
      ((SignFolder S L (some asset) strFolder arrDyLibFiles bForce bWeakInject
          bEnableCache dont w).2.2.all FolderOp.copyOk = true →
        installNames (SignFolder S L (some asset) strFolder arrDyLibFiles bForce bWeakInject
          bEnableCache dont w).2.2 =
          (arrDyLibFiles.filter (fun f => decide (((S.fs w).read f).getD [] ≠ []))).map
            (fun f => "@executable_path/".toList ++ basename f)) ∧
      (∀ x ∈ pre, x.node = [] → x.op.isInject = false) ∧
      signActions (SignFolder S L (some asset) strFolder arrDyLibFiles bForce bWeakInject
          bEnableCache dont w).2.2 =
        pre ++
        (if "/".toList = root.path then
          (installNames (SignFolder S L (some asset) strFolder arrDyLibFiles bForce bWeakInject
            bEnableCache dont w).2.2).map (fun p => (⟨[], .injectDyLib p⟩ : Action))
          else []) ++
        [⟨[], .signExe
          ((if "/".toList ≠ root.path then app ++ "/".toList ++ root.path else app) ++
            "/".toList ++ root.exec) data⟩] ∧
      (∀ x ∈ signActions (SignFolder S L (some asset) strFolder arrDyLibFiles bForce
          bWeakInject bEnableCache dont w).2.2, x.op.isInject = true →
        ∃ m : Node, root.at x.node = some m ∧ m.path = "/".toList) ∧
      ((bForce = true ∨ S.fileExists
          (copyDyLibs S app arrDyLibFiles (provisionStep S asset app dont w).2.1).1
          (cacheFile L app) = false) →
        root.path = "/".toList ∧
          ∀ (a : List Nat) (m : Node), a ≠ [] → root.at a = some m → m.path ≠ "/".toList) := by
  obtain ⟨app, root, hF, hpv, hroot, hsn, hst, hops⟩ := SignFolder_run S L asset strFolder
    arrDyLibFiles bForce bWeakInject bEnableCache dont w hok
  rw [hF] at houtside
  simp only at houtside
  have hpost : ∀ op ∈ (if bEnableCache = true then
      [FolderOp.writeCache (cacheFile L app) root] else []), ∃ p n, op = .writeCache p n := by
    intro op hop
    cases bEnableCache
    · simp at hop
    · simp only [if_true, List.mem_singleton] at hop
      exact ⟨_, _, hop⟩
  obtain ⟨hnames, hacts⟩ := SignFolder_filters S app asset arrDyLibFiles dont w
    (SignNode S.toSys L
      ⟨app, bForce || !S.fileExists
          (copyDyLibs S app arrDyLibFiles (provisionStep S asset app dont w).2.1).1
          (cacheFile L app), bWeakInject,
        (copyDyLibs S app arrDyLibFiles (provisionStep S asset app dont w).2.1).2.1⟩
      [] root
      (copyDyLibs S app arrDyLibFiles (provisionStep S asset app dont w).2.1).1).2.2
    _ hpost
  rw [← hops] at hnames hacts
  obtain ⟨hc1, hc2, hc3⟩ := copyDyLibs_exact S app hwrite w arrDyLibFiles
    (provisionStep S asset app dont w).2.1
    (fun f hf => provisionStep_read S asset app dont w hwrite hremove f (houtside f hf).1)
    (fun f hf g hg => (houtside f hf).2 g hg)
  obtain ⟨pre, data, hpre, htr⟩ := SignNode_root_trace S.toSys L _ root [] _ hsn
  have hokc : okCopiesOf (SignFolder S L (some asset) strFolder arrDyLibFiles bForce
      bWeakInject bEnableCache dont w).2.2 =
      okCopiesOf (copyDyLibs S app arrDyLibFiles (provisionStep S asset app dont w).2.1).2.2 := by
    rw [hops, okCopiesOf_append, okCopiesOf_append, okCopiesOf_append,
      okCopiesOf_nil_of (provisionStep S asset app dont w).2.2 (fun op hop => by
        rcases provisionStep_ops S asset app dont w op hop with ⟨_, e⟩ | ⟨_, e⟩ <;>
          (rw [e]; rfl)),
      okCopiesOf_nil_of (List.map FolderOp.sign _) (fun op hop => by
        obtain ⟨a, _, e⟩ := List.mem_map.mp hop
        rw [← e]; rfl),
      okCopiesOf_nil_of (if bEnableCache = true then
          [FolderOp.writeCache (cacheFile L app) root] else []) (fun op hop => by
        obtain ⟨q, n, e⟩ := hpost op hop
        rw [e]; rfl)]
    simp
  refine ⟨app, root, pre, data, hF, ?_, installNames_okCopies _, ?_, ?_, hpre, ?_, ?_, ?_⟩
  · rw [hops, copiesOf_append, copiesOf_append, copiesOf_append, hc1,
      copiesOf_nil_of (provisionStep S asset app dont w).2.2 (fun op hop => by
        rcases provisionStep_ops S asset app dont w op hop with ⟨_, e⟩ | ⟨_, e⟩ <;>
          (rw [e]; rfl)),
      copiesOf_nil_of (List.map FolderOp.sign _) (fun op hop => by
        obtain ⟨a, _, e⟩ := List.mem_map.mp hop
        rw [← e]; rfl),
      copiesOf_nil_of _ (fun op hop => by
        obtain ⟨q, n, e⟩ := hpost op hop
        rw [e]; rfl)]
    simp
  · rw [hokc]
    exact hc2
  · intro hall
    rw [installNames_okCopies, hokc, hc3]
    rw [hops] at hall
    simp only [List.all_append, Bool.and_eq_true] at hall
    exact hall.1.2
  · rw [hacts, hnames, htr]
    rfl
  · intro x hx hi
    rw [hacts] at hx
    obtain ⟨rel, m, p, hm, hn, hp, _, _⟩ := SignNode_inject_path S.toSys L _ root [] _ x hx hi
    rw [List.nil_append] at hn
    exact ⟨m, by rw [hn]; exact hm, hp⟩
  · intro hforce
    have hf : (bForce || !S.fileExists
        (copyDyLibs S app arrDyLibFiles (provisionStep S asset app dont w).2.1).1
        (cacheFile L app)) = true := by
      rcases hforce with h | h
      · rw [h]; rfl
      · rw [h]; cases bForce <;> rfl
    rw [hf, if_pos rfl] at hroot
    exact ⟨discoverRoot_path L _ app dont root hroot,
      fun a m ha hm => discoverRoot_subpaths L _ app dont root hroot a m ha hm⟩

/-- C17, amended, at the example app with the dylibs `/lib/missing.dylib`,
which cannot be read, and `/lib/tweak.dylib`. -/
theorem SignFolder_injects_witness :
    ∃ (app : Str) (root : Node) (pre : List Action) (data : Str),
      FindAppFolder "/Demo.app".toList
        ((exampleWorld.fs exampleFiles).dir "/Demo.app".toList) [] = (true, app) ∧
      copiesOf (SignFolder exampleWorld exampleFolderLib (some exampleAsset)
          "/Demo.app".toList ["/lib/missing.dylib".toList, "/lib/tweak.dylib".toList]
          false false true false exampleFiles).2.2 =
        (["/lib/missing.dylib".toList, "/lib/tweak.dylib".toList].filter
          (fun f => decide (((exampleWorld.fs exampleFiles).read f).getD [] ≠ []))).map
          (fun f => (f, app ++ "/".toList ++ basename f,
            ((exampleWorld.fs exampleFiles).read f).getD [])) ∧
      installNames (SignFolder exampleWorld exampleFolderLib (some exampleAsset)
          "/Demo.app".toList ["/lib/missing.dylib".toList, "/lib/tweak.dylib".toList]
          false false true false exampleFiles).2.2 =
        (okCopiesOf (SignFolder exampleWorld exampleFolderLib (some exampleAsset)
          "/Demo.app".toList ["/lib/missing.dylib".toList, "/lib/tweak.dylib".toList]
          false false true false exampleFiles).2.2).map
          (fun f => "@executable_path/".toList ++ basename f) ∧
      List.Sublist
        (okCopiesOf (SignFolder exampleWorld exampleFolderLib (some exampleAsset)
          "/Demo.app".toList ["/lib/missing.dylib".toList, "/lib/tweak.dylib".toList]
          false false true false exampleFiles).2.2)
        (["/lib/missing.dylib".toList, "/lib/tweak.dylib".toList].filter
          (fun f => decide (((exampleWorld.fs exampleFiles).read f).getD [] ≠ []))) ∧
      ((SignFolder exampleWorld exampleFolderLib (some exampleAsset)
          "/Demo.app".toList ["/lib/missing.dylib".toList, "/lib/tweak.dylib".toList]
          false false true false exampleFiles).2.2.all FolderOp.copyOk = true →
        installNames (SignFolder exampleWorld exampleFolderLib (some exampleAsset)
          "/Demo.app".toList ["/lib/missing.dylib".toList, "/lib/tweak.dylib".toList]
          false false true false exampleFiles).2.2 =
          (["/lib/missing.dylib".toList, "/lib/tweak.dylib".toList].filter
            (fun f => decide (((exampleWorld.fs exampleFiles).read f).getD [] ≠ []))).map
            (fun f => "@executable_path/".toList ++ basename f)) ∧
      (∀ x ∈ pre, x.node = [] → x.op.isInject = false) ∧
      signActions (SignFolder exampleWorld exampleFolderLib (some exampleAsset)
          "/Demo.app".toList ["/lib/missing.dylib".toList, "/lib/tweak.dylib".toList]
          false false true false exampleFiles).2.2 =
        pre ++
        (if "/".toList = root.path then
          (installNames (SignFolder exampleWorld exampleFolderLib (some exampleAsset)
            "/Demo.app".toList ["/lib/missing.dylib".toList, "/lib/tweak.dylib".toList]
            false false true false exampleFiles).2.2).map
              (fun p => (⟨[], .injectDyLib p⟩ : Action))
          else []) ++
        [⟨[], .signExe
          ((if "/".toList ≠ root.path then app ++ "/".toList ++ root.path else app) ++
            "/".toList ++ root.exec) data⟩] ∧
      (∀ x ∈ signActions (SignFolder exampleWorld exampleFolderLib (some exampleAsset)
          "/Demo.app".toList ["/lib/missing.dylib".toList, "/lib/tweak.dylib".toList]
          false false true false exampleFiles).2.2, x.op.isInject = true →
        ∃ m : Node, root.at x.node = some m ∧ m.path = "/".toList) ∧
      ((false = true ∨ exampleWorld.fileExists
          (copyDyLibs exampleWorld app ["/lib/missing.dylib".toList, "/lib/tweak.dylib".toList]
            (provisionStep exampleWorld exampleAsset app false exampleFiles).2.1).1
          (cacheFile exampleFolderLib app) = false) →
        root.path = "/".toList ∧
          ∀ (a : List Nat) (m : Node), a ≠ [] → root.at a = some m → m.path ≠ "/".toList) :=
  SignFolder_injects exampleWorld exampleFolderLib exampleAsset "/Demo.app".toList
    ["/lib/missing.dylib".toList, "/lib/tweak.dylib".toList] false false true false
    exampleFiles (by decide)
    (fun x p q d h => fileAt_putFile_other x p q d h)
    (fun x p q h => fileAt_filter_other q p h x)
    (by decide)

/-- In the run on the example app with the dylibs `/lib/missing.dylib` and
`/lib/tweak.dylib` the readable dylib is copied with its data, no copy fails,
and its install name is recorded and injected once. -/
theorem SignFolder_copies_example :
    copiesOf (SignFolder exampleWorld exampleFolderLib (some exampleAsset)
      "/Demo.app".toList ["/lib/missing.dylib".toList, "/lib/tweak.dylib".toList]
      false false true false exampleFiles).2.2 =
      [("/lib/tweak.dylib".toList, "/Demo.app/tweak.dylib".toList, "macho tweak".toList)] ∧
    (SignFolder exampleWorld exampleFolderLib (some exampleAsset)
      "/Demo.app".toList ["/lib/missing.dylib".toList, "/lib/tweak.dylib".toList]
      false false true false exampleFiles).2.2.all FolderOp.copyOk = true ∧
    installNames (SignFolder exampleWorld exampleFolderLib (some exampleAsset)
      "/Demo.app".toList ["/lib/missing.dylib".toList, "/lib/tweak.dylib".toList]
      false false true false exampleFiles).2.2 = ["@executable_path/tweak.dylib".toList] ∧
    ((signActions (SignFolder exampleWorld exampleFolderLib (some exampleAsset)
      "/Demo.app".toList ["/lib/missing.dylib".toList, "/lib/tweak.dylib".toList]
      false false true false exampleFiles).2.2).filter (fun x => x.op.isInject)).length = 1 := by
  decide

/-- In the run on the example app with the dylib `/lib/tweak.dylib` the install
name of the dylib is recorded and injected once. -/
theorem SignFolder_injects_example :
    installNames (SignFolder exampleWorld exampleFolderLib (some exampleAsset)
      "/Demo.app".toList ["/lib/tweak.dylib".toList] false false true false
      exampleFiles).2.2 = ["@executable_path/tweak.dylib".toList] ∧
    ((signActions (SignFolder exampleWorld exampleFolderLib (some exampleAsset)
      "/Demo.app".toList ["/lib/tweak.dylib".toList] false false true false
      exampleFiles).2.2).filter (fun x => x.op.isInject)).length = 1 := by
  decide

/-! ## Properties of the batch tasks -/

theorem rfindFrom_found (s sub : Str) (p : Nat) (hp : sub <+: s.drop p) :
    ∀ n, p ≤ n → (∀ j, p < j → j ≤ n → ¬ sub <+: s.drop j) → rfindFrom s sub n = some p
  | 0, hn, _ => by
    have e : p = 0 := Nat.le_zero.mp hn
    subst e
    rw [rfindFrom, if_pos (by simpa using hp)]
  | n + 1, hn, hno => by
    rw [rfindFrom]
    by_cases e : p = n + 1
    · subst e
      rw [if_pos hp]
    · rw [if_neg (hno (n + 1) (by omega) (Nat.le_refl _))]
      exact rfindFrom_found s sub p hp n (by omega) (fun j h1 h2 => hno j h1 (by omega))

theorem rfindFrom_some (s sub : Str) : ∀ (n p : Nat), rfindFrom s sub n = some p →
    p ≤ n ∧ sub <+: s.drop p
  | 0, p, h => by
    rw [rfindFrom] at h
    split at h
    · rename_i hs
      injection h with h
      subst h
      exact ⟨Nat.le_refl _, by simpa using hs⟩
    · exact absurd h (by simp)
  | n + 1, p, h => by
    rw [rfindFrom] at h
    split at h
    · rename_i hs
      injection h with h
      subst h
      exact ⟨Nat.le_refl _, hs⟩
    · obtain ⟨h1, h2⟩ := rfindFrom_some s sub n p h
      exact ⟨by omega, h2⟩

theorem rfind_stem (stem ext : Str) (hext : ext ≠ []) :
    rfind (stem ++ ext) ext = some stem.length := by
  unfold rfind
  apply rfindFrom_found
  · rw [List.drop_left]
  · simp
  · intro j h1 h2 hpre
    have hl := hpre.length_le
    rw [List.length_drop, List.length_append] at hl
    have : 0 < ext.length := List.length_pos.mpr hext
    omega

theorem outputNameOf_ipa (stem : Str) :
    outputNameOf true (stem ++ ".ipa".toList) = stem ++ "_signed.ipa".toList := by
  unfold outputNameOf
  rw [if_pos rfl, rfind_stem stem _ (by decide)]
  simp only
  rw [List.take_left]

theorem outputNameOf_cut (d_name : Str) (extPos : Nat)
    (h : rfind d_name ".ipa".toList = some extPos) :
    outputNameOf true d_name = d_name.take extPos ++ "_signed.ipa".toList ∧
    ".ipa".toList <+: d_name.drop extPos := by
  unfold outputNameOf
  rw [if_pos rfl, h]
  exact ⟨rfl, (rfindFrom_some _ _ _ _ h).2⟩

theorem outputNameOf_whole (isZip : Bool) (d_name : Str)
    (h : isZip = false ∨ rfind d_name ".ipa".toList = none) :
    outputNameOf isZip d_name = d_name ++ "_signed.ipa".toList := by
  unfold outputNameOf
  cases isZip
  · rfl
  · rcases h with h | h
    · exact absurd h (by decide)
    · rw [if_pos rfl, h]

theorem taskOfEntry_some {W : Type} (S : MainSys W) (w : W) (inputFolder outputFolder d_name : Str)
    (task : SigningTask) (h : taskOfEntry S w inputFolder outputFolder d_name = some task) :
    d_name ≠ ".".toList ∧ d_name ≠ "..".toList ∧
    task.isZipFile = S.isZipFile w (inputFolder ++ "/".toList ++ d_name) ∧
    task.outputPath = outputFolder ++ "/".toList ++ outputNameOf task.isZipFile d_name ∧
    (task.isZipFile = true → task.inputPath = inputFolder ++ "/".toList ++ d_name) ∧
    (task.isZipFile = false →
      S.isFolder w (inputFolder ++ "/".toList ++ d_name) = true ∧
      FindAppFolder (inputFolder ++ "/".toList ++ d_name)
        ((S.fs w).dir (inputFolder ++ "/".toList ++ d_name))
        (inputFolder ++ "/".toList ++ d_name) = (true, task.inputPath)) := by
  unfold taskOfEntry at h
  by_cases hn : d_name = ".".toList ∨ d_name = "..".toList
  · rw [if_pos hn] at h
    exact absurd h (by simp)
  · rw [if_neg hn] at h
    refine ⟨fun e => hn (Or.inl e), fun e => hn (Or.inr e), ?_⟩
    cases hz : S.isZipFile w (inputFolder ++ "/".toList ++ d_name)
    · rw [hz] at h
      simp only [Bool.false_eq_true, if_false] at h
      cases hf : S.isFolder w (inputFolder ++ "/".toList ++ d_name)
      · rw [hf] at h
        simp at h
      · rw [hf] at h
        simp only [if_true] at h
        rcases hF : FindAppFolder (inputFolder ++ "/".toList ++ d_name)
          ((S.fs w).dir (inputFolder ++ "/".toList ++ d_name))
          (inputFolder ++ "/".toList ++ d_name) with ⟨ok, app⟩
        rw [hF] at h
        cases ok
        · simp at h
        · simp only [Option.some.injEq] at h
          subst h
          exact ⟨rfl, rfl, fun e => absurd e (by simp), fun _ => ⟨rfl, rfl⟩⟩
    · rw [hz] at h
      simp only [if_true, Option.some.injEq] at h
      subst h
      exact ⟨rfl, rfl, fun _ => rfl, fun e => absurd e (by simp)⟩

theorem mem_bulkTasks {W : Type} (S : MainSys W) (w : W) (inputFolder outputFolder : Str)
    (task : SigningTask) : ∀ (es : List DirEnt),
    task ∈ bulkTasks S w inputFolder outputFolder es →
    ∃ ent, ent ∈ es ∧ taskOfEntry S w inputFolder outputFolder ent.d_name = some task
  | [], h => by simp [bulkTasks] at h
  | ent :: more, h => by
    rw [bulkTasks, List.mem_append] at h
    rcases h with h | h
    · refine ⟨ent, List.mem_cons_self _ _, ?_⟩
      cases ent with
      | reg n => simpa [taskOfDirEnt, DirEnt.d_name] using h
      | dir n es => simpa [taskOfDirEnt, DirEnt.d_name] using h
      | other n => simp [taskOfDirEnt] at h
      | unknown n d es => simp [taskOfDirEnt] at h
    · obtain ⟨e, he, ht⟩ := mem_bulkTasks S w inputFolder outputFolder task more h
      exact ⟨e, List.mem_cons_of_mem _ he, ht⟩

/-- C23, as stated, fails: in the input folder `/inbox` the app folder
`Demo.app` gets the output `/out/Demo.app_signed.ipa` and the zip file
`Old.zip` gets `/out/Old.zip_signed.ipa`; neither name loses its extension. -/
theorem bulkTasks_keeps_extension :
    (bulkTasks exampleMainWorld exampleInbox2 "/inbox".toList "/out".toList
      ((exampleMainWorld.fs exampleInbox2).dir "/inbox".toList)).map
        (fun t => (t.isZipFile, t.outputPath)) =
      [(false, "/out/Demo.app_signed.ipa".toList), (true, "/out/Old.zip_signed.ipa".toList)] := by
  decide

/-- C23, amended. Every task of `bulkSign` comes from an entry of the input
folder and its output path is `<outputFolder>/<name>`, where for a zip file
whose name contains `.ipa` the name is the entry name cut at the last
occurrence of `.ipa` and followed by `_signed.ipa` (so `<stem>.ipa` gives
`<stem>_signed.ipa`), and for a zip file without `.ipa` in its name and for an
app folder it is the whole entry name, extension included, followed by
`_signed.ipa`. -/
theorem bulkTasks_outputPath {W : Type} (S : MainSys W) (w : W)
    (inputFolder outputFolder : Str) (es : List DirEnt) (task : SigningTask)
    (h : task ∈ bulkTasks S w inputFolder outputFolder es) :
    ∃ ent, ent ∈ es ∧
      task.outputPath = outputFolder ++ "/".toList ++ outputNameOf task.isZipFile ent.d_name ∧
      (∀ stem, task.isZipFile = true → ent.d_name = stem ++ ".ipa".toList →
        task.outputPath = outputFolder ++ "/".toList ++ (stem ++ "_signed.ipa".toList)) ∧
      (∀ extPos, task.isZipFile = true → rfind ent.d_name ".ipa".toList = some extPos →
        task.outputPath =
          outputFolder ++ "/".toList ++ (ent.d_name.take extPos ++ "_signed.ipa".toList) ∧
        ".ipa".toList <+: ent.d_name.drop extPos) ∧
      ((task.isZipFile = false ∨ rfind ent.d_name ".ipa".toList = none) →
        task.outputPath =
          outputFolder ++ "/".toList ++ (ent.d_name ++ "_signed.ipa".toList)) := by
  obtain ⟨ent, he, ht⟩ := mem_bulkTasks S w inputFolder outputFolder task es h
  obtain ⟨_, _, _, hout, _, _⟩ := taskOfEntry_some S w inputFolder outputFolder _ task ht
  refine ⟨ent, he, hout, ?_, ?_, ?_⟩
  · intro stem hz hn
    rw [hout, hz, hn, outputNameOf_ipa]
  · intro extPos hz hr
    rw [hout, hz, (outputNameOf_cut _ _ hr).1]
    exact ⟨rfl, (outputNameOf_cut _ _ hr).2⟩
  · intro hc
    rw [hout, outputNameOf_whole _ _ hc]

/-- C23, amended, at the first task of the batch example, the zip file
`App.ipa`. -/
theorem bulkTasks_outputPath_witness :
    ∃ ent, ent ∈ (exampleMainWorld.fs exampleInput).dir "/in".toList ∧
      (⟨"/in/App.ipa".toList, "/out/App_signed.ipa".toList, true⟩ : SigningTask).outputPath =
        "/out".toList ++ "/".toList ++ outputNameOf true ent.d_name ∧
      (∀ stem, true = true → ent.d_name = stem ++ ".ipa".toList →
        (⟨"/in/App.ipa".toList, "/out/App_signed.ipa".toList, true⟩ : SigningTask).outputPath =
          "/out".toList ++ "/".toList ++ (stem ++ "_signed.ipa".toList)) ∧
      (∀ extPos, true = true → rfind ent.d_name ".ipa".toList = some extPos →
        (⟨"/in/App.ipa".toList, "/out/App_signed.ipa".toList, true⟩ : SigningTask).outputPath =
          "/out".toList ++ "/".toList ++ (ent.d_name.take extPos ++ "_signed.ipa".toList) ∧
        ".ipa".toList <+: ent.d_name.drop extPos) ∧
      ((true = false ∨ rfind ent.d_name ".ipa".toList = none) →
        (⟨"/in/App.ipa".toList, "/out/App_signed.ipa".toList, true⟩ : SigningTask).outputPath =
          "/out".toList ++ "/".toList ++ (ent.d_name ++ "_signed.ipa".toList)) :=
  bulkTasks_outputPath exampleMainWorld exampleInput "/in".toList "/out".toList
    ((exampleMainWorld.fs exampleInput).dir "/in".toList)
    ⟨"/in/App.ipa".toList, "/out/App_signed.ipa".toList, true⟩
    (by
      have e : bulkTasks exampleMainWorld exampleInput "/in".toList "/out".toList
          ((exampleMainWorld.fs exampleInput).dir "/in".toList) =
          [⟨"/in/App.ipa".toList, "/out/App_signed.ipa".toList, true⟩,
           ⟨"/in/App/Payload/Demo.app".toList, "/out/App_signed.ipa".toList, false⟩,
           ⟨"/in/Bare.ipa".toList, "/out/Bare_signed.ipa".toList, true⟩] := by rfl
      rw [e]
      exact List.mem_cons_self _ _)

theorem outputPath_ne_of_name_ne (outputFolder a b : Str) (h : a ≠ b) :
    outputFolder ++ "/".toList ++ a ≠ outputFolder ++ "/".toList ++ b :=
  fun e => h (List.append_cancel_left e)

/-- C29, as stated, fails: in the input folder `/in` the zip file `App.ipa` and
the folder `App` are two entries that both become tasks, and both tasks get the
output path `/out/App_signed.ipa`. -/
theorem bulkTasks_outputs_collide :
    (bulkTasks exampleMainWorld exampleInput "/in".toList "/out".toList
      ((exampleMainWorld.fs exampleInput).dir "/in".toList)).map
        (fun t => (t.inputPath, t.outputPath)) =
      [("/in/App.ipa".toList, "/out/App_signed.ipa".toList),
       ("/in/App/Payload/Demo.app".toList, "/out/App_signed.ipa".toList),
       ("/in/Bare.ipa".toList, "/out/Bare_signed.ipa".toList)] ∧
    outputNameOf true "App.ipa".toList = outputNameOf true "App.ipa.bak".toList := by
  decide

/-- C29, amended. Two entries with different names that `bulkSign` turns into
tasks get different output paths when each of them is an app folder or a zip
file whose name does not contain `.ipa`, and also when both are zip files whose
names end in `.ipa`. -/
theorem bulkTasks_outputs_distinct {W : Type} (S : MainSys W) (w : W)
    (inputFolder outputFolder : Str) (n1 n2 : Str) (t1 t2 : SigningTask)
    (h1 : taskOfEntry S w inputFolder outputFolder n1 = some t1)
    (h2 : taskOfEntry S w inputFolder outputFolder n2 = some t2)
    (hne : n1 ≠ n2)
    (hclass :
      ((t1.isZipFile = false ∨ rfind n1 ".ipa".toList = none) ∧
       (t2.isZipFile = false ∨ rfind n2 ".ipa".toList = none)) ∨
      (t1.isZipFile = true ∧ t2.isZipFile = true ∧
       ".ipa".toList <:+ n1 ∧ ".ipa".toList <:+ n2)) :
    t1.outputPath ≠ t2.outputPath := by
  obtain ⟨_, _, _, ho1, _, _⟩ := taskOfEntry_some S w inputFolder outputFolder n1 t1 h1
  obtain ⟨_, _, _, ho2, _, _⟩ := taskOfEntry_some S w inputFolder outputFolder n2 t2 h2
  rw [ho1, ho2]
  apply outputPath_ne_of_name_ne
  rcases hclass with ⟨c1, c2⟩ | ⟨z1, z2, ⟨s1, e1⟩, ⟨s2, e2⟩⟩
  · rw [outputNameOf_whole _ _ c1, outputNameOf_whole _ _ c2]
    exact fun e => hne (List.append_cancel_right e)
  · rw [z1, z2, ← e1, ← e2, outputNameOf_ipa, outputNameOf_ipa]
    intro e
    apply hne
    rw [← e1, ← e2, List.append_cancel_right e]

/-- C29, amended, at the two zip files of the batch example. -/
theorem bulkTasks_outputs_distinct_witness :
    (⟨"/in/App.ipa".toList, "/out/App_signed.ipa".toList, true⟩ : SigningTask).outputPath ≠
    (⟨"/in/Bare.ipa".toList, "/out/Bare_signed.ipa".toList, true⟩ : SigningTask).outputPath :=
  bulkTasks_outputs_distinct exampleMainWorld exampleInput "/in".toList "/out".toList
    "App.ipa".toList "Bare.ipa".toList
    ⟨"/in/App.ipa".toList, "/out/App_signed.ipa".toList, true⟩
    ⟨"/in/Bare.ipa".toList, "/out/Bare_signed.ipa".toList, true⟩
    rfl rfl (by decide)
    (Or.inr ⟨rfl, rfl, by decide, by decide⟩)

theorem ofBits_small (x : Nat) (h : x < 2147483648) : ofBits (x % 4294967296) = (x : Int) := by
  have e : x % 4294967296 = x := Nat.mod_eq_of_lt (by omega)
  rw [e]
  unfold ofBits
  rw [if_pos h]

/-- C24. For a requested thread count `t`, a hardware concurrency and a number
`n` of tasks that fit an `int`, with `n` positive, `bulkSign` sets the number of
workers to `min(t', n)`, where `t'` is `t` if `t > 0`, otherwise the hardware
concurrency if that is positive, otherwise 2; the number is at least 1 and at
most `n`, and a worker with a higher index never takes a task. -/
theorem workerCount_eq (t : Int) (hw n : Nat) (hhw : hw < 2147483648) (hn0 : 0 < n)
    (hn : n < 2147483648) :
    workerCount t hw n =
      min (if 0 < t then t else if 0 < hw then (hw : Int) else 2) (n : Int) ∧
    1 ≤ workerCount t hw n ∧ workerCount t hw n ≤ (n : Int) ∧
    ∀ {W : Type} (S : MainSys W) (L : Lib) (pSignAsset : Option arksigningAsset)
      (bForce bWeakInject bDontEmbedProfile : Bool) (arrDyLibFiles : List Str)
      (uZipLevel : Nat) (i : Nat) (st : BulkState W), workerCount t hw n ≤ (i : Int) →
      workerStep S L pSignAsset bForce bWeakInject bDontEmbedProfile arrDyLibFiles uZipLevel
        (workerCount t hw n) n (.pop i) st = st := by
  have e : workerCount t hw n =
      min (if 0 < t then t else if 0 < hw then (hw : Int) else 2) (n : Int) := by
    unfold workerCount
    rw [ofBits_small hw hhw, ofBits_small n hn]
    by_cases ht : 0 < t
    · rw [if_neg (by omega), if_pos ht]
    · rw [if_pos (by omega), if_neg ht]
      by_cases hh : 0 < hw
      · rw [if_neg (by omega), if_pos hh]
      · rw [if_pos (by omega), if_neg hh]
  refine ⟨e, ?_, ?_, ?_⟩
  · rw [e]
    apply le_min
    · by_cases ht : 0 < t
      · rw [if_pos ht]; omega
      · rw [if_neg ht]
        by_cases hh : 0 < hw
        · rw [if_pos hh]; omega
        · rw [if_neg hh]; omega
    · omega
  · rw [e]
    exact min_le_right _ _
  · intro W S L pSignAsset bForce bWeakInject bDontEmbedProfile arrDyLibFiles uZipLevel i st hi
    simp only [workerStep]
    exact if_neg (fun h => absurd h.1 (not_lt.mpr hi))

/-- C24 with 8 threads requested, 4 hardware threads and 3 tasks. -/
theorem workerCount_eq_witness :
    workerCount 8 4 3 = min (if (0 : Int) < 8 then 8 else if 0 < 4 then ((4 : Nat) : Int) else 2)
      ((3 : Nat) : Int) ∧
    1 ≤ workerCount 8 4 3 ∧ workerCount 8 4 3 ≤ ((3 : Nat) : Int) ∧
    ∀ {W : Type} (S : MainSys W) (L : Lib) (pSignAsset : Option arksigningAsset)
      (bForce bWeakInject bDontEmbedProfile : Bool) (arrDyLibFiles : List Str)
      (uZipLevel : Nat) (i : Nat) (st : BulkState W), workerCount 8 4 3 ≤ (i : Int) →
      workerStep S L pSignAsset bForce bWeakInject bDontEmbedProfile arrDyLibFiles uZipLevel
        (workerCount 8 4 3) 3 (.pop i) st = st :=
  workerCount_eq 8 4 3 (by decide) (by decide) (by decide)

/-! ## Properties of the change-sets of a discovered tree -/

theorem Node.rootedList_iff (P : Str) : ∀ (l : List Node),
    Node.rootedList P l = true ↔ ∀ c ∈ l, (P ++ "/".toList) <+: c.path ∧ c.rooted = true
  | [] => by simp [Node.rootedList]
  | c :: more => by
    rw [Node.rootedList, Bool.and_eq_true, Bool.and_eq_true, decide_eq_true_iff,
      Node.rootedList_iff P more]
    constructor
    · rintro ⟨⟨h1, h2⟩, h3⟩ d hd
      rcases List.mem_cons.mp hd with e | hd
      · rw [e]; exact ⟨h1, h2⟩
      · exact h3 d hd
    · intro h
      exact ⟨h c (List.mem_cons_self _ _), fun d hd => h d (List.mem_cons_of_mem _ hd)⟩

theorem Node.rooted_iff (n : Node) : n.rooted = true ↔
    n.changed = [] ∧ (∀ f ∈ n.files, (n.path ++ "/".toList) <+: f) ∧
    ∀ c ∈ n.folders, (n.path ++ "/".toList) <+: c.path ∧ c.rooted = true := by
  cases n with
  | mk path bid exec sha1 sha2 files changed folders =>
    rw [Node.rooted, Bool.and_eq_true, Bool.and_eq_true, Node.rootedList_iff, List.all_eq_true,
      List.isEmpty_iff]
    simp only [Node.changed, Node.files, Node.folders, Node.path, decide_eq_true_iff, and_assoc]

mutual
theorem nearestDylibsOf_prefix : ∀ (ent : DirEnt) (rel x : Str),
    x ∈ nearestDylibsOf rel ent → rel <+: x
  | .other n, rel, x, h => by simp [nearestDylibsOf] at h
  | .unknown n d es, rel, x, h => by simp [nearestDylibsOf] at h
  | .reg n, rel, x, h => by
    rw [nearestDylibsOf] at h
    split at h
    · exact absurd h (List.not_mem_nil _)
    · split at h
      · rw [List.mem_singleton.mp h]
        exact List.prefix_append _ _
      · exact absurd h (List.not_mem_nil _)
  | .dir n es, rel, x, h => by
    rw [nearestDylibsOf] at h
    split at h
    · exact absurd h (List.not_mem_nil _)
    · split at h
      · exact absurd h (List.not_mem_nil _)
      · have h2 := nearestDylibsIn_prefix es _ x h
        exact (List.prefix_append rel (n ++ "/".toList)).trans
          (by rw [← List.append_assoc]; exact h2)
theorem nearestDylibsIn_prefix : ∀ (es : List DirEnt) (rel x : Str),
    x ∈ nearestDylibsIn rel es → rel <+: x
  | [], rel, x, h => by simp [nearestDylibsIn] at h
  | ent :: more, rel, x, h => by
    rw [nearestDylibsIn, List.mem_append] at h
    rcases h with h | h
    · exact nearestDylibsOf_prefix ent rel x h
    · exact nearestDylibsIn_prefix more rel x h
end

theorem bundleNode_changed (L : Lib) (fs : FileSys) (app : Str) (d : Str × List DirEnt) :
    (bundleNode L fs app d).changed = [] := by
  unfold bundleNode
  rw [(GetObjectsToSign_keeps L fs app _ _ _).2.1]
  rfl

mutual
theorem nearestBundlesOf_rooted (L : Lib) (fs : FileSys) (app : Str) :
    ∀ (ent : DirEnt) (rel : Str) (d : Str × List DirEnt),
    d ∈ nearestBundlesOf L fs app rel ent →
    rel <+: d.1 ∧ (bundleNode L fs app d).rooted = true
  | .other n, rel, d, h => by simp [nearestBundlesOf] at h
  | .unknown n x es, rel, d, h => by simp [nearestBundlesOf] at h
  | .reg n, rel, d, h => by simp [nearestBundlesOf] at h
  | .dir n es, rel, d, h => by
    rw [nearestBundlesOf] at h
    split at h
    · exact absurd h (List.not_mem_nil _)
    · split at h
      · split at h
        · have e := List.mem_singleton.mp h
          subst e
          refine ⟨List.prefix_append _ _, ?_⟩
          obtain ⟨hp, hf, hfi⟩ := bundleNode_level L fs app (rel ++ n, es)
          rw [Node.rooted_iff, hp, hf, hfi]
          refine ⟨bundleNode_changed L fs app _, ?_, ?_⟩
          · intro f hf2
            exact nearestDylibsIn_prefix es _ f hf2
          · intro c hc
            obtain ⟨d2, hd2, rfl⟩ := List.mem_map.mp hc
            have ih := nearestBundlesIn_rooted L fs app es _ d2 hd2
            rw [(bundleNode_level L fs app d2).1]
            exact ih
        · exact absurd h (List.not_mem_nil _)
      · have ih := nearestBundlesIn_rooted L fs app es _ d h
        exact ⟨(List.prefix_append rel (n ++ "/".toList)).trans
          (by rw [← List.append_assoc]; exact ih.1), ih.2⟩
theorem nearestBundlesIn_rooted (L : Lib) (fs : FileSys) (app : Str) :
    ∀ (es : List DirEnt) (rel : Str) (d : Str × List DirEnt),
    d ∈ nearestBundlesIn L fs app rel es →
    rel <+: d.1 ∧ (bundleNode L fs app d).rooted = true
  | [], rel, d, h => by simp [nearestBundlesIn] at h
  | ent :: more, rel, d, h => by
    rw [nearestBundlesIn, List.mem_append] at h
    rcases h with h | h
    · exact nearestBundlesOf_rooted L fs app ent rel d h
    · exact nearestBundlesIn_rooted L fs app more rel d h
end

theorem prefix_slash_trans {P Q x : Str} (h1 : (P ++ "/".toList) <+: Q)
    (h2 : (Q ++ "/".toList) <+: x) : (P ++ "/".toList) <+: x :=
  h1.trans ((List.prefix_append Q "/".toList).trans h2)

theorem Node.rooted_at : ∀ (b : List Nat) (n d : Node), n.rooted = true → n.at b = some d →
    d.rooted = true ∧ (b ≠ [] → (n.path ++ "/".toList) <+: d.path) := by
  intro b
  induction b with
  | nil =>
    intro n d hn hd
    have e : n.at [] = some n := rfl
    rw [e] at hd
    injection hd with hd
    subst hd
    exact ⟨hn, fun h => absurd rfl h⟩
  | cons i b ih =>
    intro n d hn hd
    obtain ⟨c, hc, hcd⟩ := (Node.at_cons n i b d).mp hd
    have hcm : c ∈ n.folders := List.get?_mem hc
    obtain ⟨hcp, hcr⟩ := ((Node.rooted_iff n).mp hn).2.2 c hcm
    obtain ⟨hdr, hdp⟩ := ih c d hcr hcd
    refine ⟨hdr, fun _ => ?_⟩
    cases b with
    | nil =>
      have e : c.at [] = some c := rfl
      rw [e] at hcd
      injection hcd with hcd
      rw [← hcd]
      exact hcp
    | cons j b2 => exact hcp.trans ((List.prefix_append c.path "/".toList).trans (hdp (by simp)))

theorem Node.rooted_changedFiles (n : Node) (hn : n.rooted = true) (x : Str)
    (hx : x ∈ GetChangedFiles n []) : (n.path ++ "/".toList) <+: x := by
  rcases (mem_GetChangedFiles n x).mp hx with ⟨b, d, hd, hxd⟩ | ⟨b, d, hb, hd, hxd⟩
  · obtain ⟨hdr, hdp⟩ := Node.rooted_at b n d hn hd
    have hf := ((Node.rooted_iff d).mp hdr).2.1 x hxd
    by_cases hb : b = []
    · subst hb
      have e : n.at [] = some n := rfl
      rw [e] at hd
      injection hd with hd
      rw [hd]
      exact hf
    · exact prefix_slash_trans (hdp hb) hf
  · obtain ⟨_, hdp⟩ := Node.rooted_at b n d hn hd
    have hp := hdp hb
    rcases hxd with e | e
    · rw [e]
      exact hp.trans (List.prefix_append _ _)
    · rw [e, List.append_assoc]
      exact hp.trans (List.prefix_append _ _)

theorem discoverRoot_rooted (L : Lib) (fs : FileSys) (app : Str) (dont : Bool) (root : Node)
    (h : discoverRoot L fs app dont = some root) (a : List Nat) (n : Node) (ha : a ≠ [])
    (hn : root.at a = some n) :
    ∃ n0, n = GetNodeChangedFiles dont n0 ∧ n0.rooted = true := by
  unfold discoverRoot at h
  split at h
  · exact absurd h (by simp)
  · rename_i jv _
    injection h with h
    rw [← h, Node.at_GetNodeChangedFiles] at hn
    cases hT : (GetObjectsToSign L fs app app (fs.dir app) (nodeOfInfo "/".toList jv)).at a with
    | none => rw [hT] at hn; simp at hn
    | some n0 =>
      rw [hT] at hn
      simp only [Option.map_some', Option.some.injEq] at hn
      refine ⟨n0, hn.symm, ?_⟩
      cases a with
      | nil => exact absurd rfl ha
      | cons i b =>
        obtain ⟨c, hc, hcd⟩ := (Node.at_cons _ i b n0).mp hT
        have hlev := (GetObjectsToSign_level L fs app (fs.dir app) app [] (nodeOfInfo "/".toList jv)
          (by simp)).1
        have hcm : c ∈ (GetObjectsToSign L fs app app (fs.dir app)
            (nodeOfInfo "/".toList jv)).folders := List.get?_mem hc
        rw [hlev] at hcm
        have hnil : (nodeOfInfo "/".toList jv).folders = [] := rfl
        rw [hnil, List.nil_append] at hcm
        obtain ⟨d, hd, rfl⟩ := List.mem_map.mp hcm
        have hr := (nearestBundlesIn_rooted L fs app (fs.dir app) [] d hd).2
        exact (Node.rooted_at b _ n0 hr hcd).1

/-- C27. In the tree that `SignFolder` builds from the app folder by
`GetObjectsToSign` and `GetNodeChangedFiles`, every change-set entry of a node
other than the root begins with the node's path `P` followed by `/`; so the key
that `SignNode` derives by dropping the first `|P|+1` characters is defined,
and it is the entry's path relative to the node's folder: the node's folder
followed by `/` and the key is the file the entry names. -/
theorem discoverRoot_changed_below (L : Lib) (fs : FileSys) (app : Str) (dont : Bool)
    (root : Node) (h : discoverRoot L fs app dont = some root) (a : List Nat) (n : Node)
    (ha : a ≠ []) (hn : root.at a = some n) (f : Str) (hf : f ∈ n.changed) :
    (n.path ++ "/".toList) <+: f ∧
    changedKey n.path f = some (f.drop (n.path.length + 1)) ∧
    f = n.path ++ "/".toList ++ f.drop (n.path.length + 1) ∧
    app ++ "/".toList ++ f =
      (app ++ "/".toList ++ n.path) ++ "/".toList ++ f.drop (n.path.length + 1) := by
  obtain ⟨n0, e, hr⟩ := discoverRoot_rooted L fs app dont root h a n ha hn
  have hpath : n.path ≠ "/".toList := discoverRoot_subpaths L fs app dont root h a n ha hn
  have hp0 : n0.path = n.path := by rw [e, GetNodeChangedFiles_path]
  have hch : n.changed = GetChangedFiles n0 [] := by
    rw [e, GetNodeChangedFiles_changed_eq, ((Node.rooted_iff n0).mp hr).1,
      if_neg (fun hh => hpath (hp0 ▸ hh.2))]
    simp
  rw [hch] at hf
  have hpre := Node.rooted_changedFiles n0 hr f hf
  rw [hp0] at hpre
  obtain ⟨t, ht⟩ := hpre
  have hdrop : f.drop (n.path.length + 1) = t := by
    rw [← ht]
    exact List.drop_left' (by simp)
  refine ⟨⟨t, ht⟩, ?_, ?_, ?_⟩
  · unfold changedKey
    rw [if_pos (fun e2 => hpath e2.symm), if_pos]
    rw [← ht]
    simp
  · rw [hdrop, ht]
  · rw [hdrop, ← ht]
    simp only [List.append_assoc]

/-- C27 at the framework `F` of the example app, for the dylib in its
change-set. -/
theorem discoverRoot_changed_below_witness :
    (exampleFrameworkNode.path ++ "/".toList) <+: "Frameworks/F.framework/lib.dylib".toList ∧
    changedKey exampleFrameworkNode.path "Frameworks/F.framework/lib.dylib".toList =
      some ("Frameworks/F.framework/lib.dylib".toList.drop
        (exampleFrameworkNode.path.length + 1)) ∧
    "Frameworks/F.framework/lib.dylib".toList =
      exampleFrameworkNode.path ++ "/".toList ++
        "Frameworks/F.framework/lib.dylib".toList.drop (exampleFrameworkNode.path.length + 1) ∧
    "/app".toList ++ "/".toList ++ "Frameworks/F.framework/lib.dylib".toList =
      ("/app".toList ++ "/".toList ++ exampleFrameworkNode.path) ++ "/".toList ++
        "Frameworks/F.framework/lib.dylib".toList.drop (exampleFrameworkNode.path.length + 1) :=
  discoverRoot_changed_below exampleAppLib exampleAppFs "/app".toList false exampleDiscovered
    rfl [0] exampleFrameworkNode (by decide) rfl
    "Frameworks/F.framework/lib.dylib".toList (by decide)

/-! ## Properties of the hashing of manifest files -/

/-- C26 (evaluation). The folder `/app` lists `icon.png`, which cannot be read, so
`SHASumBase64File` fails on it. A forced run of `SignNode` on the root node
nevertheless returns true and writes a manifest, and the `files` entry of
`icon.png` in it is the bare `data:`; the same node with forced signing off and
`icon.png` in its change-set over a prior manifest returns false and writes
nothing. -/
theorem SignNode_ignores_hash_failure :
    (SHASumBase64File exampleLib exampleUnreadableFs "/app/icon.png".toList).1 = false ∧
    (SignNode exampleUnreadableSys exampleLib exampleBundle [] exampleRoot 0).1 = true ∧
    (SignNode exampleUnreadableSys exampleLib exampleBundle [] exampleRoot 0).2.2.any
      (fun a => a.op.writesEmptyHash "icon.png".toList) = true ∧
    (SignNode exampleUnreadableSys exampleLib exampleBundleCached []
      (.mk "/".toList "com.example".toList "Demo".toList "QQ==".toList "QQ==".toList []
        ["icon.png".toList] []) 0).1 = false ∧
    (SignNode exampleUnreadableSys exampleLib exampleBundleCached []
      (.mk "/".toList "com.example".toList "Demo".toList "QQ==".toList "QQ==".toList []
        ["icon.png".toList] []) 0).2.2.any (fun a => a.op.isWrite) = false := by
  decide

/-- A change-set entry whose file cannot be hashed makes the update loop of
`SignNode` fail, whatever the manifest it started from. -/
theorem updateCodeRes_hash_failure (L : Lib) (fs : FileSys) (app folder : Str) :
    ∀ (l : List Str) (jv : JValue),
      (∃ f ∈ l, (SHASumBase64File L fs (app ++ "/".toList ++ f)).1 = false) →
      (updateCodeRes L fs app folder l jv).1 = none
  | [], jv, h => by
    obtain ⟨f, hf, _⟩ := h
    exact absurd hf (List.not_mem_nil _)
  | g :: more, jv, h => by
    rw [updateCodeRes]
    cases hs : updateCodeResStep L fs app folder jv g with
    | none => rfl
    | some jv2 =>
      simp only
      have hrec : ∃ f ∈ more, (SHASumBase64File L fs (app ++ "/".toList ++ f)).1 = false := by
        obtain ⟨f, hf, hfail⟩ := h
        rcases List.mem_cons.mp hf with rfl | hf
        · exfalso
          unfold updateCodeResStep at hs
          rcases hx : SHASumBase64File L fs (app ++ "/".toList ++ f) with ⟨ok, s1, s2⟩
          rw [hx] at hs hfail
          simp only at hfail
          subst hfail
          simp at hs
        · exact ⟨f, hf, hfail⟩
      have := updateCodeRes_hash_failure L fs app folder more jv2 hrec
      rcases hu : updateCodeRes L fs app folder more jv2 with ⟨r, ops⟩
      rw [hu] at this
      exact this

/-- The incremental half of the statement about hashing: when the manifest of
a node cannot be computed, the part of `SignNode` that handles the node itself
returns false without writing a manifest. -/
theorem SignNodeSelf_update_failure {W : Type} (S : Sys W) (L : Lib) (B : Bundle)
    (a : List Nat) (n : Node) (w : W)
    (h : (nodeCodeRes S L B a n
      (S.createFolder w (baseFolderOf B n ++ "/_CodeSignature".toList))).1 = none) :
    (SignNodeSelf S L B a n w).1 = false ∧
    ∀ x ∈ (SignNodeSelf S L B a n w).2.2, x.op.isWrite = false := by
  rcases SignNodeSelf_cases S L B a n w with ⟨h1, h2⟩ | ⟨h1, _, h2⟩ | ⟨jv, _, h1, _⟩
  · rw [h2]
    exact ⟨h1, fun x hx => absurd hx (List.not_mem_nil _)⟩
  · refine ⟨h1, fun x hx => ?_⟩
    rw [h2] at hx
    rcases nodeCodeRes_cases S L B a n
      (S.createFolder w (baseFolderOf B n ++ "/_CodeSignature".toList)) with
      ⟨_, hc⟩ | ⟨_, _, hc⟩ | ⟨_, _, hc⟩
    · rw [hc] at hx
      simp only [List.mem_singleton] at hx
      subst hx
      rfl
    · rw [hc] at hx
      simp only [List.mem_cons, List.mem_singleton, List.not_mem_nil, or_false] at hx
      rcases hx with rfl | rfl <;> rfl
    · rw [hc] at hx
      simp only [List.mem_cons, List.mem_map] at hx
      rcases hx with rfl | ⟨o, ho, rfl⟩
      · rfl
      · obtain ⟨f, rfl⟩ := updateCodeRes_ops _ _ _ _ _ _ _ ho
        rfl
  · rw [h1] at h
    exact absurd h (by simp)

/-! ## Properties of the cache file -/

theorem SignFolderPrepare_no_cache {W : Type} (S : FolderSys W)
    (pSignAsset : Option arksigningAsset) (strFolder : Str) (arrDyLibFiles : List Str)
    (dont : Bool) (w : W) :
    ∀ o ∈ (SignFolderPrepare S pSignAsset strFolder arrDyLibFiles dont w).2.2,
      o.isWriteCache = false := by
  intro o ho
  unfold SignFolderPrepare at ho
  cases pSignAsset with
  | none => exact absurd ho (List.not_mem_nil _)
  | some asset =>
    simp only at ho
    rcases hF : FindAppFolder strFolder ((S.fs w).dir strFolder) [] with ⟨b, app⟩
    rw [hF] at ho
    cases b with
    | false => exact absurd ho (List.not_mem_nil _)
    | true =>
      simp only at ho
      have hp : ∀ o ∈ (provisionStep S asset app dont w).2.2, o.isWriteCache = false := by
        intro o ho
        rcases provisionStep_ops S asset app dont w o ho with ⟨_, rfl⟩ | ⟨_, rfl⟩ <;> rfl
      rcases hP : provisionStep S asset app dont w with ⟨ok, w1, ops1⟩
      rw [hP] at ho hp
      cases ok with
      | false => exact hp o ho
      | true =>
        simp only at ho
        rcases List.mem_append.mp ho with h1 | h2
        · exact hp o h1
        · obtain ⟨f, data, okc, _, _, rfl⟩ := copyDyLibs_ops S app arrDyLibFiles w1 o h2
          rfl

theorem SignFolderFinish_failed {W : Type} (S : FolderSys W) (L : Lib) (app : Str)
    (paths : List Str) (bForce bWeakInject bEnableCache dont : Bool) (w : W)
    (h : (SignFolderFinish S L app paths bForce bWeakInject bEnableCache dont w).1 = false) :
    ∀ o ∈ (SignFolderFinish S L app paths bForce bWeakInject bEnableCache dont w).2.2,
      o.isWriteCache = false := by
  unfold SignFolderFinish at h ⊢
  simp only at h ⊢
  rcases hR : (if (bForce || !S.fileExists w (cacheFile L app)) = true then
          discoverRoot L (S.fs w) app dont
        else some (S.readCache w (cacheFile L app))) with _ | root
  · intro o ho
    exact absurd ho (List.not_mem_nil _)
  · rw [hR] at h
    simp only at h ⊢
    rcases hS : SignNode S.toSys L
        ⟨app, bForce || !S.fileExists w (cacheFile L app), bWeakInject, paths⟩ [] root w
      with ⟨ok, w1, tr⟩
    rw [hS] at h
    cases ok with
    | false =>
      intro o ho
      simp only [List.mem_map] at ho
      obtain ⟨a, _, rfl⟩ := ho
      rfl
    | true => cases bEnableCache <;> simp at h

/-- C25 (counterexample). With `bEnableCache` off, `SignFolder` on the example
app succeeds, signing the root node, and no call of the run writes a cache
file. -/
theorem SignFolder_succeeds_without_cache :
    (SignFolder exampleWorld exampleFolderLib (some exampleAsset) "/Demo.app".toList
      [] true false false false exampleFiles).1 = true ∧
    (SignFolder exampleWorld exampleFolderLib (some exampleAsset) "/Demo.app".toList
      [] true false false false exampleFiles).2.2.any FolderOp.isWriteCache = false := by
  decide

/-- C25, amended. Let a run of `SignFolder` return `ok`, leave the state `w2`
and make the calls `ops`. When it returns true and `bEnableCache` is on, the
last call writes the cache file `./.arksigning_cache/<SHA1Text(app folder)>.json`
of the app folder that `FindAppFolder` found, holding the root tree that
`SignNode` has just signed with success, and no earlier call writes a cache
file. When it returns false, or `bEnableCache` is off, no call writes a cache
file. -/
theorem SignFolder_writes_cache {W : Type} (S : FolderSys W) (L : Lib)
    (pSignAsset : Option arksigningAsset) (strFolder : Str) (arrDyLibFiles : List Str)
    (bForce bWeakInject bEnableCache dont : Bool) (w : W)
    (ok : Bool) (w2 : W) (ops : List FolderOp)
    (hrun : SignFolder S L pSignAsset strFolder arrDyLibFiles bForce bWeakInject bEnableCache
      dont w = (ok, w2, ops)) :
    (ok = true → bEnableCache = true →
      ∃ (app : Str) (root : Node) (pre : List FolderOp) (B : Bundle) (w0 : W),
        FindAppFolder strFolder ((S.fs w).dir strFolder) [] = (true, app) ∧
        B.m_strAppFolder = app ∧
        (SignNode S.toSys L B [] root w0).1 = true ∧
        (SignNode S.toSys L B [] root w0).2.2.map FolderOp.sign <:+ pre ∧
        (∀ o ∈ pre, o.isWriteCache = false) ∧
        ops = pre ++ [.writeCache (cacheFile L app) root] ∧
        w2 = S.writeCache (S.createFolder (SignNode S.toSys L B [] root w0).2.1
          "./.arksigning_cache".toList) (cacheFile L app) root) ∧
    ((ok = false ∨ bEnableCache = false) → ∀ o ∈ ops, o.isWriteCache = false) := by
  rw [SignFolder_eq] at hrun
  have hprep := SignFolderPrepare_no_cache S pSignAsset strFolder arrDyLibFiles dont w
  cases hx : (SignFolderPrepare S pSignAsset strFolder arrDyLibFiles dont w).1 with
  | none =>
    rw [hx] at hrun
    simp only [Prod.mk.injEq] at hrun
    obtain ⟨rfl, _, rfl⟩ := hrun
    exact ⟨fun h => absurd h (by simp), fun _ => hprep⟩
  | some x =>
    rw [hx] at hrun
    simp only [Prod.mk.injEq] at hrun
    obtain ⟨hok, hw, hops⟩ := hrun
    obtain ⟨asset, _, hF, _, _, _, _⟩ := SignFolderPrepare_some S pSignAsset strFolder
      arrDyLibFiles dont w x hx
    constructor
    · intro h1 hc
      subst h1
      obtain ⟨root, _, hS, hw2, hops2⟩ := SignFolderFinish_ok S L x.1 x.2 bForce bWeakInject
        bEnableCache dont _ hok
      rw [if_pos hc] at hw2 hops2
      refine ⟨x.1, root,
        (SignFolderPrepare S pSignAsset strFolder arrDyLibFiles dont w).2.2 ++
          (SignNode S.toSys L ⟨x.1, bForce || !S.fileExists
            (SignFolderPrepare S pSignAsset strFolder arrDyLibFiles dont w).2.1
            (cacheFile L x.1), bWeakInject, x.2⟩ [] root
            (SignFolderPrepare S pSignAsset strFolder arrDyLibFiles dont w).2.1).2.2.map
              FolderOp.sign,
        ⟨x.1, bForce || !S.fileExists
            (SignFolderPrepare S pSignAsset strFolder arrDyLibFiles dont w).2.1
            (cacheFile L x.1), bWeakInject, x.2⟩,
        (SignFolderPrepare S pSignAsset strFolder arrDyLibFiles dont w).2.1,
        hF, rfl, hS, List.suffix_append _ _, ?_, ?_, ?_⟩
      · intro o ho
        rcases List.mem_append.mp ho with h1 | h2
        · exact hprep o h1
        · simp only [List.mem_map] at h2
          obtain ⟨a, _, rfl⟩ := h2
          rfl
      · rw [← hops, hops2, List.append_assoc]
      · rw [← hw, hw2]
    · intro hf o ho
      rw [← hops] at ho
      rcases List.mem_append.mp ho with h1 | h2
      · exact hprep o h1
      · rcases hf with hf | hf
        · rw [← hok] at hf
          exact SignFolderFinish_failed S L x.1 x.2 bForce bWeakInject bEnableCache dont _ hf
            o h2
        · cases hfin : (SignFolderFinish S L x.1 x.2 bForce bWeakInject bEnableCache dont
            (SignFolderPrepare S pSignAsset strFolder arrDyLibFiles dont w).2.1).1 with
          | false =>
            exact SignFolderFinish_failed S L x.1 x.2 bForce bWeakInject bEnableCache dont _
              hfin o h2
          | true =>
            obtain ⟨root, _, _, _, hops2⟩ := SignFolderFinish_ok S L x.1 x.2 bForce bWeakInject
              bEnableCache dont _ hfin
            rw [hops2, hf] at h2
            simp only [Bool.false_eq_true, if_false, List.append_nil, List.mem_map] at h2
            obtain ⟨a, _, rfl⟩ := h2
            rfl

theorem SignFolder_writes_cache_witness :
    (SignFolder exampleWorld exampleFolderLib (some exampleAsset) "/Demo.app".toList
      [] true false true false exampleFiles).1 = true ∧
    (SignFolder exampleWorld exampleFolderLib (some exampleAsset) "/Demo.app".toList
      [] true false true false exampleFiles).2.2.any FolderOp.isWriteCache = true ∧
    ∃ (app : Str) (root : Node) (pre : List FolderOp) (B : Bundle) (w0 : List (Str × Str)),
      FindAppFolder "/Demo.app".toList
        ((exampleWorld.fs exampleFiles).dir "/Demo.app".toList) [] = (true, app) ∧
      B.m_strAppFolder = app ∧
      (SignNode exampleWorld.toSys exampleFolderLib B [] root w0).1 = true ∧
      (SignNode exampleWorld.toSys exampleFolderLib B [] root w0).2.2.map FolderOp.sign
        <:+ pre ∧
      (∀ o ∈ pre, o.isWriteCache = false) ∧
      (SignFolder exampleWorld exampleFolderLib (some exampleAsset) "/Demo.app".toList
        [] true false true false exampleFiles).2.2 =
        pre ++ [.writeCache (cacheFile exampleFolderLib app) root] ∧
      (SignFolder exampleWorld exampleFolderLib (some exampleAsset) "/Demo.app".toList
        [] true false true false exampleFiles).2.1 =
        exampleWorld.writeCache (exampleWorld.createFolder
          (SignNode exampleWorld.toSys exampleFolderLib B [] root w0).2.1
          "./.arksigning_cache".toList) (cacheFile exampleFolderLib app) root :=
  ⟨by decide, by decide,
    (SignFolder_writes_cache exampleWorld exampleFolderLib (some exampleAsset) "/Demo.app".toList
      [] true false true false exampleFiles _ _ _ rfl).1 (by decide) rfl⟩

/-! ## The incremental update against the full rebuild -/

theorem isNull_set (jv : JValue) (k : Str) (v : JValue) : (jv.set k v).isNull = false := by
  cases jv <;> rfl

theorem GenerateCodeResources_not_null (L : Lib) (fs : FileSys) (strFolder : Str) :
    (GenerateCodeResources L fs strFolder).isNull = false := by
  unfold GenerateCodeResources codeResRules
  simp only [List.map, JValue.setPath]
  exact isNull_set _ _ _

theorem codeResStep_get_other (L : Lib) (fs : FileSys) (strFolder : Str) (jv : JValue)
    (k key : Str) (h1 : key ≠ "files".toList) (h2 : key ≠ "files2".toList) :
    (codeResStep L fs strFolder jv k).get key = jv.get key := by
  unfold codeResStep codeResStepFiles2 codeResStepFiles
  split_ifs <;>
    simp only [get_setPath_ne _ _ _ _ _ h1, get_setPath_ne _ _ _ _ _ h2]

theorem fold_get_other (L : Lib) (fs : FileSys) (strFolder : Str) (key : Str)
    (h1 : key ≠ "files".toList) (h2 : key ≠ "files2".toList) :
    ∀ (l : List Str) (jv : JValue),
      (l.foldl (codeResStep L fs strFolder) jv).get key = jv.get key
  | [], jv => rfl
  | k :: l, jv => by
    rw [List.foldl_cons, fold_get_other L fs strFolder key h1 h2 l,
      codeResStep_get_other L fs strFolder jv k key h1 h2]

theorem codeResRules_get_rules (jv1 jv2 : JValue)
    (h : jv1.get "rules".toList = jv2.get "rules".toList) :
    (codeResRules jv1).get "rules".toList = (codeResRules jv2).get "rules".toList := by
  have e : ∀ ks v jv, (JValue.setPath ("rules2".toList :: ks) v jv).get "rules".toList =
      jv.get "rules".toList := fun ks v jv => get_setPath_ne _ _ ks v jv (by decide)
  unfold codeResRules
  simp only [List.map, e, get_setPath_same, h]

theorem codeResRules_get_rules2 (jv1 jv2 : JValue)
    (h : jv1.get "rules2".toList = jv2.get "rules2".toList) :
    (codeResRules jv1).get "rules2".toList = (codeResRules jv2).get "rules2".toList := by
  have e : ∀ ks v jv, (JValue.setPath ("rules".toList :: ks) v jv).get "rules2".toList =
      jv.get "rules2".toList := fun ks v jv => get_setPath_ne _ _ ks v jv (by decide)
  unfold codeResRules
  simp only [List.map, e, get_setPath_same, h]

/-- Outside `files` and `files2` the manifest of `GenerateCodeResources` does
not depend on the folder. -/
theorem GenerateCodeResources_get_other (L : Lib) (fs1 fs2 : FileSys) (strFolder key : Str)
    (h1 : key ≠ "files".toList) (h2 : key ≠ "files2".toList) :
    (GenerateCodeResources L fs1 strFolder).get key =
      (GenerateCodeResources L fs2 strFolder).get key := by
  unfold GenerateCodeResources
  by_cases hr : key = "rules".toList
  · subst hr
    apply codeResRules_get_rules
    rw [fold_get_other L fs1 strFolder _ h1 h2, fold_get_other L fs2 strFolder _ h1 h2]
  · by_cases hr2 : key = "rules2".toList
    · subst hr2
      apply codeResRules_get_rules2
      rw [fold_get_other L fs1 strFolder _ h1 h2, fold_get_other L fs2 strFolder _ h1 h2]
    · rw [get_codeResRules _ _ hr hr2, get_codeResRules _ _ hr hr2,
        fold_get_other L fs1 strFolder _ h1 h2, fold_get_other L fs2 strFolder _ h1 h2]

/-- One round of the update loop leaves, for the key of its entry, the rule
string in `files` and the pair of digests in `files2`, provided the key was
absent from `files2` or held a pair of digests there. -/
theorem updateCodeResStep_value (L : Lib) (fs : FileSys) (app folder : Str) (M J : JValue)
    (f k : Str) (h : updateCodeResStep L fs app folder M f = some J)
    (hk : changedKey folder f = some k)
    (hp : (M.get "files2".toList).find? k = none ∨
      ∃ x y, (M.get "files2".toList).find? k =
        some (.obj [("hash".toList, x), ("hash2".toList, y)])) :
    (J.get "files".toList).find? k =
      some (.str ("data:".toList ++ (SHASumBase64File L fs (app ++ "/".toList ++ f)).2.1)) ∧
    (J.get "files2".toList).find? k =
      some (.obj [("hash".toList,
          .str ("data:".toList ++ (SHASumBase64File L fs (app ++ "/".toList ++ f)).2.1)),
        ("hash2".toList,
          .str ("data:".toList ++ (SHASumBase64File L fs (app ++ "/".toList ++ f)).2.2))]) := by
  unfold updateCodeResStep at h
  rcases hs : SHASumBase64File L fs (app ++ "/".toList ++ f) with ⟨ok, s1, s2⟩
  rw [hs] at h
  cases ok
  · exact absurd h (by simp)
  · rw [hk] at h
    simp only [Option.some.injEq] at h
    subst h
    have e12 : "files".toList ≠ "files2".toList := by decide
    constructor
    · rw [get_setPath_ne _ _ _ _ _ e12, get_setPath_ne _ _ _ _ _ e12, get_setPath_same]
      simp only [JValue.setPath]
      rw [find_set_same]
    · rw [get_setPath_same, get_setPath_same, get_setPath_ne _ _ _ _ _ e12.symm]
      simp only [JValue.setPath]
      rw [find_set_same, get_set_same]
      rcases hp with hp | ⟨x, y, hp⟩
      · rw [get_of_find_none hp]
        rfl
      · rw [get_of_find_some hp]
        rfl

theorem updateCodeRes_fst_cons (L : Lib) (fs : FileSys) (app folder : Str) (g : Str)
    (more : List Str) (M M1 : JValue) (hs : updateCodeResStep L fs app folder M g = some M1) :
    (updateCodeRes L fs app folder (g :: more) M).1 =
      (updateCodeRes L fs app folder more M1).1 := by
  rw [updateCodeRes, hs]

/-- After the update loop, every key of a change-set entry holds in `files`
the rule string and in `files2` the pair of digests of the file of an entry
with that key. -/
theorem updateCodeRes_value (L : Lib) (fs : FileSys) (app folder : Str) :
    ∀ (l : List Str) (M J : JValue), (updateCodeRes L fs app folder l M).1 = some J →
      (∀ f ∈ l, ∀ k, changedKey folder f = some k →
        (M.get "files2".toList).find? k = none ∨
        ∃ x y, (M.get "files2".toList).find? k =
          some (.obj [("hash".toList, x), ("hash2".toList, y)])) →
      ∀ k, (∃ f ∈ l, changedKey folder f = some k) →
        ∃ f ∈ l, changedKey folder f = some k ∧
          (J.get "files".toList).find? k = some (.str ("data:".toList ++
            (SHASumBase64File L fs (app ++ "/".toList ++ f)).2.1)) ∧
          (J.get "files2".toList).find? k = some (.obj [("hash".toList,
              .str ("data:".toList ++ (SHASumBase64File L fs (app ++ "/".toList ++ f)).2.1)),
            ("hash2".toList,
              .str ("data:".toList ++ (SHASumBase64File L fs (app ++ "/".toList ++ f)).2.2))])
  | [], M, J, _, _, k, hex => by
    obtain ⟨f, hf, _⟩ := hex
    exact absurd hf (List.not_mem_nil _)
  | g :: more, M, J, h, hpair, k, hex => by
    cases hs : updateCodeResStep L fs app folder M g with
    | none =>
      rw [updateCodeRes, hs] at h
      exact absurd h (by simp)
    | some M1 =>
      rw [updateCodeRes_fst_cons L fs app folder g more M M1 hs] at h
      by_cases hmore : ∃ f ∈ more, changedKey folder f = some k
      · have hpair1 : ∀ f ∈ more, ∀ k, changedKey folder f = some k →
            (M1.get "files2".toList).find? k = none ∨
            ∃ x y, (M1.get "files2".toList).find? k =
              some (.obj [("hash".toList, x), ("hash2".toList, y)]) := by
          intro f hf k2 hk2
          by_cases hg : changedKey folder g = some k2
          · right
            exact ⟨_, _, (updateCodeResStep_value L fs app folder M M1 g k2 hs hg
              (hpair g (List.mem_cons_self _ _) k2 hg)).2⟩
          · rw [((updateCodeResStep_frame L fs app folder M M1 g hs).2 k2 hg).2]
            exact hpair f (List.mem_cons_of_mem _ hf) k2 hk2
        obtain ⟨f, hf, hk, hv⟩ := updateCodeRes_value L fs app folder more M1 J h hpair1 k hmore
        exact ⟨f, List.mem_cons_of_mem _ hf, hk, hv⟩
      · have hg : changedKey folder g = some k := by
          obtain ⟨f, hf, hk⟩ := hex
          rcases List.mem_cons.mp hf with rfl | hf
          · exact hk
          · exact absurd ⟨f, hf, hk⟩ hmore
        have hfr := (updateCodeRes_frame L fs app folder more M1 J h).2 k
          (fun f hf hk => hmore ⟨f, hf, hk⟩)
        have hv := updateCodeResStep_value L fs app folder M M1 g k hs hg
          (hpair g (List.mem_cons_self _ _) k hg)
        exact ⟨g, List.mem_cons_self _ _, hg, by rw [hfr.1]; exact hv.1,
          by rw [hfr.2]; exact hv.2⟩

/-- The update loop succeeds when every entry of the change-set can be read
and yields a key. -/
theorem updateCodeRes_some (L : Lib) (fs : FileSys) (app folder : Str) :
    ∀ (l : List Str) (M : JValue),
      (∀ f ∈ l, (fs.read (app ++ "/".toList ++ f)).isSome = true ∧
        (changedKey folder f).isSome = true) →
      ∃ J, (updateCodeRes L fs app folder l M).1 = some J
  | [], M, _ => ⟨M, rfl⟩
  | g :: more, M, h => by
    obtain ⟨hr, hk⟩ := h g (List.mem_cons_self _ _)
    obtain ⟨d, hd⟩ := Option.isSome_iff_exists.mp hr
    obtain ⟨k, hk⟩ := Option.isSome_iff_exists.mp hk
    have hs : ∃ M1, updateCodeResStep L fs app folder M g = some M1 := by
      unfold updateCodeResStep SHASumBase64File
      rw [hd, hk]
      exact ⟨_, rfl⟩
    obtain ⟨M1, hs⟩ := hs
    rw [updateCodeRes_fst_cons L fs app folder g more M M1 hs]
    exact updateCodeRes_some L fs app folder more M1
      (fun f hf => h f (List.mem_cons_of_mem _ hf))

/-- The key of a change-set entry that lies below the node's path, and the file
it names: the node's folder followed by `/` and the key is the file that the
update loop hashes for the entry. -/
theorem changedKey_file (B : Bundle) (n : Node) (f : Str)
    (h : "/".toList ≠ n.path → (n.path ++ "/".toList) <+: f) :
    ∃ k, changedKey n.path f = some k ∧
      B.m_strAppFolder ++ "/".toList ++ f = baseFolderOf B n ++ "/".toList ++ k := by
  unfold changedKey baseFolderOf
  by_cases hp : "/".toList ≠ n.path
  · obtain ⟨t, ht⟩ := h hp
    rw [if_pos hp, if_pos hp, if_pos (by rw [← ht]; simp)]
    refine ⟨_, rfl, ?_⟩
    have hdrop : f.drop (n.path.length + 1) = t := by
      rw [← ht]
      exact List.drop_left' (by simp)
    rw [hdrop, ← ht]
    simp only [List.append_assoc]
  · rw [if_neg hp, if_neg hp]
    exact ⟨f, rfl, rfl⟩

theorem bundleExeOf_congr (L : Lib) (fs1 fs2 : FileSys) (strFolder : Str)
    (h : fs1.read (strFolder ++ "/Info.plist".toList) =
      fs2.read (strFolder ++ "/Info.plist".toList)) :
    bundleExeOf L fs1 strFolder = bundleExeOf L fs2 strFolder := by
  unfold bundleExeOf readPListFile
  rw [h]

theorem SHASumBase64File_congr (L : Lib) (fs1 fs2 : FileSys) (p : Str)
    (h : fs1.read p = fs2.read p) : SHASumBase64File L fs1 p = SHASumBase64File L fs2 p := by
  unfold SHASumBase64File
  rw [h]

/-- C30. Let a node have a prior manifest that `GenerateCodeResources` produced
for its folder as it was then (`fsOld`), and let `SignNode` compute the node's
manifest with forced signing off. Suppose that the entries of the change-set
can be read and, for a sub-bundle, lie below its path; that `Info.plist` reads
as before; that every file which is not the key of a change-set entry, the
executable or the manifest itself is listed now exactly when it was listed
then, with the same contents; and that every change-set key is a file of the
folder that the rebuild lists (one that `GetFolderFiles` reaches, other than
the executable and the manifest), is not omitted from `files` or `files2` and
does not contain `.lproj/`. Then the update yields a
manifest, and it equals the one `GenerateCodeResources` produces for the folder
as it is now: the two have the same entry under every key of `files` and of
`files2`, and the same value under every other key. -/
theorem nodeCodeRes_refines_rebuild {W : Type} (S : Sys W) (L : Lib) (B : Bundle)
    (a : List Nat) (n : Node) (w : W) (fsOld : FileSys)
    (hforce : B.m_bForceSign = false)
    (hprior : readPListFile L (S.fs w)
      (baseFolderOf B n ++ "/_CodeSignature/CodeResources".toList) =
        GenerateCodeResources L fsOld (baseFolderOf B n))
    (hbelow : "/".toList ≠ n.path → ∀ f ∈ n.changed, (n.path ++ "/".toList) <+: f)
    (hread : ∀ f ∈ n.changed,
      ((S.fs w).read (B.m_strAppFolder ++ "/".toList ++ f)).isSome = true)
    (hinfo : fsOld.read (baseFolderOf B n ++ "/Info.plist".toList) =
      (S.fs w).read (baseFolderOf B n ++ "/Info.plist".toList))
    (hsame : ∀ k, (∀ f ∈ n.changed, changedKey n.path f ≠ some k) →
      k ≠ bundleExeOf L (S.fs w) (baseFolderOf B n) →
      k ≠ "_CodeSignature/CodeResources".toList →
      (k ∈ typedFilesIn (fsOld.dir (baseFolderOf B n)) ↔
        k ∈ typedFilesIn ((S.fs w).dir (baseFolderOf B n))) ∧
      (k ∈ typedFilesIn ((S.fs w).dir (baseFolderOf B n)) →
        fsOld.read (baseFolderOf B n ++ "/".toList ++ k) =
          (S.fs w).read (baseFolderOf B n ++ "/".toList ++ k)))
    (hkeys : ∀ f ∈ n.changed, ∀ k, changedKey n.path f = some k →
      k ∈ typedFilesIn ((S.fs w).dir (baseFolderOf B n)) ∧
      k ≠ bundleExeOf L (S.fs w) (baseFolderOf B n) ∧
      k ≠ "_CodeSignature/CodeResources".toList ∧
      bomit1 k = false ∧ bomit2 k = false ∧ hasSubstr k ".lproj/".toList = false) :
    ∃ J, (nodeCodeRes S L B a n w).1 = some J ∧
      (∀ k, (J.get "files".toList).find? k =
        ((GenerateCodeResources L (S.fs w) (baseFolderOf B n)).get "files".toList).find? k) ∧
      (∀ k, (J.get "files2".toList).find? k =
        ((GenerateCodeResources L (S.fs w) (baseFolderOf B n)).get "files2".toList).find? k) ∧
      (∀ key, key ≠ "files".toList → key ≠ "files2".toList →
        J.get key = (GenerateCodeResources L (S.fs w) (baseFolderOf B n)).get key) := by
  have hnn : (readPListFile L (S.fs w)
      (baseFolderOf B n ++ "/_CodeSignature/CodeResources".toList)).isNull = false := by
    rw [hprior]
    exact GenerateCodeResources_not_null _ _ _
  have hcases : (nodeCodeRes S L B a n w).1 =
      (updateCodeRes L (S.fs w) B.m_strAppFolder n.path n.changed
        (GenerateCodeResources L fsOld (baseFolderOf B n))).1 := by
    rcases nodeCodeRes_cases S L B a n w with ⟨hf, _⟩ | ⟨_, hN, _⟩ | ⟨_, _, hc⟩
    · rw [hforce] at hf
      exact absurd hf (by simp)
    · rw [hnn] at hN
      exact absurd hN (by simp)
    · rw [hc, hprior]
  have hfile : ∀ f ∈ n.changed, ∀ k, changedKey n.path f = some k →
      B.m_strAppFolder ++ "/".toList ++ f = baseFolderOf B n ++ "/".toList ++ k := by
    intro f hf k hk
    obtain ⟨k2, hk2, e⟩ := changedKey_file B n f (fun hp => hbelow hp f hf)
    rw [hk] at hk2
    injection hk2 with hk2
    rw [hk2]
    exact e
  obtain ⟨J, hJ⟩ := updateCodeRes_some L (S.fs w) B.m_strAppFolder n.path n.changed
    (GenerateCodeResources L fsOld (baseFolderOf B n)) (fun f hf => by
      refine ⟨hread f hf, ?_⟩
      obtain ⟨k, hk, _⟩ := changedKey_file B n f (fun hp => hbelow hp f hf)
      rw [hk]
      rfl)
  have hexe : bundleExeOf L fsOld (baseFolderOf B n) =
      bundleExeOf L (S.fs w) (baseFolderOf B n) := bundleExeOf_congr L _ _ _ hinfo
  have hframe := updateCodeRes_frame L (S.fs w) B.m_strAppFolder n.path n.changed _ J hJ
  have hpair : ∀ f ∈ n.changed, ∀ k, changedKey n.path f = some k →
      ((GenerateCodeResources L fsOld (baseFolderOf B n)).get "files2".toList).find? k = none ∨
      ∃ x y, ((GenerateCodeResources L fsOld (baseFolderOf B n)).get "files2".toList).find? k =
        some (.obj [("hash".toList, x), ("hash2".toList, y)]) := by
    intro f hf k hk
    obtain ⟨_, _, _, _, _, hl⟩ := hkeys f hf k hk
    rw [GenerateCodeResources_files2_find]
    split
    · right
      unfold files2Entry
      rw [if_neg (by rw [hl]; simp)]
      exact ⟨_, _, rfl⟩
    · left
      rfl
  have hvalue := updateCodeRes_value L (S.fs w) B.m_strAppFolder n.path n.changed _ J hJ hpair
  have hunchanged : ∀ k, (∀ f ∈ n.changed, changedKey n.path f ≠ some k) →
      (k ∈ codeResFiles L fsOld (baseFolderOf B n) ↔
        k ∈ codeResFiles L (S.fs w) (baseFolderOf B n)) ∧
      (k ∈ codeResFiles L (S.fs w) (baseFolderOf B n) →
        SHASumBase64File L fsOld (baseFolderOf B n ++ "/".toList ++ k) =
          SHASumBase64File L (S.fs w) (baseFolderOf B n ++ "/".toList ++ k)) := by
    intro k hk
    rw [mem_codeResFiles, mem_codeResFiles, hexe]
    constructor
    · constructor
      · rintro ⟨h1, h2, h3⟩
        exact ⟨(hsame k hk h2 h3).1.mp h1, h2, h3⟩
      · rintro ⟨h1, h2, h3⟩
        exact ⟨(hsame k hk h2 h3).1.mpr h1, h2, h3⟩
    · rintro ⟨h1, h2, h3⟩
      exact SHASumBase64File_congr L _ _ _ ((hsame k hk h2 h3).2 h1)
  refine ⟨J, by rw [hcases]; exact hJ, fun k => ?_, fun k => ?_, fun key h1 h2 => ?_⟩
  · by_cases hk : ∃ f ∈ n.changed, changedKey n.path f = some k
    · obtain ⟨f, hf, hkf, hv, _⟩ := hvalue k hk
      obtain ⟨m1, m2, m3, o1, _, hl⟩ := hkeys f hf k hkf
      rw [hv, GenerateCodeResources_files_find,
        if_pos ⟨(mem_codeResFiles L _ _ k).mpr ⟨m1, m2, m3⟩, o1⟩, hfile f hf k hkf]
      unfold filesEntry
      rw [if_neg (by rw [hl]; simp)]
    · have hk2 : ∀ f ∈ n.changed, changedKey n.path f ≠ some k := fun f hf e => hk ⟨f, hf, e⟩
      rw [(hframe.2 k hk2).1, GenerateCodeResources_files_find, GenerateCodeResources_files_find]
      obtain ⟨hm, hs⟩ := hunchanged k hk2
      by_cases hc : k ∈ codeResFiles L (S.fs w) (baseFolderOf B n) ∧ bomit1 k = false
      · rw [if_pos hc, if_pos ⟨hm.mpr hc.1, hc.2⟩, hs hc.1]
      · rw [if_neg hc, if_neg (fun hh => hc ⟨hm.mp hh.1, hh.2⟩)]
  · by_cases hk : ∃ f ∈ n.changed, changedKey n.path f = some k
    · obtain ⟨f, hf, hkf, _, hv⟩ := hvalue k hk
      obtain ⟨m1, m2, m3, _, o2, hl⟩ := hkeys f hf k hkf
      rw [hv, GenerateCodeResources_files2_find,
        if_pos ⟨(mem_codeResFiles L _ _ k).mpr ⟨m1, m2, m3⟩, o2⟩, hfile f hf k hkf]
      unfold files2Entry
      rw [if_neg (by rw [hl]; simp)]
    · have hk2 : ∀ f ∈ n.changed, changedKey n.path f ≠ some k := fun f hf e => hk ⟨f, hf, e⟩
      rw [(hframe.2 k hk2).2, GenerateCodeResources_files2_find,
        GenerateCodeResources_files2_find]
      obtain ⟨hm, hs⟩ := hunchanged k hk2
      by_cases hc : k ∈ codeResFiles L (S.fs w) (baseFolderOf B n) ∧ bomit2 k = false
      · rw [if_pos hc, if_pos ⟨hm.mpr hc.1, hc.2⟩, hs hc.1]
      · rw [if_neg hc, if_neg (fun hh => hc ⟨hm.mp hh.1, hh.2⟩)]
  · rw [hframe.1 key h1 h2]
    exact GenerateCodeResources_get_other L _ _ _ key h1 h2

/-- C30 at the root of the example app: `icon.png` has changed and `b.txt` has
been added since the prior manifest was generated, both are in the change-set,
and the updated manifest agrees with the one generated anew. -/
theorem nodeCodeRes_refines_rebuild_witness :
    readPListFile exampleManifestLib exampleNewFs "/app/_CodeSignature/CodeResources".toList =
      GenerateCodeResources exampleManifestLib exampleOldFs "/app".toList ∧
    ∃ J, (nodeCodeRes exampleNewSys exampleManifestLib exampleBundleCached []
        exampleChangedRoot 0).1 = some J ∧
      (∀ k, (J.get "files".toList).find? k =
        ((GenerateCodeResources exampleManifestLib exampleNewFs "/app".toList).get
          "files".toList).find? k) ∧
      (∀ k, (J.get "files2".toList).find? k =
        ((GenerateCodeResources exampleManifestLib exampleNewFs "/app".toList).get
          "files2".toList).find? k) ∧
      (∀ key, key ≠ "files".toList → key ≠ "files2".toList →
        J.get key =
          (GenerateCodeResources exampleManifestLib exampleNewFs "/app".toList).get key) :=
  ⟨rfl,
    nodeCodeRes_refines_rebuild exampleNewSys exampleManifestLib exampleBundleCached []
      exampleChangedRoot 0 exampleOldFs rfl rfl (fun h => absurd rfl h) (by decide) rfl
      (by
        intro k hk _ _
        have h1 : k ≠ "icon.png".toList := fun e =>
          hk "icon.png".toList (by decide) (by rw [e]; rfl)
        have h2 : k ≠ "b.txt".toList := fun e =>
          hk "b.txt".toList (by decide) (by rw [e]; rfl)
        have eo : typedFilesIn (exampleOldFs.dir
            (baseFolderOf exampleBundleCached exampleChangedRoot)) =
            ["Info.plist".toList, "Demo".toList, "icon.png".toList, "a.txt".toList] := rfl
        have en : typedFilesIn ((exampleNewSys.fs 0).dir
            (baseFolderOf exampleBundleCached exampleChangedRoot)) =
            ["Info.plist".toList, "Demo".toList, "icon.png".toList, "a.txt".toList,
              "b.txt".toList] := rfl
        rw [eo, en]
        refine ⟨?_, fun _ => ?_⟩
        · simp only [List.mem_cons, List.mem_singleton, List.not_mem_nil, or_false]
          constructor
          · rintro (h | h | h | h)
            · exact Or.inl h
            · exact Or.inr (Or.inl h)
            · exact Or.inr (Or.inr (Or.inl h))
            · exact Or.inr (Or.inr (Or.inr (Or.inl h)))
          · rintro (h | h | h | h | h)
            · exact Or.inl h
            · exact Or.inr (Or.inl h)
            · exact Or.inr (Or.inr (Or.inl h))
            · exact Or.inr (Or.inr (Or.inr h))
            · exact absurd h h2
        · have hb : baseFolderOf exampleBundleCached exampleChangedRoot ++ "/".toList ++ k =
              "/app/".toList ++ k := rfl
          rw [hb]
          show some ("/app/".toList ++ k) =
            if "/app/".toList ++ k = "/app/".toList ++ "icon.png".toList then
              some "new icon".toList else some ("/app/".toList ++ k)
          rw [if_neg (fun e => h1 (List.append_cancel_left e))])
      (by
        intro f hf k hk
        have hkf : k = f := by
          have : changedKey exampleChangedRoot.path f = some f := rfl
          rw [this] at hk
          exact (Option.some.inj hk).symm
        subst hkf
        have hf2 : k = "icon.png".toList ∨ k = "b.txt".toList := by
          have : exampleChangedRoot.changed = ["icon.png".toList, "b.txt".toList] := rfl
          rw [this] at hf
          simpa using hf
        rcases hf2 with rfl | rfl <;> decide)⟩

/-! ## Properties of `processFile` and of the workers -/

/-- C22 (evaluation). The zip file `/in/Bare.ipa` holds `Demo.app` outside a
`Payload` directory. `processFile` unzips it into `/tmp/arksigning_folder_7`,
signs the app there, finds no `/Payload` in the app folder and returns false
with the temp directory left behind: no `RemoveFolder` follows the writes into
it, and the directory is still there in the final state. The same happens when
the archive of `/in/App.ipa` is not produced. -/
theorem processFile_leaves_temp_folder :
    (processFile exampleMainWorld exampleFolderLib
      ⟨"/in/Bare.ipa".toList, "/out/Bare_signed.ipa".toList, true⟩ (some exampleAsset)
      false false false [] 0 0 exampleInput).1 = false ∧
    leftBehind "/tmp/arksigning_folder_7".toList
      (processFile exampleMainWorld exampleFolderLib
        ⟨"/in/Bare.ipa".toList, "/out/Bare_signed.ipa".toList, true⟩ (some exampleAsset)
        false false false [] 0 0 exampleInput).2.2.2 false = true ∧
    exampleMainWorld.isFolder
      (processFile exampleMainWorld exampleFolderLib
        ⟨"/in/Bare.ipa".toList, "/out/Bare_signed.ipa".toList, true⟩ (some exampleAsset)
        false false false [] 0 0 exampleInput).2.1
      "/tmp/arksigning_folder_7".toList = true ∧
    (processFile exampleNoZipWorld exampleFolderLib
      ⟨"/in/App.ipa".toList, "/out/App_signed.ipa".toList, true⟩ (some exampleAsset)
      false false false [] 0 0 exampleInput).1 = false ∧
    leftBehind "/tmp/arksigning_folder_7".toList
      (processFile exampleNoZipWorld exampleFolderLib
        ⟨"/in/App.ipa".toList, "/out/App_signed.ipa".toList, true⟩ (some exampleAsset)
        false false false [] 0 0 exampleInput).2.2.2 false = true := by
  decide

/-- C28 (evaluation). `bulkSign` on the input folder `/in`, which gives three
tasks, with a single worker: the worker reports the tasks with `current` 1, 3
and 5 of 3. -/
theorem bulkSign_progress_exceeds_total :
    (bulkSign exampleMainWorld exampleFolderLib "/in".toList "/out".toList (some exampleAsset)
      false false false [] 0 1 (sequentialSchedule 3) exampleInput).map
      (fun r => r.2.progress.map (fun p => p.2)) = some [(1, 3), (3, 3), (5, 3)] := by
  decide

/-! ## Properties of the exit code -/

theorem lookup_none_not_mem {β : Type} (i : Nat) :
    ∀ (l : List (Nat × β)), l.lookup i = none → i ∉ l.map Prod.fst
  | [], _ => by simp
  | (k, b) :: l, h => by
    rw [List.lookup_cons] at h
    by_cases hk : i = k
    · subst hk
      simp at h
    · have hb : (i == k) = false := by simpa using hk
      rw [hb] at h
      simp only [List.map_cons, List.mem_cons, not_or]
      exact ⟨hk, lookup_none_not_mem i l h⟩

theorem filter_not_mem {β : Type} (i : Nat) :
    ∀ (l : List (Nat × β)), i ∉ l.map Prod.fst → l.filter (fun e => decide (e.1 ≠ i)) = l
  | [], _ => rfl
  | (k, b) :: l, h => by
    simp only [List.map_cons, List.mem_cons, not_or] at h
    rw [List.filter_cons]
    have hk : decide ((k, b).1 ≠ i) = true := by
      simp only [ne_eq, decide_eq_true_eq]
      exact fun e => h.1 e.symm
    rw [if_pos hk, filter_not_mem i l h.2]

/-- The tasks held by the workers, when the worker `i` gives up its task. -/
theorem lookup_filter_perm {β : Type} (i : Nat) (task : β) :
    ∀ (l : List (Nat × β)), (l.map Prod.fst).Nodup → l.lookup i = some task →
      List.Perm (l.map Prod.snd)
        (task :: (l.filter (fun e => decide (e.1 ≠ i))).map Prod.snd)
  | [], _, h => by simp at h
  | (k, b) :: l, hn, h => by
    rw [List.lookup_cons] at h
    simp only [List.map_cons, List.nodup_cons] at hn
    by_cases hk : i = k
    · subst hk
      simp only [beq_self_eq_true, Option.some.injEq] at h
      subst h
      rw [List.filter_cons, if_neg (by simp), filter_not_mem i l hn.1]
      exact List.Perm.refl _
    · have hb : (i == k) = false := by simpa using hk
      rw [hb] at h
      have ih := lookup_filter_perm i task l hn.2 h
      have hd : decide ((k, b).1 ≠ i) = true := by
        simp only [ne_eq, decide_eq_true_eq]
        exact fun e => hk e.symm
      rw [List.filter_cons, if_pos hd]
      simp only [List.map_cons]
      exact (List.Perm.cons b ih).trans (List.Perm.swap task b _)

theorem processFile_completed {W : Type} (S : MainSys W) (L : Lib) (task : SigningTask)
    (pSignAsset : Option arksigningAsset) (bForce bWeakInject bDontEmbedProfile : Bool)
    (arrDyLibFiles : List Str) (uZipLevel : Nat) (completedTasks : Int) (w : W) :
    (processFile S L task pSignAsset bForce bWeakInject bDontEmbedProfile arrDyLibFiles
      uZipLevel completedTasks w).2.2.1 = completedTasks + 1 := by
  unfold processFile
  simp only
  repeat' split
  all_goals rfl

/-- Every step of a worker keeps what holds of the state of the workers. -/
theorem workerStep_inv {W : Type} (S : MainSys W) (L : Lib)
    (pSignAsset : Option arksigningAsset) (bForce bWeakInject bDontEmbedProfile : Bool)
    (arrDyLibFiles : List Str) (uZipLevel : Nat) (threadCount : Int) (total : Nat)
    (allTasks : List SigningTask) (step : WorkerStep) (st : BulkState W)
    (h : BulkInv S L pSignAsset bForce bWeakInject bDontEmbedProfile arrDyLibFiles uZipLevel
      allTasks st) :
    BulkInv S L pSignAsset bForce bWeakInject bDontEmbedProfile arrDyLibFiles uZipLevel
      allTasks (workerStep S L pSignAsset bForce bWeakInject bDontEmbedProfile arrDyLibFiles
        uZipLevel threadCount total step st) := by
  cases step with
  | pop i =>
    simp only [workerStep]
    split
    · rename_i hi
      cases hq : st.taskQueue with
      | nil => exact h
      | cons task rest =>
        simp only
        have hnone : st.busy.lookup i = none := by
          have := hi.2
          simpa using this
        refine ⟨?_, ?_, h.count, h.outcome⟩
        · simp only [List.map_cons, List.nodup_cons]
          exact ⟨lookup_none_not_mem i _ hnone, h.nodup⟩
        · have hp := h.perm
          rw [hq] at hp
          refine List.Perm.trans ?_ hp
          simp only [List.map_cons, List.cons_append, List.append_assoc]
          exact List.perm_middle
    · exact h
  | run i =>
    simp only [workerStep]
    cases hl : st.busy.lookup i with
    | none => exact h
    | some task =>
      simp only
      rcases hp : processFile S L task pSignAsset bForce bWeakInject bDontEmbedProfile
        arrDyLibFiles uZipLevel st.completedTasks st.w with ⟨success, w1, completed1, ops⟩
      simp only
      refine ⟨List.Nodup.sublist (List.Sublist.map _ (List.filter_sublist _)) h.nodup, ?_, ?_, ?_⟩
      · refine List.Perm.trans ?_ h.perm
        have hb := lookup_filter_perm i task st.busy h.nodup hl
        simp only [List.map_append, List.map_cons, List.map_nil]
        have h1 : List.Perm
            (st.taskQueue ++ (st.busy.filter (fun e => decide (e.1 ≠ i))).map Prod.snd ++
              (st.results.map Prod.fst ++ [task]))
            (st.taskQueue ++ (task :: (st.busy.filter (fun e => decide (e.1 ≠ i))).map Prod.snd)
              ++ st.results.map Prod.fst) := by
          simp only [List.append_assoc, List.cons_append]
          refine List.Perm.append_left _ ?_
          rw [← List.append_assoc]
          exact List.perm_append_singleton _ _
        refine h1.trans ?_
        exact List.Perm.append_right _ (List.Perm.append_left _ hb.symm)
      · rw [List.filter_append, List.length_append, h.count]
        cases success <;> simp
      · intro x hx
        rcases List.mem_append.mp hx with hx | hx
        · exact h.outcome x hx
        · rw [List.mem_singleton.mp hx]
          exact ⟨st.completedTasks, st.w, by rw [hp]⟩

theorem fold_inv {W : Type} (S : MainSys W) (L : Lib)
    (pSignAsset : Option arksigningAsset) (bForce bWeakInject bDontEmbedProfile : Bool)
    (arrDyLibFiles : List Str) (uZipLevel : Nat) (threadCount : Int) (total : Nat)
    (allTasks : List SigningTask) :
    ∀ (schedule : List WorkerStep) (st : BulkState W),
      BulkInv S L pSignAsset bForce bWeakInject bDontEmbedProfile arrDyLibFiles uZipLevel
        allTasks st →
      BulkInv S L pSignAsset bForce bWeakInject bDontEmbedProfile arrDyLibFiles uZipLevel
        allTasks (schedule.foldl
          (fun st step => workerStep S L pSignAsset bForce bWeakInject bDontEmbedProfile
            arrDyLibFiles uZipLevel threadCount total step st) st)
  | [], st, h => h
  | step :: more, st, h => by
    rw [List.foldl_cons]
    exact fold_inv S L pSignAsset bForce bWeakInject bDontEmbedProfile arrDyLibFiles uZipLevel
      threadCount total allTasks more _
      (workerStep_inv S L pSignAsset bForce bWeakInject bDontEmbedProfile arrDyLibFiles
        uZipLevel threadCount total allTasks step st h)

theorem bulkStart_inv {W : Type} (S : MainSys W) (L : Lib)
    (pSignAsset : Option arksigningAsset) (bForce bWeakInject bDontEmbedProfile : Bool)
    (arrDyLibFiles : List Str) (uZipLevel : Nat) (allTasks : List SigningTask) (w : W) :
    BulkInv S L pSignAsset bForce bWeakInject bDontEmbedProfile arrDyLibFiles uZipLevel
      allTasks (bulkStart allTasks w) :=
  ⟨List.nodup_nil, by simp [bulkStart], rfl,
    fun x hx => absurd hx (List.not_mem_nil _)⟩

theorem workerStep_run_queue {W : Type} (S : MainSys W) (L : Lib)
    (pSignAsset : Option arksigningAsset) (bForce bWeakInject bDontEmbedProfile : Bool)
    (arrDyLibFiles : List Str) (uZipLevel : Nat) (threadCount : Int) (total : Nat) (i : Nat)
    (st : BulkState W) :
    (workerStep S L pSignAsset bForce bWeakInject bDontEmbedProfile arrDyLibFiles uZipLevel
      threadCount total (.run i) st).taskQueue = st.taskQueue ∧
    (workerStep S L pSignAsset bForce bWeakInject bDontEmbedProfile arrDyLibFiles uZipLevel
      threadCount total (.run i) st).busy = st.busy.filter (fun e => decide (e.1 ≠ i)) := by
  simp only [workerStep]
  cases hl : st.busy.lookup i with
  | none => exact ⟨rfl, (filter_not_mem i _ (lookup_none_not_mem i _ hl)).symm⟩
  | some task => exact ⟨rfl, rfl⟩

theorem workerStep_pop_fields {W : Type} (S : MainSys W) (L : Lib)
    (pSignAsset : Option arksigningAsset) (bForce bWeakInject bDontEmbedProfile : Bool)
    (arrDyLibFiles : List Str) (uZipLevel : Nat) (threadCount : Int) (total : Nat) (i : Nat)
    (st : BulkState W) (task : SigningTask) (rest : List SigningTask)
    (hi : (i : Int) < threadCount) (hb : st.busy = []) (hq : st.taskQueue = task :: rest) :
    (workerStep S L pSignAsset bForce bWeakInject bDontEmbedProfile arrDyLibFiles uZipLevel
      threadCount total (.pop i) st).taskQueue = rest ∧
    (workerStep S L pSignAsset bForce bWeakInject bDontEmbedProfile arrDyLibFiles uZipLevel
      threadCount total (.pop i) st).busy = [(i, task)] := by
  simp only [workerStep]
  rw [if_pos ⟨hi, by rw [hb]; rfl⟩, hq]
  simp only [hb, and_self]

/-- One worker that takes the tasks one after the other empties the queue. -/
theorem sequentialSchedule_finishes {W : Type} (S : MainSys W) (L : Lib)
    (pSignAsset : Option arksigningAsset) (bForce bWeakInject bDontEmbedProfile : Bool)
    (arrDyLibFiles : List Str) (uZipLevel : Nat) (threadCount : Int) (total : Nat)
    (h0 : 0 < threadCount) :
    ∀ (n : Nat) (st : BulkState W), st.busy = [] → st.taskQueue.length = n →
      ((sequentialSchedule n).foldl
        (fun st step => workerStep S L pSignAsset bForce bWeakInject bDontEmbedProfile
          arrDyLibFiles uZipLevel threadCount total step st) st).taskQueue = [] ∧
      ((sequentialSchedule n).foldl
        (fun st step => workerStep S L pSignAsset bForce bWeakInject bDontEmbedProfile
          arrDyLibFiles uZipLevel threadCount total step st) st).busy = []
  | 0, st, hb, hq => by
    simp only [sequentialSchedule, List.foldl_nil]
    exact ⟨List.length_eq_zero.mp hq, hb⟩
  | n + 1, st, hb, hq => by
    cases hqq : st.taskQueue with
    | nil => rw [hqq] at hq; simp at hq
    | cons task rest =>
      simp only [sequentialSchedule, List.foldl_cons]
      obtain ⟨p1, p2⟩ := workerStep_pop_fields S L pSignAsset bForce bWeakInject
        bDontEmbedProfile arrDyLibFiles uZipLevel threadCount total 0 st task rest
        (by exact_mod_cast h0) hb hqq
      obtain ⟨r1, r2⟩ := workerStep_run_queue S L pSignAsset bForce bWeakInject
        bDontEmbedProfile arrDyLibFiles uZipLevel threadCount total 0
        (workerStep S L pSignAsset bForce bWeakInject bDontEmbedProfile arrDyLibFiles uZipLevel
          threadCount total (.pop 0) st)
      apply sequentialSchedule_finishes S L pSignAsset bForce bWeakInject bDontEmbedProfile
        arrDyLibFiles uZipLevel threadCount total h0 n
      · rw [r2, p2]
        rfl
      · rw [r1, p1]
        rw [hqq] at hq
        simpa using hq

theorem bulkSign_eq {W : Type} (S : MainSys W) (L : Lib) (inputFolder outputFolder : Str)
    (pSignAsset : Option arksigningAsset) (bForce bWeakInject bDontEmbedProfile : Bool)
    (arrDyLibFiles : List Str) (uZipLevel : Nat) (threadCount : Int)
    (schedule : List WorkerStep) (w : W) :
    bulkSign S L inputFolder outputFolder pSignAsset bForce bWeakInject bDontEmbedProfile
        arrDyLibFiles uZipLevel threadCount schedule w =
      if (allTasksOf S inputFolder outputFolder (S.createFolder w outputFolder)).isEmpty then
        some (false, bulkStart [] (S.createFolder w outputFolder))
      else if
        (schedule.foldl
          (fun st step => workerStep S L pSignAsset bForce bWeakInject bDontEmbedProfile
            arrDyLibFiles uZipLevel
            (workerCount threadCount S.hardware_concurrency
              (allTasksOf S inputFolder outputFolder (S.createFolder w outputFolder)).length)
            (allTasksOf S inputFolder outputFolder (S.createFolder w outputFolder)).length
            step st)
          (bulkStart (allTasksOf S inputFolder outputFolder (S.createFolder w outputFolder))
            (S.createFolder w outputFolder))).taskQueue.isEmpty &&
        (schedule.foldl
          (fun st step => workerStep S L pSignAsset bForce bWeakInject bDontEmbedProfile
            arrDyLibFiles uZipLevel
            (workerCount threadCount S.hardware_concurrency
              (allTasksOf S inputFolder outputFolder (S.createFolder w outputFolder)).length)
            (allTasksOf S inputFolder outputFolder (S.createFolder w outputFolder)).length
            step st)
          (bulkStart (allTasksOf S inputFolder outputFolder (S.createFolder w outputFolder))
            (S.createFolder w outputFolder))).busy.isEmpty then
        some (decide ((schedule.foldl
          (fun st step => workerStep S L pSignAsset bForce bWeakInject bDontEmbedProfile
            arrDyLibFiles uZipLevel
            (workerCount threadCount S.hardware_concurrency
              (allTasksOf S inputFolder outputFolder (S.createFolder w outputFolder)).length)
            (allTasksOf S inputFolder outputFolder (S.createFolder w outputFolder)).length
            step st)
          (bulkStart (allTasksOf S inputFolder outputFolder (S.createFolder w outputFolder))
            (S.createFolder w outputFolder))).successfulTasks =
            ((allTasksOf S inputFolder outputFolder
              (S.createFolder w outputFolder)).length : Int)),
          schedule.foldl
          (fun st step => workerStep S L pSignAsset bForce bWeakInject bDontEmbedProfile
            arrDyLibFiles uZipLevel
            (workerCount threadCount S.hardware_concurrency
              (allTasksOf S inputFolder outputFolder (S.createFolder w outputFolder)).length)
            (allTasksOf S inputFolder outputFolder (S.createFolder w outputFolder)).length
            step st)
          (bulkStart (allTasksOf S inputFolder outputFolder (S.createFolder w outputFolder))
            (S.createFolder w outputFolder)))
      else none := rfl

/-- The result of `bulkSign` when it returns: it is true exactly when there is
a task and every call of `processFile` returned true; the tasks with a result
are the tasks enumerated, each once; and every result is the result of a call
of `processFile` on its task. -/
theorem bulkSign_result {W : Type} (S : MainSys W) (L : Lib) (inputFolder outputFolder : Str)
    (pSignAsset : Option arksigningAsset) (bForce bWeakInject bDontEmbedProfile : Bool)
    (arrDyLibFiles : List Str) (uZipLevel : Nat) (threadCount : Int)
    (schedule : List WorkerStep) (w : W) (b : Bool) (st : BulkState W)
    (h : bulkSign S L inputFolder outputFolder pSignAsset bForce bWeakInject bDontEmbedProfile
      arrDyLibFiles uZipLevel threadCount schedule w = some (b, st)) :
    (b = true ↔
      allTasksOf S inputFolder outputFolder (S.createFolder w outputFolder) ≠ [] ∧
      ∀ x ∈ st.results, x.2 = true) ∧
    List.Perm (st.results.map Prod.fst)
      (allTasksOf S inputFolder outputFolder (S.createFolder w outputFolder)) ∧
    ∀ x ∈ st.results, ∃ (c : Int) (w2 : W),
      x.2 = (processFile S L x.1 pSignAsset bForce bWeakInject bDontEmbedProfile arrDyLibFiles
        uZipLevel c w2).1 := by
  rw [bulkSign_eq] at h
  by_cases he : (allTasksOf S inputFolder outputFolder (S.createFolder w outputFolder)).isEmpty
  · rw [if_pos he] at h
    simp only [Option.some.injEq, Prod.mk.injEq] at h
    obtain ⟨rfl, rfl⟩ := h
    have hnil := List.isEmpty_iff.mp he
    refine ⟨⟨fun hh => absurd hh (by simp), fun hh => absurd hnil hh.1⟩, ?_,
      fun x hx => absurd hx (List.not_mem_nil _)⟩
    rw [hnil]
    exact List.Perm.refl _
  · rw [if_neg he] at h
    have hne : allTasksOf S inputFolder outputFolder (S.createFolder w outputFolder) ≠ [] :=
      fun e => he (List.isEmpty_iff.mpr e)
    have inv := fold_inv S L pSignAsset bForce bWeakInject bDontEmbedProfile arrDyLibFiles
      uZipLevel
      (workerCount threadCount S.hardware_concurrency
        (allTasksOf S inputFolder outputFolder (S.createFolder w outputFolder)).length)
      (allTasksOf S inputFolder outputFolder (S.createFolder w outputFolder)).length
      (allTasksOf S inputFolder outputFolder (S.createFolder w outputFolder)) schedule _
      (bulkStart_inv S L pSignAsset bForce bWeakInject bDontEmbedProfile arrDyLibFiles
        uZipLevel _ (S.createFolder w outputFolder))
    split at h
    · rename_i hdone
      simp only [Option.some.injEq, Prod.mk.injEq] at h
      obtain ⟨hb, hst⟩ := h
      rw [hst] at inv hdone hb
      simp only [Bool.and_eq_true, List.isEmpty_iff] at hdone
      have hperm := inv.perm
      rw [hdone.1, hdone.2] at hperm
      simp only [List.map_nil, List.append_nil, List.nil_append] at hperm
      refine ⟨?_, hperm, inv.outcome⟩
      have hlen : st.results.length =
          (allTasksOf S inputFolder outputFolder (S.createFolder w outputFolder)).length := by
        rw [← hperm.length_eq, List.length_map]
      rw [← hb, decide_eq_true_eq, inv.count, ← hlen]
      constructor
      · intro hh
        have hh2 : (st.results.filter (fun x => x.2)).length = st.results.length := by
          exact_mod_cast hh
        exact ⟨hne, fun x hx => List.filter_length_eq_length.mp hh2 x hx⟩
      · intro hh
        have := List.filter_length_eq_length.mpr hh.2
        exact_mod_cast this
    · exact absurd h (by simp)

/-- `bulkSign` returns when its workers take the tasks one after the other,
provided it starts at least one worker. -/
theorem bulkSign_returns {W : Type} (S : MainSys W) (L : Lib) (inputFolder outputFolder : Str)
    (pSignAsset : Option arksigningAsset) (bForce bWeakInject bDontEmbedProfile : Bool)
    (arrDyLibFiles : List Str) (uZipLevel : Nat) (threadCount : Int) (w : W)
    (h0 : allTasksOf S inputFolder outputFolder (S.createFolder w outputFolder) ≠ [] →
      0 < workerCount threadCount S.hardware_concurrency
        (allTasksOf S inputFolder outputFolder (S.createFolder w outputFolder)).length) :
    (bulkSign S L inputFolder outputFolder pSignAsset bForce bWeakInject bDontEmbedProfile
      arrDyLibFiles uZipLevel threadCount
      (sequentialSchedule
        (allTasksOf S inputFolder outputFolder (S.createFolder w outputFolder)).length)
      w).isSome = true := by
  rw [bulkSign_eq]
  split
  · rfl
  · rename_i he
    obtain ⟨h1, h2⟩ := sequentialSchedule_finishes S L pSignAsset bForce bWeakInject
      bDontEmbedProfile arrDyLibFiles uZipLevel _
      (allTasksOf S inputFolder outputFolder (S.createFolder w outputFolder)).length
      (h0 (fun e => he (List.isEmpty_iff.mpr e)))
      (allTasksOf S inputFolder outputFolder (S.createFolder w outputFolder)).length
      (bulkStart (allTasksOf S inputFolder outputFolder (S.createFolder w outputFolder))
        (S.createFolder w outputFolder)) rfl rfl
    rw [h1, h2]
    rfl

theorem workerCount_pos (t : Int) (hw n : Nat) (hhw : hw < 2147483648) (hn0 : 0 < n)
    (hn : n < 2147483648) : 0 < workerCount t hw n := by
  unfold workerCount
  rw [ofBits_small hw hhw, ofBits_small n hn]
  apply lt_min
  · by_cases ht : t ≤ 0
    · rw [if_pos ht]
      by_cases hh : (hw : Int) ≤ 0
      · rw [if_pos hh]; omega
      · rw [if_neg hh]; omega
    · rw [if_neg ht]; omega
  · omega

/-- With a working directory that can be read and changed, the archive step
returns true exactly when the app folder lies below a `Payload` directory and
the output file exists at the end. -/
theorem archiveStep_ok {W : Type} (S : MainSys W) (hcwd : ∀ x, S.getcwd x ≠ none)
    (hchdir : ∀ x p, (S.chdir x p).1 = true) (app out : Str) (lvl : Nat) (w : W) :
    (archiveStep S app out lvl w).1 = true ↔
      (rfind app "/Payload".toList).isSome = true ∧
      S.fileExists (archiveStep S app out lvl w).2.1 out = true := by
  unfold archiveStep
  cases hr : rfind app "/Payload".toList with
  | none => simp
  | some pos =>
    simp only
    cases hg : S.getcwd w with
    | none => exact absurd hg (hcwd w)
    | some old =>
      simp only
      rcases hc : S.chdir w (app.take pos) with ⟨ok, w1⟩
      have := hchdir w (app.take pos)
      rw [hc] at this
      simp only at this
      subst this
      simp

theorem mainMachO_exit {W : Type} (S : MainSys W) (vars : MainVars) (strPath : Str) (w : W) :
    (mainMachO S vars strPath w).1 = 0 := by
  unfold mainMachO
  split <;> rfl

theorem mainSign_fst {W : Type} (S : MainSys W) (L : Lib) (vars : MainVars)
    (asset : arksigningAsset) (strFolder : Str) (bForce bEnableCache : Bool) (w : W) :
    (mainSign S L vars asset strFolder bForce bEnableCache w).1 =
      if (outputFileOf S vars
            (mainSignFolder S L vars asset strFolder bForce bEnableCache w).2.1 ≠ [] →
          (mainArchive S vars asset strFolder w
            (mainSignFolder S L vars asset strFolder bForce bEnableCache w).2.1).1 = true) ∧
        (mainSignFolder S L vars asset strFolder bForce bEnableCache w).1 = true
      then 0 else -1 := by
  unfold mainSign
  rcases mainSignFolder S L vars asset strFolder bForce bEnableCache w with ⟨bRet, w1, fops⟩
  simp only
  by_cases ho : outputFileOf S vars w1 ≠ []
  · rw [if_pos ho]
    rcases mainArchive S vars asset strFolder w w1 with ⟨ok, w2, ops⟩
    cases ok <;> cases bRet <;> simp [ho]
  · rw [if_neg ho]
    cases bRet <;> simp [ho]

theorem mainSign_exit {W : Type} (S : MainSys W) (L : Lib) (hcwd : ∀ x, S.getcwd x ≠ none)
    (hchdir : ∀ x p, (S.chdir x p).1 = true) (vars : MainVars) (asset : arksigningAsset)
    (strFolder : Str) (bForce bEnableCache : Bool) (w : W) :
    ((mainSign S L vars asset strFolder bForce bEnableCache w).1 = 0 ∨
      (mainSign S L vars asset strFolder bForce bEnableCache w).1 = -1) ∧
    ((mainSign S L vars asset strFolder bForce bEnableCache w).1 = 0 ↔
      signedAndArchived S L vars asset strFolder bForce bEnableCache w) := by
  rw [mainSign_fst]
  unfold signedAndArchived
  have hA := archiveStep_ok S hcwd hchdir
    (appFolderAfter S.toFolderSys (some asset) strFolder w)
    (outputFileOf S vars (mainSignFolder S L vars asset strFolder bForce bEnableCache w).2.1)
    (if vars.uZipLevel > 9 then 9 else vars.uZipLevel)
    (mainSignFolder S L vars asset strFolder bForce bEnableCache w).2.1
  have hA2 : (mainArchive S vars asset strFolder w
      (mainSignFolder S L vars asset strFolder bForce bEnableCache w).2.1).1 = true ↔
      (rfind (appFolderAfter S.toFolderSys (some asset) strFolder w)
        "/Payload".toList).isSome = true ∧
      S.fileExists (mainArchive S vars asset strFolder w
        (mainSignFolder S L vars asset strFolder bForce bEnableCache w).2.1).2.1
        (outputFileOf S vars
          (mainSignFolder S L vars asset strFolder bForce bEnableCache w).2.1) = true := hA
  constructor
  · split
    · exact Or.inl rfl
    · exact Or.inr rfl
  · constructor
    · intro h
      split at h
      · rename_i hc
        exact ⟨hc.2, fun ho => hA2.mp (hc.1 ho)⟩
      · exact absurd h (by decide)
    · intro h
      rw [if_pos ⟨fun ho => hA2.mpr (h.2 ho), h.1⟩]

theorem mainPath_fst {W : Type} (S : MainSys W) (L : Lib) (vars : MainVars) (strPath : Str)
    (w : W) :
    (mainPath S L vars strPath w).1 =
      if S.isFolder w strPath = false ∧ S.isZipFile w strPath = false then 0
      else
        match S.assetInit w vars.strCertFile vars.strPKeyFile vars.strProvFile
            vars.strEntitlementsFile vars.strPassword with
        | none => -1
        | some asset =>
          if S.isFolder w strPath = true then
            (mainSign S L vars asset strPath vars.bForce true w).1
          else if (S.unzip (S.removeFolder w
              ("/tmp/arksigning_folder_".toList ++ Nat.toDigits 10 (S.clock w)))
              ("/tmp/arksigning_folder_".toList ++ Nat.toDigits 10 (S.clock w)) strPath).1
              = true then
            (mainSign S L vars asset
              ("/tmp/arksigning_folder_".toList ++ Nat.toDigits 10 (S.clock w)) true false
              (S.unzip (S.removeFolder w
                ("/tmp/arksigning_folder_".toList ++ Nat.toDigits 10 (S.clock w)))
                ("/tmp/arksigning_folder_".toList ++ Nat.toDigits 10 (S.clock w)) strPath).2).1
          else -1 := by
  unfold mainPath
  by_cases hplain : S.isFolder w strPath = false ∧ S.isZipFile w strPath = false
  · rw [if_pos hplain, if_pos (by rw [hplain.1, hplain.2]; rfl), mainMachO_exit]
  · rw [if_neg hplain, if_neg (by
      intro h
      apply hplain
      simpa using h)]
    cases S.assetInit w vars.strCertFile vars.strPKeyFile vars.strProvFile
        vars.strEntitlementsFile vars.strPassword with
    | none => rfl
    | some asset =>
      simp only
      cases hF : S.isFolder w strPath with
      | true => simp
      | false =>
        simp only [Bool.not_false, if_true, Bool.false_eq_true, if_false]
        rcases S.unzip (S.removeFolder w
            ("/tmp/arksigning_folder_".toList ++ Nat.toDigits 10 (S.clock w)))
            ("/tmp/arksigning_folder_".toList ++ Nat.toDigits 10 (S.clock w)) strPath
          with ⟨ok, w1⟩
        cases ok <;> simp

theorem mainPath_exit {W : Type} (S : MainSys W) (L : Lib) (hcwd : ∀ x, S.getcwd x ≠ none)
    (hchdir : ∀ x p, (S.chdir x p).1 = true) (vars : MainVars) (strPath : Str) (w : W) :
    ((mainPath S L vars strPath w).1 = 0 ∨ (mainPath S L vars strPath w).1 = -1) ∧
    ((mainPath S L vars strPath w).1 = 0 ↔
      (S.isFolder w strPath = false ∧ S.isZipFile w strPath = false) ∨
      signSteps S L vars strPath w) := by
  rw [mainPath_fst]
  unfold signSteps
  by_cases hplain : S.isFolder w strPath = false ∧ S.isZipFile w strPath = false
  · rw [if_pos hplain]
    exact ⟨Or.inl rfl, ⟨fun _ => Or.inl hplain, fun _ => rfl⟩⟩
  · rw [if_neg hplain]
    cases hA : S.assetInit w vars.strCertFile vars.strPKeyFile vars.strProvFile
        vars.strEntitlementsFile vars.strPassword with
    | none =>
      show ((-1 : Int) = 0 ∨ (-1 : Int) = -1) ∧ ((-1 : Int) = 0 ↔ _)
      refine ⟨Or.inr rfl, ⟨fun h => absurd h (by decide), fun h => ?_⟩⟩
      rcases h with h | ⟨asset, ha, _⟩
      · exact absurd h hplain
      · exact absurd ha (by simp)
    | some asset =>
      simp only
      by_cases hF : S.isFolder w strPath = true
      · rw [if_pos hF]
        have hm := mainSign_exit S L hcwd hchdir vars asset strPath vars.bForce true w
        refine ⟨hm.1, ⟨fun h => Or.inr ⟨asset, rfl, Or.inl ⟨hF, hm.2.mp h⟩⟩, fun h => ?_⟩⟩
        rcases h with h | ⟨a2, ha, h | h⟩
        · exact absurd h hplain
        · rw [← Option.some.inj ha] at h
          exact hm.2.mpr h.2
        · rw [hF] at h
          exact absurd h.1 (by simp)
      · rw [if_neg hF]
        have hF2 : S.isFolder w strPath = false := by simpa using hF
        by_cases hU : (S.unzip (S.removeFolder w
            ("/tmp/arksigning_folder_".toList ++ Nat.toDigits 10 (S.clock w)))
            ("/tmp/arksigning_folder_".toList ++ Nat.toDigits 10 (S.clock w)) strPath).1 = true
        · rw [if_pos hU]
          have hm := mainSign_exit S L hcwd hchdir vars asset
            ("/tmp/arksigning_folder_".toList ++ Nat.toDigits 10 (S.clock w)) true false
            (S.unzip (S.removeFolder w
              ("/tmp/arksigning_folder_".toList ++ Nat.toDigits 10 (S.clock w)))
              ("/tmp/arksigning_folder_".toList ++ Nat.toDigits 10 (S.clock w)) strPath).2
          refine ⟨hm.1, ⟨fun h => Or.inr ⟨asset, rfl, Or.inr ⟨hF2, hU, hm.2.mp h⟩⟩,
            fun h => ?_⟩⟩
          rcases h with h | ⟨a2, ha, h | h⟩
          · exact absurd h hplain
          · exact absurd h.1 hF
          · rw [← Option.some.inj ha] at h
            exact hm.2.mpr h.2.2
        · rw [if_neg hU]
          refine ⟨Or.inr rfl, ⟨fun h => absurd h (by decide), fun h => ?_⟩⟩
          rcases h with h | ⟨a2, _, h | h⟩
          · exact absurd h hplain
          · exact absurd h.1 hF
          · exact absurd h.2.1 hU

theorem mainBulk_exit {W : Type} (S : MainSys W) (L : Lib) (vars : MainVars)
    (schedule : List WorkerStep) (w : W) (r : Int × W)
    (h : mainBulk S L vars schedule w = some r) :
    (r.1 = 0 ∨ r.1 = -1) ∧ (r.1 = 0 ↔ bulkSteps S L vars schedule w) := by
  unfold mainBulk at h
  unfold bulkSteps
  by_cases h1 : vars.strInputFolder = [] ∨ vars.strOutputFolder = []
  · rw [if_pos h1] at h
    rw [← Option.some.inj h]
    refine ⟨Or.inr rfl, ⟨fun hh => absurd hh (by simp), fun hh => ?_⟩⟩
    rcases h1 with h1 | h1
    · exact absurd h1 hh.1
    · exact absurd h1 hh.2.1
  · rw [if_neg h1] at h
    have h1a : vars.strInputFolder ≠ [] := fun e => h1 (Or.inl e)
    have h1b : vars.strOutputFolder ≠ [] := fun e => h1 (Or.inr e)
    by_cases h2 : S.isFolder w vars.strInputFolder = true
    · rw [if_neg (by rw [h2]; simp)] at h
      cases hA : S.assetInit w vars.strCertFile vars.strPKeyFile vars.strProvFile
          vars.strEntitlementsFile vars.strPassword with
      | none =>
        rw [hA] at h
        rw [← Option.some.inj h]
        refine ⟨Or.inr rfl, ⟨fun hh => absurd hh (by simp), fun hh => ?_⟩⟩
        obtain ⟨_, _, _, a2, ha, _⟩ := hh
        exact absurd ha (by simp)
      | some asset =>
        rw [hA] at h
        simp only at h
        cases hB : bulkSign S L vars.strInputFolder vars.strOutputFolder (some asset) vars.bForce
            vars.bWeakInject vars.bDontEmbedProfile vars.arrDyLibFiles vars.uZipLevel
            vars.nParallelThreads schedule w with
        | none =>
          rw [hB] at h
          exact absurd h (by simp)
        | some x =>
          rcases x with ⟨b, st⟩
          rw [hB] at h
          simp only [Option.some.injEq] at h
          rw [← h]
          obtain ⟨hb, hperm, hout⟩ := bulkSign_result S L _ _ _ _ _ _ _ _ _ _ _ b st hB
          cases b with
          | false =>
            refine ⟨Or.inr rfl, ⟨fun hh => absurd hh (by simp), fun hh => ?_⟩⟩
            obtain ⟨_, _, _, a2, ha, hne, b2, st2, hB2, _, hall⟩ := hh
            rw [← Option.some.inj ha, hB] at hB2
            simp only [Option.some.injEq, Prod.mk.injEq] at hB2
            obtain ⟨_, rfl⟩ := hB2
            exact absurd (hb.mpr ⟨hne, fun x hx => (hall x hx).1⟩) (by simp)
          | true =>
            refine ⟨Or.inl rfl, ⟨fun _ => ?_, fun _ => rfl⟩⟩
            obtain ⟨hne, hall⟩ := hb.mp rfl
            refine ⟨h1a, h1b, h2, asset, rfl, hne, true, st, hB, hperm, fun x hx => ?_⟩
            obtain ⟨c, w2, e⟩ := hout x hx
            exact ⟨hall x hx, c, w2, by rw [← e]; exact hall x hx⟩
    · rw [if_pos (by simpa using h2)] at h
      rw [← Option.some.inj h]
      refine ⟨Or.inr rfl, ⟨fun hh => absurd hh (by simp), fun hh => absurd hh.2.2.1 h2⟩⟩

theorem mainBulk_returns {W : Type} (S : MainSys W) (L : Lib) (vars : MainVars) (w : W)
    (hhw : S.hardware_concurrency < 2147483648)
    (hn : (allTasksOf S vars.strInputFolder vars.strOutputFolder
      (S.createFolder w vars.strOutputFolder)).length < 2147483648) :
    (mainBulk S L vars
      (sequentialSchedule (allTasksOf S vars.strInputFolder vars.strOutputFolder
        (S.createFolder w vars.strOutputFolder)).length) w).isSome = true := by
  unfold mainBulk
  split
  · rfl
  · split
    · rfl
    · cases hA : S.assetInit w vars.strCertFile vars.strPKeyFile vars.strProvFile
          vars.strEntitlementsFile vars.strPassword with
      | none => rfl
      | some asset =>
        simp only
        have hr := bulkSign_returns S L vars.strInputFolder vars.strOutputFolder (some asset)
          vars.bForce vars.bWeakInject vars.bDontEmbedProfile vars.arrDyLibFiles vars.uZipLevel
          vars.nParallelThreads w
          (fun hne => workerCount_pos _ _ _ hhw (List.length_pos.mpr hne) hn)
        obtain ⟨x, hx⟩ := Option.isSome_iff_exists.mp hr
        rw [hx]
        rfl

theorem main_eq {W : Type} (S : MainSys W) (L : Lib) (args : List Arg) (argPath : Option Str)
    (schedule : List WorkerStep) (w : W) (vars : MainVars)
    (hparse : parseArgs S w args {} = .inr vars) :
    main S L args argPath schedule w =
      if vars.bBulkMode = true then mainBulk S L vars schedule w
      else
        match argPath with
        | none => some (-1, w)
        | some path =>
          if S.fileExists w (S.canonicalize w path) = true then
            some (mainPath S L vars (S.canonicalize w path) (withDebugFolder S vars w))
          else some (-1, w) := by
  unfold main
  rw [hparse]
  simp only
  split
  · rfl
  · cases argPath with
    | none => rfl
    | some path =>
      simp only
      cases S.fileExists w (S.canonicalize w path) <;> simp

/-- C21 (counterexample). The file `Info.plist` of the example app is neither a
folder nor a zip file and does not open as a Mach-O image, yet `main` returns 0
on it. And in batch mode on an input folder that gives no task, `main` returns
-1 although no task has failed. -/
theorem main_zero_without_success :
    exampleMainWorld.machoInit exampleInput "/in/App/Payload/Demo.app/Info.plist".toList
      = false ∧
    (main exampleMainWorld exampleFolderLib [.k "key".toList]
      (some "/in/App/Payload/Demo.app/Info.plist".toList) [] exampleInput).map Prod.fst
      = some 0 ∧
    (allTasksOf exampleMainWorld "/in/App/Payload/Demo.app".toList "/out".toList
      (exampleMainWorld.createFolder exampleInput "/out".toList)).isEmpty = true ∧
    (main exampleMainWorld exampleFolderLib
      [.k "key".toList, .B, .inputfolder "/in/App/Payload/Demo.app".toList,
        .outputfolder "/out".toList] none [] exampleInput).map Prod.fst = some (-1) := by
  decide

/-- C21, amended. Let the options be read without a `return` (no `-v`, `-h` or
`-I`), in a world where the working directory can be read and changed. Then
`main` returns 0 or -1 whenever it returns. Without `-B` it returns, and the
exit code is 0 exactly when a path is given that exists and either is neither
a folder nor a zip file (nothing is checked then) or every step succeeds: the
identity loads, a zip file is unzipped, `SignFolder` returns true and, when an
output file is asked for, the app folder lies below `Payload` and the archive
exists at the end. With `-B` the exit code is 0 exactly when both folders are
named, the input folder is one, the identity loads, there is at least one task
and `processFile` returned true for every task enumerated; and `main` returns
when one worker takes the tasks in turn. -/
theorem main_exit_code {W : Type} (S : MainSys W) (L : Lib) (args : List Arg)
    (argPath : Option Str) (schedule : List WorkerStep) (w : W) (vars : MainVars)
    (hparse : parseArgs S w args {} = .inr vars)
    (hcwd : ∀ x, S.getcwd x ≠ none) (hchdir : ∀ x p, (S.chdir x p).1 = true) :
    (∀ r, main S L args argPath schedule w = some r → r.1 = 0 ∨ r.1 = -1) ∧
    (vars.bBulkMode = false →
      ∃ r, main S L args argPath schedule w = some r ∧
        (r.1 = 0 ↔ ∃ path, argPath = some path ∧
          S.fileExists w (S.canonicalize w path) = true ∧
          ((S.isFolder (withDebugFolder S vars w) (S.canonicalize w path) = false ∧
              S.isZipFile (withDebugFolder S vars w) (S.canonicalize w path) = false) ∨
            signSteps S L vars (S.canonicalize w path) (withDebugFolder S vars w)))) ∧
    (vars.bBulkMode = true →
      (∀ r, main S L args argPath schedule w = some r →
        (r.1 = 0 ↔ bulkSteps S L vars schedule w)) ∧
      (S.hardware_concurrency < 2147483648 →
        (allTasksOf S vars.strInputFolder vars.strOutputFolder
          (S.createFolder w vars.strOutputFolder)).length < 2147483648 →
        (main S L args argPath
          (sequentialSchedule (allTasksOf S vars.strInputFolder vars.strOutputFolder
            (S.createFolder w vars.strOutputFolder)).length) w).isSome = true)) := by
  have hsign : vars.bBulkMode = false →
      ∃ r, main S L args argPath schedule w = some r ∧ (r.1 = 0 ∨ r.1 = -1) ∧
        (r.1 = 0 ↔ ∃ path, argPath = some path ∧
          S.fileExists w (S.canonicalize w path) = true ∧
          ((S.isFolder (withDebugFolder S vars w) (S.canonicalize w path) = false ∧
              S.isZipFile (withDebugFolder S vars w) (S.canonicalize w path) = false) ∨
            signSteps S L vars (S.canonicalize w path) (withDebugFolder S vars w))) := by
    intro hb
    rw [main_eq S L args argPath schedule w vars hparse, if_neg (by rw [hb]; simp)]
    cases argPath with
    | none =>
      refine ⟨(-1, w), rfl, Or.inr rfl, ⟨fun h => absurd h (by simp), fun h => ?_⟩⟩
      obtain ⟨path, hp, _⟩ := h
      exact absurd hp (by simp)
    | some path =>
      simp only
      by_cases hex : S.fileExists w (S.canonicalize w path) = true
      · rw [if_pos hex]
        have hm := mainPath_exit S L hcwd hchdir vars (S.canonicalize w path)
          (withDebugFolder S vars w)
        refine ⟨_, rfl, hm.1, ⟨fun h => ⟨path, rfl, hex, hm.2.mp h⟩, fun h => ?_⟩⟩
        obtain ⟨p2, hp, _, hs⟩ := h
        rw [← Option.some.inj hp] at hs
        exact hm.2.mpr hs
      · rw [if_neg hex]
        refine ⟨(-1, w), rfl, Or.inr rfl, ⟨fun h => absurd h (by simp), fun h => ?_⟩⟩
        obtain ⟨p2, hp, hx, _⟩ := h
        rw [← Option.some.inj hp] at hx
        exact absurd hx hex
  refine ⟨fun r hr => ?_, fun hb => ?_, fun hb => ⟨fun r hr => ?_, fun hhw hn => ?_⟩⟩
  · cases hb : vars.bBulkMode with
    | false =>
      obtain ⟨r2, hr2, h01, _⟩ := hsign hb
      rw [hr] at hr2
      rw [Option.some.inj hr2]
      exact h01
    | true =>
      rw [main_eq S L args argPath schedule w vars hparse, if_pos hb] at hr
      exact (mainBulk_exit S L vars schedule w r hr).1
  · obtain ⟨r, hr, _, hiff⟩ := hsign hb
    exact ⟨r, hr, hiff⟩
  · rw [main_eq S L args argPath schedule w vars hparse, if_pos hb] at hr
    exact (mainBulk_exit S L vars schedule w r hr).2
  · rw [main_eq S L args argPath _ w vars hparse, if_pos hb]
    exact mainBulk_returns S L vars w hhw hn

/-- C21 at the zip file `/in/App.ipa` of the example world, signed with the key
`key` into `/out/x.ipa`: `main` returns 0, and every step has succeeded. -/
theorem main_exit_code_witness :
    (main exampleMainWorld exampleFolderLib [.k "key".toList, .o "/out/x.ipa".toList]
      (some "/in/App.ipa".toList) [] exampleInput).map Prod.fst = some 0 ∧
    signSteps exampleMainWorld exampleFolderLib
      { strPKeyFile := "key".toList, strOutputFile := "/out/x.ipa".toList }
      "/in/App.ipa".toList exampleInput := by
  have h := main_exit_code exampleMainWorld exampleFolderLib
    [.k "key".toList, .o "/out/x.ipa".toList] (some "/in/App.ipa".toList) [] exampleInput
    { strPKeyFile := "key".toList, strOutputFile := "/out/x.ipa".toList } rfl
    (fun _ => Option.some_ne_none _) (fun _ _ => rfl)
  have h0 : (main exampleMainWorld exampleFolderLib [.k "key".toList, .o "/out/x.ipa".toList]
      (some "/in/App.ipa".toList) [] exampleInput).map Prod.fst = some 0 := by decide
  refine ⟨h0, ?_⟩
  obtain ⟨r, hr, hiff⟩ := h.2.1 rfl
  rw [hr] at h0
  obtain ⟨path, hp, _, hs⟩ := hiff.mp (Option.some.inj h0)
  rw [← Option.some.inj hp] at hs
  rcases hs with hs | hs
  · exact absurd hs.2 (by decide)
  · exact hs

/-- A worker counts each task twice: when it takes the task off the queue it
increments `completedTasks` and reports the new value as `current`, and
`processFile` increments the counter again before it returns. -/
theorem workerStep_counts_twice {W : Type} (S : MainSys W) (L : Lib)
    (pSignAsset : Option arksigningAsset) (bForce bWeakInject bDontEmbedProfile : Bool)
    (arrDyLibFiles : List Str) (uZipLevel : Nat) (threadCount : Int) (total : Nat) (i : Nat)
    (st : BulkState W) (task : SigningTask) (rest : List SigningTask)
    (hi : (i : Int) < threadCount) (hb : st.busy = []) (hq : st.taskQueue = task :: rest) :
    (workerStep S L pSignAsset bForce bWeakInject bDontEmbedProfile arrDyLibFiles uZipLevel
      threadCount total (.pop i) st).progress =
      st.progress ++ [(task.inputPath, st.completedTasks + 1, (total : Int))] ∧
    (workerStep S L pSignAsset bForce bWeakInject bDontEmbedProfile arrDyLibFiles uZipLevel
      threadCount total (.run i)
      (workerStep S L pSignAsset bForce bWeakInject bDontEmbedProfile arrDyLibFiles uZipLevel
        threadCount total (.pop i) st)).completedTasks = st.completedTasks + 2 := by
  have e : workerStep S L pSignAsset bForce bWeakInject bDontEmbedProfile arrDyLibFiles
      uZipLevel threadCount total (.pop i) st =
      { st with
        taskQueue := rest
        busy := (i, task) :: st.busy
        completedTasks := st.completedTasks + 1
        progress := st.progress ++ [(task.inputPath, st.completedTasks + 1, (total : Int))] } := by
    simp only [workerStep]
    rw [if_pos ⟨hi, by rw [hb]; rfl⟩, hq]
  rw [e]
  refine ⟨rfl, ?_⟩
  simp only [workerStep, List.lookup_cons, beq_self_eq_true]
  rw [processFile_completed]
  omega

theorem leftBehind_remove_last (folder : Str) :
    ∀ (ops : List ProcOp) (dirty : Bool),
      leftBehind folder (ops ++ [.removeFolder folder]) dirty = false
  | [], dirty => by simp [leftBehind]
  | op :: ops, dirty => by
    cases op <;> simp only [List.cons_append, leftBehind] <;>
      exact leftBehind_remove_last folder ops _

/-- The paths of `processFile` that do clean up: when a zip task ends with the
result true, or fails at the unzip or in `SignFolder`, the last call is the
`RemoveFolder` of the temp directory, so the directory is not left behind. -/
theorem processFile_cleanup {W : Type} (S : MainSys W) (L : Lib) (task : SigningTask)
    (pSignAsset : Option arksigningAsset) (bForce bWeakInject bDontEmbedProfile : Bool)
    (arrDyLibFiles : List Str) (uZipLevel : Nat) (completedTasks : Int) (w : W)
    (hzip : task.isZipFile = true)
    (h : (processFile S L task pSignAsset bForce bWeakInject bDontEmbedProfile arrDyLibFiles
        uZipLevel completedTasks w).1 = true ∨
      (S.unzip (S.removeFolder w (workFolderOf S task w)) (workFolderOf S task w)
        task.inputPath).1 = false ∨
      (SignFolder S.toFolderSys L pSignAsset (workFolderOf S task w) arrDyLibFiles bForce
        bWeakInject (!task.isZipFile) bDontEmbedProfile
        (S.unzip (S.removeFolder w (workFolderOf S task w)) (workFolderOf S task w)
          task.inputPath).2).1 = false) :
    leftBehind (workFolderOf S task w)
      (processFile S L task pSignAsset bForce bWeakInject bDontEmbedProfile arrDyLibFiles
        uZipLevel completedTasks w).2.2.2 false = false := by
  have hpre : "/tmp/arksigning_folder_".toList <+: workFolderOf S task w := by
    unfold workFolderOf
    rw [if_pos hzip]
    exact List.prefix_append _ _
  unfold processFile at h ⊢
  simp only [hzip, if_true] at h ⊢
  rcases hU : S.unzip (S.removeFolder w (workFolderOf S task w)) (workFolderOf S task w)
    task.inputPath with ⟨ok, w1⟩
  rw [hU] at h
  simp only at h ⊢
  cases ok with
  | false =>
    simp only
    exact leftBehind_remove_last _ _ _
  | true =>
    simp only at h ⊢
    rcases hS : SignFolder S.toFolderSys L pSignAsset (workFolderOf S task w) arrDyLibFiles
      bForce bWeakInject (!true) bDontEmbedProfile w1 with ⟨bRet, w2, fops⟩
    rw [hS] at h
    simp only at h ⊢
    cases bRet with
    | false =>
      simp only [Bool.false_eq_true, false_and, if_false, hpre, and_self, if_true]
      exact leftBehind_remove_last _ _ _
    | true =>
      simp only [true_and] at h ⊢
      by_cases ho : task.outputPath ≠ []
      · rw [if_pos ho] at h ⊢
        rcases hA : archiveStep S (appFolderAfter S.toFolderSys pSignAsset
          (workFolderOf S task w) w1) task.outputPath uZipLevel w2 with ⟨oka, w3, ops3⟩
        rw [hA] at h
        cases oka with
        | false => simp at h
        | true =>
          simp only [hpre, if_true]
          exact leftBehind_remove_last _ _ _
      · rw [if_neg ho]
        simp only [hpre, if_true]
        exact leftBehind_remove_last _ _ _

/-! ## The manifest on a file system that does not report the type of its entries -/

mutual
theorem typedFilesOf_eq_regular : ∀ (ent : DirEnt), typesReportedOf ent = true →
    typedFilesOf ent = regularFilesOf ent
  | .reg n, _ => by rw [typedFilesOf, regularFilesOf]
  | .dir n entries, h => by
    rw [typesReportedOf] at h
    rw [typedFilesOf, regularFilesOf, typedFilesIn_eq_regular entries h]
  | .other n, _ => by rw [typedFilesOf, regularFilesOf]
  | .unknown n d entries, h => by
    rw [typesReportedOf] at h
    exact absurd h (by simp)
/-- On a listing all of whose entries have a reported type, the files that
`GetFolderFiles` reaches are the regular files. -/
theorem typedFilesIn_eq_regular : ∀ (entries : List DirEnt), typesReportedIn entries = true →
    typedFilesIn entries = regularFilesIn entries
  | [], _ => by rw [typedFilesIn, regularFilesIn]
  | ent :: more, h => by
    rw [typesReportedIn, Bool.and_eq_true] at h
    rw [typedFilesIn, regularFilesIn, typedFilesOf_eq_regular ent h.1,
      typedFilesIn_eq_regular more h.2]
end

mutual
theorem typedFilesOf_regular : ∀ (ent : DirEnt) (p : Str), p ∈ typedFilesOf ent →
    p ∈ regularFilesOf ent
  | .reg n, p, h => by
    rw [typedFilesOf] at h
    rw [regularFilesOf]
    exact h
  | .dir n entries, p, h => by
    rw [typedFilesOf] at h
    rw [regularFilesOf]
    split at h
    · rename_i hn
      rw [if_pos hn]
      obtain ⟨q, hq, rfl⟩ := List.mem_map.mp h
      exact List.mem_map.mpr ⟨q, typedFilesIn_regular entries q hq, rfl⟩
    · exact absurd h (List.not_mem_nil _)
  | .other n, p, h => by
    rw [typedFilesOf] at h
    exact absurd h (List.not_mem_nil _)
  | .unknown n d entries, p, h => by
    rw [typedFilesOf] at h
    exact absurd h (List.not_mem_nil _)
/-- Every file that `GetFolderFiles` reaches is a regular file of the folder. -/
theorem typedFilesIn_regular : ∀ (entries : List DirEnt) (p : Str), p ∈ typedFilesIn entries →
    p ∈ regularFilesIn entries
  | [], p, h => by
    rw [typedFilesIn] at h
    exact absurd h (List.not_mem_nil _)
  | ent :: more, p, h => by
    rw [typedFilesIn, List.mem_append] at h
    rw [regularFilesIn, List.mem_append]
    rcases h with h | h
    · exact Or.inl (typedFilesOf_regular ent p h)
    · exact Or.inr (typedFilesIn_regular more p h)
end

/-- On a folder all of whose entries have a reported type, the `files2` map has
exactly the keys of the folder's regular files other than the executable,
`_CodeSignature/CodeResources`, the top-level `Info.plist` and `PkgInfo`, and
paths ending in `.DS_Store` or in `.lproj/locversion.plist`. -/
theorem GenerateCodeResources_files2_of_reported (L : Lib) (fs : FileSys) (strFolder p : Str)
    (h : typesReportedIn (fs.dir strFolder) = true) :
    ((GenerateCodeResources L fs strFolder).get "files2".toList).has p = true ↔
      p ∈ regularFilesIn (fs.dir strFolder) ∧ p ≠ bundleExeOf L fs strFolder ∧
      p ≠ "_CodeSignature/CodeResources".toList ∧
      p ≠ "Info.plist".toList ∧ p ≠ "PkgInfo".toList ∧ ¬ (".DS_Store".toList <:+ p) ∧
      ¬ (".lproj/locversion.plist".toList <:+ p) := by
  rw [← typedFilesIn_eq_regular _ h]
  exact (GenerateCodeResources_files2 L fs strFolder p).1

/-- On a folder all of whose entries have a reported type, the `files` map has
exactly the keys of the folder's regular files other than the executable,
`_CodeSignature/CodeResources` and paths ending in `.lproj/locversion.plist`. -/
theorem GenerateCodeResources_files_of_reported (L : Lib) (fs : FileSys) (strFolder p : Str)
    (h : typesReportedIn (fs.dir strFolder) = true) :
    ((GenerateCodeResources L fs strFolder).get "files".toList).has p = true ↔
      p ∈ regularFilesIn (fs.dir strFolder) ∧ p ≠ bundleExeOf L fs strFolder ∧
      p ≠ "_CodeSignature/CodeResources".toList ∧
      ¬ (".lproj/locversion.plist".toList <:+ p) := by
  rw [← typedFilesIn_eq_regular _ h]
  exact (GenerateCodeResources_files L fs strFolder p).1

/-- C1 (evaluation). In the folder `/app` the regular file `notes.txt` and the
directory `Extras` with the regular file `b.txt` are reported by `readdir` with
the type `DT_UNKNOWN`. Both files are regular files of the folder, neither is
the executable `Demo` or the manifest, and neither is among the files left out
of `files2`; yet the `files2` map that `GenerateCodeResources` builds has no
key for either. -/
theorem GenerateCodeResources_files2_misses_untyped :
    "notes.txt".toList ∈ regularFilesIn (exampleUntypedFs.dir "/app".toList) ∧
    "Extras/b.txt".toList ∈ regularFilesIn (exampleUntypedFs.dir "/app".toList) ∧
    bundleExeOf exampleLib exampleUntypedFs "/app".toList = "Demo".toList ∧
    bomit2 "notes.txt".toList = false ∧ bomit2 "Extras/b.txt".toList = false ∧
    ((GenerateCodeResources exampleLib exampleUntypedFs "/app".toList).get
      "files2".toList).has "notes.txt".toList = false ∧
    ((GenerateCodeResources exampleLib exampleUntypedFs "/app".toList).get
      "files2".toList).has "Extras/b.txt".toList = false := by
  decide

/-- C2 (evaluation). In the same folder `/app`, whose regular file `notes.txt`
and directory `Extras` with the regular file `b.txt` have the type
`DT_UNKNOWN`, the `files` map that `GenerateCodeResources` builds lists
`Info.plist`, whose type is reported, and has no key for `notes.txt` or for
`Extras/b.txt`, although both are regular files of the folder and neither is
among the files left out of `files`. -/
theorem GenerateCodeResources_files_misses_untyped :
    "notes.txt".toList ∈ regularFilesIn (exampleUntypedFs.dir "/app".toList) ∧
    "Extras/b.txt".toList ∈ regularFilesIn (exampleUntypedFs.dir "/app".toList) ∧
    bundleExeOf exampleLib exampleUntypedFs "/app".toList = "Demo".toList ∧
    bomit1 "notes.txt".toList = false ∧ bomit1 "Extras/b.txt".toList = false ∧
    ((GenerateCodeResources exampleLib exampleUntypedFs "/app".toList).get
      "files".toList).has "Info.plist".toList = true ∧
    ((GenerateCodeResources exampleLib exampleUntypedFs "/app".toList).get
      "files".toList).has "notes.txt".toList = false ∧
    ((GenerateCodeResources exampleLib exampleUntypedFs "/app".toList).get
      "files".toList).has "Extras/b.txt".toList = false := by
  decide

end ArkSigning
